import Mathlib

/-! # socow_vector: a small-object, copy-on-write vector

A shallow embedding of `socow-vector.h` (`socow_vector<T, SMALL_SIZE>`).

The C++ object graph is modelled explicitly:

* `world.heap` is the free store.  A `my_shared_ptr::buffer` lives at an address
  (an index into the heap); `new` always returns an address that no live buffer
  has, `delete[]` turns the cell into `none`.
* `world.objs` holds the `socow_vector` objects themselves, addressed by index,
  so that `this` and `other` may alias exactly as they can in C++.
* raw element storage (`static_storage`, `buffer::arr`) is a list of slots; a slot
  is `none` while no element object lives in it.
* a member function is a function `world → result`: it returns normally (`ok`),
  leaves by a C++ exception (`throw`, with the world as the exception finds it
  after unwinding), ends the program through `std::terminate` because an
  exception reached a `noexcept` boundary (`terminate`), or has undefined
  behaviour (`ub`).
* the copy constructor of `T` and `operator new` can fail: `world.copy_throws`
  and `world.alloc_throws` prescribe, call by call, which of the next calls
  throw (an exhausted list means "does not throw").

`size_type` is modelled by `Nat`: a count of elements can not come near `2^64`
because the elements have to be allocated.  The two places where the C++ code
subtracts below zero (`pop_back` on an empty vector, `erase` with `last` before
`first`) are precondition violations and are modelled as undefined behaviour.

A requested capacity can come near `2^64`: `reserve(n)` takes `n` from its caller,
and the byte count of the allocation, `sizeof(buffer) + n * sizeof(value_type)`,
is computed in `size_type`.  The member functions of the namespace `socow_vector`
take the block of a new buffer to have room for its recorded capacity, which is
exact as long as the byte count does not wrap around (`sized_ctor_eq`).  The
namespace `sized` repeats the constructor of `my_shared_ptr` with the byte count
modulo `2^64`, and every member function that reaches it; the statements about
`reserve` with an arbitrary argument and about the worlds a program can reach are
made about these.
-/

namespace Socow

/-- The private enum `vector_type`. -/
inductive vector_type where
  | SMALL
  | BIG
deriving DecidableEq

/-- The struct `my_shared_ptr::buffer`: header and raw element slots `arr`. -/
structure buffer (T : Type) where
  cnt_references : Nat
  capacity : Nat
  arr : List (Option T)
deriving DecidableEq

/-- The data members of `socow_vector`.  The anonymous union of `dynamic_storage`
(a `my_shared_ptr`, that is the pointer `data`) and `static_storage` is kept as
two fields; which one is active is told by `type`, as in the source. -/
structure socow_vector (T : Type) where
  type : vector_type
  size_ : Nat
  dynamic_storage : Nat
  static_storage : List (Option T)
deriving DecidableEq

/-- Program state: free store, container objects, and the failure schedule of
`T`'s copy constructor and of `operator new`. -/
structure world (T : Type) where
  heap : List (Option (buffer T))
  objs : List (Option (socow_vector T))
  copy_throws : List Bool
  alloc_throws : List Bool
deriving DecidableEq

/-- Outcome of running a piece of code. -/
inductive result (T : Type) (α : Type) where
  | ok (a : α) (w : world T)
  | throw (w : world T)
  | terminate
  | ub
deriving DecidableEq

/-- Code: a state transformer that may throw or be undefined. -/
def M (T : Type) (α : Type) : Type := world T → result T α

variable {T : Type} {α β : Type}

instance instMonadM : Monad (M T) where
  pure a := fun w => result.ok a w
  bind m f := fun w =>
    match m w with
    | result.ok a w1 => f a w1
    | result.throw w1 => result.throw w1
    | result.terminate => result.terminate
    | result.ub => result.ub

/-- Undefined behaviour. -/
def undefined_behaviour : M T α := fun _ => result.ub

/-- The block `try { body } catch (...) { handler; throw; }`. -/
def try_catch (body : M T α) (handler : M T Unit) : M T α := fun w =>
  match body w with
  | result.throw w1 =>
    match handler w1 with
    | result.ok _ w2 => result.throw w2
    | result.throw w2 => result.throw w2
    | result.terminate => result.terminate
    | result.ub => result.ub
  | r => r

/-- A function declared `noexcept`: an exception that would leave it calls
`std::terminate`. -/
def noexcept (body : M T α) : M T α := fun w =>
  match body w with
  | result.throw _ => result.terminate
  | r => r

/-- A scope with a local object: `dtor` runs when `body` is left, normally or by
an exception. -/
def scope_exit (body : M T α) (dtor : M T Unit) : M T α := fun w =>
  match body w with
  | result.ok a w1 =>
    match dtor w1 with
    | result.ok _ w2 => result.ok a w2
    | result.throw _ => result.terminate
    | result.terminate => result.terminate
    | result.ub => result.ub
  | result.throw w1 =>
    match dtor w1 with
    | result.ok _ w2 => result.throw w2
    | result.throw _ => result.terminate
    | result.terminate => result.terminate
    | result.ub => result.ub
  | result.terminate => result.terminate
  | result.ub => result.ub

/-- The loop `for (i = start; i < start + count; ++i) body(i)`. -/
def for_range (body : Nat → M T Unit) : Nat → Nat → M T Unit
  | _, 0 => pure ()
  | i, n + 1 => do
    body i
    for_range body (i + 1) n

/-- The loop `for (i = n; i-- > 0;) body(i)`. -/
def for_down (body : Nat → M T Unit) : Nat → M T Unit
  | 0 => pure ()
  | n + 1 => do
    body n
    for_down body n

/-! ### Objects and buffers in the store -/

/-- Read the members of the container object at address `this`. -/
def get_obj (this : Nat) : M T (socow_vector T) := fun w =>
  match w.objs[this]? with
  | some (some c) => result.ok c w
  | _ => result.ub

/-- Write the members of the container object at address `this`. -/
def modify_obj (this : Nat) (f : socow_vector T → socow_vector T) : M T Unit := fun w =>
  match w.objs[this]? with
  | some (some c) => result.ok () { w with objs := w.objs.set this (some (f c)) }
  | _ => result.ub

/-- Storage for a new container object with members `c`; returns its address. -/
def new_obj (c : socow_vector T) : M T Nat := fun w =>
  result.ok w.objs.length { w with objs := w.objs ++ [some c] }

/-- End of the storage duration of the container object at `this`. -/
def free_obj (this : Nat) : M T Unit := fun w =>
  match w.objs[this]? with
  | some (some _) => result.ok () { w with objs := w.objs.set this none }
  | _ => result.ub

/-- Read the header and slots of the live buffer at address `data`. -/
def get_buf (data : Nat) : M T (buffer T) := fun w =>
  match w.heap[data]? with
  | some (some b) => result.ok b w
  | _ => result.ub

/-- Write to the live buffer at address `data`. -/
def modify_buf (data : Nat) (f : buffer T → buffer T) : M T Unit := fun w =>
  match w.heap[data]? with
  | some (some b) => result.ok () { w with heap := w.heap.set data (some (f b)) }
  | _ => result.ub

/-- The expression `delete[] reinterpret_cast<std::byte*>(data)`. -/
def delete_buf (data : Nat) : M T Unit := fun w =>
  match w.heap[data]? with
  | some (some _) => result.ok () { w with heap := w.heap.set data none }
  | _ => result.ub

/-! ### Iterators (`value_type*`) and raw element storage -/

/-- An array of raw element slots: the `static_storage` of a container object or
the `arr` of a buffer. -/
inductive storage where
  | static_storage (obj : Nat)
  | arr (buf : Nat)
deriving DecidableEq

/-- A `value_type*`: a position in an array of element slots. -/
structure iterator where
  base : storage
  pos : Nat
deriving DecidableEq

/-- Pointer arithmetic `it + n`. -/
def iterator.add (it : iterator) (n : Nat) : iterator :=
  { it with pos := it.pos + n }

/-- Pointer difference `it - first` as a `size_type`; both must point into the
same array, `it` not before `first`. -/
def iterator.sub (it first : iterator) : M T Nat :=
  if it.base = first.base ∧ first.pos ≤ it.pos then pure (it.pos - first.pos)
  else undefined_behaviour

/-- The slots of an array, when the object or buffer that holds it is alive. -/
def world.slots (w : world T) : storage → Option (List (Option T))
  | storage.static_storage o =>
    match w.objs[o]? with
    | some (some c) => some c.static_storage
    | _ => none
  | storage.arr b =>
    match w.heap[b]? with
    | some (some buf) => some buf.arr
    | _ => none

/-- Replace the slots of an array. -/
def world.set_slots (w : world T) : storage → List (Option T) → world T
  | storage.static_storage o, l =>
    match w.objs[o]? with
    | some (some c) => { w with objs := w.objs.set o (some { c with static_storage := l }) }
    | _ => w
  | storage.arr b, l =>
    match w.heap[b]? with
    | some (some buf) => { w with heap := w.heap.set b (some { buf with arr := l }) }
    | _ => w

/-- The raw slot an iterator points to; it has to lie inside a live array. -/
def read_slot (it : iterator) : M T (Option T) := fun w =>
  match w.slots it.base with
  | some l =>
    match l[it.pos]? with
    | some s => result.ok s w
    | none => result.ub
  | none => result.ub

/-- Overwrite the raw slot an iterator points to. -/
def write_slot (it : iterator) (s : Option T) : M T Unit := fun w =>
  match w.slots it.base with
  | some l =>
    if it.pos < l.length then result.ok () (w.set_slots it.base (l.set it.pos s))
    else result.ub
  | none => result.ub

/-- Read through an iterator: `*it`; the slot must hold an element. -/
def deref (it : iterator) : M T T := do
  match (← read_slot it) with
  | some v => pure v
  | none => undefined_behaviour

/-- Placement construction `new (it) value_type(v)` once the copy `v` is made. -/
def construct_at (it : iterator) (v : T) : M T Unit :=
  write_slot it (some v)

/-- The explicit destructor call `(*it).~value_type()`. -/
def destroy_at (it : iterator) : M T Unit := do
  let _ ← deref it
  write_slot it none

/-- Assignment to a live element, `*it = v`. -/
def assign_at (it : iterator) (v : T) : M T Unit := do
  let _ ← deref it
  write_slot it (some v)

/-- The copy constructor `value_type(v)`: throws when the schedule says so. -/
def value_type_copy (v : T) : M T T := fun w =>
  match w.copy_throws with
  | [] => result.ok v w
  | true :: rest => result.throw { w with copy_throws := rest }
  | false :: rest => result.ok v { w with copy_throws := rest }

/-- The call `std::swap(*a, *b)` on elements (assumed not to throw). -/
def std_swap (a b : iterator) : M T Unit := do
  let x ← deref a
  let y ← deref b
  assign_at a y
  assign_at b x

/-- Destroy the elements `d_first[0..k)`, as `std::uninitialized_copy` does when a
copy throws. -/
def destroy_range (d_first : iterator) (k : Nat) : M T Unit :=
  for_down (fun i => destroy_at (d_first.add i)) k

/-- The loop of `std::uninitialized_copy`, `k` elements done and `n` to go. -/
def uninitialized_copy_from (first d_first : iterator) : Nat → Nat → M T Unit
  | _, 0 => pure ()
  | k, n + 1 => do
    let v ← deref (first.add k)
    let v1 ← try_catch (value_type_copy v) (destroy_range d_first k)
    construct_at (d_first.add k) v1
    uninitialized_copy_from first d_first (k + 1) n

/-- The call `std::uninitialized_copy(first, first + n, d_first)`. -/
def uninitialized_copy (first : iterator) (n : Nat) (d_first : iterator) : M T Unit :=
  uninitialized_copy_from first d_first 0 n

/-! ### `my_shared_ptr`

A `my_shared_ptr` object is its one member, the pointer `data`.  Functions that
only read the handle take the pointer; those that change a handle act on the
member `dynamic_storage` of the container object `owner`. -/

namespace my_shared_ptr

/-- The constructor `explicit my_shared_ptr(size_type array_capacity)`: allocates
the bytes (this can throw) and constructs `buffer(array_capacity)` in them.  The
block is taken to have room for `array_capacity` elements, as it has when the byte
count `sizeof(buffer) + array_capacity * sizeof(value_type)` does not wrap around
in `size_type`; `sized.my_shared_ptr.ctor` computes the byte count as the source
does. -/
def ctor (array_capacity : Nat) : M T Nat := fun w =>
  let cell := some (buffer.mk 1 array_capacity (List.replicate array_capacity none))
  match w.alloc_throws with
  | [] => result.ok w.heap.length { w with heap := w.heap ++ [cell] }
  | true :: rest => result.throw { w with alloc_throws := rest }
  | false :: rest =>
    result.ok w.heap.length { w with heap := w.heap ++ [cell], alloc_throws := rest }

/-- The copy constructor `my_shared_ptr(my_shared_ptr const& other)`. -/
def copy_ctor (other : Nat) : M T Nat := do
  modify_buf other (fun b => { b with cnt_references := b.cnt_references + 1 })
  pure other

/-- The member `use_count() const noexcept`. -/
def use_count (data : Nat) : M T Nat := do
  let b ← get_buf data
  pure b.cnt_references

/-- The member `get_capacity() const noexcept`. -/
def get_capacity (data : Nat) : M T Nat := do
  let b ← get_buf data
  pure b.capacity

/-- The member `get()`, the address of `data->arr`. -/
def get (data : Nat) : iterator := iterator.mk (storage.arr data) 0

/-- The member `destroy(size_type size) noexcept`. -/
def destroy (data : Nat) (size : Nat) : M T Unit :=
  for_down (fun i => destroy_at (iterator.mk (storage.arr data) i)) size

/-- The destructor `~my_shared_ptr()`. -/
def dtor (data : Nat) : M T Unit := do
  let n ← use_count data
  if n ≠ 1 then
    modify_buf data (fun b => { b with cnt_references := b.cnt_references - 1 })
  else
    delete_buf data

/-- The member `swap(my_shared_ptr& other) noexcept` on the handles of two
containers: `std::swap(data, other.data)`. -/
def swap (owner other_owner : Nat) : M T Unit := do
  let a ← get_obj owner
  let b ← get_obj other_owner
  modify_obj owner (fun c => { c with dynamic_storage := b.dynamic_storage })
  modify_obj other_owner (fun c => { c with dynamic_storage := a.dynamic_storage })

/-- The copy assignment `operator=(my_shared_ptr const& other)` applied to the
member of `owner`, with a local handle `other` as the right-hand side (so
`this != &other`): `my_shared_ptr(other).swap(*this)`, then the temporary dies. -/
def assign (owner : Nat) (other : Nat) : M T Unit := do
  let tmp ← copy_ctor other
  let c ← get_obj owner
  modify_obj owner (fun c => { c with dynamic_storage := tmp })
  dtor c.dynamic_storage

/-- The member `reset(size_type array_capacity)` applied to the member of `owner`:
`my_shared_ptr(array_capacity).swap(*this)`, then the temporary dies. -/
def reset (owner : Nat) (array_capacity : Nat) : M T Unit := do
  let tmp ← ctor array_capacity
  let c ← get_obj owner
  modify_obj owner (fun c => { c with dynamic_storage := tmp })
  dtor c.dynamic_storage

end my_shared_ptr

/-! ### `socow_vector`

`this` is the address of the container object.  `noexcept` is written where the
body contains a call that can throw; on the remaining `noexcept` members it
would be the identity.  Overloads get distinct names: the `const` overload of
`f` is `f_const`; `make_master(new_capacity, new_size)` is `make_master_to`,
the private `reserve(new_capacity, value)` is `reserve_value`, `erase(pos)` is
`erase_pos`.  A `const_iterator value` that is either null or points to the
value to append is an `Option T`. -/

namespace socow_vector

/-- The default constructor `socow_vector() noexcept`, for a new object. -/
def default_ctor (SMALL_SIZE : Nat) : M T Nat :=
  new_obj
    { type := vector_type.SMALL, size_ := 0, dynamic_storage := 0,
      static_storage := List.replicate SMALL_SIZE none }

/-- The member `is_small() const noexcept`. -/
def is_small (this : Nat) : M T Bool := do
  let c ← get_obj this
  pure (decide (c.type = vector_type.SMALL))

/-- The member `size() const noexcept`. -/
def size (this : Nat) : M T Nat := do
  let c ← get_obj this
  pure c.size_

/-- The member `empty() const noexcept`. -/
def empty (this : Nat) : M T Bool := do
  let n ← size this
  pure (decide (n = 0))

/-- The member `capacity() const noexcept`. -/
def capacity (SMALL_SIZE : Nat) (this : Nat) : M T Nat := do
  let small ← is_small this
  if small then pure SMALL_SIZE
  else do
    let c ← get_obj this
    my_shared_ptr.get_capacity c.dynamic_storage

/-- The member `is_master() const noexcept`:
`is_small() || dynamic_storage.use_count() == 1`. -/
def is_master (this : Nat) : M T Bool := do
  let small ← is_small this
  if small then pure true
  else do
    let c ← get_obj this
    let n ← my_shared_ptr.use_count c.dynamic_storage
    pure (decide (n = 1))

/-- The member `data() const noexcept`. -/
def data_const (this : Nat) : M T iterator := do
  let small ← is_small this
  if small then pure (iterator.mk (storage.static_storage this) 0)
  else do
    let c ← get_obj this
    pure (my_shared_ptr.get c.dynamic_storage)

/-- The member `begin() const noexcept`. -/
def begin_const (this : Nat) : M T iterator :=
  data_const this

/-- The member `end() const noexcept`; the iterator is obtained from the `const`
`data()` because `this` is `const` here. -/
def end_const (this : Nat) : M T iterator := do
  let d ← data_const this
  let n ← size this
  pure (d.add n)

/-- The member `operator[](size_type pos) const noexcept`, as the address of the
element referred to. -/
def operator_index_const (this : Nat) (pos : Nat) : M T iterator := do
  let d ← data_const this
  pure (d.add pos)

/-- The member `front() const noexcept`. -/
def front_const (this : Nat) : M T iterator := do
  let d ← data_const this
  pure (d.add 0)

/-- The member `back() const`. -/
def back_const (this : Nat) : M T iterator := do
  let d ← data_const this
  let n ← size this
  pure (d.add (n - 1))

/-- The member `get_index(const_iterator pos) const noexcept`: `pos - begin()`. -/
def get_index (this : Nat) (pos : iterator) : M T Nat := do
  let b ← begin_const this
  pos.sub b

/-- The member `destroy_storage() noexcept`.  The source reaches the element
through the non-const `operator[]`, whose `make_master()` finds `is_master()`
true (it was just tested and destroying elements does not change it) and does
nothing; so the element is `data()[i]` of the active storage. -/
def destroy_storage (this : Nat) : M T Unit := do
  let master ← is_master this
  if master then do
    let n ← size this
    for_down (fun i => do
      let it ← operator_index_const this i
      destroy_at it) n
  else pure ()

/-- The member `change_static_storage_to_dynamic(new_capacity, value)`. -/
def change_static_storage_to_dynamic (this : Nat) (new_capacity : Nat)
    (value : Option T) : M T Unit := do
  let temp ← my_shared_ptr.ctor new_capacity
  scope_exit (do
      let n ← size this
      uninitialized_copy (iterator.mk (storage.static_storage this) 0) n (my_shared_ptr.get temp)
      let new_size ← size this
      match value with
      | some v =>
        try_catch (do
            let v1 ← value_type_copy v
            construct_at ((my_shared_ptr.get temp).add new_size) v1)
          (do
            let n ← size this
            my_shared_ptr.destroy temp n)
      | none => pure ()
      destroy_storage this
      let p ← my_shared_ptr.copy_ctor temp
      modify_obj this (fun c => { c with dynamic_storage := p })
      modify_obj this (fun c => { c with type := vector_type.BIG })
      modify_obj this (fun c =>
        { c with size_ := new_size + (if value.isSome then 1 else 0) }))
    (my_shared_ptr.dtor temp)

/-- The member `change_dynamic_storage(new_capacity, new_size, value)`; the
`assert(!is_small())` is a precondition. -/
def change_dynamic_storage (this : Nat) (new_capacity new_size : Nat)
    (value : Option T) : M T Unit := do
  let small ← is_small this
  if small then undefined_behaviour
  else do
    let new_data ← my_shared_ptr.ctor new_capacity
    scope_exit (do
        let c ← get_obj this
        uninitialized_copy (my_shared_ptr.get c.dynamic_storage) new_size
          (my_shared_ptr.get new_data)
        match value with
        | some v =>
          try_catch (do
              let v1 ← value_type_copy v
              construct_at ((my_shared_ptr.get new_data).add new_size) v1)
            (my_shared_ptr.destroy new_data new_size)
        | none => pure ()
        destroy_storage this
        my_shared_ptr.assign this new_data
        modify_obj this (fun c =>
          { c with size_ := new_size + (if value.isSome then 1 else 0) }))
      (my_shared_ptr.dtor new_data)

/-- The member `make_master(size_type new_capacity, size_type new_size)`. -/
def make_master_to (this : Nat) (new_capacity new_size : Nat) : M T Bool := do
  let master ← is_master this
  if !master then do
    change_dynamic_storage this new_capacity new_size none
    pure true
  else pure false

/-- The member `make_master()`. -/
def make_master (SMALL_SIZE : Nat) (this : Nat) : M T Bool := do
  let cap ← capacity SMALL_SIZE this
  let n ← size this
  make_master_to this cap n

/-- The member `data() noexcept`. -/
def data (SMALL_SIZE : Nat) (this : Nat) : M T iterator := noexcept (do
  let _ ← make_master SMALL_SIZE this
  let small ← is_small this
  if small then pure (iterator.mk (storage.static_storage this) 0)
  else do
    let c ← get_obj this
    pure (my_shared_ptr.get c.dynamic_storage))

/-- The member `begin() noexcept`. -/
def «begin» (SMALL_SIZE : Nat) (this : Nat) : M T iterator :=
  noexcept (data SMALL_SIZE this)

/-- The member `end() noexcept`. -/
def «end» (SMALL_SIZE : Nat) (this : Nat) : M T iterator := noexcept (do
  let d ← data SMALL_SIZE this
  let n ← size this
  pure (d.add n))

/-- The member `operator[](size_type pos) noexcept`, as the address of the
element referred to. -/
def operator_index (SMALL_SIZE : Nat) (this : Nat) (pos : Nat) : M T iterator :=
  noexcept (do
    let d ← data SMALL_SIZE this
    pure (d.add pos))

/-- The member `front() noexcept`. -/
def front (SMALL_SIZE : Nat) (this : Nat) : M T iterator := noexcept (do
  let _ ← make_master SMALL_SIZE this
  let d ← data SMALL_SIZE this
  pure (d.add 0))

/-- The member `back()`. -/
def back (SMALL_SIZE : Nat) (this : Nat) : M T iterator := do
  let _ ← make_master SMALL_SIZE this
  let d ← data SMALL_SIZE this
  let n ← size this
  pure (d.add (n - 1))

/-- The private member `reserve(size_type new_capacity, const_iterator value)`. -/
def reserve_value (SMALL_SIZE : Nat) (this : Nat) (new_capacity : Nat)
    (value : Option T) : M T Unit := do
  let cap ← capacity SMALL_SIZE this
  let master ← is_master this
  let n ← size this
  if new_capacity > cap ∨ (¬ master = true ∧ new_capacity > n) then do
    let small ← is_small this
    if small then change_static_storage_to_dynamic this new_capacity value
    else do
      let n ← size this
      change_dynamic_storage this new_capacity n value
  else pure ()

/-- The member `reserve(size_type new_capacity)`. -/
def reserve (SMALL_SIZE : Nat) (this : Nat) (new_capacity : Nat) : M T Unit :=
  reserve_value SMALL_SIZE this new_capacity none

/-- The member `enlarge_capacity(min_capacity, value)`, `EXPANSION_FACTOR = 2`. -/
def enlarge_capacity (SMALL_SIZE : Nat) (this : Nat) (min_capacity : Nat)
    (value : Option T) : M T Unit := do
  let cap ← capacity SMALL_SIZE this
  if cap < min_capacity then
    reserve_value SMALL_SIZE this (max (cap * 2) min_capacity) value
  else pure ()

/-- The member `push_back(const_reference value)`.  In
`new (data() + size_++) value_type(value)` the placement argument is evaluated
before the copy constructor runs; `data()` is taken to be evaluated before
`size_++`. -/
def push_back (SMALL_SIZE : Nat) (this : Nat) (value : T) : M T Unit := do
  let n ← size this
  let cap ← capacity SMALL_SIZE this
  if n + 1 > cap then
    enlarge_capacity SMALL_SIZE this (n + 1) (some value)
  else do
    let d ← data SMALL_SIZE this
    let old_size ← size this
    modify_obj this (fun c => { c with size_ := c.size_ + 1 })
    let v1 ← value_type_copy value
    construct_at (d.add old_size) v1

/-- The member `pop_back() noexcept`.  On an empty vector `size() - 1` wraps
around and the element access is out of bounds. -/
def pop_back (SMALL_SIZE : Nat) (this : Nat) : M T Unit := noexcept (do
  let n ← size this
  if n = 0 then undefined_behaviour
  else do
    let cap ← capacity SMALL_SIZE this
    let cloned ← make_master_to this cap (n - 1)
    if !cloned then do
      modify_obj this (fun c => { c with size_ := c.size_ - 1 })
      let k ← size this
      let it ← operator_index SMALL_SIZE this k
      destroy_at it
    else pure ())

/-- The member `insert(const_iterator pos, const_reference value)`. -/
def insert (SMALL_SIZE : Nat) (this : Nat) (pos : iterator) (value : T) :
    M T iterator := do
  let id ← get_index this pos
  push_back SMALL_SIZE this value
  let n ← size this
  for_range (fun i => do
    let b ← back SMALL_SIZE this
    let e ← operator_index SMALL_SIZE this i
    std_swap b e) id (n - 1 - id)
  let b ← «begin» SMALL_SIZE this
  pure (b.add id)

/-- The member `erase(const_iterator first, const_iterator last)`. -/
def erase (SMALL_SIZE : Nat) (this : Nat) (first last : iterator) :
    M T iterator := do
  let first_id ← get_index this first
  let last_id ← get_index this last
  if last_id < first_id then undefined_behaviour
  else do
    let size_segment := last_id - first_id
    let _ ← make_master SMALL_SIZE this
    let n ← size this
    for_range (fun i => do
      let a ← operator_index SMALL_SIZE this i
      let b ← operator_index SMALL_SIZE this (i + size_segment)
      std_swap a b) first_id (n - size_segment - first_id)
    for_range (fun _ => pop_back SMALL_SIZE this) 0 size_segment
    let b ← «begin» SMALL_SIZE this
    pure (b.add first_id)

/-- The member `erase(const_iterator pos)`. -/
def erase_pos (SMALL_SIZE : Nat) (this : Nat) (pos : iterator) : M T iterator :=
  erase SMALL_SIZE this pos (pos.add 1)

/-- The member `clear() noexcept`. -/
def clear (SMALL_SIZE : Nat) (this : Nat) : M T Unit := noexcept (do
  destroy_storage this
  let master ← is_master this
  if !master then do
    let cap ← capacity SMALL_SIZE this
    my_shared_ptr.reset this cap
  else pure ()
  modify_obj this (fun c => { c with size_ := 0 }))

/-- The copy constructor `socow_vector(socow_vector const& other)`, for a new
object; when the body throws the object never comes to exist. -/
def copy_ctor (SMALL_SIZE : Nat) (other : Nat) : M T Nat := do
  let n ← size other
  let this ← new_obj
    { type := if n ≤ SMALL_SIZE then vector_type.SMALL else vector_type.BIG,
      size_ := n, dynamic_storage := 0,
      static_storage := List.replicate SMALL_SIZE none }
  try_catch (do
      let n ← size other
      if n ≤ SMALL_SIZE then do
        let d ← data_const other
        let n ← size other
        uninitialized_copy d n (iterator.mk (storage.static_storage this) 0)
      else do
        let o ← get_obj other
        let p ← my_shared_ptr.copy_ctor o.dynamic_storage
        modify_obj this (fun c => { c with dynamic_storage := p }))
    (free_obj this)
  pure this

/-- The destructor `~socow_vector()`. -/
def dtor (this : Nat) : M T Unit := noexcept (do
  destroy_storage this
  let small ← is_small this
  if !small then do
    let c ← get_obj this
    my_shared_ptr.dtor c.dynamic_storage
  else pure ())

/-- The member `swap_data_small_to_big(socow_vector& big_vector)`. -/
def swap_data_small_to_big (this : Nat) (big_vector : Nat) : M T Unit := do
  let c ← get_obj this
  let b ← get_obj big_vector
  if c.type = vector_type.SMALL ∧ b.type = vector_type.BIG then do
    let new_dynamic_storage ← my_shared_ptr.copy_ctor b.dynamic_storage
    scope_exit (do
        let b ← get_obj big_vector
        my_shared_ptr.dtor b.dynamic_storage
        try_catch (do
            let n ← size this
            uninitialized_copy (iterator.mk (storage.static_storage this) 0) n
              (iterator.mk (storage.static_storage big_vector) 0))
          (do
            let p ← my_shared_ptr.copy_ctor new_dynamic_storage
            modify_obj big_vector (fun c => { c with dynamic_storage := p }))
        destroy_storage this
        let p ← my_shared_ptr.copy_ctor new_dynamic_storage
        modify_obj this (fun c => { c with dynamic_storage := p }))
      (my_shared_ptr.dtor new_dynamic_storage)
  else undefined_behaviour

/-- The member `swap_static_storages(socow_vector& other)`. -/
def swap_static_storages (this : Nat) (other : Nat) : M T Unit := do
  let n ← size this
  let m ← size other
  let min_size := min n m
  let max_size := max n m
  for_range (fun i =>
    std_swap (iterator.mk (storage.static_storage this) i) (iterator.mk (storage.static_storage other) i))
    0 min_size
  let n ← size this
  let m ← size other
  let copy_to :=
    if n < m then iterator.mk (storage.static_storage this) 0 else iterator.mk (storage.static_storage other) 0
  let copy_from :=
    if n ≥ m then iterator.mk (storage.static_storage this) 0 else iterator.mk (storage.static_storage other) 0
  uninitialized_copy (copy_from.add min_size) (max_size - min_size)
    (copy_to.add min_size)
  for_range (fun i => destroy_at (copy_from.add i)) min_size (max_size - min_size)

/-- The member `swap(socow_vector& other)`. -/
def swap (this : Nat) (other : Nat) : M T Unit := do
  let a ← is_small this
  let b ← is_small other
  if a ∧ b then swap_static_storages this other
  else if a ∧ ¬ b then swap_data_small_to_big this other
  else if ¬ a ∧ b then swap_data_small_to_big other this
  else my_shared_ptr.swap this other
  let x ← get_obj this
  let y ← get_obj other
  modify_obj this (fun c => { c with size_ := y.size_ })
  modify_obj other (fun c => { c with size_ := x.size_ })
  let x ← get_obj this
  let y ← get_obj other
  modify_obj this (fun c => { c with type := y.type })
  modify_obj other (fun c => { c with type := x.type })

/-- A temporary `socow_vector(other)` that lives for the full expression
`socow_vector(other).swap(target)`. -/
def copy_and_swap (SMALL_SIZE : Nat) (other : Nat) (target : Nat) : M T Unit := do
  let temp ← copy_ctor SMALL_SIZE other
  scope_exit (swap temp target) (do
    dtor temp
    free_obj temp)

/-- The copy assignment `operator=(socow_vector const& other)`. -/
def operator_assign (SMALL_SIZE : Nat) (this : Nat) (other : Nat) : M T Unit :=
  if this ≠ other then copy_and_swap SMALL_SIZE other this else pure ()

/-- The member `shrink_to_fit()`. -/
def shrink_to_fit (SMALL_SIZE : Nat) (this : Nat) : M T Unit := do
  let cap ← capacity SMALL_SIZE this
  let n ← size this
  if cap > n then
    if n ≤ SMALL_SIZE then copy_and_swap SMALL_SIZE this this
    else change_dynamic_storage this n n none
  else pure ()

/-- Observation: the element sequence, read through the `const` `operator[]` at
`0 .. size() - 1`. -/
def read_elements (this : Nat) : Nat → M T (List T)
  | 0 => pure []
  | k + 1 => do
    let xs ← read_elements this k
    let it ← operator_index_const this k
    let x ← deref it
    pure (xs ++ [x])

/-- Observation: all elements of the container, in order. -/
def elements (this : Nat) : M T (List T) := do
  let n ← size this
  read_elements this n

end socow_vector

/-- Slots `off, off + 1, ...` of `l` overwritten with the elements `vals`. -/
def set_range (l : List (Option T)) : Nat → List T → List (Option T)
  | _, [] => l
  | off, v :: vs => set_range (l.set off (some v)) (off + 1) vs



/-- Slots `n - 1, ..., 0` of `l` emptied, in this order. -/
def destroy_slots (l : List (Option T)) : Nat → List (Option T)
  | 0 => l
  | n + 1 => destroy_slots (l.set n none) n

/-- The members `type`, `size_` and `dynamic_storage` of a live container. -/
def world.header (w : world T) (i : Nat) : Option (vector_type × Nat × Nat) :=
  match w.objs[i]? with
  | some (some c) => some (c.type, c.size_, c.dynamic_storage)
  | _ => none

/-- The members `cnt_references` and `capacity` of a live buffer. -/
def world.buf_header (w : world T) (p : Nat) : Option (Nat × Nat) :=
  match w.heap[p]? with
  | some (some b) => some (b.cnt_references, b.capacity)
  | _ => none

/-- The member `size_` of a live container replaced. -/
def world.set_size (w : world T) (i : Nat) (n : Nat) : world T :=
  match w.objs[i]? with
  | some (some c) => { w with objs := w.objs.set i (some { c with size_ := n }) }
  | _ => w

/-- The container `i` is alive, holds `n` elements in the array `r`, and is the
only owner of that array (it is small, or big with a reference count of one). -/
def owns (w : world T) (i : Nat) (r : storage) (n : Nat) : Prop :=
  (∃ d, w.header i = some (vector_type.SMALL, n, d) ∧ r = storage.static_storage i) ∨
  (∃ p cap, w.header i = some (vector_type.BIG, n, p) ∧ r = storage.arr p ∧
    w.buf_header p = some (1, cap))



/-- The first `n` slots of `l` exist and hold elements. -/
def constructed (l : List (Option T)) (n : Nat) : Prop :=
  ∀ j, j < n → ∃ v, l[j]? = some (some v)

/-- The effect of `std::swap(a[i], a[j])` on the slots of one array. -/
def swap_slots (l : List (Option T)) (i j : Nat) : List (Option T) :=
  match l[i]?, l[j]? with
  | some x, some y => (l.set i y).set j x
  | _, _ => l

/-- The effect on an array of a loop whose `i`-th round changes the slots by
`f i`, for `i = start, ..., start + count - 1`. -/
def for_range_slots (f : Nat → List (Option T) → List (Option T)) :
    Nat → Nat → List (Option T) → List (Option T)
  | _, 0, l => l
  | i, k + 1, l => for_range_slots f (i + 1) k (f i l)



/-- What `~my_shared_ptr()` leaves of the buffer it pointed to: nothing when the
handle was the last one, else the buffer with one reference less. -/
def buffer.release (b : buffer T) : Option (buffer T) :=
  if b.cnt_references = 1 then none
  else some { b with cnt_references := b.cnt_references - 1 }



/-- The object at address `i` is a well-formed `socow_vector<T, SMALL_SIZE>`: it is
alive, its inline array has `SMALL_SIZE` slots, and either it is small with at
most `SMALL_SIZE` elements, all constructed, or it is big and points to a live
buffer with `capacity` slots, at least one reference, and `size_` constructed
elements that fit. -/
def valid (SMALL_SIZE : Nat) (w : world T) (i : Nat) : Prop :=
  ∃ c, w.objs[i]? = some (some c) ∧ c.static_storage.length = SMALL_SIZE ∧
    ((c.type = vector_type.SMALL ∧ c.size_ ≤ SMALL_SIZE ∧
        constructed c.static_storage c.size_) ∨
     (c.type = vector_type.BIG ∧ ∃ b, w.heap[c.dynamic_storage]? = some (some b) ∧
        b.arr.length = b.capacity ∧ c.size_ ≤ b.capacity ∧ constructed b.arr c.size_ ∧
        1 ≤ b.cnt_references))

/-- No copy constructor and no allocation is scheduled to throw. -/
def no_failure (w : world T) : Prop :=
  w.copy_throws = [] ∧ w.alloc_throws = []



/-- Slots `n - 1, ..., n - k` of `l` emptied: the effect of `k` calls of `pop_back`
on the slots of a container of size `n`. -/
def pop_slots (l : List (Option T)) : Nat → Nat → List (Option T)
  | _, 0 => l
  | n, k + 1 => pop_slots (l.set (n - 1) none) (n - 1) k



/-- The effect on two arrays of the loop `std::swap(a[i], b[i])` for
`i = start, ..., start + count - 1`. -/
def swap_pair_slots : Nat → Nat → List (Option T) → List (Option T) →
    List (Option T) × List (Option T)
  | _, 0, l1, l2 => (l1, l2)
  | i, k + 1, l1, l2 =>
    match l1[i]?, l2[i]? with
    | some x, some y => swap_pair_slots (i + 1) k (l1.set i y) (l2.set i x)
    | _, _ => (l1, l2)



/-- Code that never leaves by an exception. -/
def nothrow (m : M T α) : Prop :=
  ∀ w w1, m w ≠ result.throw w1

/-- The world `w1` differs from `w` at most in the failure schedules and in the
heap cell at address `L`. -/
def frame_except (L : Nat) (w w1 : world T) : Prop :=
  w1.objs = w.objs ∧ ∀ p : Nat, p ≠ L → w1.heap[p]? = w.heap[p]?

/-- Code that, whether it returns or throws, touches at most the heap cell `L`. -/
def framed (L : Nat) (m : M T α) : Prop :=
  ∀ w r, (m w = result.throw r ∨ ∃ a, m w = result.ok a r) → frame_except L w r

/-- Every container and every buffer of `w` is found unchanged in `w1`. -/
def preserved (w w1 : world T) : Prop :=
  w1.objs = w.objs ∧
  ∀ (p : Nat) (b : buffer T), w.heap[p]? = some (some b) → w1.heap[p]? = some (some b)

/-- An observation that reads the same value in every world that preserves the
containers and buffers of the world it was made in. -/
def transfers (m : M T α) : Prop :=
  ∀ w w1 a w2, preserved w w1 → m w = result.ok a w2 → w2 = w ∧ m w1 = result.ok a w1

/-- Code whose exceptional exits touch at most the heap cell `L`. -/
def throw_framed (L : Nat) (m : M T α) : Prop :=
  ∀ w r, m w = result.throw r → frame_except L w r

/-- What container `j` shows through its `const` interface in `w` (size,
capacity, representation, element sequence, data pointer), it shows in `w1` too. -/
def observes_same (N j : Nat) (w w1 : world T) : Prop :=
  (∀ s, socow_vector.size j w = result.ok s w → socow_vector.size j w1 = result.ok s w1) ∧
  (∀ c, socow_vector.capacity N j w = result.ok c w →
    socow_vector.capacity N j w1 = result.ok c w1) ∧
  (∀ t, socow_vector.is_small j w = result.ok t w →
    socow_vector.is_small j w1 = result.ok t w1) ∧
  (∀ xs, socow_vector.elements j w = result.ok xs w →
    socow_vector.elements j w1 = result.ok xs w1) ∧
  (∀ d, socow_vector.data_const j w = result.ok d w →
    socow_vector.data_const j w1 = result.ok d w1)

/-- Every buffer that is alive in `w` has the same reference count in `w1`. -/
def counts_same (w w1 : world T) : Prop :=
  ∀ p k, my_shared_ptr.use_count p w = result.ok k w →
    my_shared_ptr.use_count p w1 = result.ok k w1

/-- The object of container `j` is the same in `w1` as in `w`, and when it is
big its buffer is still alive in `w1` with the same capacity and slots and at
least one reference. -/
def unchanged (w w1 : world T) (j : Nat) : Prop :=
  w1.objs[j]? = w.objs[j]? ∧
  ∀ c b, w.objs[j]? = some (some c) → c.type = vector_type.BIG →
    w.heap[c.dynamic_storage]? = some (some b) →
    ∃ b1, w1.heap[c.dynamic_storage]? = some (some b1) ∧ b1.capacity = b.capacity ∧
      b1.arr = b.arr ∧ 1 ≤ b1.cnt_references

/-! ### Concrete inputs -/

/-- A world with one big container `0` holding `1, 2, 3, 4, 5` in a buffer of
capacity 8 (`SMALL_SIZE = 4`). -/
def world_big5 : world Nat :=
  world.mk [some (buffer.mk 1 8 [some 1, some 2, some 3, some 4, some 5, none, none, none])]
    [some (socow_vector.mk vector_type.BIG 5 0 [none, none, none, none])] [] []

/-- A world with one small container `0` holding `1, 2, 3, 4` (`SMALL_SIZE = 4`). -/
def world_small4 : world Nat :=
  world.mk [] [some (socow_vector.mk vector_type.SMALL 4 0 [some 1, some 2, some 3, some 4])]
    [] []



/-- A world with one small container `0` holding `1, 2, 4` (`SMALL_SIZE = 4`). -/
def world_small3 : world Nat :=
  world.mk [] [some (socow_vector.mk vector_type.SMALL 3 0 [some 1, some 2, some 4, none])]
    [] []



/-- A world with a big container `0` holding `1, 2, 3, 4, 5` and a small container
`1` holding `9` (`SMALL_SIZE = 4`). -/
def world_big5_small1 : world Nat :=
  world.mk [some (buffer.mk 1 8 [some 1, some 2, some 3, some 4, some 5, none, none, none])]
    [some (socow_vector.mk vector_type.BIG 5 0 [none, none, none, none]),
     some (socow_vector.mk vector_type.SMALL 1 0 [some 9, none, none, none])] [] []



/-- A world with one small container `0` holding `1`, whose next element copy
throws (`SMALL_SIZE = 4`). -/
def world_small1_copy_throws : world Nat :=
  world.mk [] [some (socow_vector.mk vector_type.SMALL 1 0 [some 1, none, none, none])]
    [true] []

/-- A world with one small container `0` holding `1, 2`, in which the second of
the next element copies throws (`SMALL_SIZE = 4`). -/
def world_small2_copy_throws : world Nat :=
  world.mk [] [some (socow_vector.mk vector_type.SMALL 2 0 [some 1, some 2, none, none])]
    [false, true] []

/-- A world with one big container `0` that holds only `1, 2, 3` in a buffer of
capacity 8, as after two calls of `pop_back` (`SMALL_SIZE = 4`). -/
def world_big3 : world Nat :=
  world.mk [some (buffer.mk 1 8 [some 1, some 2, some 3, none, none, none, none, none])]
    [some (socow_vector.mk vector_type.BIG 3 0 [none, none, none, none])] [] []



/-- A world with one small container `0` holding `1, 2, 3, 4`, in which the third
of the next element copies throws (`SMALL_SIZE = 4`). -/
def world_small4_copy_throws : world Nat :=
  world.mk [] [some (socow_vector.mk vector_type.SMALL 4 0 [some 1, some 2, some 3, some 4])]
    [false, false, true] []

/-- A world with two big containers `0` and `1` that share one buffer holding
`1, 2, 3, 4, 5`, in which the second of the next element copies throws
(`SMALL_SIZE = 4`). -/
def world_shared5_copy_throws : world Nat :=
  world.mk [some (buffer.mk 2 8 [some 1, some 2, some 3, some 4, some 5, none, none, none])]
    [some (socow_vector.mk vector_type.BIG 5 0 [none, none, none, none]),
     some (socow_vector.mk vector_type.BIG 5 0 [none, none, none, none])] [false, true] []



/-- A world with two big containers `0` and `1` that share one buffer holding
`1, 2, 3, 4, 5` (`SMALL_SIZE = 4`). -/
def world_shared5 : world Nat :=
  world.mk [some (buffer.mk 2 8 [some 1, some 2, some 3, some 4, some 5, none, none, none])]
    [some (socow_vector.mk vector_type.BIG 5 0 [none, none, none, none]),
     some (socow_vector.mk vector_type.BIG 5 0 [none, none, none, none])] [] []

/-! ### The public operations as data -/

/-- The invariant of the specification for container `j`: `size ≤ capacity`, and a
small container has capacity `N`. -/
def capacity_invariant (N : Nat) (w : world T) (j : Nat) : Prop :=
  ∃ s c t, socow_vector.size j w = result.ok s w ∧
    socow_vector.capacity N j w = result.ok c w ∧
    socow_vector.is_small j w = result.ok t w ∧ s ≤ c ∧ (t = true → c = N)

/-- The public operations that can modify a container.  Containers are given by
address, positions by their index from `begin()`. -/
inductive operation (T : Type) where
  | copy_construct (other : Nat)
  | copy_assign (this other : Nat)
  | swap (this other : Nat)
  | push_back (this : Nat) (value : T)
  | insert (this pos : Nat) (value : T)
  | erase (this first last : Nat)
  | erase_pos (this pos : Nat)
  | pop_back (this : Nat)
  | clear (this : Nat)
  | reserve (this new_capacity : Nat)
  | shrink_to_fit (this : Nat)
  | data (this : Nat)
  | «begin» (this : Nat)
  | «end» (this : Nat)
  | operator_index (this pos : Nat)
  | front (this : Nat)
  | back (this : Nat)

/-- The call an operation stands for; results (iterators, references, the address
of the new object) are dropped. -/
def operation.run (N : Nat) : operation T → M T Unit
  | operation.copy_construct other => do
    let _ ← socow_vector.copy_ctor N other
    pure ()
  | operation.copy_assign this other => socow_vector.operator_assign N this other
  | operation.swap this other => socow_vector.swap this other
  | operation.push_back this value => socow_vector.push_back N this value
  | operation.insert this pos value => do
    let d ← socow_vector.begin_const this
    let _ ← socow_vector.insert N this (d.add pos) value
    pure ()
  | operation.erase this first last => do
    let d ← socow_vector.begin_const this
    let _ ← socow_vector.erase N this (d.add first) (d.add last)
    pure ()
  | operation.erase_pos this pos => do
    let d ← socow_vector.begin_const this
    let _ ← socow_vector.erase_pos N this (d.add pos)
    pure ()
  | operation.pop_back this => socow_vector.pop_back N this
  | operation.clear this => socow_vector.clear N this
  | operation.reserve this new_capacity => socow_vector.reserve N this new_capacity
  | operation.shrink_to_fit this => socow_vector.shrink_to_fit N this
  | operation.data this => do
    let _ ← socow_vector.data N this
    pure ()
  | operation.begin this => do
    let _ ← socow_vector.begin N this
    pure ()
  | operation.end this => do
    let _ ← socow_vector.end N this
    pure ()
  | operation.operator_index this pos => do
    let _ ← socow_vector.operator_index N this pos
    pure ()
  | operation.front this => do
    let _ ← socow_vector.front N this
    pure ()
  | operation.back this => do
    let _ ← socow_vector.back N this
    pure ()

/-- The containers an operation is called with. -/
def operation.operands : operation T → List Nat
  | operation.copy_construct other => [other]
  | operation.copy_assign this other => [this, other]
  | operation.swap this other => [this, other]
  | operation.push_back this _ => [this]
  | operation.insert this _ _ => [this]
  | operation.erase this _ _ => [this]
  | operation.erase_pos this _ => [this]
  | operation.pop_back this => [this]
  | operation.clear this => [this]
  | operation.reserve this _ => [this]
  | operation.shrink_to_fit this => [this]
  | operation.data this => [this]
  | operation.begin this => [this]
  | operation.end this => [this]
  | operation.operator_index this _ => [this]
  | operation.front this => [this]
  | operation.back this => [this]

/-- The containers an operation leaves behind: its operands and, for the copy
constructor, the new object. -/
def operation.results (w : world T) : operation T → List Nat
  | operation.copy_construct other => [other, w.objs.length]
  | op => op.operands

/-- The buffer two distinct big containers share is counted at least twice. -/
def shared_counted (w : world T) (a b : Nat) : Prop :=
  ∀ p k, socow_vector.data_const a w = result.ok (iterator.mk (storage.arr p) 0) w →
    socow_vector.data_const b w = result.ok (iterator.mk (storage.arr p) 0) w →
    my_shared_ptr.use_count p w = result.ok k w → 2 ≤ k

/-- The precondition of an operation: positions lie inside the container, the
container is not empty where its last or first element is touched, and in an
assignment the reference count accounts for target and source. -/
def operation.pre (w : world T) : operation T → Prop
  | operation.copy_assign this other => this ≠ other → shared_counted w this other
  | operation.insert this pos _ => ∃ s, socow_vector.size this w = result.ok s w ∧ pos ≤ s
  | operation.erase this first last =>
    ∃ s, socow_vector.size this w = result.ok s w ∧ first ≤ last ∧ last ≤ s
  | operation.erase_pos this pos => ∃ s, socow_vector.size this w = result.ok s w ∧ pos < s
  | operation.pop_back this => ∃ s, socow_vector.size this w = result.ok s w ∧ 0 < s
  | operation.operator_index this pos =>
    ∃ s, socow_vector.size this w = result.ok s w ∧ pos < s
  | operation.front this => ∃ s, socow_vector.size this w = result.ok s w ∧ 0 < s
  | operation.back this => ∃ s, socow_vector.size this w = result.ok s w ∧ 0 < s
  | _ => True

/-! ### The footprint of an operation on one container -/

/-- The container with members `c` before and `c1` after kept its storage: the
tag and the buffer handle are the same; a small container left the heap alone; a
big one changed at most the slots of its own buffer, and not even those (nor its
size) when the buffer is shared. -/
def stays (c c1 : socow_vector T) (w w1 : world T) : Prop :=
  c1.type = c.type ∧ c1.dynamic_storage = c.dynamic_storage ∧
  ((c.type = vector_type.SMALL ∧ w1.heap = w.heap) ∨
   (c.type = vector_type.BIG ∧ ∃ b l2, w.heap[c.dynamic_storage]? = some (some b) ∧
      w1.heap = w.heap.set c.dynamic_storage (some { b with arr := l2 }) ∧
      (b.cnt_references ≠ 1 → l2 = b.arr ∧ c1.size_ = c.size_)))

/-- The container with members `c` before and `c1` after moved to a fresh buffer
`b1` at the end of the heap, of which it is the only owner; a big container gave
up one reference to its old buffer.  The capacity of the fresh buffer exceeds `N`,
or is at least the old capacity, or exceeds the size of a container that was
sharing. -/
def moves (N : Nat) (c c1 : socow_vector T) (w w1 : world T) : Prop :=
  c1.type = vector_type.BIG ∧ c1.dynamic_storage = w.heap.length ∧
  ∃ b1, b1.cnt_references = 1 ∧
    ((c.type = vector_type.SMALL ∧ w1.heap = w.heap ++ [some b1] ∧ N < b1.capacity) ∨
     (c.type = vector_type.BIG ∧ ∃ b, w.heap[c.dynamic_storage]? = some (some b) ∧
        w1.heap = w.heap.set c.dynamic_storage b.release ++ [some b1] ∧
        (b.capacity ≤ b1.capacity ∨ (b.cnt_references ≠ 1 ∧ c.size_ < b1.capacity) ∨
          N < b1.capacity)))

/-- An operation on container `i` alone took `w` to `w1`: `i` is well formed
afterwards, no other object changed, and `i` kept its storage or moved to a
fresh buffer. -/
def own_step (N i : Nat) (w w1 : world T) : Prop :=
  valid N w1 i ∧ w1.copy_throws = w.copy_throws ∧ w1.alloc_throws = w.alloc_throws ∧
  ∃ c c1, w.objs[i]? = some (some c) ∧ w1.objs = w.objs.set i (some c1) ∧
    (stays c c1 w w1 ∨ moves N c c1 w w1)

/-- An operation on container `i` alone took `w` to `w1` and `i` kept its
storage. -/
def stay_step (N i : Nat) (w w1 : world T) : Prop :=
  valid N w1 i ∧ w1.copy_throws = w.copy_throws ∧ w1.alloc_throws = w.alloc_throws ∧
  ∃ c c1, w.objs[i]? = some (some c) ∧ w1.objs = w.objs.set i (some c1) ∧ stays c c1 w w1

/-! ### Runs and what they guarantee -/

/-- The run of `m` in `w` ends in `w1`: it returns there, or it leaves by an
exception that finds the world as `w1`. -/
def leaves (m : M T α) (w w1 : world T) : Prop :=
  (∃ a, m w = result.ok a w1) ∨ m w = result.throw w1

/-- When the run of `m` in `w` returns `a` in `w1` then `Q a w1`, and when it
leaves by an exception in `w1` then `E w1`. -/
def wp (m : M T α) (Q : α → world T → Prop) (E : world T → Prop) (w : world T) : Prop :=
  match m w with
  | result.ok a w1 => Q a w1
  | result.throw w1 => E w1
  | result.terminate => True
  | result.ub => True

/-! ### The states a program can reach -/

/-- The object cell holds a big container on the buffer at address `p`. -/
def holds (p : Nat) : Option (socow_vector T) → Bool
  | some c => decide (c.type = vector_type.BIG ∧ c.dynamic_storage = p)
  | none => false

/-- The number of big containers that hold the buffer at address `p`. -/
def holders (w : world T) (p : Nat) : Nat :=
  w.objs.countP (holds p)

/-- The size of a container with members `c` does not exceed its capacity: `N`
when it is small, the capacity of its live buffer when it is big. -/
def fits (N : Nat) (w : world T) (c : socow_vector T) : Prop :=
  (c.type = vector_type.SMALL ∧ c.size_ ≤ N) ∨
  (c.type = vector_type.BIG ∧
    ∃ b, w.heap[c.dynamic_storage]? = some (some b) ∧ c.size_ ≤ b.capacity)

/-- The global invariant: the size of every live container fits its capacity and
the buffer of a big container is alive; every live buffer is counted once per big
container that holds it, at least once, and has more than `N` slots; containers
on one buffer have one size; a container whose buffer is shared has more than `N`
elements.  Nothing is said about the element slots or the failure schedules. -/
def wf (N : Nat) (w : world T) : Prop :=
  (∀ (i : Nat) (c : socow_vector T), w.objs[i]? = some (some c) → fits N w c) ∧
  (∀ (p : Nat) (b : buffer T), w.heap[p]? = some (some b) →
    b.cnt_references = holders w p ∧ 1 ≤ b.cnt_references ∧ N < b.capacity) ∧
  (∀ (i j : Nat) (ci cj : socow_vector T), w.objs[i]? = some (some ci) →
    w.objs[j]? = some (some cj) →
    ci.type = vector_type.BIG → cj.type = vector_type.BIG →
    ci.dynamic_storage = cj.dynamic_storage → ci.size_ = cj.size_) ∧
  (∀ (i : Nat) (c : socow_vector T) (b : buffer T), w.objs[i]? = some (some c) →
    c.type = vector_type.BIG →
    w.heap[c.dynamic_storage]? = some (some b) → 1 < b.cnt_references → N < c.size_)

/-- No buffer that is shared in `w` has other slots in `w1`, and no container
that holds such a buffer before and after has another size. -/
def quiet (w w1 : world T) : Prop :=
  ∀ (p : Nat) (b : buffer T), w.heap[p]? = some (some b) → 1 < b.cnt_references →
    (∃ b1, w1.heap[p]? = some (some b1) ∧ b1.arr = b.arr) ∧
    ∀ (j : Nat) (c c1 : socow_vector T), w.objs[j]? = some (some c) →
      w1.objs[j]? = some (some c1) →
      c.type = vector_type.BIG → c.dynamic_storage = p →
      c1.type = vector_type.BIG → c1.dynamic_storage = p → c1.size_ = c.size_

/-! ### The footprint of an action on one container, whatever its outcome -/

/-- An operation on container `i` alone took `w` to `w1`: no other object changed,
`i` kept its storage or moved to a fresh buffer, and its size fits. -/
def evolves (N i : Nat) (w w1 : world T) : Prop :=
  ∃ c c1, w.objs[i]? = some (some c) ∧ w1.objs = w.objs.set i (some c1) ∧
    (stays c c1 w w1 ∨ moves N c c1 w w1) ∧ fits N w1 c1

/-- A failed attempt: every object is as it was and so is every buffer; at most
the cell of a buffer that was allocated and freed again has been added. -/
def failed (w w1 : world T) : Prop :=
  w1.objs = w.objs ∧ (w1.heap = w.heap ∨ w1.heap = w.heap ++ [none])

/-- The container `i`, which owns the array `r`, did all its work in place: at
most its size, the slots of `r` and the failure schedules differ. -/
def inplace (i : Nat) (r : storage) (w w1 : world T) : Prop :=
  ∃ (m : Nat) (l : List (Option T)) (cs al : List Bool),
    w1 = { (w.set_size i m).set_slots r l with copy_throws := cs, alloc_throws := al }

/-- The run changed at most the slots of the array `r` and the schedule of the
element copies. -/
def touches (r : storage) (w w1 : world T) : Prop :=
  ∃ (l : List (Option T)) (cs : List Bool), w1 = { w.set_slots r l with copy_throws := cs }

/-- The container `i`, which owns the array `r`, did all its work in place and
did not grow. -/
def shrinks (i : Nat) (r : storage) (w w1 : world T) : Prop :=
  ∃ (m : Nat) (l : List (Option T)) (cs al : List Bool),
    w1 = { (w.set_size i m).set_slots r l with copy_throws := cs, alloc_throws := al } ∧
    ∀ c, w.objs[i]? = some (some c) → m ≤ c.size_

/-- Code that, whether it returns or throws, changes at most the slots of the
array `r` and the schedule of the element copies. -/
def confined (r : storage) (m : M T α) : Prop :=
  ∀ w, wp m (fun _ w1 => touches r w w1) (fun w1 => touches r w w1) w

/-- A buffer of capacity `cap` with one reference has been allocated at the end
of the heap of `w` and perhaps been filled; nothing else differs. -/
def building (cap : Nat) (w w1 : world T) : Prop :=
  w1.objs = w.objs ∧ ∃ l, w1.heap = w.heap ++ [some (buffer.mk 1 cap l)]

/-! ### Steps on several containers -/

/-- The members `c1` show the representation, the size and (when big) the buffer
of the members `c2`. -/
def alike (c1 c2 : socow_vector T) : Prop :=
  c1.type = c2.type ∧ c1.size_ = c2.size_ ∧
  (c2.type = vector_type.BIG → c1.dynamic_storage = c2.dynamic_storage)

/-- Every big container of `w1` has a twin in `w`: a big container on the same
buffer with the same size. -/
def twins (w w1 : world T) : Prop :=
  ∀ (j : Nat) (cj : socow_vector T), w1.objs[j]? = some (some cj) →
    cj.type = vector_type.BIG →
    ∃ (j0 : Nat) (c0 : socow_vector T), w.objs[j0]? = some (some c0) ∧
      c0.type = vector_type.BIG ∧ c0.dynamic_storage = cj.dynamic_storage ∧
      c0.size_ = cj.size_

/-- Every buffer of `w` is alive in `w1` with the same slots and at least as many
references. -/
def keeps (w w1 : world T) : Prop :=
  ∀ (p : Nat) (b : buffer T), w.heap[p]? = some (some b) →
    ∃ b1, w1.heap[p]? = some (some b1) ∧ b1.arr = b.arr ∧
      b.cnt_references ≤ b1.cnt_references

/-- The run changed at most the slots of the arrays `r1` and `r2` and the schedule
of the element copies. -/
def touches_both (r1 r2 : storage) (w w1 : world T) : Prop :=
  ∃ (l1 l2 : List (Option T)) (cs : List Bool),
    w1 = { (w.set_slots r1 l1).set_slots r2 l2 with copy_throws := cs }

/-- Code that, whether it returns or throws, changes at most the slots of the
arrays `r1` and `r2` and the schedule of the element copies. -/
def confined_both (r1 r2 : storage) (m : M T α) : Prop :=
  ∀ w, wp m (fun _ w1 => touches_both r1 r2 w w1) (fun w1 => touches_both r1 r2 w w1) w

/-! ### The allocation in `size_type` arithmetic

`my_shared_ptr.ctor` above gives every new buffer as many slots as its recorded
capacity.  The source computes the number of bytes to allocate as
`sizeof(buffer) + array_capacity * sizeof(value_type)` in `size_type`, so for a
requested capacity that large that the byte count exceeds `2^64 - 1` the block is
smaller than the recorded capacity.  `reserve` takes the capacity from its
caller, so this can happen.  The namespace `sized` holds the constructor with the
byte count computed as in the source, and every member function that reaches it,
with the same text as above but for the constructor called. -/

/-- The two sizes the byte count of an allocation depends on: `sizeof(buffer)`
and `sizeof(value_type)`. -/
structure layout where
  sizeof_buffer : Nat
  sizeof_value_type : Nat
deriving DecidableEq

namespace sized

namespace my_shared_ptr

/-- The constructor `explicit my_shared_ptr(size_type array_capacity)`:
`bytes = sizeof(buffer) + array_capacity * sizeof(value_type)` wraps around at
`2^64`; `new std::byte[bytes]` can throw; `buffer(array_capacity)` is constructed
in the block, which is undefined when the block is shorter than the header, and
the block has room for as many element slots as fit in the remaining bytes. -/
def ctor (L : layout) (array_capacity : Nat) : M T Nat := fun w =>
  let bytes := (L.sizeof_buffer + array_capacity * L.sizeof_value_type) % 2 ^ 64
  let cell := some (buffer.mk 1 array_capacity
    (List.replicate ((bytes - L.sizeof_buffer) / L.sizeof_value_type) none))
  match w.alloc_throws with
  | [] =>
    if bytes < L.sizeof_buffer then result.ub
    else result.ok w.heap.length { w with heap := w.heap ++ [cell] }
  | true :: rest => result.throw { w with alloc_throws := rest }
  | false :: rest =>
    if bytes < L.sizeof_buffer then result.ub
    else result.ok w.heap.length { w with heap := w.heap ++ [cell], alloc_throws := rest }

/-- The member `reset(size_type array_capacity)` applied to the member of `owner`:
`my_shared_ptr(array_capacity).swap(*this)`, then the temporary dies. -/
def reset (L : layout) (owner : Nat) (array_capacity : Nat) : M T Unit := do
  let tmp ← sized.my_shared_ptr.ctor L array_capacity
  let c ← get_obj owner
  modify_obj owner (fun c => { c with dynamic_storage := tmp })
  Socow.my_shared_ptr.dtor c.dynamic_storage

end my_shared_ptr

namespace socow_vector

/-- The member `change_static_storage_to_dynamic(new_capacity, value)`. -/
def change_static_storage_to_dynamic (L : layout) (this : Nat) (new_capacity : Nat)
    (value : Option T) : M T Unit := do
  let temp ← sized.my_shared_ptr.ctor L new_capacity
  scope_exit (do
      let n ← Socow.socow_vector.size this
      uninitialized_copy (iterator.mk (storage.static_storage this) 0) n
        (Socow.my_shared_ptr.get temp)
      let new_size ← Socow.socow_vector.size this
      match value with
      | some v =>
        try_catch (do
            let v1 ← value_type_copy v
            construct_at ((Socow.my_shared_ptr.get temp).add new_size) v1)
          (do
            let n ← Socow.socow_vector.size this
            Socow.my_shared_ptr.destroy temp n)
      | none => pure ()
      Socow.socow_vector.destroy_storage this
      let p ← Socow.my_shared_ptr.copy_ctor temp
      modify_obj this (fun c => { c with dynamic_storage := p })
      modify_obj this (fun c => { c with type := vector_type.BIG })
      modify_obj this (fun c =>
        { c with size_ := new_size + (if value.isSome then 1 else 0) }))
    (Socow.my_shared_ptr.dtor temp)

/-- The member `change_dynamic_storage(new_capacity, new_size, value)`; the
`assert(!is_small())` is a precondition. -/
def change_dynamic_storage (L : layout) (this : Nat) (new_capacity new_size : Nat)
    (value : Option T) : M T Unit := do
  let small ← Socow.socow_vector.is_small this
  if small then undefined_behaviour
  else do
    let new_data ← sized.my_shared_ptr.ctor L new_capacity
    scope_exit (do
        let c ← get_obj this
        uninitialized_copy (Socow.my_shared_ptr.get c.dynamic_storage) new_size
          (Socow.my_shared_ptr.get new_data)
        match value with
        | some v =>
          try_catch (do
              let v1 ← value_type_copy v
              construct_at ((Socow.my_shared_ptr.get new_data).add new_size) v1)
            (Socow.my_shared_ptr.destroy new_data new_size)
        | none => pure ()
        Socow.socow_vector.destroy_storage this
        Socow.my_shared_ptr.assign this new_data
        modify_obj this (fun c =>
          { c with size_ := new_size + (if value.isSome then 1 else 0) }))
      (Socow.my_shared_ptr.dtor new_data)

/-- The member `make_master(size_type new_capacity, size_type new_size)`. -/
def make_master_to (L : layout) (this : Nat) (new_capacity new_size : Nat) : M T Bool := do
  let master ← Socow.socow_vector.is_master this
  if !master then do
    sized.socow_vector.change_dynamic_storage L this new_capacity new_size none
    pure true
  else pure false

/-- The member `make_master()`. -/
def make_master (L : layout) (SMALL_SIZE : Nat) (this : Nat) : M T Bool := do
  let cap ← Socow.socow_vector.capacity SMALL_SIZE this
  let n ← Socow.socow_vector.size this
  sized.socow_vector.make_master_to L this cap n

/-- The member `data() noexcept`. -/
def data (L : layout) (SMALL_SIZE : Nat) (this : Nat) : M T iterator := noexcept (do
  let _ ← sized.socow_vector.make_master L SMALL_SIZE this
  let small ← Socow.socow_vector.is_small this
  if small then pure (iterator.mk (storage.static_storage this) 0)
  else do
    let c ← get_obj this
    pure (Socow.my_shared_ptr.get c.dynamic_storage))

/-- The member `begin() noexcept`. -/
def «begin» (L : layout) (SMALL_SIZE : Nat) (this : Nat) : M T iterator :=
  noexcept (sized.socow_vector.data L SMALL_SIZE this)

/-- The member `end() noexcept`. -/
def «end» (L : layout) (SMALL_SIZE : Nat) (this : Nat) : M T iterator := noexcept (do
  let d ← sized.socow_vector.data L SMALL_SIZE this
  let n ← Socow.socow_vector.size this
  pure (d.add n))

/-- The member `operator[](size_type pos) noexcept`, as the address of the
element referred to. -/
def operator_index (L : layout) (SMALL_SIZE : Nat) (this : Nat) (pos : Nat) :
    M T iterator :=
  noexcept (do
    let d ← sized.socow_vector.data L SMALL_SIZE this
    pure (d.add pos))

/-- The member `front() noexcept`. -/
def front (L : layout) (SMALL_SIZE : Nat) (this : Nat) : M T iterator := noexcept (do
  let _ ← sized.socow_vector.make_master L SMALL_SIZE this
  let d ← sized.socow_vector.data L SMALL_SIZE this
  pure (d.add 0))

/-- The member `back()`. -/
def back (L : layout) (SMALL_SIZE : Nat) (this : Nat) : M T iterator := do
  let _ ← sized.socow_vector.make_master L SMALL_SIZE this
  let d ← sized.socow_vector.data L SMALL_SIZE this
  let n ← Socow.socow_vector.size this
  pure (d.add (n - 1))

/-- The private member `reserve(size_type new_capacity, const_iterator value)`. -/
def reserve_value (L : layout) (SMALL_SIZE : Nat) (this : Nat) (new_capacity : Nat)
    (value : Option T) : M T Unit := do
  let cap ← Socow.socow_vector.capacity SMALL_SIZE this
  let master ← Socow.socow_vector.is_master this
  let n ← Socow.socow_vector.size this
  if new_capacity > cap ∨ (¬ master = true ∧ new_capacity > n) then do
    let small ← Socow.socow_vector.is_small this
    if small then
      sized.socow_vector.change_static_storage_to_dynamic L this new_capacity value
    else do
      let n ← Socow.socow_vector.size this
      sized.socow_vector.change_dynamic_storage L this new_capacity n value
  else pure ()

/-- The member `reserve(size_type new_capacity)`. -/
def reserve (L : layout) (SMALL_SIZE : Nat) (this : Nat) (new_capacity : Nat) : M T Unit :=
  sized.socow_vector.reserve_value L SMALL_SIZE this new_capacity none

/-- The member `enlarge_capacity(min_capacity, value)`, `EXPANSION_FACTOR = 2`. -/
def enlarge_capacity (L : layout) (SMALL_SIZE : Nat) (this : Nat) (min_capacity : Nat)
    (value : Option T) : M T Unit := do
  let cap ← Socow.socow_vector.capacity SMALL_SIZE this
  if cap < min_capacity then
    sized.socow_vector.reserve_value L SMALL_SIZE this (max (cap * 2) min_capacity) value
  else pure ()

/-- The member `push_back(const_reference value)`.  In
`new (data() + size_++) value_type(value)` the placement argument is evaluated
before the copy constructor runs; `data()` is taken to be evaluated before
`size_++`. -/
def push_back (L : layout) (SMALL_SIZE : Nat) (this : Nat) (value : T) : M T Unit := do
  let n ← Socow.socow_vector.size this
  let cap ← Socow.socow_vector.capacity SMALL_SIZE this
  if n + 1 > cap then
    sized.socow_vector.enlarge_capacity L SMALL_SIZE this (n + 1) (some value)
  else do
    let d ← sized.socow_vector.data L SMALL_SIZE this
    let old_size ← Socow.socow_vector.size this
    modify_obj this (fun c => { c with size_ := c.size_ + 1 })
    let v1 ← value_type_copy value
    construct_at (d.add old_size) v1

/-- The member `pop_back() noexcept`.  On an empty vector `size() - 1` wraps
around and the element access is out of bounds. -/
def pop_back (L : layout) (SMALL_SIZE : Nat) (this : Nat) : M T Unit := noexcept (do
  let n ← Socow.socow_vector.size this
  if n = 0 then undefined_behaviour
  else do
    let cap ← Socow.socow_vector.capacity SMALL_SIZE this
    let cloned ← sized.socow_vector.make_master_to L this cap (n - 1)
    if !cloned then do
      modify_obj this (fun c => { c with size_ := c.size_ - 1 })
      let k ← Socow.socow_vector.size this
      let it ← sized.socow_vector.operator_index L SMALL_SIZE this k
      destroy_at it
    else pure ())

/-- The member `insert(const_iterator pos, const_reference value)`. -/
def insert (L : layout) (SMALL_SIZE : Nat) (this : Nat) (pos : iterator) (value : T) :
    M T iterator := do
  let id ← Socow.socow_vector.get_index this pos
  sized.socow_vector.push_back L SMALL_SIZE this value
  let n ← Socow.socow_vector.size this
  for_range (fun i => do
    let b ← sized.socow_vector.back L SMALL_SIZE this
    let e ← sized.socow_vector.operator_index L SMALL_SIZE this i
    std_swap b e) id (n - 1 - id)
  let b ← sized.socow_vector.begin L SMALL_SIZE this
  pure (b.add id)

/-- The member `erase(const_iterator first, const_iterator last)`. -/
def erase (L : layout) (SMALL_SIZE : Nat) (this : Nat) (first last : iterator) :
    M T iterator := do
  let first_id ← Socow.socow_vector.get_index this first
  let last_id ← Socow.socow_vector.get_index this last
  if last_id < first_id then undefined_behaviour
  else do
    let size_segment := last_id - first_id
    let _ ← sized.socow_vector.make_master L SMALL_SIZE this
    let n ← Socow.socow_vector.size this
    for_range (fun i => do
      let a ← sized.socow_vector.operator_index L SMALL_SIZE this i
      let b ← sized.socow_vector.operator_index L SMALL_SIZE this (i + size_segment)
      std_swap a b) first_id (n - size_segment - first_id)
    for_range (fun _ => sized.socow_vector.pop_back L SMALL_SIZE this) 0 size_segment
    let b ← sized.socow_vector.begin L SMALL_SIZE this
    pure (b.add first_id)

/-- The member `erase(const_iterator pos)`. -/
def erase_pos (L : layout) (SMALL_SIZE : Nat) (this : Nat) (pos : iterator) :
    M T iterator :=
  sized.socow_vector.erase L SMALL_SIZE this pos (pos.add 1)

/-- The member `clear() noexcept`. -/
def clear (L : layout) (SMALL_SIZE : Nat) (this : Nat) : M T Unit := noexcept (do
  Socow.socow_vector.destroy_storage this
  let master ← Socow.socow_vector.is_master this
  if !master then do
    let cap ← Socow.socow_vector.capacity SMALL_SIZE this
    sized.my_shared_ptr.reset L this cap
  else pure ()
  modify_obj this (fun c => { c with size_ := 0 }))

/-- The member `shrink_to_fit()`. -/
def shrink_to_fit (L : layout) (SMALL_SIZE : Nat) (this : Nat) : M T Unit := do
  let cap ← Socow.socow_vector.capacity SMALL_SIZE this
  let n ← Socow.socow_vector.size this
  if cap > n then
    if n ≤ SMALL_SIZE then Socow.socow_vector.copy_and_swap SMALL_SIZE this this
    else sized.socow_vector.change_dynamic_storage L this n n none
  else pure ()

end socow_vector

/-- The call an operation stands for, with the sized allocation; results
(iterators, references, the address of the new object) are dropped. -/
def run (L : layout) (N : Nat) : operation T → M T Unit
  | operation.copy_construct other => do
    let _ ← Socow.socow_vector.copy_ctor N other
    pure ()
  | operation.copy_assign this other => Socow.socow_vector.operator_assign N this other
  | operation.swap this other => Socow.socow_vector.swap this other
  | operation.push_back this value => sized.socow_vector.push_back L N this value
  | operation.insert this pos value => do
    let d ← Socow.socow_vector.begin_const this
    let _ ← sized.socow_vector.insert L N this (d.add pos) value
    pure ()
  | operation.erase this first last => do
    let d ← Socow.socow_vector.begin_const this
    let _ ← sized.socow_vector.erase L N this (d.add first) (d.add last)
    pure ()
  | operation.erase_pos this pos => do
    let d ← Socow.socow_vector.begin_const this
    let _ ← sized.socow_vector.erase_pos L N this (d.add pos)
    pure ()
  | operation.pop_back this => sized.socow_vector.pop_back L N this
  | operation.clear this => sized.socow_vector.clear L N this
  | operation.reserve this new_capacity => sized.socow_vector.reserve L N this new_capacity
  | operation.shrink_to_fit this => sized.socow_vector.shrink_to_fit L N this
  | operation.data this => do
    let _ ← sized.socow_vector.data L N this
    pure ()
  | operation.begin this => do
    let _ ← sized.socow_vector.begin L N this
    pure ()
  | operation.end this => do
    let _ ← sized.socow_vector.end L N this
    pure ()
  | operation.operator_index this pos => do
    let _ ← sized.socow_vector.operator_index L N this pos
    pure ()
  | operation.front this => do
    let _ ← sized.socow_vector.front L N this
    pure ()
  | operation.back this => do
    let _ ← sized.socow_vector.back L N this
    pure ()

end sized

/-! ### The states a program can reach -/

/-- What a program can do to the containers: construct a new empty one, destroy
one, or call one of the public operations. -/
inductive action (T : Type) where
  | construct
  | destroy (this : Nat)
  | call (op : operation T)

/-- The code an action runs, with the allocation sized as in the source.  The
destructor call is followed by the end of the object's storage. -/
def action.run (L : layout) (N : Nat) : action T → M T Unit
  | action.construct => do
    let _ ← socow_vector.default_ctor N
    pure ()
  | action.destroy this => do
    socow_vector.dtor this
    free_obj this
  | action.call op => sized.run L N op

/-- The containers an action is applied to. -/
def action.operands : action T → List Nat
  | action.construct => []
  | action.destroy this => [this]
  | action.call op => op.operands

/-- The positions an operation is given lie inside the container, and it is not
empty where its first or last element is touched. -/
def operation.in_range (w : world T) : operation T → Prop
  | operation.copy_assign _ _ => True
  | op => op.pre w

/-- The precondition of an action: its operands are live containers and the
positions it is given are in range. -/
def action.requires (w : world T) (a : action T) : Prop :=
  (∀ j ∈ a.operands, ∃ c, w.objs[j]? = some (some c)) ∧
  match a with
  | action.call op => op.in_range w
  | _ => True

/-- The worlds a program can be in: it starts without objects and buffers, with
any schedule of failing element copies and failing allocations, and performs
actions within their preconditions; an action may return or leave by an
exception, which the program catches.  A run that ends in `std::terminate` or
has undefined behaviour leaves no world behind. -/
inductive reachable (L : layout) (N : Nat) : world T → Prop where
  | init (copy_throws alloc_throws : List Bool) :
      reachable L N (world.mk [] [] copy_throws alloc_throws)
  | step (w w1 : world T) (a : action T) : reachable L N w → a.requires w →
      leaves (a.run L N) w w1 → reachable L N w1

/-! ### Layouts and example worlds for the reachable states -/

/-- The byte count for a buffer of capacity `cap` does not wrap around, and an
element takes at least one byte: the block has room for exactly `cap` slots. -/
def layout.representable (L : layout) (cap : Nat) : Prop :=
  0 < L.sizeof_value_type ∧ L.sizeof_buffer + cap * L.sizeof_value_type < 2 ^ 64

instance (L : layout) (cap : Nat) : Decidable (L.representable cap) := by
  unfold layout.representable
  exact inferInstance

/-- A 64-bit platform with a 4-byte element type: the header of a buffer (two
`size_t`) takes 16 bytes. -/
def layout_int : layout := layout.mk 16 4

/-- No objects and no buffers; the second copy of an element will throw. -/
def world_scheduled : world Nat := world.mk [] [] [false, true] []

/-- After the default constructor in `world_scheduled` (`SMALL_SIZE = 1`). -/
def world_fresh : world Nat :=
  world.mk [] [some (socow_vector.mk vector_type.SMALL 0 0 [none])] [false, true] []

/-- After `push_back(7)` in `world_fresh`. -/
def world_seven : world Nat :=
  world.mk [] [some (socow_vector.mk vector_type.SMALL 1 0 [some 7])] [true] []

/-- After `push_back(8)` in `world_seven` has thrown: the buffer it had allocated
is freed again and the container is as before. -/
def world_seven_failed : world Nat :=
  world.mk [none] [some (socow_vector.mk vector_type.SMALL 1 0 [some 7])] [] []

/-- After a second, successful `push_back(8)`. -/
def world_seven_eight : world Nat :=
  world.mk [none, some (buffer.mk 1 2 [some 7, some 8])]
    [some (socow_vector.mk vector_type.BIG 2 1 [none])] [] []

/-- After the copy construction of a container `1` from container `0` in
`world_seven_eight`. -/
def world_seven_eight_shared : world Nat :=
  world.mk [none, some (buffer.mk 2 2 [some 7, some 8])]
    [some (socow_vector.mk vector_type.BIG 2 1 [none]),
     some (socow_vector.mk vector_type.BIG 2 1 [none])] [] []

/-- A world with one empty small container `0` (`SMALL_SIZE = 4`). -/
def world_empty4 : world Nat :=
  world.mk [] [some (socow_vector.mk vector_type.SMALL 0 0 [none, none, none, none])] [] []

/-- The container `i` is alive and the only owner of its storage. -/
def sole_owner (i : Nat) (w : world T) : Prop :=
  ∃ r n, owns w i r n

/-- In every world that satisfies `I` the two computations have the same outcome,
and a world they return in satisfies `I` again. -/
def agrees (I : world T → Prop) (m1 m2 : M T α) : Prop :=
  ∀ w, I w → m1 w = m2 w ∧ ∀ a w1, m1 w = result.ok a w1 → I w1

/-- No objects and no buffers; the first copy of an element will throw. -/
def world_throwing : world Nat := world.mk [] [] [true] []

/-- After the default constructor in `world_throwing` (`SMALL_SIZE = 1`). -/
def world_fresh_throwing : world Nat :=
  world.mk [] [some (socow_vector.mk vector_type.SMALL 0 0 [none])] [true] []

/-- After `push_back(7)` in `world_fresh_throwing` has thrown: there was room, so
the size was incremented before the copy of the element failed, and the slot
counted as the element holds no object. -/
def world_unbuilt : world Nat :=
  world.mk [] [some (socow_vector.mk vector_type.SMALL 1 0 [none])] [] []

/-! # Proofs -/

open socow_vector

/-! ## Running code: basic rules -/

@[simp] theorem pure_run (a : α) (w : world T) : (pure a : M T α) w = result.ok a w := rfl

@[simp] theorem bind_run (m : M T α) (f : α → M T β) (w : world T) :
    (m >>= f) w = match m w with
      | result.ok a w1 => f a w1
      | result.throw w1 => result.throw w1
      | result.terminate => result.terminate
      | result.ub => result.ub := rfl

@[simp] theorem ite_run (c : Prop) [Decidable c] (a b : M T α) (w : world T) :
    (if c then a else b) w = if c then a w else b w := by
  split <;> rfl

theorem bind_ok {m : M T α} {f : α → M T β} {w w1 : world T} {a : α}
    (h : m w = result.ok a w1) : (m >>= f) w = f a w1 := by
  simp [h]

theorem lt_length_of_getElem? {γ : Type} {l : List γ} {i : Nat} {x : γ}
    (h : l[i]? = some x) : i < l.length := by
  rcases List.getElem?_eq_some.mp h with ⟨h1, _⟩
  exact h1

/-! ## Arrays of slots -/

@[simp] theorem set_slots_copy_throws (w : world T) (r : storage) (l : List (Option T)) :
    (w.set_slots r l).copy_throws = w.copy_throws := by
  cases r <;> simp only [world.set_slots] <;> split <;> rfl

@[simp] theorem set_slots_alloc_throws (w : world T) (r : storage) (l : List (Option T)) :
    (w.set_slots r l).alloc_throws = w.alloc_throws := by
  cases r <;> simp only [world.set_slots] <;> split <;> rfl

theorem slots_set_slots_same {w : world T} {r : storage} {l0 : List (Option T)}
    (h : w.slots r = some l0) (l : List (Option T)) :
    (w.set_slots r l).slots r = some l := by
  cases r with
  | static_storage o =>
    simp only [world.slots] at h
    split at h
    · rename_i c hc
      simp [world.set_slots, world.slots, hc, lt_length_of_getElem? hc]
    · exact absurd h (by simp)
  | arr b =>
    simp only [world.slots] at h
    split at h
    · rename_i c hc
      simp [world.set_slots, world.slots, hc, lt_length_of_getElem? hc]
    · exact absurd h (by simp)

theorem slots_set_slots_ne (w : world T) {r r2 : storage} (h : r ≠ r2)
    (l : List (Option T)) : (w.set_slots r l).slots r2 = w.slots r2 := by
  cases r with
  | static_storage o =>
    cases r2 with
    | static_storage o2 =>
      have hne : o ≠ o2 := fun e => h (by rw [e])
      simp only [world.set_slots]
      split
      · simp [world.slots, List.getElem?_set_ne hne]
      · rfl
    | arr b2 =>
      simp only [world.set_slots]
      split <;> rfl
  | arr b =>
    cases r2 with
    | static_storage o2 =>
      simp only [world.set_slots]
      split <;> rfl
    | arr b2 =>
      have hne : b ≠ b2 := fun e => h (by rw [e])
      simp only [world.set_slots]
      split
      · simp [world.slots, List.getElem?_set_ne hne]
      · rfl

theorem set_slots_set_slots (w : world T) (r : storage) (l l2 : List (Option T)) :
    (w.set_slots r l).set_slots r l2 = w.set_slots r l2 := by
  cases r with
  | static_storage o =>
    rcases hc : w.objs[o]? with _ | _ | c
    · simp [world.set_slots, hc]
    · simp [world.set_slots, hc]
    · simp [world.set_slots, hc, lt_length_of_getElem? hc, List.set_set]
  | arr b =>
    rcases hc : w.heap[b]? with _ | _ | c
    · simp [world.set_slots, hc]
    · simp [world.set_slots, hc]
    · simp [world.set_slots, hc, lt_length_of_getElem? hc, List.set_set]

theorem deref_ok {w : world T} (it : iterator) {l : List (Option T)} {v : T}
    (h : w.slots it.base = some l) (hv : l[it.pos]? = some (some v)) :
    deref it w = result.ok v w := by
  simp [deref, read_slot, h, hv]

theorem construct_at_ok {w : world T} (it : iterator) {l : List (Option T)} (v : T)
    (h : w.slots it.base = some l) (hp : it.pos < l.length) :
    construct_at it v w = result.ok () (w.set_slots it.base (l.set it.pos (some v))) := by
  simp [construct_at, write_slot, h, hp]

theorem destroy_at_ok {w : world T} (it : iterator) {l : List (Option T)} {v : T}
    (h : w.slots it.base = some l) (hv : l[it.pos]? = some (some v)) :
    destroy_at it w = result.ok () (w.set_slots it.base (l.set it.pos none)) := by
  simp [destroy_at, deref, read_slot, write_slot, h, hv, lt_length_of_getElem? hv]

theorem assign_at_ok {w : world T} (it : iterator) {l : List (Option T)} {v0 : T} (v : T)
    (h : w.slots it.base = some l) (hv : l[it.pos]? = some (some v0)) :
    assign_at it v w = result.ok () (w.set_slots it.base (l.set it.pos (some v))) := by
  simp [assign_at, deref, read_slot, write_slot, h, hv, lt_length_of_getElem? hv]

@[simp] theorem set_range_length (vals : List T) :
    ∀ (l : List (Option T)) (off : Nat), (set_range l off vals).length = l.length := by
  induction vals with
  | nil => intro l off; rfl
  | cons v vs ih => intro l off; simp [set_range, ih]

theorem set_range_getElem?_lt (vals : List T) :
    ∀ (l : List (Option T)) (off j : Nat), j < off →
      (set_range l off vals)[j]? = l[j]? := by
  induction vals with
  | nil => intro l off j _; rfl
  | cons v vs ih =>
    intro l off j hj
    simp only [set_range]
    rw [ih _ _ _ (by omega), List.getElem?_set_ne (by omega)]

theorem set_range_getElem?_ge (vals : List T) :
    ∀ (l : List (Option T)) (off j : Nat), off + vals.length ≤ j →
      (set_range l off vals)[j]? = l[j]? := by
  induction vals with
  | nil => intro l off j _; rfl
  | cons v vs ih =>
    intro l off j hj
    simp only [set_range]
    simp only [List.length_cons] at hj
    rw [ih _ _ _ (by omega), List.getElem?_set_ne (by omega)]

theorem set_range_getElem?_mid (vals : List T) :
    ∀ (l : List (Option T)) (off j : Nat) (v : T), off + vals.length ≤ l.length →
      vals[j]? = some v → (set_range l off vals)[off + j]? = some (some v) := by
  induction vals with
  | nil => intro l off j v _ h; simp at h
  | cons x xs ih =>
    intro l off j v hlen h
    simp only [List.length_cons] at hlen
    simp only [set_range]
    cases j with
    | zero =>
      simp only [List.getElem?_cons_zero, Option.some.injEq] at h
      rw [set_range_getElem?_lt _ _ _ _ (by omega)]
      simp only [Nat.add_zero]
      rw [List.getElem?_set_self (by omega), h]
    | succ j =>
      simp only [List.getElem?_cons_succ] at h
      have := ih (l.set off (some x)) (off + 1) j v (by simp; omega) h
      rw [← this]
      congr 1
      omega

theorem set_range_take (vals : List T) (l : List (Option T)) (off : Nat)
    (hlen : off + vals.length ≤ l.length) :
    (set_range l off vals).take (off + vals.length) = l.take off ++ vals.map some := by
  apply List.ext_getElem?
  intro j
  by_cases h1 : j < off
  · rw [List.getElem?_take_of_lt (by omega), set_range_getElem?_lt _ _ _ _ h1,
      List.getElem?_append_left (by simp; omega), List.getElem?_take_of_lt h1]
  · by_cases h2 : j < off + vals.length
    · obtain ⟨d, rfl⟩ : ∃ d, j = off + d := ⟨j - off, by omega⟩
      have hd : d < vals.length := by omega
      rw [List.getElem?_take_of_lt h2,
        set_range_getElem?_mid vals l off d (vals.get ⟨d, hd⟩) hlen (by simp),
        List.getElem?_append_right (by simp)]
      simp [Nat.min_eq_left (show off ≤ l.length by omega), hd]
    · rw [List.getElem?_take_eq_none (by omega), List.getElem?_eq_none]
      simp [Nat.min_eq_left (show off ≤ l.length by omega)]
      omega

theorem getElem?_of_take_eq_map {l : List (Option T)} {n : Nat} {xs : List T}
    (h : l.take n = xs.map some) {j : Nat} {v : T} (hj : xs[j]? = some v) :
    l[j]? = some (some v) := by
  have hjl : j < xs.length := by exact lt_length_of_getElem? hj
  have hlen : (l.take n).length = xs.length := by rw [h]; simp
  have hjn : j < n := by
    have := List.length_take_le n l
    omega
  rw [← List.getElem?_take_of_lt hjn, h]
  simp [hj]

theorem list_set_self {γ : Type} (l : List γ) (i : Nat) (x : γ) (h : l[i]? = some x) :
    l.set i x = l := by
  apply List.ext_getElem?
  intro j
  by_cases hij : i = j
  · subst hij
    rw [List.getElem?_set_self (lt_length_of_getElem? h), h]
  · rw [List.getElem?_set_ne hij]

theorem set_slots_self {w : world T} {r : storage} {l : List (Option T)}
    (h : w.slots r = some l) : w.set_slots r l = w := by
  cases r with
  | static_storage o =>
    rcases hc : w.objs[o]? with _ | _ | c
    · simp [world.slots, hc] at h
    · simp [world.slots, hc] at h
    · simp [world.slots, hc] at h
      subst h
      simp only [world.set_slots, hc]
      rw [list_set_self _ _ _ hc]
  | arr b =>
    rcases hc : w.heap[b]? with _ | _ | c
    · simp [world.slots, hc] at h
    · simp [world.slots, hc] at h
    · simp [world.slots, hc] at h
      subst h
      simp only [world.set_slots, hc]
      rw [list_set_self _ _ _ hc]

theorem uninitialized_copy_from_ok (src dst : storage) (hne : src ≠ dst)
    (soff doff : Nat) (ls : List (Option T)) :
    ∀ (vals : List T) (k : Nat) (ld : List (Option T)) (w : world T),
      w.copy_throws = [] → w.slots src = some ls → w.slots dst = some ld →
      (∀ j v, vals[j]? = some v → ls[soff + k + j]? = some (some v)) →
      doff + k + vals.length ≤ ld.length →
      uninitialized_copy_from (iterator.mk src soff) (iterator.mk dst doff) k vals.length w
        = result.ok () (w.set_slots dst (set_range ld (doff + k) vals)) := by
  intro vals
  induction vals with
  | nil =>
    intro k ld w _ _ hd _ _
    simp only [List.length_nil, uninitialized_copy_from, pure_run, set_range]
    rw [set_slots_self hd]
  | cons v vs ih =>
    intro k ld w hplan hs hd hsrc hlen
    simp only [List.length_cons] at hlen
    have hv : ls[soff + k]? = some (some v) := by
      have := hsrc 0 v (by simp)
      simpa using this
    have e1 : deref ((iterator.mk src soff).add k) w = result.ok v w :=
      deref_ok _ (l := ls) (by simpa [iterator.add] using hs) (by simpa [iterator.add] using hv)
    have e2 : value_type_copy v w = result.ok v w := by
      simp [value_type_copy, hplan]
    have e3 : construct_at ((iterator.mk dst doff).add k) v w
        = result.ok () (w.set_slots dst (ld.set (doff + k) (some v))) :=
      construct_at_ok _ (l := ld) v (by simpa [iterator.add] using hd)
        (by simp [iterator.add]; omega)
    simp only [List.length_cons, uninitialized_copy_from, bind_run, e1, try_catch, e2, e3]
    rw [ih (k + 1) (ld.set (doff + k) (some v)) _ (by simpa using hplan)
      (by rw [slots_set_slots_ne _ (Ne.symm hne)]; exact hs)
      (slots_set_slots_same hd _)
      (fun j x hx => by
        have := hsrc (j + 1) x (by simpa using hx)
        rw [← this]; congr 1; omega)
      (by simp; omega)]
    rw [set_slots_set_slots]
    simp only [set_range]
    rfl

/-! ## Headers are not touched by writes to slots -/

@[simp] theorem header_set_slots (w : world T) (r : storage) (l : List (Option T)) (i : Nat) :
    (w.set_slots r l).header i = w.header i := by
  cases r with
  | static_storage o =>
    rcases hc : w.objs[o]? with _ | _ | c
    · simp [world.set_slots, hc]
    · simp [world.set_slots, hc]
    · simp only [world.set_slots, hc, world.header]
      by_cases h : o = i
      · subst h
        simp [hc, lt_length_of_getElem? hc]
      · simp [List.getElem?_set_ne h]
  | arr b =>
    rcases hc : w.heap[b]? with _ | _ | c <;> simp [world.set_slots, hc, world.header]

@[simp] theorem buf_header_set_slots (w : world T) (r : storage) (l : List (Option T))
    (p : Nat) : (w.set_slots r l).buf_header p = w.buf_header p := by
  cases r with
  | static_storage o =>
    rcases hc : w.objs[o]? with _ | _ | c <;> simp [world.set_slots, hc, world.buf_header]
  | arr b =>
    rcases hc : w.heap[b]? with _ | _ | c
    · simp [world.set_slots, hc]
    · simp [world.set_slots, hc]
    · simp only [world.set_slots, hc, world.buf_header]
      by_cases h : b = p
      · subst h
        simp [hc, lt_length_of_getElem? hc]
      · simp [List.getElem?_set_ne h]

theorem owns_set_slots {w : world T} {i : Nat} {r : storage} {n : Nat}
    (h : owns w i r n) (r2 : storage) (l : List (Option T)) :
    owns (w.set_slots r2 l) i r n := by
  simpa [owns] using h

theorem header_eq_some {w : world T} {i : Nat} {t : vector_type} {n d : Nat}
    (h : w.header i = some (t, n, d)) :
    ∃ c, w.objs[i]? = some (some c) ∧ c.type = t ∧ c.size_ = n ∧ c.dynamic_storage = d := by
  rcases hc : w.objs[i]? with _ | _ | c
  · simp [world.header, hc] at h
  · simp [world.header, hc] at h
  · simp [world.header, hc] at h
    exact ⟨c, rfl, h⟩

theorem buf_header_eq_some {w : world T} {p : Nat} {k cap : Nat}
    (h : w.buf_header p = some (k, cap)) :
    ∃ b, w.heap[p]? = some (some b) ∧ b.cnt_references = k ∧ b.capacity = cap := by
  rcases hc : w.heap[p]? with _ | _ | b
  · simp [world.buf_header, hc] at h
  · simp [world.buf_header, hc] at h
  · simp [world.buf_header, hc] at h
    exact ⟨b, rfl, h⟩

/-! ## Accessors of a container that owns its storage -/

theorem size_of_owns {w : world T} {i : Nat} {r : storage} {n : Nat} (h : owns w i r n) :
    size i w = result.ok n w := by
  rcases h with ⟨d, h, _⟩ | ⟨p, cap, h, _, _⟩ <;>
    obtain ⟨c, hc, _, hn, _⟩ := header_eq_some h <;>
    simp [size, get_obj, hc, hn]

theorem is_master_of_owns {w : world T} {i : Nat} {r : storage} {n : Nat} (h : owns w i r n) :
    is_master i w = result.ok true w := by
  rcases h with ⟨d, h, _⟩ | ⟨p, cap, h, _, hb⟩
  · obtain ⟨c, hc, ht, _, _⟩ := header_eq_some h
    simp [is_master, is_small, get_obj, hc, ht]
  · obtain ⟨c, hc, ht, _, hd⟩ := header_eq_some h
    obtain ⟨b, hb, hk, _⟩ := buf_header_eq_some hb
    simp [is_master, is_small, get_obj, hc, ht, my_shared_ptr.use_count, get_buf, hd, hb, hk]

theorem data_const_of_owns {w : world T} {i : Nat} {r : storage} {n : Nat} (h : owns w i r n) :
    data_const i w = result.ok (iterator.mk r 0) w := by
  rcases h with ⟨d, h, hr⟩ | ⟨p, cap, h, hr, hb⟩
  · obtain ⟨c, hc, ht, _, _⟩ := header_eq_some h
    simp [data_const, is_small, get_obj, hc, ht, hr]
  · obtain ⟨c, hc, ht, _, hd⟩ := header_eq_some h
    simp [data_const, is_small, get_obj, hc, ht, hd, hr, my_shared_ptr.get]

theorem make_master_of_owns (N : Nat) {w : world T} {i : Nat} {r : storage} {n : Nat}
    (h : owns w i r n) : make_master N i w = result.ok false w := by
  have h1 := is_master_of_owns h
  have h2 := size_of_owns h
  rcases h with ⟨d, h, hr⟩ | ⟨p, cap, h, hr, hb⟩
  · obtain ⟨c, hc, ht, _, _⟩ := header_eq_some h
    simp [make_master, make_master_to, capacity, is_small, get_obj, hc, ht, h1, h2]
  · obtain ⟨c, hc, ht, _, hd⟩ := header_eq_some h
    obtain ⟨b, hb, hk, _⟩ := buf_header_eq_some hb
    simp [make_master, make_master_to, capacity, is_small, get_obj, hc, ht, h1, h2,
      my_shared_ptr.get_capacity, get_buf, hd, hb]

theorem data_of_owns (N : Nat) {w : world T} {i : Nat} {r : storage} {n : Nat}
    (h : owns w i r n) : data N i w = result.ok (iterator.mk r 0) w := by
  have h1 := make_master_of_owns N h
  rcases h with ⟨d, h, hr⟩ | ⟨p, cap, h, hr, hb⟩
  · obtain ⟨c, hc, ht, _, _⟩ := header_eq_some h
    simp [data, noexcept, h1, is_small, get_obj, hc, ht, hr]
  · obtain ⟨c, hc, ht, _, hd⟩ := header_eq_some h
    simp [data, noexcept, h1, is_small, get_obj, hc, ht, hr, hd, my_shared_ptr.get]

theorem operator_index_of_owns (N : Nat) {w : world T} {i : Nat} {r : storage} {n : Nat}
    (h : owns w i r n) (k : Nat) :
    operator_index N i k w = result.ok (iterator.mk r k) w := by
  simp [operator_index, noexcept, data_of_owns N h, iterator.add]

theorem operator_index_const_of_owns {w : world T} {i : Nat} {r : storage} {n : Nat}
    (h : owns w i r n) (k : Nat) :
    operator_index_const i k w = result.ok (iterator.mk r k) w := by
  simp [operator_index_const, data_const_of_owns h, iterator.add]

theorem back_of_owns (N : Nat) {w : world T} {i : Nat} {r : storage} {n : Nat}
    (h : owns w i r n) : back N i w = result.ok (iterator.mk r (n - 1)) w := by
  simp [back, make_master_of_owns N h, data_of_owns N h, size_of_owns h, iterator.add]

theorem begin_of_owns (N : Nat) {w : world T} {i : Nat} {r : storage} {n : Nat}
    (h : owns w i r n) : «begin» N i w = result.ok (iterator.mk r 0) w := by
  simp [«begin», noexcept, data_of_owns N h]

/-! ## Loops over the slots of an array -/

theorem constructed_of_take {l : List (Option T)} {n : Nat} {xs : List T}
    (h : l.take n = xs.map some) (hn : n ≤ l.length) : constructed l n ∧ xs.length = n := by
  have hlen : xs.length = n := by
    have := congrArg List.length h
    simp at this
    omega
  refine ⟨fun j hj => ?_, hlen⟩
  have hj2 : j < xs.length := by omega
  exact ⟨xs.get ⟨j, hj2⟩, getElem?_of_take_eq_map h (by simp)⟩

theorem take_of_constructed {l : List (Option T)} {n : Nat} (h : constructed l n) :
    ∃ xs : List T, l.take n = xs.map some ∧ xs.length = n ∧ n ≤ l.length := by
  induction n with
  | zero => exact ⟨[], by simp⟩
  | succ n ih =>
    obtain ⟨xs, hxs, hlen, hn⟩ := ih (fun j hj => h j (by omega))
    obtain ⟨v, hv⟩ := h n (by omega)
    refine ⟨xs ++ [v], ?_, by simp [hlen], ?_⟩
    · rw [List.take_succ, hxs, hv]
      simp
    · have := lt_length_of_getElem? hv
      omega

theorem constructed_mono {l : List (Option T)} {n m : Nat} (h : constructed l n)
    (hm : m ≤ n) : constructed l m :=
  fun j hj => h j (by omega)

theorem for_down_destroy (r : storage) :
    ∀ (n : Nat) (l : List (Option T)) (w : world T), w.slots r = some l → constructed l n →
      for_down (fun k => destroy_at (iterator.mk r k)) n w
        = result.ok () (w.set_slots r (destroy_slots l n)) := by
  intro n
  induction n with
  | zero =>
    intro l w h _
    simp [for_down, destroy_slots, set_slots_self h]
  | succ n ih =>
    intro l w h hc
    obtain ⟨v, hv⟩ := hc n (by omega)
    have e1 : destroy_at (iterator.mk r n) w
        = result.ok () (w.set_slots r (l.set n none)) :=
      destroy_at_ok _ (l := l) (v := v) h hv
    simp only [for_down, bind_run, e1, destroy_slots]
    rw [ih (l.set n none) _ (slots_set_slots_same h _)
      (fun j hj => by
        obtain ⟨x, hx⟩ := hc j (by omega)
        exact ⟨x, by rw [List.getElem?_set_ne (by omega)]; exact hx⟩)]
    rw [set_slots_set_slots]

theorem for_down_congr {f g : Nat → M T Unit} (P : world T → Prop)
    (hP : ∀ k w w1, P w → g k w = result.ok () w1 → P w1)
    (hfg : ∀ k w, P w → f k w = g k w) :
    ∀ (n : Nat) (w : world T), P w → for_down f n w = for_down g n w := by
  intro n
  induction n with
  | zero => intro w _; rfl
  | succ n ih =>
    intro w hw
    simp only [for_down, bind_run, hfg n w hw]
    rcases hg : g n w with ⟨u, w1⟩ | w1 | _ | _
    · exact ih w1 (hP n w w1 hw hg)
    · rfl
    · rfl
    · rfl

theorem destroy_at_slots {it : iterator} {w w1 : world T}
    (h : destroy_at it w = result.ok () w1) : ∃ l, w1 = w.set_slots it.base l := by
  rcases hs : w.slots it.base with _ | l
  · simp [destroy_at, deref, read_slot, hs] at h
  · rcases hv : l[it.pos]? with _ | _ | v
    · simp [destroy_at, deref, read_slot, hs, hv] at h
    · simp [destroy_at, deref, read_slot, hs, hv, undefined_behaviour] at h
    · simp only [destroy_at, deref, read_slot, write_slot, bind_run, hs, hv, pure_run,
        lt_length_of_getElem? hv, if_true, result.ok.injEq, true_and] at h
      exact ⟨_, h.symm⟩

theorem destroy_storage_of_owns {w : world T} {i : Nat} {r : storage} {n : Nat}
    {l : List (Option T)} (h : owns w i r n) (hs : w.slots r = some l)
    (hc : constructed l n) :
    destroy_storage i w = result.ok () (w.set_slots r (destroy_slots l n)) := by
  simp only [destroy_storage, bind_run, is_master_of_owns h, size_of_owns h, if_true, ite_run]
  rw [for_down_congr (g := fun k => destroy_at (iterator.mk r k)) (fun w => owns w i r n)
    (fun k w w1 hw hg => by
      obtain ⟨l, rfl⟩ := destroy_at_slots hg
      exact owns_set_slots hw _ _)
    (fun k w hw => by simp [operator_index_const_of_owns hw]) n w h]
  exact for_down_destroy r n l w hs hc

/-! ## Changing the storage of a container -/

theorem set_range_append (xs : List T) (v : T) :
    ∀ (l : List (Option T)) (off : Nat),
      set_range l off (xs ++ [v]) = (set_range l off xs).set (off + xs.length) (some v) := by
  induction xs with
  | nil => intro l off; simp [set_range]
  | cons x xs ih =>
    intro l off
    show set_range (l.set off (some x)) (off + 1) (xs ++ [v])
      = (set_range (l.set off (some x)) (off + 1) xs).set (off + (xs.length + 1)) (some v)
    rw [ih, show off + 1 + xs.length = off + (xs.length + 1) by omega]

theorem change_static_storage_to_dynamic_ok {w : world T} {i : Nat} {c : socow_vector T}
    {xs : List T} (new_capacity : Nat) (value : Option T)
    (hobj : w.objs[i]? = some (some c)) (hty : c.type = vector_type.SMALL)
    (hel : c.static_storage.take c.size_ = xs.map some)
    (hn : c.size_ ≤ c.static_storage.length)
    (hcap : c.size_ + value.toList.length ≤ new_capacity)
    (hcopy : w.copy_throws = []) (halloc : w.alloc_throws = []) :
    change_static_storage_to_dynamic i new_capacity value w = result.ok ()
      { w with
        heap := w.heap ++ [some (buffer.mk 1 new_capacity
          (set_range (List.replicate new_capacity none) 0 (xs ++ value.toList)))],
        objs := w.objs.set i (some (socow_vector.mk vector_type.BIG
          (c.size_ + value.toList.length) w.heap.length
          (destroy_slots c.static_storage c.size_))) } := by
  have hi : i < w.objs.length := lt_length_of_getElem? hobj
  obtain ⟨hcons, hlen⟩ := constructed_of_take hel hn
  -- the new buffer
  generalize hw1 : ({ w with heap := w.heap ++ [some (buffer.mk 1 new_capacity
    (List.replicate new_capacity none))] } : world T) = w1
  have e1 : my_shared_ptr.ctor new_capacity w = result.ok w.heap.length w1 := by
    simp [my_shared_ptr.ctor, halloc, ← hw1]
  have hs1 : w1.slots (storage.static_storage i) = some c.static_storage := by
    simp [← hw1, world.slots, hobj]
  have hd1 : w1.slots (storage.arr w.heap.length) = some (List.replicate new_capacity none) := by
    simp [← hw1, world.slots]
  have hc1 : w1.copy_throws = [] := by simp [← hw1, hcopy]
  have hsz1 : size i w1 = result.ok c.size_ w1 := by
    simp [size, get_obj, ← hw1, hobj]
  -- the elements are copied
  have e2 := uninitialized_copy_from_ok (storage.static_storage i)
    (storage.arr w.heap.length) (by simp) 0 0 c.static_storage xs 0 _ w1 hc1 hs1 hd1
    (fun j v hv => by simpa using getElem?_of_take_eq_map hel hv)
    (by simp; omega)
  rw [hlen] at e2
  simp only [Nat.add_zero] at e2
  generalize hw2 : w1.set_slots (storage.arr w.heap.length)
    (set_range (List.replicate new_capacity none) 0 xs) = w2 at e2
  have hs2 : w2.slots (storage.static_storage i) = some c.static_storage := by
    rw [← hw2, slots_set_slots_ne _ (by simp)]; exact hs1
  have hd2 : w2.slots (storage.arr w.heap.length)
      = some (set_range (List.replicate new_capacity none) 0 xs) := by
    rw [← hw2]; exact slots_set_slots_same hd1 _
  have hc2 : w2.copy_throws = [] := by rw [← hw2]; simpa using hc1
  have hsz2 : size i w2 = result.ok c.size_ w2 := by
    simp [size, get_obj, ← hw2, ← hw1, world.set_slots, hobj]
  -- the pending element is appended
  have e3 : ∀ v, value = some v →
      construct_at (iterator.mk (storage.arr w.heap.length) c.size_) v w2
      = result.ok () (w1.set_slots (storage.arr w.heap.length)
          (set_range (List.replicate new_capacity none) 0 (xs ++ value.toList))) := by
    intro v hv
    subst hv
    have hk := construct_at_ok (iterator.mk (storage.arr w.heap.length) c.size_) v hd2
      (by simp at hcap ⊢; omega)
    rw [hk, ← hw2, set_slots_set_slots]
    simp [set_range_append, hlen]
  have e3n : value = none → w2 = w1.set_slots (storage.arr w.heap.length)
      (set_range (List.replicate new_capacity none) 0 (xs ++ value.toList)) := by
    intro hv
    subst hv
    simp [hw2]
  generalize hw3 : w1.set_slots (storage.arr w.heap.length)
    (set_range (List.replicate new_capacity none) 0 (xs ++ value.toList)) = w3 at e3 e3n
  have hown : owns w3 i (storage.static_storage i) c.size_ := by
    left
    refine ⟨c.dynamic_storage, ?_, rfl⟩
    rw [← hw3, header_set_slots, ← hw1]
    simp [world.header, hobj, hty]
  have hs3 : w3.slots (storage.static_storage i) = some c.static_storage := by
    rw [← hw3, slots_set_slots_ne _ (by simp)]; exact hs1
  have e4 := destroy_storage_of_owns hown hs3 hcons
  have hw4 : (w3.set_slots (storage.static_storage i) (destroy_slots c.static_storage c.size_))
      = { w with
          heap := w.heap ++ [some (buffer.mk 1 new_capacity
            (set_range (List.replicate new_capacity none) 0 (xs ++ value.toList)))],
          objs := w.objs.set i (some { c with
            static_storage := destroy_slots c.static_storage c.size_ }) } := by
    simp [← hw3, ← hw1, world.set_slots, hobj]
  rw [hw4] at e4
  have hsz3 : size i w3 = result.ok c.size_ w3 := size_of_owns hown
  have hv2 : ∀ v : T, value_type_copy v w2 = result.ok v w2 := by
    intro v; simp [value_type_copy, hc2]
  cases value with
  | none =>
    have := e3n rfl
    subst this
    simp only [change_static_storage_to_dynamic, bind_run, e1, scope_exit, hsz1,
      uninitialized_copy, my_shared_ptr.get, e2, hsz2, pure_run, e4]
    simp [my_shared_ptr.copy_ctor, modify_buf, modify_obj, hi, my_shared_ptr.dtor,
      my_shared_ptr.use_count, get_buf]
  | some v =>
    simp only [change_static_storage_to_dynamic, bind_run, e1, scope_exit, hsz1,
      uninitialized_copy, my_shared_ptr.get, e2, hsz2, try_catch, hv2, iterator.add,
      Nat.zero_add, e3 v rfl, e4]
    simp [my_shared_ptr.copy_ctor, modify_buf, modify_obj, hi, my_shared_ptr.dtor,
      my_shared_ptr.use_count, get_buf]

theorem change_dynamic_storage_ok {w : world T} {i : Nat} {c : socow_vector T}
    {b : buffer T} {ys : List T} (new_capacity new_size : Nat) (value : Option T)
    (hobj : w.objs[i]? = some (some c)) (hty : c.type = vector_type.BIG)
    (hbuf : w.heap[c.dynamic_storage]? = some (some b))
    (hel : b.arr.take new_size = ys.map some) (hns : new_size ≤ b.arr.length)
    (hmaster : b.cnt_references = 1 → constructed b.arr c.size_)
    (hcap : new_size + value.toList.length ≤ new_capacity)
    (hcopy : w.copy_throws = []) (halloc : w.alloc_throws = []) :
    change_dynamic_storage i new_capacity new_size value w = result.ok ()
      { w with
        heap := w.heap.set c.dynamic_storage b.release ++ [some (buffer.mk 1 new_capacity
          (set_range (List.replicate new_capacity none) 0 (ys ++ value.toList)))],
        objs := w.objs.set i (some { c with
          size_ := new_size + value.toList.length, dynamic_storage := w.heap.length }) } := by
  have hi : i < w.objs.length := lt_length_of_getElem? hobj
  have hp : c.dynamic_storage < w.heap.length := lt_length_of_getElem? hbuf
  have hpne : c.dynamic_storage ≠ w.heap.length := by omega
  obtain ⟨hcons, hlen⟩ := constructed_of_take hel hns
  have hsm : is_small i w = result.ok false w := by
    simp [is_small, get_obj, hobj, hty]
  generalize hw1 : ({ w with heap := w.heap ++ [some (buffer.mk 1 new_capacity
    (List.replicate new_capacity none))] } : world T) = w1
  have e1 : my_shared_ptr.ctor new_capacity w = result.ok w.heap.length w1 := by
    simp [my_shared_ptr.ctor, halloc, ← hw1]
  have ho1 : get_obj i w1 = result.ok c w1 := by
    simp [get_obj, ← hw1, hobj]
  have hs1 : w1.slots (storage.arr c.dynamic_storage) = some b.arr := by
    simp [← hw1, world.slots, List.getElem?_append_left hp, hbuf]
  have hd1 : w1.slots (storage.arr w.heap.length) = some (List.replicate new_capacity none) := by
    simp [← hw1, world.slots]
  have hc1 : w1.copy_throws = [] := by simp [← hw1, hcopy]
  have e2 := uninitialized_copy_from_ok (storage.arr c.dynamic_storage)
    (storage.arr w.heap.length) (by simp; omega) 0 0 b.arr ys 0 _ w1 hc1 hs1 hd1
    (fun j v hv => by simpa using getElem?_of_take_eq_map hel hv)
    (by simp; omega)
  rw [hlen] at e2
  simp only [Nat.add_zero] at e2
  generalize hw2 : w1.set_slots (storage.arr w.heap.length)
    (set_range (List.replicate new_capacity none) 0 ys) = w2 at e2
  have hd2 : w2.slots (storage.arr w.heap.length)
      = some (set_range (List.replicate new_capacity none) 0 ys) := by
    rw [← hw2]; exact slots_set_slots_same hd1 _
  have hc2 : w2.copy_throws = [] := by rw [← hw2]; simpa using hc1
  have e3 : ∀ v, value = some v →
      construct_at (iterator.mk (storage.arr w.heap.length) new_size) v w2
      = result.ok () (w1.set_slots (storage.arr w.heap.length)
          (set_range (List.replicate new_capacity none) 0 (ys ++ value.toList))) := by
    intro v hv
    subst hv
    have hk := construct_at_ok (iterator.mk (storage.arr w.heap.length) new_size) v hd2
      (by simp at hcap ⊢; omega)
    rw [hk, ← hw2, set_slots_set_slots]
    simp [set_range_append, hlen]
  have e3n : value = none → w2 = w1.set_slots (storage.arr w.heap.length)
      (set_range (List.replicate new_capacity none) 0 (ys ++ value.toList)) := by
    intro hv
    subst hv
    simp [hw2]
  generalize hw3 : w1.set_slots (storage.arr w.heap.length)
    (set_range (List.replicate new_capacity none) 0 (ys ++ value.toList)) = w3 at e3 e3n
  have hh3 : w3.header i = some (vector_type.BIG, c.size_, c.dynamic_storage) := by
    rw [← hw3, header_set_slots, ← hw1]
    simp [world.header, hobj, hty]
  have hb3 : w3.buf_header c.dynamic_storage = some (b.cnt_references, b.capacity) := by
    rw [← hw3, buf_header_set_slots, ← hw1]
    simp [world.buf_header, List.getElem?_append_left hp, hbuf]
  have hs3 : w3.slots (storage.arr c.dynamic_storage) = some b.arr := by
    rw [← hw3, slots_set_slots_ne _ (by simp; omega)]; exact hs1
  have hw3x : w3 = { w with heap := w.heap ++ [some (buffer.mk 1 new_capacity
      (set_range (List.replicate new_capacity none) 0 (ys ++ value.toList)))] } := by
    simp [← hw3, ← hw1, world.set_slots]
  -- the old elements are destroyed by the last owner only
  have e4 : destroy_storage i w3 = result.ok ()
      (if b.cnt_references = 1
        then w3.set_slots (storage.arr c.dynamic_storage) (destroy_slots b.arr c.size_)
        else w3) := by
    by_cases hk : b.cnt_references = 1
    · rw [if_pos hk]
      exact destroy_storage_of_owns
        (Or.inr ⟨c.dynamic_storage, b.capacity, hh3, rfl, by rw [hb3, hk]⟩) hs3 (hmaster hk)
    · rw [if_neg hk]
      obtain ⟨c3, hc3, ht3, _, hd3⟩ := header_eq_some hh3
      obtain ⟨b3, hb3, hk3, _⟩ := buf_header_eq_some hb3
      simp [destroy_storage, is_master, is_small, get_obj, hc3, ht3, hd3,
        my_shared_ptr.use_count, get_buf, hb3, hk3, hk]
  have hv2 : ∀ v : T, value_type_copy v w2 = result.ok v w2 := by
    intro v; simp [value_type_copy, hc2]
  by_cases hk : b.cnt_references = 1
  · rw [if_pos hk] at e4
    have hw4 : w3.set_slots (storage.arr c.dynamic_storage) (destroy_slots b.arr c.size_)
        = { w with
            heap := w.heap.set c.dynamic_storage
                (some { b with arr := destroy_slots b.arr c.size_ }) ++
                [some (buffer.mk 1 new_capacity
                  (set_range (List.replicate new_capacity none) 0 (ys ++ value.toList)))] } := by
      rw [hw3x]
      simp [world.set_slots, List.getElem?_append_left hp, hbuf, List.set_append_left _ _ hp]
    rw [hw4] at e4
    cases value with
    | none =>
      have := e3n rfl
      subst this
      simp only [change_dynamic_storage, bind_run, hsm, ite_run, e1, scope_exit, ho1,
        uninitialized_copy, my_shared_ptr.get, e2, pure_run, e4]
      simp [my_shared_ptr.assign, my_shared_ptr.copy_ctor, modify_buf, modify_obj, hi,
        my_shared_ptr.dtor, my_shared_ptr.use_count, get_buf, get_obj, hobj, delete_buf,
        buffer.release, hk, hp, hpne, List.getElem?_append_left, List.set_append_left]
    | some v =>
      simp only [change_dynamic_storage, bind_run, hsm, ite_run, e1, scope_exit, ho1,
        uninitialized_copy, my_shared_ptr.get, e2, try_catch, hv2, iterator.add,
        Nat.zero_add, e3 v rfl, e4]
      simp [my_shared_ptr.assign, my_shared_ptr.copy_ctor, modify_buf, modify_obj, hi,
        my_shared_ptr.dtor, my_shared_ptr.use_count, get_buf, get_obj, hobj, delete_buf,
        buffer.release, hk, hp, hpne, List.getElem?_append_left, List.set_append_left]
  · rw [if_neg hk] at e4
    cases value with
    | none =>
      have := e3n rfl
      subst this
      simp only [change_dynamic_storage, bind_run, hsm, ite_run, e1, scope_exit, ho1,
        uninitialized_copy, my_shared_ptr.get, e2, pure_run, e4]
      rw [hw3x]
      simp [my_shared_ptr.assign, my_shared_ptr.copy_ctor, modify_buf, modify_obj, hi,
        my_shared_ptr.dtor, my_shared_ptr.use_count, get_buf, get_obj, hobj, delete_buf,
        buffer.release, hk, hp, hpne, List.getElem?_append_left, List.set_append_left, hbuf]
    | some v =>
      simp only [change_dynamic_storage, bind_run, hsm, ite_run, e1, scope_exit, ho1,
        uninitialized_copy, my_shared_ptr.get, e2, try_catch, hv2, iterator.add,
        Nat.zero_add, e3 v rfl, e4]
      rw [hw3x]
      simp [my_shared_ptr.assign, my_shared_ptr.copy_ctor, modify_buf, modify_obj, hi,
        my_shared_ptr.dtor, my_shared_ptr.use_count, get_buf, get_obj, hobj, delete_buf,
        buffer.release, hk, hp, hpne, List.getElem?_append_left, List.set_append_left, hbuf]

/-! ## `push_back`, case by case -/

theorem push_back_small_room {w : world T} {i : Nat} {c : socow_vector T} (N : Nat) (v : T)
    (hobj : w.objs[i]? = some (some c)) (hty : c.type = vector_type.SMALL)
    (hroom : c.size_ + 1 ≤ N) (hlen : c.static_storage.length = N)
    (hcopy : w.copy_throws = []) :
    push_back N i v w = result.ok ()
      { w with objs := w.objs.set i (some { c with
          size_ := c.size_ + 1,
          static_storage := c.static_storage.set c.size_ (some v) }) } := by
  have hi : i < w.objs.length := lt_length_of_getElem? hobj
  have h1 : ¬ N < c.size_ + 1 := by omega
  have h2 : c.size_ < N := by omega
  simp [push_back, size, capacity, is_small, get_obj, hobj, hty, data, noexcept, make_master,
    make_master_to, is_master, modify_obj, value_type_copy, hcopy, construct_at, write_slot,
    iterator.add, hi, hlen, h1, h2, world.slots, world.set_slots]

theorem push_back_small_full {w : world T} {i : Nat} {c : socow_vector T} {xs : List T}
    (N : Nat) (v : T)
    (hobj : w.objs[i]? = some (some c)) (hty : c.type = vector_type.SMALL)
    (hfull : c.size_ = N) (hlen : c.static_storage.length = N)
    (hel : c.static_storage.take c.size_ = xs.map some)
    (hcopy : w.copy_throws = []) (halloc : w.alloc_throws = []) :
    push_back N i v w = result.ok ()
      { w with
        heap := w.heap ++ [some (buffer.mk 1 (max (N * 2) (N + 1))
          (set_range (List.replicate (max (N * 2) (N + 1)) none) 0 (xs ++ [v])))],
        objs := w.objs.set i (some (socow_vector.mk vector_type.BIG
          (N + 1) w.heap.length (destroy_slots c.static_storage N))) } := by
  have e := change_static_storage_to_dynamic_ok (max (N * 2) (N + 1)) (some v) hobj hty hel
    (by omega) (by simp; omega) hcopy halloc
  simp only [Option.toList_some, List.length_singleton, hfull] at e
  have h1 : max (N * 2) (N + 1) > N := by omega
  simp [push_back, size, capacity, is_small, get_obj, hobj, hty, hfull, enlarge_capacity,
    reserve_value, is_master, h1, e]

theorem push_back_big_master_room {w : world T} {i : Nat} {c : socow_vector T} {b : buffer T}
    (N : Nat) (v : T)
    (hobj : w.objs[i]? = some (some c)) (hty : c.type = vector_type.BIG)
    (hbuf : w.heap[c.dynamic_storage]? = some (some b)) (hcnt : b.cnt_references = 1)
    (hroom : c.size_ + 1 ≤ b.capacity) (hlen : b.arr.length = b.capacity)
    (hcopy : w.copy_throws = []) :
    push_back N i v w = result.ok ()
      { w with
        heap := w.heap.set c.dynamic_storage (some { b with
          arr := b.arr.set c.size_ (some v) }),
        objs := w.objs.set i (some { c with size_ := c.size_ + 1 }) } := by
  have hi : i < w.objs.length := lt_length_of_getElem? hobj
  have h1 : ¬ b.capacity < c.size_ + 1 := by omega
  have h2 : c.size_ < b.capacity := by omega
  simp [push_back, size, capacity, is_small, get_obj, hobj, hty, data, noexcept, make_master,
    make_master_to, is_master, modify_obj, value_type_copy, hcopy, construct_at, write_slot,
    iterator.add, hi, hlen, h1, h2, world.slots, world.set_slots, my_shared_ptr.get_capacity,
    my_shared_ptr.use_count, get_buf, hbuf, hcnt, my_shared_ptr.get]

theorem push_back_big_clone {w : world T} {i : Nat} {c : socow_vector T} {b : buffer T}
    {xs : List T} (N : Nat) (v : T)
    (hobj : w.objs[i]? = some (some c)) (hty : c.type = vector_type.BIG)
    (hbuf : w.heap[c.dynamic_storage]? = some (some b))
    (hclone : b.cnt_references ≠ 1 ∨ b.capacity < c.size_ + 1)
    (hle : c.size_ ≤ b.capacity) (hlen : b.arr.length = b.capacity)
    (hel : b.arr.take c.size_ = xs.map some)
    (hcopy : w.copy_throws = []) (halloc : w.alloc_throws = []) :
    push_back N i v w = result.ok ()
      { w with
        heap := w.heap.set c.dynamic_storage b.release ++
          [some (buffer.mk 1
            (if b.capacity < c.size_ + 1 then max (b.capacity * 2) (c.size_ + 1) else b.capacity)
            (set_range (List.replicate
              (if b.capacity < c.size_ + 1 then max (b.capacity * 2) (c.size_ + 1)
                else b.capacity) none) 0 (xs ++ [v])))],
        objs := w.objs.set i (some { c with
          size_ := c.size_ + 1, dynamic_storage := w.heap.length }) } := by
  have hi : i < w.objs.length := lt_length_of_getElem? hobj
  have hp : c.dynamic_storage < w.heap.length := lt_length_of_getElem? hbuf
  obtain ⟨hcons, hxl⟩ := constructed_of_take hel (by omega)
  by_cases hfull : b.capacity < c.size_ + 1
  · have e := change_dynamic_storage_ok (max (b.capacity * 2) (c.size_ + 1)) c.size_ (some v)
      hobj hty hbuf hel (by omega) (fun _ => hcons) (by simp) hcopy halloc
    simp only [Option.toList_some, List.length_singleton] at e
    have h1 : max (b.capacity * 2) (c.size_ + 1) > b.capacity := by omega
    simp [push_back, size, capacity, is_small, get_obj, hobj, hty, enlarge_capacity,
      reserve_value, is_master, h1, e, hfull, my_shared_ptr.get_capacity, get_buf, hbuf,
      my_shared_ptr.use_count]
  · have hk : b.cnt_references ≠ 1 := by
      rcases hclone with h | h
      · exact h
      · exact absurd h hfull
    have e := change_dynamic_storage_ok b.capacity c.size_ none
      hobj hty hbuf hel (by omega) (fun h => absurd h hk) (by simpa using hle) hcopy halloc
    simp only [Option.toList_none, List.length_nil, Nat.add_zero, List.append_nil] at e
    have h2 : c.size_ < b.capacity := by omega
    simp [push_back, size, capacity, is_small, get_obj, hobj, hty, data, noexcept, make_master,
      make_master_to, is_master, modify_obj, value_type_copy, hcopy, construct_at, write_slot,
      iterator.add, hi, hlen, hfull, h2, world.slots, world.set_slots,
      my_shared_ptr.get_capacity, my_shared_ptr.use_count, get_buf, hbuf, hk, my_shared_ptr.get,
      e, set_range_append, hxl]

/-! ## Observing a container -/

theorem map_some_injective {xs ys : List T} (h : xs.map some = ys.map some) : xs = ys :=
  List.map_injective_iff.mpr (Option.some_injective T) h

theorem read_elements_ok {w : world T} {i : Nat} {r : storage} {l : List (Option T)}
    (hd : data_const i w = result.ok (iterator.mk r 0) w) (hs : w.slots r = some l) :
    ∀ (n : Nat) (xs : List T), l.take n = xs.map some → n ≤ l.length →
      read_elements i n w = result.ok xs w := by
  intro n
  induction n with
  | zero =>
    intro xs h _
    have : xs = [] := by
      have := congrArg List.length h
      simpa using this.symm
    simp [read_elements, this]
  | succ n ih =>
    intro xs h hn
    obtain ⟨hcons, hlen⟩ := constructed_of_take h hn
    obtain ⟨v, hv⟩ := hcons n (by omega)
    obtain ⟨ys, hys, hyl, _⟩ := take_of_constructed (constructed_mono hcons (show n ≤ n + 1 by omega))
    have hx : xs = ys ++ [v] := by
      apply map_some_injective
      rw [← h, List.take_succ, hys, hv]
      simp
    have e1 := ih ys hys (by omega)
    have e2 : deref (iterator.mk r n) w = result.ok v w := deref_ok _ (l := l) hs hv
    simp [read_elements, e1, operator_index_const, hd, iterator.add, e2, hx]

theorem observe_small {w : world T} {i : Nat} {c : socow_vector T} {xs : List T} (N : Nat)
    (hobj : w.objs[i]? = some (some c)) (hty : c.type = vector_type.SMALL)
    (hel : c.static_storage.take c.size_ = xs.map some)
    (hn : c.size_ ≤ c.static_storage.length) :
    elements i w = result.ok xs w ∧ size i w = result.ok c.size_ w ∧
      capacity N i w = result.ok N w ∧ is_small i w = result.ok true w := by
  have hd : data_const i w = result.ok (iterator.mk (storage.static_storage i) 0) w := by
    simp [data_const, is_small, get_obj, hobj, hty]
  have hs : w.slots (storage.static_storage i) = some c.static_storage := by
    simp [world.slots, hobj]
  have hsz : size i w = result.ok c.size_ w := by simp [size, get_obj, hobj]
  refine ⟨?_, hsz, ?_, ?_⟩
  · simp [elements, hsz, read_elements_ok hd hs c.size_ xs hel hn]
  · simp [capacity, is_small, get_obj, hobj, hty]
  · simp [is_small, get_obj, hobj, hty]

theorem observe_big {w : world T} {i : Nat} {c : socow_vector T} {b : buffer T}
    {xs : List T} (N : Nat)
    (hobj : w.objs[i]? = some (some c)) (hty : c.type = vector_type.BIG)
    (hbuf : w.heap[c.dynamic_storage]? = some (some b))
    (hel : b.arr.take c.size_ = xs.map some) (hn : c.size_ ≤ b.arr.length) :
    elements i w = result.ok xs w ∧ size i w = result.ok c.size_ w ∧
      capacity N i w = result.ok b.capacity w ∧ is_small i w = result.ok false w ∧
      data_const i w = result.ok (iterator.mk (storage.arr c.dynamic_storage) 0) w ∧
      my_shared_ptr.use_count c.dynamic_storage w = result.ok b.cnt_references w := by
  have hd : data_const i w = result.ok (iterator.mk (storage.arr c.dynamic_storage) 0) w := by
    simp [data_const, is_small, get_obj, hobj, hty, my_shared_ptr.get]
  have hs : w.slots (storage.arr c.dynamic_storage) = some b.arr := by
    simp [world.slots, hbuf]
  have hsz : size i w = result.ok c.size_ w := by simp [size, get_obj, hobj]
  refine ⟨?_, hsz, ?_, ?_, hd, ?_⟩
  · simp [elements, hsz, read_elements_ok hd hs c.size_ xs hel hn]
  · simp [capacity, is_small, get_obj, hobj, hty, my_shared_ptr.get_capacity, get_buf, hbuf]
  · simp [is_small, get_obj, hobj, hty]
  · simp [my_shared_ptr.use_count, get_buf, hbuf]

theorem is_master_small {w : world T} {i : Nat} {c : socow_vector T}
    (hobj : w.objs[i]? = some (some c)) (hty : c.type = vector_type.SMALL) :
    is_master i w = result.ok true w := by
  simp [is_master, is_small, get_obj, hobj, hty]

theorem is_master_big {w : world T} {i : Nat} {c : socow_vector T} {b : buffer T}
    (hobj : w.objs[i]? = some (some c)) (hty : c.type = vector_type.BIG)
    (hbuf : w.heap[c.dynamic_storage]? = some (some b)) :
    is_master i w = result.ok (decide (b.cnt_references = 1)) w := by
  simp [is_master, is_small, get_obj, hobj, hty, my_shared_ptr.use_count, get_buf, hbuf]

/-! ## Well-formed containers -/

theorem valid_cases {N : Nat} {w : world T} {i : Nat} (h : valid N w i) :
    (∃ (c : socow_vector T) (xs : List T), w.objs[i]? = some (some c) ∧ c.static_storage.length = N ∧
      c.type = vector_type.SMALL ∧ c.size_ ≤ N ∧
      c.static_storage.take c.size_ = xs.map some ∧ xs.length = c.size_) ∨
    (∃ (c : socow_vector T) (b : buffer T) (xs : List T), w.objs[i]? = some (some c) ∧ c.static_storage.length = N ∧
      c.type = vector_type.BIG ∧ w.heap[c.dynamic_storage]? = some (some b) ∧
      b.arr.length = b.capacity ∧ c.size_ ≤ b.capacity ∧
      b.arr.take c.size_ = xs.map some ∧ xs.length = c.size_ ∧ 1 ≤ b.cnt_references) := by
  obtain ⟨c, hobj, hlen, h | h⟩ := h
  · obtain ⟨hty, hle, hcons⟩ := h
    obtain ⟨xs, hxs, hl, _⟩ := take_of_constructed hcons
    exact Or.inl ⟨c, xs, hobj, hlen, hty, hle, hxs, hl⟩
  · obtain ⟨hty, b, hbuf, hbl, hle, hcons, hk⟩ := h
    obtain ⟨xs, hxs, hl, _⟩ := take_of_constructed hcons
    exact Or.inr ⟨c, b, xs, hobj, hlen, hty, hbuf, hbl, hle, hxs, hl, hk⟩

theorem valid_small {N : Nat} {w : world T} {i : Nat} {c : socow_vector T} {xs : List T}
    (hobj : w.objs[i]? = some (some c)) (hlen : c.static_storage.length = N)
    (hty : c.type = vector_type.SMALL) (hle : c.size_ ≤ N)
    (hel : c.static_storage.take c.size_ = xs.map some) : valid N w i :=
  ⟨c, hobj, hlen, Or.inl ⟨hty, hle, (constructed_of_take hel (by omega)).1⟩⟩

theorem valid_big {N : Nat} {w : world T} {i : Nat} {c : socow_vector T} {b : buffer T}
    {xs : List T}
    (hobj : w.objs[i]? = some (some c)) (hlen : c.static_storage.length = N)
    (hty : c.type = vector_type.BIG) (hbuf : w.heap[c.dynamic_storage]? = some (some b))
    (hbl : b.arr.length = b.capacity) (hle : c.size_ ≤ b.capacity)
    (hel : b.arr.take c.size_ = xs.map some) (hk : 1 ≤ b.cnt_references) : valid N w i :=
  ⟨c, hobj, hlen, Or.inr ⟨hty, b, hbuf, hbl, hle, (constructed_of_take hel (by omega)).1, hk⟩⟩

theorem result_ok_inj {a b : α} {w1 w2 w3 : world T} {m : M T α}
    (h1 : m w1 = result.ok a w2) (h2 : m w1 = result.ok b w3) : a = b ∧ w2 = w3 := by
  rw [h1] at h2
  simpa using h2

theorem destroy_slots_length (n : Nat) : ∀ l : List (Option T),
    (destroy_slots l n).length = l.length := by
  induction n with
  | zero => intro l; rfl
  | succ n ih => intro l; simp [destroy_slots, ih]

theorem take_set_append {l : List (Option T)} {n : Nat} {xs : List T} (v : T)
    (h : l.take n = xs.map some) (hn : n < l.length) :
    (l.set n (some v)).take (n + 1) = (xs ++ [v]).map some := by
  rw [List.take_succ, List.set_take, List.set_eq_of_length_le (by simp), h,
    List.getElem?_set_self hn]
  simp

theorem exists_world {m : M T α} {w W : world T} {a : α} (h : m w = result.ok a W) :
    ∃ w1, m w = result.ok a w1 ∧ w1 = W :=
  ⟨W, h, rfl⟩

/-- What `push_back` does to a well-formed container when nothing throws. -/
theorem push_back_spec {N : Nat} {w : world T} {i : Nat} (v : T)
    (hv : valid N w i) (hnf : no_failure w) :
    ∃ xs s c t w1, elements i w = result.ok xs w ∧ size i w = result.ok s w ∧
      capacity N i w = result.ok c w ∧ is_small i w = result.ok t w ∧
      push_back N i v w = result.ok () w1 ∧ valid N w1 i ∧ no_failure w1 ∧
      is_master i w1 = result.ok true w1 ∧
      elements i w1 = result.ok (xs ++ [v]) w1 ∧ size i w1 = result.ok (s + 1) w1 ∧
      (s + 1 ≤ c → capacity N i w1 = result.ok c w1 ∧ is_small i w1 = result.ok t w1) ∧
      (c < s + 1 → is_small i w1 = result.ok false w1 ∧
        capacity N i w1 = result.ok (max (2 * c) (s + 1)) w1) := by
  obtain ⟨hcopy, halloc⟩ := hnf
  rcases valid_cases hv with ⟨c, xs, hobj, hlen, hty, hle, hel, hxl⟩ |
    ⟨c, b, xs, hobj, hlen, hty, hbuf, hbl, hle, hel, hxl, hk⟩
  · obtain ⟨o1, o2, o3, o4⟩ := observe_small N hobj hty hel (by omega)
    have hi : i < w.objs.length := lt_length_of_getElem? hobj
    refine ⟨xs, c.size_, N, true, ?_⟩
    by_cases hroom : c.size_ + 1 ≤ N
    · refine ⟨_, o1, o2, o3, o4, push_back_small_room N v hobj hty hroom hlen hcopy, ?_⟩
      have hel1 := take_set_append v hel (by omega)
      have hobj1 : ({ w with objs := w.objs.set i (some { c with
          size_ := c.size_ + 1,
          static_storage := c.static_storage.set c.size_ (some v) }) } : world T).objs[i]?
          = some (some { c with size_ := c.size_ + 1,
                                static_storage := c.static_storage.set c.size_ (some v) }) := by
        simp [hi]
      obtain ⟨p1, p2, p3, p4⟩ := observe_small N hobj1 hty hel1 (by simp; omega)
      exact ⟨valid_small hobj1 (by simp [hlen]) hty hroom hel1, ⟨hcopy, halloc⟩,
        is_master_small hobj1 hty, p1, p2,
        fun _ => ⟨p3, p4⟩, fun h => absurd h (by omega)⟩
    · have hfull : c.size_ = N := by omega
      refine ⟨_, o1, o2, o3, o4, push_back_small_full N v hobj hty hfull hlen hel hcopy halloc, ?_⟩
      have hel1 : (set_range (List.replicate (max (N * 2) (N + 1)) (none : Option T)) 0
          (xs ++ [v])).take (N + 1) = (xs ++ [v]).map some := by
        have := set_range_take (xs ++ [v]) (List.replicate (max (N * 2) (N + 1)) none) 0
          (by simp; omega)
        simpa [hxl, hfull] using this
      have hobj1 : ({ w with
          heap := w.heap ++ [some (buffer.mk 1 (max (N * 2) (N + 1))
            (set_range (List.replicate (max (N * 2) (N + 1)) none) 0 (xs ++ [v])))],
          objs := w.objs.set i (some (socow_vector.mk vector_type.BIG
            (N + 1) w.heap.length (destroy_slots c.static_storage N))) } : world T).objs[i]?
          = some (some (socow_vector.mk vector_type.BIG
            (N + 1) w.heap.length (destroy_slots c.static_storage N))) := by
        simp [hi]
      have hbuf1 : ({ w with
          heap := w.heap ++ [some (buffer.mk 1 (max (N * 2) (N + 1))
            (set_range (List.replicate (max (N * 2) (N + 1)) none) 0 (xs ++ [v])))],
          objs := w.objs.set i (some (socow_vector.mk vector_type.BIG
            (N + 1) w.heap.length (destroy_slots c.static_storage N))) } : world T).heap[
              (socow_vector.mk vector_type.BIG (N + 1) w.heap.length
                (destroy_slots c.static_storage N)).dynamic_storage]?
          = some (some (buffer.mk 1 (max (N * 2) (N + 1))
            (set_range (List.replicate (max (N * 2) (N + 1)) none) 0 (xs ++ [v])))) := by
        simp
      obtain ⟨p1, p2, p3, p4, _, _⟩ := observe_big N hobj1 rfl hbuf1 hel1 (by simp)
      refine ⟨valid_big hobj1 (by simp [destroy_slots_length, hlen]) rfl hbuf1 (by simp)
        (by simp) hel1 (by simp), ⟨hcopy, halloc⟩,
        by simpa using is_master_big hobj1 rfl hbuf1, p1, by simpa [hfull] using p2,
        fun h => absurd h (by omega), fun _ => ⟨p4, ?_⟩⟩
      rw [p3, hfull]
      simp [Nat.mul_comm]
  · obtain ⟨o1, o2, o3, o4, _, _⟩ := observe_big N hobj hty hbuf hel (by omega)
    have hi : i < w.objs.length := lt_length_of_getElem? hobj
    have hp : c.dynamic_storage < w.heap.length := lt_length_of_getElem? hbuf
    refine ⟨xs, c.size_, b.capacity, false, ?_⟩
    by_cases hclone : b.cnt_references ≠ 1 ∨ b.capacity < c.size_ + 1
    · obtain ⟨w1, e, hw1⟩ := exists_world
        (push_back_big_clone N v hobj hty hbuf hclone hle hbl hel hcopy halloc)
      have hobj1 : w1.objs[i]? = some (some { c with
          size_ := c.size_ + 1, dynamic_storage := w.heap.length }) := by
        simp [hw1, hi]
      have hbuf1 : w1.heap[w.heap.length]? = some (some (buffer.mk 1
          (if b.capacity < c.size_ + 1 then max (b.capacity * 2) (c.size_ + 1) else b.capacity)
          (set_range (List.replicate
            (if b.capacity < c.size_ + 1 then max (b.capacity * 2) (c.size_ + 1)
              else b.capacity) none) 0 (xs ++ [v])))) := by
        simp [hw1]
      have hcap1 : c.size_ + 1 ≤
          (if b.capacity < c.size_ + 1 then max (b.capacity * 2) (c.size_ + 1)
            else b.capacity) := by
        split <;> omega
      have hel1 : (set_range (List.replicate
            (if b.capacity < c.size_ + 1 then max (b.capacity * 2) (c.size_ + 1)
              else b.capacity) (none : Option T)) 0 (xs ++ [v])).take (c.size_ + 1)
          = (xs ++ [v]).map some := by
        have := set_range_take (xs ++ [v]) (List.replicate
            (if b.capacity < c.size_ + 1 then max (b.capacity * 2) (c.size_ + 1)
              else b.capacity) none) 0 (by simp [hxl]; exact hcap1)
        simpa [hxl] using this
      obtain ⟨p1, p2, p3, p4, _, _⟩ := observe_big N hobj1 hty hbuf1 hel1 (by simp; exact hcap1)
      refine ⟨w1, o1, o2, o3, o4, e, valid_big hobj1 hlen hty hbuf1 (by simp)
        hcap1 hel1 (by simp), by simp [no_failure, hw1, hcopy, halloc],
        by simpa using is_master_big hobj1 hty hbuf1, p1, p2,
        fun h => ⟨?_, p4⟩, fun h => ⟨p4, ?_⟩⟩
      · rw [p3]
        simp [show ¬ b.capacity < c.size_ + 1 by omega]
      · rw [p3]
        simp [h, Nat.mul_comm]
    · have hk1 : b.cnt_references = 1 := by
        by_contra h
        exact hclone (Or.inl h)
      have hroom : c.size_ + 1 ≤ b.capacity := by
        by_contra h
        exact hclone (Or.inr (by omega))
      obtain ⟨w1, e, hw1⟩ := exists_world
        (push_back_big_master_room N v hobj hty hbuf hk1 hroom hbl hcopy)
      have hobj1 : w1.objs[i]? = some (some { c with size_ := c.size_ + 1 }) := by
        simp [hw1, hi]
      have hbuf1 : w1.heap[c.dynamic_storage]? = some (some { b with
          arr := b.arr.set c.size_ (some v) }) := by
        simp [hw1, hp]
      have hel1 := take_set_append v hel (by omega)
      obtain ⟨p1, p2, p3, p4, _, _⟩ := observe_big N hobj1 hty hbuf1 hel1 (by simp; omega)
      exact ⟨w1, o1, o2, o3, o4, e, valid_big hobj1 hlen hty hbuf1 (by simp [hbl])
        hroom hel1 hk, by simp [no_failure, hw1, hcopy, halloc],
        by simpa [hk1] using is_master_big hobj1 hty hbuf1, p1, p2,
        fun _ => ⟨p3, p4⟩, fun h => absurd h (by omega)⟩

/-! ## The copy constructor -/

theorem copy_ctor_elementwise {w : world T} {other : Nat} {c : socow_vector T}
    {r : storage} {l : List (Option T)} {xs : List T} (N : Nat)
    (hobj : w.objs[other]? = some (some c))
    (hr : r = (if c.type = vector_type.SMALL then storage.static_storage other
      else storage.arr c.dynamic_storage))
    (hs : w.slots r = some l) (hel : l.take c.size_ = xs.map some)
    (hn : c.size_ ≤ l.length) (hle : c.size_ ≤ N)
    (hcopy : w.copy_throws = []) :
    copy_ctor N other w = result.ok w.objs.length
      { w with objs := w.objs ++ [some (socow_vector.mk vector_type.SMALL c.size_ 0
          (set_range (List.replicate N none) 0 xs))] } := by
  have hi : other < w.objs.length := lt_length_of_getElem? hobj
  obtain ⟨hcons, hxl⟩ := constructed_of_take hel hn
  generalize hw1 : ({ w with objs := w.objs ++ [some (socow_vector.mk vector_type.SMALL c.size_ 0
    (List.replicate N none))] } : world T) = w1
  have hobj1 : w1.objs[other]? = some (some c) := by
    simp [← hw1, List.getElem?_append_left hi, hobj]
  have hsz1 : size other w1 = result.ok c.size_ w1 := by
    simp [size, get_obj, hobj1]
  have hd1 : data_const other w1 = result.ok (iterator.mk r 0) w1 := by
    by_cases ht : c.type = vector_type.SMALL
    · simp [data_const, is_small, get_obj, hobj1, ht, hr]
    · simp [data_const, is_small, get_obj, hobj1, ht, hr, my_shared_ptr.get]
  have hrne : r ≠ storage.static_storage w.objs.length := by
    rw [hr]
    split
    · simp; omega
    · simp
  have hs1 : w1.slots r = some l := by
    rw [← hs, ← hw1]
    cases r with
    | static_storage o =>
      have ho : o < w.objs.length := by
        rcases hc : w.objs[o]? with _ | _ | x
        · simp [world.slots, hc] at hs
        · exact lt_length_of_getElem? hc
        · exact lt_length_of_getElem? hc
      simp [world.slots, List.getElem?_append_left ho]
    | arr p => simp [world.slots]
  have hd : w1.slots (storage.static_storage w.objs.length) = some (List.replicate N none) := by
    simp [← hw1, world.slots]
  have e2 := uninitialized_copy_from_ok _ _ hrne 0 0 l xs 0 _ w1 (by simp [← hw1, hcopy]) hs1 hd
    (fun j v hv => by simpa using getElem?_of_take_eq_map hel hv)
    (by simp; omega)
  rw [hxl] at e2
  simp only [Nat.add_zero] at e2
  have hw2 : w1.set_slots (storage.static_storage w.objs.length)
      (set_range (List.replicate N none) 0 xs)
      = { w with objs := w.objs ++ [some (socow_vector.mk vector_type.SMALL c.size_ 0
          (set_range (List.replicate N none) 0 xs))] } := by
    simp [← hw1, world.set_slots]
  rw [hw2] at e2
  have hsz : size other w = result.ok c.size_ w := by simp [size, get_obj, hobj]
  simp only [copy_ctor, bind_run, hsz, new_obj, hle, if_true, hw1, try_catch, hsz1, ite_run,
    hd1, uninitialized_copy, e2, pure_run]

theorem copy_ctor_share {w : world T} {other : Nat} {c : socow_vector T} {b : buffer T}
    (N : Nat) (hobj : w.objs[other]? = some (some c))
    (hbuf : w.heap[c.dynamic_storage]? = some (some b)) (hgt : N < c.size_) :
    copy_ctor N other w = result.ok w.objs.length
      { w with
        heap := w.heap.set c.dynamic_storage (some { b with
          cnt_references := b.cnt_references + 1 }),
        objs := w.objs ++ [some (socow_vector.mk vector_type.BIG c.size_ c.dynamic_storage
          (List.replicate N none))] } := by
  have hi : other < w.objs.length := lt_length_of_getElem? hobj
  have h1 : ¬ c.size_ ≤ N := by omega
  simp [copy_ctor, size, get_obj, hobj, new_obj, h1, try_catch, List.getElem?_append_left hi,
    my_shared_ptr.copy_ctor, modify_buf, hbuf, modify_obj]

theorem set_range_take_zero (xs : List T) (n : Nat) (hn : xs.length ≤ n) :
    (set_range (List.replicate n (none : Option T)) 0 xs).take xs.length = xs.map some := by
  have := set_range_take xs (List.replicate n none) 0 (by simpa using hn)
  simpa using this

/-- What the copy constructor does when nothing throws. -/
theorem copy_ctor_spec {N : Nat} {w : world T} {a : Nat} (hv : valid N w a)
    (hnf : no_failure w) :
    ∃ xs s w1, elements a w = result.ok xs w ∧ size a w = result.ok s w ∧
      copy_ctor N a w = result.ok w.objs.length w1 ∧ a < w.objs.length ∧
      valid N w1 a ∧ valid N w1 w.objs.length ∧ no_failure w1 ∧
      size w.objs.length w1 = result.ok s w1 ∧ elements w.objs.length w1 = result.ok xs w1 ∧
      size a w1 = result.ok s w1 ∧ elements a w1 = result.ok xs w1 ∧
      (s ≤ N → is_small w.objs.length w1 = result.ok true w1 ∧ w1.heap = w.heap) ∧
      (N < s → is_small w.objs.length w1 = result.ok false w1 ∧
        ∃ p cap k, data_const a w = result.ok (iterator.mk (storage.arr p) 0) w ∧
          data_const a w1 = result.ok (iterator.mk (storage.arr p) 0) w1 ∧
          data_const w.objs.length w1 = result.ok (iterator.mk (storage.arr p) 0) w1 ∧
          capacity N a w = result.ok cap w ∧
          capacity N w.objs.length w1 = result.ok cap w1 ∧
          my_shared_ptr.use_count p w = result.ok k w ∧
          my_shared_ptr.use_count p w1 = result.ok (k + 1) w1) := by
  obtain ⟨hcopy, halloc⟩ := hnf
  rcases valid_cases hv with ⟨c, xs, hobj, hlen, hty, hle, hel, hxl⟩ |
    ⟨c, b, xs, hobj, hlen, hty, hbuf, hbl, hle, hel, hxl, hk⟩
  · obtain ⟨o1, o2, _, _⟩ := observe_small N hobj hty hel (by omega)
    have hi : a < w.objs.length := lt_length_of_getElem? hobj
    obtain ⟨w1, e, hw1⟩ := exists_world (copy_ctor_elementwise (r := storage.static_storage a)
      N hobj (by simp [hty]) (by simp [world.slots, hobj]) hel (by omega) hle hcopy)
    have hobja : w1.objs[a]? = some (some c) := by
      simp [hw1, List.getElem?_append_left hi, hobj]
    have hobjb : w1.objs[w.objs.length]? = some (some (socow_vector.mk vector_type.SMALL
        c.size_ 0 (set_range (List.replicate N none) 0 xs))) := by
      simp [hw1]
    have helb : (set_range (List.replicate N (none : Option T)) 0 xs).take c.size_
        = xs.map some := by
      rw [← hxl]; exact set_range_take_zero xs N (by omega)
    obtain ⟨p1, p2, _, p4⟩ := observe_small N hobjb rfl helb (by simp; omega)
    obtain ⟨q1, q2, _, _⟩ := observe_small N hobja hty hel (by omega)
    exact ⟨xs, c.size_, w1, o1, o2, e, hi, valid_small hobja hlen hty hle hel,
      valid_small hobjb (by simp) rfl hle helb, by simp [no_failure, hw1, hcopy, halloc],
      p2, p1, q2, q1, fun _ => ⟨p4, by simp [hw1]⟩, fun h => absurd h (by omega)⟩
  · obtain ⟨o1, o2, o3, _, o5, o6⟩ := observe_big N hobj hty hbuf hel (by omega)
    have hi : a < w.objs.length := lt_length_of_getElem? hobj
    have hp : c.dynamic_storage < w.heap.length := lt_length_of_getElem? hbuf
    by_cases hsz : c.size_ ≤ N
    · obtain ⟨w1, e, hw1⟩ := exists_world (copy_ctor_elementwise
        (r := storage.arr c.dynamic_storage) N hobj (by simp [hty])
        (by simp [world.slots, hbuf]) hel (by omega) hsz hcopy)
      have hobja : w1.objs[a]? = some (some c) := by
        simp [hw1, List.getElem?_append_left hi, hobj]
      have hbufa : w1.heap[c.dynamic_storage]? = some (some b) := by
        simp [hw1, hbuf]
      have hobjb : w1.objs[w.objs.length]? = some (some (socow_vector.mk vector_type.SMALL
          c.size_ 0 (set_range (List.replicate N none) 0 xs))) := by
        simp [hw1]
      have helb : (set_range (List.replicate N (none : Option T)) 0 xs).take c.size_
          = xs.map some := by
        rw [← hxl]; exact set_range_take_zero xs N (by omega)
      obtain ⟨p1, p2, _, p4⟩ := observe_small N hobjb rfl helb (by simp; omega)
      obtain ⟨q1, q2, _, _⟩ := observe_big N hobja hty hbufa hel (by omega)
      exact ⟨xs, c.size_, w1, o1, o2, e, hi, valid_big hobja hlen hty hbufa hbl hle hel hk,
        valid_small hobjb (by simp) rfl hsz helb, by simp [no_failure, hw1, hcopy, halloc],
        p2, p1, q2, q1, fun _ => ⟨p4, by simp [hw1]⟩, fun h => absurd h (by omega)⟩
    · obtain ⟨w1, e, hw1⟩ := exists_world (copy_ctor_share N hobj hbuf (by omega))
      have hobja : w1.objs[a]? = some (some c) := by
        simp [hw1, List.getElem?_append_left hi, hobj]
      have hbufa : w1.heap[c.dynamic_storage]? = some (some { b with
          cnt_references := b.cnt_references + 1 }) := by
        simp [hw1, hp]
      have hobjb : w1.objs[w.objs.length]? = some (some (socow_vector.mk vector_type.BIG
          c.size_ c.dynamic_storage (List.replicate N none))) := by
        simp [hw1]
      obtain ⟨p1, p2, p3, p4, p5, p6⟩ := observe_big N hobjb rfl hbufa hel (by simp; omega)
      obtain ⟨q1, q2, _, _, q5, _⟩ := observe_big N hobja hty hbufa hel (by simp; omega)
      exact ⟨xs, c.size_, w1, o1, o2, e, hi,
        valid_big hobja hlen hty hbufa hbl hle hel (by simp),
        valid_big hobjb (by simp) rfl hbufa hbl hle hel (by simp),
        by simp [no_failure, hw1, hcopy, halloc],
        p2, p1, q2, q1, fun h => absurd h hsz,
        fun _ => ⟨p4, c.dynamic_storage, b.capacity, b.cnt_references, o5, q5, p5, o3, p3,
          o6, p6⟩⟩

/-! ## The element loops of `insert` and `erase`, on lists -/

theorem swap_slots_length (l : List (Option T)) (a b : Nat) :
    (swap_slots l a b).length = l.length := by
  unfold swap_slots
  split <;> simp

theorem swap_slots_getElem? {l : List (Option T)} {a b : Nat} (ha : a < l.length)
    (hb : b < l.length) (j : Nat) :
    (swap_slots l a b)[j]? = if j = b then l[a]? else if j = a then l[b]? else l[j]? := by
  have h1 : l[a]? = some l[a] := List.getElem?_eq_getElem ha
  have h2 : l[b]? = some l[b] := List.getElem?_eq_getElem hb
  simp only [swap_slots, h1, h2]
  by_cases hjb : j = b
  · subst hjb
    simp [List.getElem?_set_self, ha, hb]
  · by_cases hja : j = a
    · subst hja
      rw [List.getElem?_set_ne (Ne.symm hjb), List.getElem?_set_self ha]
      simp [hjb]
    · rw [List.getElem?_set_ne (Ne.symm hjb), List.getElem?_set_ne (Ne.symm hja)]
      simp [hjb, hja]

theorem constructed_lt_length {l : List (Option T)} {n j : Nat} (h : constructed l n)
    (hj : j < n) : j < l.length := by
  obtain ⟨v, hv⟩ := h j hj
  exact lt_length_of_getElem? hv

theorem swap_slots_constructed {l : List (Option T)} {n a b : Nat} (h : constructed l n)
    (ha : a < n) (hb : b < n) : constructed (swap_slots l a b) n := by
  intro j hj
  rw [swap_slots_getElem? (constructed_lt_length h ha) (constructed_lt_length h hb)]
  split
  · exact h a ha
  · split
    · exact h b hb
    · exact h j hj

/-- The compaction loop of `erase`, round by round. -/
theorem erase_loop_slots (seg : Nat) :
    ∀ (cnt start : Nat) (l : List (Option T)), constructed l (start + cnt + seg) →
      (for_range_slots (fun k l => swap_slots l k (k + seg)) start cnt l).length = l.length ∧
      (∀ j, j < start →
        (for_range_slots (fun k l => swap_slots l k (k + seg)) start cnt l)[j]? = l[j]?) ∧
      (∀ j, start ≤ j → j < start + cnt →
        (for_range_slots (fun k l => swap_slots l k (k + seg)) start cnt l)[j]?
          = l[j + seg]?) ∧
      constructed (for_range_slots (fun k l => swap_slots l k (k + seg)) start cnt l)
        (start + cnt + seg) := by
  intro cnt
  induction cnt with
  | zero =>
    intro start l hc
    refine ⟨rfl, fun _ _ => rfl, fun j h1 h2 => by omega, hc⟩
  | succ cnt ih =>
    intro start l hc
    have ha : start < l.length := constructed_lt_length hc (by omega)
    have hb : start + seg < l.length := constructed_lt_length hc (by omega)
    have hc1 : constructed (swap_slots l start (start + seg)) (start + 1 + cnt + seg) := by
      have := swap_slots_constructed hc (show start < start + (cnt + 1) + seg by omega)
        (show start + seg < start + (cnt + 1) + seg by omega)
      rwa [show start + 1 + cnt + seg = start + (cnt + 1) + seg by omega]
    obtain ⟨h1, h2, h3, h4⟩ := ih (start + 1) (swap_slots l start (start + seg)) hc1
    simp only [for_range_slots]
    refine ⟨by rw [h1, swap_slots_length], ?_, ?_, ?_⟩
    · intro j hj
      rw [h2 j (by omega), swap_slots_getElem? ha hb]
      simp [show j ≠ start + seg by omega, show j ≠ start by omega]
    · intro j hj1 hj2
      by_cases hjs : j = start
      · subst hjs
        rw [h2 j (by omega), swap_slots_getElem? ha hb]
        by_cases hseg : seg = 0
        · subst hseg; simp
        · simp [show j ≠ j + seg by omega]
      · rw [h3 j (by omega) (by omega), swap_slots_getElem? ha hb]
        simp [show j + seg ≠ start + seg by omega, show j + seg ≠ start by omega]
    · rwa [show start + (cnt + 1) + seg = start + 1 + cnt + seg by omega]

/-- The rotation loop of `insert`, round by round; `n` is the slot of the element
that was appended. -/
theorem insert_loop_slots (n : Nat) :
    ∀ (cnt start : Nat) (l : List (Option T)), start + cnt = n → constructed l (n + 1) →
      (for_range_slots (fun k l => swap_slots l n k) start cnt l).length = l.length ∧
      (∀ j, j < start →
        (for_range_slots (fun k l => swap_slots l n k) start cnt l)[j]? = l[j]?) ∧
      (for_range_slots (fun k l => swap_slots l n k) start cnt l)[start]? = l[n]? ∧
      (∀ j, start < j → j ≤ n →
        (for_range_slots (fun k l => swap_slots l n k) start cnt l)[j]? = l[j - 1]?) ∧
      constructed (for_range_slots (fun k l => swap_slots l n k) start cnt l) (n + 1) := by
  intro cnt
  induction cnt with
  | zero =>
    intro start l hs hc
    have : start = n := by omega
    subst this
    exact ⟨rfl, fun _ _ => rfl, rfl, fun j h1 h2 => by omega, hc⟩
  | succ cnt ih =>
    intro start l hs hc
    have ha : n < l.length := constructed_lt_length hc (by omega)
    have hb : start < l.length := constructed_lt_length hc (by omega)
    obtain ⟨h1, h2, h3, h4, h5⟩ := ih (start + 1) (swap_slots l n start) (by omega)
      (swap_slots_constructed hc (by omega) (by omega))
    simp only [for_range_slots]
    refine ⟨by rw [h1, swap_slots_length], ?_, ?_, ?_, h5⟩
    · intro j hj
      rw [h2 j (by omega), swap_slots_getElem? ha hb]
      simp [show j ≠ start by omega, show j ≠ n by omega]
    · rw [h2 start (by omega), swap_slots_getElem? ha hb]
      simp
    · intro j hj1 hj2
      by_cases hjs : j = start + 1
      · subst hjs
        rw [h3, swap_slots_getElem? ha hb]
        simp [show n ≠ start by omega]
      · rw [h4 j (by omega) hj2, swap_slots_getElem? ha hb]
        simp [show j - 1 ≠ start by omega, show j - 1 ≠ n by omega]



theorem getElem?_of_take_map {l : List (Option T)} {n : Nat} {xs : List T}
    (h : l.take n = xs.map some) {j : Nat} (hj : j < n) : l[j]? = xs[j]?.map some := by
  rw [← List.getElem?_take_of_lt hj, h, List.getElem?_map]

theorem erase_loop_take {l : List (Option T)} {n fi la : Nat} {xs : List T}
    (h : l.take n = xs.map some) (hn : n ≤ l.length) (h1 : fi ≤ la) (h2 : la ≤ n) :
    (for_range_slots (fun k l => swap_slots l k (k + (la - fi))) fi (n - (la - fi) - fi)
      l).take (n - (la - fi)) = (xs.take fi ++ xs.drop la).map some := by
  obtain ⟨hcons, hxl⟩ := constructed_of_take h hn
  obtain ⟨g1, g2, g3, _⟩ := erase_loop_slots (la - fi) (n - (la - fi) - fi) fi l
    (by rwa [show fi + (n - (la - fi) - fi) + (la - fi) = n by omega])
  apply List.ext_getElem?
  intro j
  by_cases hj : j < n - (la - fi)
  · rw [List.getElem?_take_of_lt hj]
    by_cases hjf : j < fi
    · rw [g2 j hjf, getElem?_of_take_map h (by omega), List.getElem?_map,
        List.getElem?_append_left (by simp; omega), List.getElem?_take_of_lt hjf]
    · rw [g3 j (by omega) (by omega), getElem?_of_take_map h (by omega)]
      rw [List.getElem?_map, List.getElem?_append_right (by simp; omega)]
      simp only [List.length_take, List.getElem?_drop]
      congr 2
      omega
  · rw [List.getElem?_take_eq_none (by omega), List.getElem?_eq_none]
    simp
    omega

theorem insert_loop_take {l : List (Option T)} {n id : Nat} {xs : List T} {v : T}
    (h : l.take (n + 1) = (xs ++ [v]).map some) (hn : n + 1 ≤ l.length)
    (hxl : xs.length = n) (hid : id ≤ n) :
    (for_range_slots (fun k l => swap_slots l n k) id (n - id) l).take (n + 1)
      = (xs.take id ++ [v] ++ xs.drop id).map some := by
  obtain ⟨hcons, _⟩ := constructed_of_take h hn
  obtain ⟨g1, g2, g3, g4, _⟩ := insert_loop_slots n (n - id) id l (by omega) hcons
  apply List.ext_getElem?
  intro j
  by_cases hj : j < n + 1
  · rw [List.getElem?_take_of_lt hj]
    by_cases hjf : j < id
    · rw [g2 j hjf, getElem?_of_take_map h (by omega), List.getElem?_map,
        List.getElem?_append_left (by omega), List.getElem?_append_left (by simp; omega),
        List.getElem?_append_left (by simp; omega), List.getElem?_take_of_lt hjf]
    · by_cases hji : j = id
      · subst hji
        rw [g3, getElem?_of_take_map h (by omega), List.getElem?_map,
          List.getElem?_append_right (by omega),
          List.getElem?_append_left (by simp; omega),
          List.getElem?_append_right (by simp)]
        simp [hxl, Nat.min_eq_left hid]
      · rw [g4 j (by omega) (by omega), getElem?_of_take_map h (by omega)]
        rw [List.getElem?_map,
          List.getElem?_append_left (by rw [hxl]; omega),
          List.getElem?_append_right (by simp; omega)]
        simp only [List.length_append, List.length_take, List.length_singleton,
          List.getElem?_drop]
        congr 2
        omega
  · rw [List.getElem?_take_eq_none (by omega), List.getElem?_eq_none]
    simp
    omega

/-! ## Loops of a container that owns its storage -/

theorem std_swap_ok {w : world T} {r : storage} {l : List (Option T)} {a b : Nat} {x y : T}
    (hs : w.slots r = some l) (ha : l[a]? = some (some x)) (hb : l[b]? = some (some y)) :
    std_swap (iterator.mk r a) (iterator.mk r b) w
      = result.ok () (w.set_slots r (swap_slots l a b)) := by
  have e1 : deref (iterator.mk r a) w = result.ok x w := deref_ok _ (l := l) hs ha
  have e2 : deref (iterator.mk r b) w = result.ok y w := deref_ok _ (l := l) hs hb
  have e3 := assign_at_ok (iterator.mk r a) (w := w) y hs ha
  have hb2 : (l.set a (some y))[b]? = some (some (if a = b then y else y)) := by
    by_cases hab : a = b
    · subst hab
      simp [List.getElem?_set_self (lt_length_of_getElem? ha)]
    · simp [List.getElem?_set_ne hab, hb]
  have e4 := assign_at_ok (iterator.mk r b)
    (w := w.set_slots r (l.set a (some y))) x (slots_set_slots_same hs _) hb2
  simp only [std_swap, bind_run, e1, e2, e3, e4, set_slots_set_slots, swap_slots, ha, hb]

theorem for_range_owned {i : Nat} {r : storage} {n : Nat} (body : Nat → M T Unit)
    (f : Nat → List (Option T) → List (Option T)) (P : List (Option T) → Prop) (hi : Nat)
    (hbody : ∀ k l w, k < hi → owns w i r n → w.slots r = some l → P l →
      body k w = result.ok () (w.set_slots r (f k l)) ∧ P (f k l)) :
    ∀ (cnt start : Nat) (l : List (Option T)) (w : world T), start + cnt ≤ hi →
      owns w i r n → w.slots r = some l → P l →
      for_range body start cnt w
        = result.ok () (w.set_slots r (for_range_slots f start cnt l)) := by
  intro cnt
  induction cnt with
  | zero =>
    intro start l w _ _ hs _
    simp [for_range, for_range_slots, set_slots_self hs]
  | succ cnt ih =>
    intro start l w hle ho hs hP
    obtain ⟨e, hP1⟩ := hbody start l w (by omega) ho hs hP
    simp only [for_range, bind_run, e, for_range_slots]
    rw [ih (start + 1) (f start l) _ (by omega) (owns_set_slots ho _ _)
      (slots_set_slots_same hs _) hP1, set_slots_set_slots]

theorem capacity_of_owns (N : Nat) {w : world T} {i : Nat} {r : storage} {n : Nat}
    (h : owns w i r n) : ∃ cap, capacity N i w = result.ok cap w := by
  rcases h with ⟨d, h, hr⟩ | ⟨p, cap, h, hr, hb⟩
  · obtain ⟨c, hc, ht, _, _⟩ := header_eq_some h
    exact ⟨N, by simp [capacity, is_small, get_obj, hc, ht]⟩
  · obtain ⟨c, hc, ht, _, hd⟩ := header_eq_some h
    obtain ⟨b, hb, hk, _⟩ := buf_header_eq_some hb
    exact ⟨b.capacity, by
      simp [capacity, is_small, get_obj, hc, ht, my_shared_ptr.get_capacity, get_buf, hd, hb]⟩

@[simp] theorem slots_set_size (w : world T) (i n : Nat) (r : storage) :
    (w.set_size i n).slots r = w.slots r := by
  rcases hc : w.objs[i]? with _ | _ | c
  · simp [world.set_size, hc]
  · simp [world.set_size, hc]
  · cases r with
    | static_storage o =>
      simp only [world.set_size, hc, world.slots]
      by_cases h : i = o
      · subst h
        simp [hc, lt_length_of_getElem? hc]
      · simp [List.getElem?_set_ne h]
    | arr p => simp [world.set_size, hc, world.slots]

@[simp] theorem buf_header_set_size (w : world T) (i n p : Nat) :
    (w.set_size i n).buf_header p = w.buf_header p := by
  rcases hc : w.objs[i]? with _ | _ | c <;> simp [world.set_size, hc, world.buf_header]

theorem header_set_size {w : world T} {i : Nat} {t : vector_type} {n d : Nat}
    (h : w.header i = some (t, n, d)) (m : Nat) :
    (w.set_size i m).header i = some (t, m, d) := by
  obtain ⟨c, hc, ht, _, hd⟩ := header_eq_some h
  simp [world.set_size, hc, world.header, lt_length_of_getElem? hc, ht, hd]

theorem owns_set_size {w : world T} {i : Nat} {r : storage} {n : Nat} (h : owns w i r n)
    (m : Nat) : owns (w.set_size i m) i r m := by
  rcases h with ⟨d, h, hr⟩ | ⟨p, cap, h, hr, hb⟩
  · exact Or.inl ⟨d, header_set_size h m, hr⟩
  · exact Or.inr ⟨p, cap, header_set_size h m, hr, by simpa using hb⟩

theorem set_size_set_size (w : world T) (i n m : Nat) :
    (w.set_size i n).set_size i m = w.set_size i m := by
  rcases hc : w.objs[i]? with _ | _ | c
  · simp [world.set_size, hc]
  · simp [world.set_size, hc]
  · simp [world.set_size, hc, lt_length_of_getElem? hc]

theorem set_size_set_slots (w : world T) (i n : Nat) (r : storage) (l : List (Option T)) :
    (w.set_slots r l).set_size i n = (w.set_size i n).set_slots r l := by
  rcases hc : w.objs[i]? with _ | _ | c
  · cases r with
    | static_storage o =>
      rcases ho : w.objs[o]? with _ | _ | c2
      · simp [world.set_size, world.set_slots, hc, ho]
      · simp [world.set_size, world.set_slots, hc, ho]
      · have : o ≠ i := by intro e; subst e; rw [hc] at ho; cases ho
        simp [world.set_size, world.set_slots, hc, ho, List.getElem?_set_ne this]
    | arr p =>
      rcases ho : w.heap[p]? with _ | _ | c2 <;> simp [world.set_size, world.set_slots, hc, ho]
  · cases r with
    | static_storage o =>
      rcases ho : w.objs[o]? with _ | _ | c2
      · simp [world.set_size, world.set_slots, hc, ho]
      · simp [world.set_size, world.set_slots, hc, ho]
      · have : o ≠ i := by intro e; subst e; rw [hc] at ho; cases ho
        simp [world.set_size, world.set_slots, hc, ho, List.getElem?_set_ne this]
    | arr p =>
      rcases ho : w.heap[p]? with _ | _ | c2 <;> simp [world.set_size, world.set_slots, hc, ho]
  · cases r with
    | static_storage o =>
      by_cases hoi : o = i
      · subst hoi
        simp [world.set_size, world.set_slots, hc, lt_length_of_getElem? hc]
      · rcases ho : w.objs[o]? with _ | _ | c2
        · simp [world.set_size, world.set_slots, hc, ho, List.getElem?_set_ne (Ne.symm hoi),
            List.getElem?_set_ne hoi]
        · simp [world.set_size, world.set_slots, hc, ho, List.getElem?_set_ne (Ne.symm hoi),
            List.getElem?_set_ne hoi]
        · simp [world.set_size, world.set_slots, hc, ho, List.getElem?_set_ne (Ne.symm hoi),
            List.getElem?_set_ne hoi, List.set_comm _ _ _ hoi]
    | arr p =>
      rcases ho : w.heap[p]? with _ | _ | c2 <;> simp [world.set_size, world.set_slots, hc, ho]

theorem pop_back_of_owns (N : Nat) {w : world T} {i : Nat} {r : storage} {n : Nat}
    {l : List (Option T)} {v : T} (h : owns w i r n) (hn : 0 < n)
    (hs : w.slots r = some l) (hv : l[n - 1]? = some (some v)) :
    pop_back N i w
      = result.ok () ((w.set_size i (n - 1)).set_slots r (l.set (n - 1) none)) := by
  obtain ⟨cap, hcap⟩ := capacity_of_owns N h
  have hm := is_master_of_owns h
  have hsz := size_of_owns h
  have e1 : modify_obj i (fun c => { c with size_ := c.size_ - 1 }) w
      = result.ok () (w.set_size i (n - 1)) := by
    rcases h with ⟨d, h, hr⟩ | ⟨p, cap, h, hr, hb⟩ <;>
      obtain ⟨c, hc, _, hn, _⟩ := header_eq_some h <;>
      simp [modify_obj, world.set_size, hc, hn]
  have h1 := owns_set_size h (n - 1)
  have e2 := destroy_at_ok (iterator.mk r (n - 1)) (w := w.set_size i (n - 1))
    (by simpa using hs) hv
  simp only [pop_back, noexcept, bind_run, hsz, show ¬ n = 0 by omega, if_false, ite_run, hcap,
    make_master_to, hm, Bool.not_true, pure_run, Bool.false_eq_true, e1, size_of_owns h1,
    operator_index_of_owns N h1, e2]
  simp

theorem set_size_self {w : world T} {i : Nat} {t : vector_type} {n d : Nat}
    (h : w.header i = some (t, n, d)) : w.set_size i n = w := by
  obtain ⟨c, hc, _, hn, _⟩ := header_eq_some h
  simp only [world.set_size, hc]
  have : ({ c with size_ := n } : socow_vector T) = c := by
    cases c; simp at hn; simp [hn]
  rw [this, list_set_self _ _ _ hc]

theorem owns_header {w : world T} {i : Nat} {r : storage} {n : Nat} (h : owns w i r n) :
    ∃ t d, w.header i = some (t, n, d) := by
  rcases h with ⟨d, h, _⟩ | ⟨p, _, h, _, _⟩
  · exact ⟨_, _, h⟩
  · exact ⟨_, _, h⟩

theorem pop_slots_length : ∀ (k n : Nat) (l : List (Option T)),
    (pop_slots l n k).length = l.length := by
  intro k
  induction k with
  | zero => intro n l; rfl
  | succ k ih => intro n l; simp [pop_slots, ih]

theorem pop_slots_getElem? : ∀ (k n : Nat) (l : List (Option T)) (j : Nat), k ≤ n →
    j < n - k → (pop_slots l n k)[j]? = l[j]? := by
  intro k
  induction k with
  | zero => intro n l j _ _; rfl
  | succ k ih =>
    intro n l j hk hj
    simp only [pop_slots]
    rw [ih (n - 1) _ j (by omega) (by omega), List.getElem?_set_ne (by omega)]

theorem pop_slots_take (l : List (Option T)) (n k : Nat) (hk : k ≤ n) :
    (pop_slots l n k).take (n - k) = l.take (n - k) := by
  apply List.ext_getElem?
  intro j
  by_cases hj : j < n - k
  · rw [List.getElem?_take_of_lt hj, List.getElem?_take_of_lt hj, pop_slots_getElem? k n l j hk hj]
  · rw [List.getElem?_take_eq_none (by omega), List.getElem?_take_eq_none (by omega)]

/-- Repeated `pop_back` on a container that owns its storage. -/
theorem pop_back_loop_of_owns (N : Nat) {i : Nat} {r : storage} :
    ∀ (k start n : Nat) (l : List (Option T)) (w : world T), owns w i r n →
      w.slots r = some l → constructed l n → k ≤ n →
      for_range (fun _ => pop_back N i) start k w
        = result.ok () ((w.set_size i (n - k)).set_slots r (pop_slots l n k)) := by
  intro k
  induction k with
  | zero =>
    intro start n l w ho hs _ _
    obtain ⟨t, d, hh⟩ := owns_header ho
    simp [for_range, pop_slots, set_size_self hh, set_slots_self hs]
  | succ k ih =>
    intro start n l w ho hs hc hk
    obtain ⟨v, hv⟩ := hc (n - 1) (by omega)
    have e := pop_back_of_owns N ho (by omega) hs hv
    simp only [for_range, bind_run, e, pop_slots]
    have ho1 : owns ((w.set_size i (n - 1)).set_slots r (l.set (n - 1) none)) i r (n - 1) :=
      owns_set_slots (owns_set_size ho _) _ _
    have hs1 : ((w.set_size i (n - 1)).set_slots r (l.set (n - 1) none)).slots r
        = some (l.set (n - 1) none) :=
      slots_set_slots_same (show (w.set_size i (n - 1)).slots r = some l by simpa using hs) _
    rw [ih (start + 1) (n - 1) _ _ ho1 hs1
      (fun j hj => by
        obtain ⟨x, hx⟩ := hc j (by omega)
        exact ⟨x, by rw [List.getElem?_set_ne (by omega)]; exact hx⟩) (by omega)]
    rw [set_size_set_slots, set_size_set_size, set_slots_set_slots,
      show n - 1 - k = n - (k + 1) by omega]

/-- A well-formed container that is exclusive owns its active storage. -/
theorem owned_of_valid {N : Nat} {w : world T} {i : Nat} (hv : valid N w i)
    (hm : is_master i w = result.ok true w) :
    ∃ (r : storage) (l : List (Option T)) (xs : List T) (n : Nat), owns w i r n ∧
      w.slots r = some l ∧ l.take n = xs.map some ∧ n ≤ l.length ∧
      elements i w = result.ok xs w ∧ size i w = result.ok n w ∧
      data_const i w = result.ok (iterator.mk r 0) w := by
  rcases valid_cases hv with ⟨c, xs, hobj, hlen, hty, hle, hel, hxl⟩ |
    ⟨c, b, xs, hobj, hlen, hty, hbuf, hbl, hle, hel, hxl, hk⟩
  · obtain ⟨o1, o2, _, _⟩ := observe_small N hobj hty hel (by omega)
    refine ⟨storage.static_storage i, c.static_storage, xs, c.size_,
      Or.inl ⟨c.dynamic_storage, by simp [world.header, hobj, hty], rfl⟩,
      by simp [world.slots, hobj], hel, by omega, o1, o2, ?_⟩
    simp [data_const, is_small, get_obj, hobj, hty]
  · obtain ⟨o1, o2, _, _, o5, _⟩ := observe_big N hobj hty hbuf hel (by omega)
    have h1 := is_master_big hobj hty hbuf
    obtain ⟨h2, _⟩ := result_ok_inj hm h1
    have hcnt : b.cnt_references = 1 := by simpa using h2.symm
    exact ⟨storage.arr c.dynamic_storage, b.arr, xs, c.size_,
      Or.inr ⟨c.dynamic_storage, b.capacity, by simp [world.header, hobj, hty], rfl,
        by simp [world.buf_header, hbuf, hcnt]⟩,
      by simp [world.slots, hbuf], hel, by omega, o1, o2, o5⟩

/-- A well-formed container that owns its storage stays well formed when its
elements and its size are replaced. -/
theorem valid_after_update {N : Nat} {w : world T} {i : Nat} {r : storage} {n : Nat}
    {l l2 : List (Option T)} {ys : List T} (m : Nat)
    (hv : valid N w i) (ho : owns w i r n) (hs : w.slots r = some l)
    (hl : l2.length = l.length) (hm : m ≤ l.length) (hel : l2.take m = ys.map some) :
    valid N ((w.set_size i m).set_slots r l2) i ∧
      elements i ((w.set_size i m).set_slots r l2)
        = result.ok ys ((w.set_size i m).set_slots r l2) ∧
      size i ((w.set_size i m).set_slots r l2)
        = result.ok m ((w.set_size i m).set_slots r l2) ∧
      is_master i ((w.set_size i m).set_slots r l2)
        = result.ok true ((w.set_size i m).set_slots r l2) ∧
      data_const i ((w.set_size i m).set_slots r l2)
        = result.ok (iterator.mk r 0) ((w.set_size i m).set_slots r l2) ∧
      (∀ t, is_small i w = result.ok t w →
        is_small i ((w.set_size i m).set_slots r l2)
          = result.ok t ((w.set_size i m).set_slots r l2)) ∧
      (∀ cap, capacity N i w = result.ok cap w →
        capacity N i ((w.set_size i m).set_slots r l2)
          = result.ok cap ((w.set_size i m).set_slots r l2)) ∧
      ((w.set_size i m).set_slots r l2).copy_throws = w.copy_throws ∧
      ((w.set_size i m).set_slots r l2).alloc_throws = w.alloc_throws := by
  have ho2 : owns ((w.set_size i m).set_slots r l2) i r m :=
    owns_set_slots (owns_set_size ho m) _ _
  have hcp : ((w.set_size i m).set_slots r l2).copy_throws = w.copy_throws := by
    rw [set_slots_copy_throws]
    rcases hc : w.objs[i]? with _ | _ | c <;> simp [world.set_size, hc]
  have hal : ((w.set_size i m).set_slots r l2).alloc_throws = w.alloc_throws := by
    rw [set_slots_alloc_throws]
    rcases hc : w.objs[i]? with _ | _ | c <;> simp [world.set_size, hc]
  refine ⟨?_, ?_, size_of_owns ho2, is_master_of_owns ho2, data_const_of_owns ho2, ?_, ?_,
    hcp, hal⟩
  all_goals
    rcases valid_cases hv with ⟨c, xs, hobj, hlen, hty, hle, hxs, hxl⟩ |
      ⟨c, b, xs, hobj, hlen, hty, hbuf, hbl, hle, hxs, hxl, hk⟩
  all_goals
    have hi := lt_length_of_getElem? hobj
    have hh : w.header i = some (c.type, c.size_, c.dynamic_storage) := by
      simp [world.header, hobj]
    rcases ho with ⟨d, h, hr⟩ | ⟨p, cap, h, hr, hb⟩
  all_goals
    rw [hh] at h
    simp only [Option.some.injEq, Prod.mk.injEq] at h
    obtain ⟨ht, hn, hd⟩ := h
  all_goals
    have hcontra := hty.symm.trans ht
    cases hcontra
  all_goals
    subst hr
    subst hd
  · have hls : l = c.static_storage := by simpa [world.slots, hobj] using hs.symm
    have hobj2 : ((w.set_size i m).set_slots (storage.static_storage i) l2).objs[i]?
        = some (some { c with size_ := m, static_storage := l2 }) := by
      simp [world.set_size, world.set_slots, hobj, hi]
    exact valid_small hobj2 (by simp [hl, hls, hlen]) hty
      (by simp; rw [← hlen, ← hls]; exact hm) hel
  · have hp := lt_length_of_getElem? hbuf
    have hls : l = b.arr := by simpa [world.slots, hbuf] using hs.symm
    have hobj2 : ((w.set_size i m).set_slots (storage.arr c.dynamic_storage) l2).objs[i]?
        = some (some { c with size_ := m }) := by
      simp [world.set_size, world.set_slots, hobj, hi, hbuf]
    have hbuf2 : ((w.set_size i m).set_slots (storage.arr c.dynamic_storage) l2).heap[
        ({ c with size_ := m } : socow_vector T).dynamic_storage]?
        = some (some { b with arr := l2 }) := by
      simp [world.set_size, world.set_slots, hobj, hi, hbuf, hp]
    exact valid_big hobj2 hlen hty hbuf2 (by simp [hl, hls, hbl])
      (by simp; rw [← hbl, ← hls]; exact hm) hel hk
  · have hls : l = c.static_storage := by simpa [world.slots, hobj] using hs.symm
    have hobj2 : ((w.set_size i m).set_slots (storage.static_storage i) l2).objs[i]?
        = some (some { c with size_ := m, static_storage := l2 }) := by
      simp [world.set_size, world.set_slots, hobj, hi]
    exact (observe_small N hobj2 hty hel (by simp; rw [hl]; exact hm)).1
  · have hp := lt_length_of_getElem? hbuf
    have hls : l = b.arr := by simpa [world.slots, hbuf] using hs.symm
    have hobj2 : ((w.set_size i m).set_slots (storage.arr c.dynamic_storage) l2).objs[i]?
        = some (some { c with size_ := m }) := by
      simp [world.set_size, world.set_slots, hobj, hi, hbuf]
    have hbuf2 : ((w.set_size i m).set_slots (storage.arr c.dynamic_storage) l2).heap[
        ({ c with size_ := m } : socow_vector T).dynamic_storage]?
        = some (some { b with arr := l2 }) := by
      simp [world.set_size, world.set_slots, hobj, hi, hbuf, hp]
    exact (observe_big N hobj2 hty hbuf2 hel (by simp; rw [hl]; exact hm)).1
  · intro t ht0
    have hobj2 : ((w.set_size i m).set_slots (storage.static_storage i) l2).objs[i]?
        = some (some { c with size_ := m, static_storage := l2 }) := by
      simp [world.set_size, world.set_slots, hobj, hi]
    have h1 : is_small i w = result.ok true w := by simp [is_small, get_obj, hobj, hty]
    obtain ⟨rfl, _⟩ := result_ok_inj ht0 h1
    simp [is_small, get_obj, hobj2, hty]
  · intro t ht0
    have hobj2 : ((w.set_size i m).set_slots (storage.arr c.dynamic_storage) l2).objs[i]?
        = some (some { c with size_ := m }) := by
      simp [world.set_size, world.set_slots, hobj, hi, hbuf]
    have h1 : is_small i w = result.ok false w := by simp [is_small, get_obj, hobj, hty]
    obtain ⟨rfl, _⟩ := result_ok_inj ht0 h1
    simp [is_small, get_obj, hobj2, hty]
  · intro cap0 hc0
    have hobj2 : ((w.set_size i m).set_slots (storage.static_storage i) l2).objs[i]?
        = some (some { c with size_ := m, static_storage := l2 }) := by
      simp [world.set_size, world.set_slots, hobj, hi]
    have h1 : capacity N i w = result.ok N w := by
      simp [capacity, is_small, get_obj, hobj, hty]
    obtain ⟨rfl, _⟩ := result_ok_inj hc0 h1
    simp [capacity, is_small, get_obj, hobj2, hty]
  · intro cap0 hc0
    have hp := lt_length_of_getElem? hbuf
    have hobj2 : ((w.set_size i m).set_slots (storage.arr c.dynamic_storage) l2).objs[i]?
        = some (some { c with size_ := m }) := by
      simp [world.set_size, world.set_slots, hobj, hi, hbuf]
    have hbuf2 : ((w.set_size i m).set_slots (storage.arr c.dynamic_storage) l2).heap[c.dynamic_storage]?
        = some (some { b with arr := l2 }) := by
      simp [world.set_size, world.set_slots, hobj, hi, hbuf, hp]
    have h1 : capacity N i w = result.ok b.capacity w := by
      simp [capacity, is_small, get_obj, hobj, hty, my_shared_ptr.get_capacity, get_buf, hbuf]
    obtain ⟨rfl, _⟩ := result_ok_inj hc0 h1
    simp [capacity, is_small, get_obj, hobj2, hty, my_shared_ptr.get_capacity, get_buf, hbuf2]

/-! ## The exclusivity gate -/

/-- What `make_master()` does to a well-formed container when nothing throws. -/
theorem make_master_spec {N : Nat} {w : world T} {i : Nat} (hv : valid N w i)
    (hnf : no_failure w) :
    ∃ xs s cloned w1, elements i w = result.ok xs w ∧ size i w = result.ok s w ∧
      make_master N i w = result.ok cloned w1 ∧ valid N w1 i ∧ no_failure w1 ∧
      is_master i w1 = result.ok true w1 ∧
      elements i w1 = result.ok xs w1 ∧ size i w1 = result.ok s w1 ∧
      (∀ t, is_small i w = result.ok t w → is_small i w1 = result.ok t w1) ∧
      (∀ cap, capacity N i w = result.ok cap w → capacity N i w1 = result.ok cap w1) ∧
      (is_master i w = result.ok true w → w1 = w) := by
  obtain ⟨hcopy, halloc⟩ := hnf
  rcases valid_cases hv with ⟨c, xs, hobj, hlen, hty, hle, hel, hxl⟩ |
    ⟨c, b, xs, hobj, hlen, hty, hbuf, hbl, hle, hel, hxl, hk⟩
  · obtain ⟨o1, o2, _, _⟩ := observe_small N hobj hty hel (by omega)
    have hm := is_master_small hobj hty
    obtain ⟨r, l, ys, n, ho, _⟩ := owned_of_valid hv hm
    exact ⟨xs, c.size_, false, w, o1, o2, make_master_of_owns N ho, hv, ⟨hcopy, halloc⟩, hm,
      o1, o2, fun _ h => h, fun _ h => h, fun _ => rfl⟩
  · obtain ⟨o1, o2, o3, o4, _, _⟩ := observe_big N hobj hty hbuf hel (by omega)
    have hm := is_master_big hobj hty hbuf
    by_cases hcnt : b.cnt_references = 1
    · rw [hcnt] at hm
      obtain ⟨r, l, ys, n, ho, _⟩ := owned_of_valid hv hm
      exact ⟨xs, c.size_, false, w, o1, o2, make_master_of_owns N ho, hv, ⟨hcopy, halloc⟩, hm,
        o1, o2, fun _ h => h, fun _ h => h, fun _ => rfl⟩
    · have hi := lt_length_of_getElem? hobj
      have hp := lt_length_of_getElem? hbuf
      obtain ⟨w1, e, hw1⟩ := exists_world (change_dynamic_storage_ok b.capacity c.size_ none
        hobj hty hbuf hel (by omega) (fun h => absurd h hcnt) (by simpa using hle) hcopy halloc)
      simp only [Option.toList_none, List.length_nil, Nat.add_zero, List.append_nil] at hw1
      have hobj1 : w1.objs[i]? = some (some { c with
          size_ := c.size_, dynamic_storage := w.heap.length }) := by
        simp [hw1, hi]
      have hbuf1 : w1.heap[({ c with size_ := c.size_, dynamic_storage := w.heap.length } :
          socow_vector T).dynamic_storage]? = some (some (buffer.mk 1 b.capacity
            (set_range (List.replicate b.capacity none) 0 xs))) := by
        simp [hw1]
      have hel1 : (set_range (List.replicate b.capacity (none : Option T)) 0 xs).take c.size_
          = xs.map some := by
        rw [← hxl]; exact set_range_take_zero xs _ (by omega)
      obtain ⟨p1, p2, p3, p4, _, _⟩ := observe_big N hobj1 hty hbuf1 hel1 (by simpa using hle)
      have hm1 := is_master_big hobj1 hty hbuf1
      have e1 : make_master N i w = result.ok true w1 := by
        simp [make_master, make_master_to, o2, o3, hm, hcnt, e]
      refine ⟨xs, c.size_, true, w1, o1, o2, e1,
        valid_big hobj1 hlen hty hbuf1 (by simp) hle hel1 (by simp),
        by simp [no_failure, hw1, hcopy, halloc], by simpa using hm1, p1, p2, ?_, ?_, ?_⟩
      · intro t ht
        obtain ⟨rfl, _⟩ := result_ok_inj ht o4
        exact p4
      · intro cap hc
        obtain ⟨rfl, _⟩ := result_ok_inj hc o3
        exact p3
      · intro h
        obtain ⟨h2, _⟩ := result_ok_inj h hm
        simp [hcnt] at h2

/-! ## `erase` and `insert` -/

theorem get_index_add {w : world T} {i : Nat} {d : iterator}
    (hd : data_const i w = result.ok d w) (k : Nat) :
    get_index i (d.add k) w = result.ok k w := by
  simp [get_index, begin_const, hd, iterator.sub, iterator.add]

theorem erase_body_of_owns (N seg s : Nat) {i : Nat} {r : storage} (k : Nat)
    (l : List (Option T)) (w : world T) (hk : k < s - seg) (ho : owns w i r s)
    (hs : w.slots r = some l) (hc : constructed l s) :
    (do
      let a ← operator_index N i k
      let b ← operator_index N i (k + seg)
      std_swap a b) w = result.ok () (w.set_slots r (swap_slots l k (k + seg))) ∧
    constructed (swap_slots l k (k + seg)) s := by
  obtain ⟨x, hx⟩ := hc k (by omega)
  obtain ⟨y, hy⟩ := hc (k + seg) (by omega)
  refine ⟨?_, swap_slots_constructed hc (by omega) (by omega)⟩
  simp only [bind_run, operator_index_of_owns N ho, std_swap_ok hs hx hy]

/-- What `erase(first, last)` does to a well-formed container when nothing throws;
`first` and `last` are the positions `fi ≤ la` counted from `begin()`. -/
theorem erase_spec {N : Nat} {w : world T} {i : Nat} (fi la : Nat) (hv : valid N w i)
    (hnf : no_failure w) :
    ∃ xs s d, elements i w = result.ok xs w ∧ size i w = result.ok s w ∧
      data_const i w = result.ok d w ∧
      (fi ≤ la → la ≤ s →
        ∃ d1 w1, erase N i (d.add fi) (d.add la) w = result.ok (d1.add fi) w1 ∧
          data_const i w1 = result.ok d1 w1 ∧ valid N w1 i ∧ no_failure w1 ∧
          elements i w1 = result.ok (xs.take fi ++ xs.drop la) w1 ∧
          size i w1 = result.ok (s - (la - fi)) w1 ∧
          is_master i w1 = result.ok true w1 ∧
          (∀ t, is_small i w = result.ok t w → is_small i w1 = result.ok t w1) ∧
          (∀ cap, capacity N i w = result.ok cap w →
            capacity N i w1 = result.ok cap w1)) := by
  obtain ⟨xs, s, cloned, w1, o1, o2, e1, hv1, hnf1, hm1, p1, p2, p3, p4, _⟩ :=
    make_master_spec hv hnf
  have hd : ∃ d, data_const i w = result.ok d w := by
    rcases valid_cases hv with ⟨c, _, hobj, _, hty, _⟩ | ⟨c, _, _, hobj, _, hty, _⟩
    · exact ⟨iterator.mk (storage.static_storage i) 0,
        by simp [data_const, is_small, get_obj, hobj, hty]⟩
    · exact ⟨my_shared_ptr.get c.dynamic_storage,
        by simp [data_const, is_small, get_obj, hobj, hty]⟩
  obtain ⟨d, hd⟩ := hd
  refine ⟨xs, s, d, o1, o2, hd, fun h1 h2 => ?_⟩
  obtain ⟨r, l, ys, n, ho, hs, hel, hn, q1, q2, q3⟩ := owned_of_valid hv1 hm1
  obtain ⟨rfl, _⟩ := result_ok_inj p1 q1
  obtain ⟨rfl, _⟩ := result_ok_inj p2 q2
  obtain ⟨hcons, hxl⟩ := constructed_of_take hel hn
  -- the compaction loop
  have e2 := for_range_owned (i := i) (r := r) (n := s)
    (fun k => do
      let a ← operator_index N i k
      let b ← operator_index N i (k + (la - fi))
      std_swap a b)
    (fun k l => swap_slots l k (k + (la - fi))) (fun l => constructed l s) (s - (la - fi))
    (fun k l w hk ho hs hc => erase_body_of_owns N (la - fi) s k l w hk ho hs hc)
    (s - (la - fi) - fi) fi l w1 (by omega) ho hs hcons
  generalize hl1 : for_range_slots (fun k l => swap_slots l k (k + (la - fi))) fi
    (s - (la - fi) - fi) l = l1 at e2
  obtain ⟨g1, _, _, g4⟩ := erase_loop_slots (la - fi) (s - (la - fi) - fi) fi l
    (by rwa [show fi + (s - (la - fi) - fi) + (la - fi) = s by omega])
  rw [hl1] at g1 g4
  rw [show fi + (s - (la - fi) - fi) + (la - fi) = s by omega] at g4
  -- the loop of pop_back
  have e3 := pop_back_loop_of_owns N (la - fi) 0 s l1 (w1.set_slots r l1)
    (owns_set_slots ho _ _) (slots_set_slots_same hs _) g4 (by omega)
  rw [set_size_set_slots, set_slots_set_slots] at e3
  have htake : (pop_slots l1 s (la - fi)).take (s - (la - fi))
      = (xs.take fi ++ xs.drop la).map some := by
    rw [pop_slots_take _ _ _ (by omega), ← hl1]
    exact erase_loop_take hel hn h1 h2
  obtain ⟨v1, v2, v3, v4, v5, v6, v7, v8, v9⟩ := valid_after_update (s - (la - fi)) hv1 ho hs
    (by rw [pop_slots_length, g1]) (by omega) htake
  generalize hw3 : (w1.set_size i (s - (la - fi))).set_slots r (pop_slots l1 s (la - fi)) = w3
    at e3 v1 v2 v3 v4 v5 v6 v7 v8 v9
  have ho3 : owns w3 i r (s - (la - fi)) := by
    rw [← hw3]; exact owns_set_slots (owns_set_size ho _) _ _
  refine ⟨iterator.mk r 0, w3, ?_, v5, v1, ?_, v2, v3, v4, fun t ht => v6 t (p3 t ht),
    fun cap hc => v7 cap (p4 cap hc)⟩
  · simp only [erase, bind_run, get_index_add hd, show ¬ la < fi by omega, if_false, ite_run,
      e1, q2, e2, e3, begin_of_owns N ho3, pure_run]
  · exact ⟨by rw [v8]; exact hnf1.1, by rw [v9]; exact hnf1.2⟩

theorem insert_body_of_owns (N s : Nat) {i : Nat} {r : storage} (k : Nat)
    (l : List (Option T)) (w : world T) (hk : k < s) (ho : owns w i r (s + 1))
    (hs : w.slots r = some l) (hc : constructed l (s + 1)) :
    (do
      let b ← back N i
      let e ← operator_index N i k
      std_swap b e) w = result.ok () (w.set_slots r (swap_slots l s k)) ∧
    constructed (swap_slots l s k) (s + 1) := by
  obtain ⟨x, hx⟩ := hc s (by omega)
  obtain ⟨y, hy⟩ := hc k (by omega)
  refine ⟨?_, swap_slots_constructed hc (by omega) (by omega)⟩
  simp only [bind_run, back_of_owns N ho, operator_index_of_owns N ho, Nat.add_sub_cancel,
    std_swap_ok hs hx hy]

/-- What `insert(pos, value)` does to a well-formed container when nothing
throws; `pos` is the position `id` counted from `begin()`. -/
theorem insert_spec {N : Nat} {w : world T} {i : Nat} (id : Nat) (v : T) (hv : valid N w i)
    (hnf : no_failure w) :
    ∃ xs s d, elements i w = result.ok xs w ∧ size i w = result.ok s w ∧
      data_const i w = result.ok d w ∧
      (id ≤ s →
        ∃ d1 w1, socow_vector.insert N i (d.add id) v w = result.ok (d1.add id) w1 ∧
          data_const i w1 = result.ok d1 w1 ∧ valid N w1 i ∧ no_failure w1 ∧
          elements i w1 = result.ok (xs.take id ++ [v] ++ xs.drop id) w1 ∧
          size i w1 = result.ok (s + 1) w1 ∧
          is_master i w1 = result.ok true w1 ∧
          ∃ wp, push_back N i v w = result.ok () wp ∧
            elements i wp = result.ok (xs ++ [v]) wp ∧
            (∀ t, is_small i wp = result.ok t wp → is_small i w1 = result.ok t w1) ∧
            (∀ cap, capacity N i wp = result.ok cap wp →
              capacity N i w1 = result.ok cap w1)) := by
  obtain ⟨xs, s, c, t, w1, o1, o2, _, _, e1, hv1, hnf1, hm1, p1, p2, _, _⟩ :=
    push_back_spec v hv hnf
  have hd : ∃ d, data_const i w = result.ok d w := by
    rcases valid_cases hv with ⟨c, _, hobj, _, hty, _⟩ | ⟨c, _, _, hobj, _, hty, _⟩
    · exact ⟨iterator.mk (storage.static_storage i) 0,
        by simp [data_const, is_small, get_obj, hobj, hty]⟩
    · exact ⟨my_shared_ptr.get c.dynamic_storage,
        by simp [data_const, is_small, get_obj, hobj, hty]⟩
  obtain ⟨d, hd⟩ := hd
  refine ⟨xs, s, d, o1, o2, hd, fun h1 => ?_⟩
  obtain ⟨r, l, ys, n, ho, hs, hel, hn, q1, q2, q3⟩ := owned_of_valid hv1 hm1
  obtain ⟨rfl, _⟩ := result_ok_inj p1 q1
  obtain ⟨rfl, _⟩ := result_ok_inj p2 q2
  obtain ⟨hcons, hxl⟩ := constructed_of_take hel hn
  have hxl2 : xs.length = s := by simpa using hxl
  have e2 := for_range_owned (i := i) (r := r) (n := s + 1)
    (fun k => do
      let b ← back N i
      let e ← operator_index N i k
      std_swap b e)
    (fun k l => swap_slots l s k) (fun l => constructed l (s + 1)) s
    (fun k l w hk ho hs hc => insert_body_of_owns N s k l w hk ho hs hc)
    (s - id) id l w1 (by omega) ho hs hcons
  have htake := insert_loop_take hel hn hxl2 h1
  generalize hl1 : for_range_slots (fun k l => swap_slots l s k) id (s - id) l = l1
    at e2 htake
  obtain ⟨g1, _⟩ := insert_loop_slots s (s - id) id l (by omega) hcons
  rw [hl1] at g1
  obtain ⟨t0, d0, hh⟩ := owns_header ho
  obtain ⟨v1, v2, v3, v4, v5, v6, v7, v8, v9⟩ := valid_after_update (s + 1) hv1 ho hs g1
    hn htake
  rw [set_size_self hh] at v1 v2 v3 v4 v5 v6 v7 v8 v9
  generalize hw2 : w1.set_slots r l1 = w2 at e2 v1 v2 v3 v4 v5 v6 v7 v8 v9
  have ho2 : owns w2 i r (s + 1) := by
    rw [← hw2]; exact owns_set_slots ho _ _
  refine ⟨iterator.mk r 0, w2, ?_, v5, v1, ?_, v2, v3, v4, w1, e1, p1, v6, v7⟩
  · simp only [socow_vector.insert, bind_run, get_index_add hd, e1, q2, Nat.add_sub_cancel, e2,
      begin_of_owns N ho2, pure_run]
  · exact ⟨by rw [v8]; exact hnf1.1, by rw [v9]; exact hnf1.2⟩

/-! ## `swap` -/

theorem swap_big_big {w : world T} {a b : Nat} {ca cb : socow_vector T}
    (ha : w.objs[a]? = some (some ca)) (hb : w.objs[b]? = some (some cb)) (hab : a ≠ b)
    (hta : ca.type = vector_type.BIG) (htb : cb.type = vector_type.BIG) :
    swap a b w = result.ok ()
      { w with objs := (w.objs.set a (some { ca with
          size_ := cb.size_, dynamic_storage := cb.dynamic_storage })).set b (some { cb with
          size_ := ca.size_, dynamic_storage := ca.dynamic_storage }) } := by
  have hia := lt_length_of_getElem? ha
  have hib := lt_length_of_getElem? hb
  simp [swap, is_small, get_obj, ha, hb, hta, htb, my_shared_ptr.swap, modify_obj, hia, hib,
    List.getElem?_set_ne hab, List.getElem?_set_ne (Ne.symm hab), List.set_comm _ _ _ hab]

theorem swap_data_small_to_big_ok {w : world T} {a b : Nat} {ca cb : socow_vector T}
    {bb : buffer T} {xs : List T}
    (ha : w.objs[a]? = some (some ca)) (hb : w.objs[b]? = some (some cb)) (hab : a ≠ b)
    (hta : ca.type = vector_type.SMALL) (htb : cb.type = vector_type.BIG)
    (hbuf : w.heap[cb.dynamic_storage]? = some (some bb)) (hk : 1 ≤ bb.cnt_references)
    (hel : ca.static_storage.take ca.size_ = xs.map some)
    (hn : ca.size_ ≤ ca.static_storage.length) (hbl : ca.size_ ≤ cb.static_storage.length)
    (hcopy : w.copy_throws = []) :
    swap_data_small_to_big a b w = result.ok ()
      { w with objs := (w.objs.set a (some { ca with
          dynamic_storage := cb.dynamic_storage,
          static_storage := destroy_slots ca.static_storage ca.size_ })).set b (some { cb with
          static_storage := set_range cb.static_storage 0 xs }) } := by
  have hia := lt_length_of_getElem? ha
  have hib := lt_length_of_getElem? hb
  have hp := lt_length_of_getElem? hbuf
  obtain ⟨hcons, hxl⟩ := constructed_of_take hel hn
  -- the handle is copied and the handle of the big container destroyed
  generalize hw1 : ({ w with heap := w.heap.set cb.dynamic_storage (some { bb with
    cnt_references := bb.cnt_references + 1 }) } : world T) = w1
  have e1 : my_shared_ptr.copy_ctor cb.dynamic_storage w = result.ok cb.dynamic_storage w1 := by
    simp [my_shared_ptr.copy_ctor, modify_buf, hbuf, ← hw1]
  have hb1 : get_obj b w1 = result.ok cb w1 := by simp [get_obj, ← hw1, hb]
  have e2 : my_shared_ptr.dtor cb.dynamic_storage w1 = result.ok () w := by
    have : bb.cnt_references + 1 ≠ 1 := by omega
    simp [my_shared_ptr.dtor, my_shared_ptr.use_count, get_buf, ← hw1, hp, this, modify_buf]
    have hbb : ({ bb with cnt_references := bb.cnt_references } : buffer T) = bb := by
      cases bb; rfl
    rw [hbb, list_set_self _ _ _ hbuf]
  have hsz : size a w = result.ok ca.size_ w := by simp [size, get_obj, ha]
  -- the elements are copied into the inline storage of the big container
  have e3 := uninitialized_copy_from_ok (storage.static_storage a) (storage.static_storage b)
    (by simpa using hab) 0 0 ca.static_storage xs 0 cb.static_storage w hcopy
    (by simp [world.slots, ha]) (by simp [world.slots, hb])
    (fun j v hv => by simpa using getElem?_of_take_eq_map hel hv)
    (by simp; omega)
  rw [hxl] at e3
  simp only [Nat.add_zero] at e3
  generalize hw2 : w.set_slots (storage.static_storage b) (set_range cb.static_storage 0 xs)
    = w2 at e3
  have ho2 : owns w2 a (storage.static_storage a) ca.size_ := by
    left
    refine ⟨ca.dynamic_storage, ?_, rfl⟩
    rw [← hw2, header_set_slots]
    simp [world.header, ha, hta]
  have hs2 : w2.slots (storage.static_storage a) = some ca.static_storage := by
    rw [← hw2, slots_set_slots_ne _ (by simpa using Ne.symm hab)]
    simp [world.slots, ha]
  have e4 := destroy_storage_of_owns ho2 hs2 hcons
  have hw3 : w2.set_slots (storage.static_storage a) (destroy_slots ca.static_storage ca.size_)
      = { w with objs := (w.objs.set a (some { ca with
            static_storage := destroy_slots ca.static_storage ca.size_ })).set b (some { cb with
            static_storage := set_range cb.static_storage 0 xs }) } := by
    simp [← hw2, world.set_slots, ha, hb, List.getElem?_set_ne hab,
      List.getElem?_set_ne (Ne.symm hab), List.set_comm _ _ _ hab]
  rw [hw3] at e4
  have hga : get_obj a w = result.ok ca w := by simp [get_obj, ha]
  have hgb : get_obj b w = result.ok cb w := by simp [get_obj, hb]
  simp only [swap_data_small_to_big, bind_run, hga, hgb, hta, htb, and_self, if_true,
    ite_run, e1, scope_exit, hb1, e2, try_catch, hsz, uninitialized_copy, e3, e4]
  simp [my_shared_ptr.copy_ctor, modify_buf, hbuf, modify_obj, hia, hib,
    List.getElem?_set_ne hab, List.getElem?_set_ne (Ne.symm hab), my_shared_ptr.dtor,
    my_shared_ptr.use_count, get_buf, hp, show bb.cnt_references + 1 ≠ 1 by omega]
  constructor
  · have hbb : (buffer.mk bb.cnt_references bb.capacity bb.arr : buffer T) = bb := by
      cases bb; rfl
    rw [hbb, list_set_self _ _ _ hbuf]
  · rw [List.set_comm _ _ _ hab, List.set_set, List.set_comm _ _ _ (Ne.symm hab)]

theorem std_swap_two {w : world T} {r1 r2 : storage} (hne : r1 ≠ r2)
    {l1 l2 : List (Option T)} {k : Nat} {x y : T}
    (h1 : w.slots r1 = some l1) (h2 : w.slots r2 = some l2)
    (hx : l1[k]? = some (some x)) (hy : l2[k]? = some (some y)) :
    std_swap (iterator.mk r1 k) (iterator.mk r2 k) w
      = result.ok () ((w.set_slots r1 (l1.set k (some y))).set_slots r2 (l2.set k (some x))) := by
  have e1 : deref (iterator.mk r1 k) w = result.ok x w := deref_ok _ (l := l1) h1 hx
  have e2 : deref (iterator.mk r2 k) w = result.ok y w := deref_ok _ (l := l2) h2 hy
  have e3 := assign_at_ok (iterator.mk r1 k) (w := w) y h1 hx
  have e4 := assign_at_ok (iterator.mk r2 k) (w := w.set_slots r1 (l1.set k (some y))) x
    (by rw [slots_set_slots_ne _ hne]; exact h2) hy
  simp only [std_swap, bind_run, e1, e2, e3, e4]

theorem set_slots_comm (w : world T) {r1 r2 : storage} (hne : r1 ≠ r2)
    (l1 l2 : List (Option T)) :
    (w.set_slots r1 l1).set_slots r2 l2 = (w.set_slots r2 l2).set_slots r1 l1 := by
  cases r1 with
  | static_storage o1 =>
    cases r2 with
    | static_storage o2 =>
      have hne2 : o1 ≠ o2 := fun e => hne (by rw [e])
      rcases h1 : w.objs[o1]? with _ | _ | c1 <;> rcases h2 : w.objs[o2]? with _ | _ | c2 <;>
        simp [world.set_slots, h1, h2, List.getElem?_set_ne hne2,
          List.getElem?_set_ne (Ne.symm hne2), List.set_comm _ _ _ hne2]
    | arr p2 =>
      rcases h1 : w.objs[o1]? with _ | _ | c1 <;> rcases h2 : w.heap[p2]? with _ | _ | c2 <;>
        simp [world.set_slots, h1, h2]
  | arr p1 =>
    cases r2 with
    | static_storage o2 =>
      rcases h1 : w.heap[p1]? with _ | _ | c1 <;> rcases h2 : w.objs[o2]? with _ | _ | c2 <;>
        simp [world.set_slots, h1, h2]
    | arr p2 =>
      have hne2 : p1 ≠ p2 := fun e => hne (by rw [e])
      rcases h1 : w.heap[p1]? with _ | _ | c1 <;> rcases h2 : w.heap[p2]? with _ | _ | c2 <;>
        simp [world.set_slots, h1, h2, List.getElem?_set_ne hne2,
          List.getElem?_set_ne (Ne.symm hne2), List.set_comm _ _ _ hne2]

/-- The element-wise swap loop of `swap_static_storages`. -/
theorem swap_pair_loop {r1 r2 : storage} (hne : r1 ≠ r2) :
    ∀ (cnt start : Nat) (l1 l2 : List (Option T)) (w : world T),
      w.slots r1 = some l1 → w.slots r2 = some l2 →
      constructed l1 (start + cnt) → constructed l2 (start + cnt) →
      for_range (fun k => std_swap (iterator.mk r1 k) (iterator.mk r2 k)) start cnt w
        = result.ok () ((w.set_slots r1 (swap_pair_slots start cnt l1 l2).1).set_slots r2
            (swap_pair_slots start cnt l1 l2).2) := by
  intro cnt
  induction cnt with
  | zero =>
    intro start l1 l2 w h1 h2 _ _
    simp only [for_range, pure_run, swap_pair_slots]
    rw [set_slots_self h1, set_slots_self h2]
  | succ cnt ih =>
    intro start l1 l2 w h1 h2 c1 c2
    obtain ⟨x, hx⟩ := c1 start (by omega)
    obtain ⟨y, hy⟩ := c2 start (by omega)
    simp only [for_range, bind_run, std_swap_two hne h1 h2 hx hy, swap_pair_slots, hx, hy]
    have hs1 : ((w.set_slots r1 (l1.set start (some y))).set_slots r2
        (l2.set start (some x))).slots r1 = some (l1.set start (some y)) := by
      rw [slots_set_slots_ne _ (Ne.symm hne)]; exact slots_set_slots_same h1 _
    have hs2 : ((w.set_slots r1 (l1.set start (some y))).set_slots r2
        (l2.set start (some x))).slots r2 = some (l2.set start (some x)) :=
      slots_set_slots_same
        (show (w.set_slots r1 (l1.set start (some y))).slots r2 = some l2 by
          rw [slots_set_slots_ne _ hne]; exact h2) _
    have hc1 : constructed (l1.set start (some y)) (start + 1 + cnt) := by
      intro j hj
      by_cases hjs : start = j
      · subst hjs
        exact ⟨y, by rw [List.getElem?_set_self (lt_length_of_getElem? hx)]⟩
      · rw [List.getElem?_set_ne hjs]; exact c1 j (by omega)
    have hc2 : constructed (l2.set start (some x)) (start + 1 + cnt) := by
      intro j hj
      by_cases hjs : start = j
      · subst hjs
        exact ⟨x, by rw [List.getElem?_set_self (lt_length_of_getElem? hy)]⟩
      · rw [List.getElem?_set_ne hjs]; exact c2 j (by omega)
    rw [ih (start + 1) _ _ _ hs1 hs2 hc1 hc2]
    rw [set_slots_comm _ hne, set_slots_set_slots, set_slots_comm _ (Ne.symm hne),
      set_slots_set_slots]

theorem swap_pair_slots_spec :
    ∀ (cnt start : Nat) (l1 l2 : List (Option T)),
      constructed l1 (start + cnt) → constructed l2 (start + cnt) →
      (swap_pair_slots start cnt l1 l2).1.length = l1.length ∧
      (swap_pair_slots start cnt l1 l2).2.length = l2.length ∧
      (∀ j, (swap_pair_slots start cnt l1 l2).1[j]?
        = if start ≤ j ∧ j < start + cnt then l2[j]? else l1[j]?) ∧
      (∀ j, (swap_pair_slots start cnt l1 l2).2[j]?
        = if start ≤ j ∧ j < start + cnt then l1[j]? else l2[j]?) := by
  intro cnt
  induction cnt with
  | zero =>
    intro start l1 l2 _ _
    refine ⟨rfl, rfl, fun j => ?_, fun j => ?_⟩ <;>
      simp [swap_pair_slots, show ¬ (start ≤ j ∧ j < start) by omega]
  | succ cnt ih =>
    intro start l1 l2 c1 c2
    obtain ⟨x, hx⟩ := c1 start (by omega)
    obtain ⟨y, hy⟩ := c2 start (by omega)
    have hc1 : constructed (l1.set start (some y)) (start + 1 + cnt) := by
      intro j hj
      by_cases hjs : start = j
      · subst hjs
        exact ⟨y, by rw [List.getElem?_set_self (lt_length_of_getElem? hx)]⟩
      · rw [List.getElem?_set_ne hjs]; exact c1 j (by omega)
    have hc2 : constructed (l2.set start (some x)) (start + 1 + cnt) := by
      intro j hj
      by_cases hjs : start = j
      · subst hjs
        exact ⟨x, by rw [List.getElem?_set_self (lt_length_of_getElem? hy)]⟩
      · rw [List.getElem?_set_ne hjs]; exact c2 j (by omega)
    obtain ⟨g1, g2, g3, g4⟩ := ih (start + 1) _ _ hc1 hc2
    simp only [swap_pair_slots, hx, hy]
    refine ⟨by rw [g1]; simp, by rw [g2]; simp, fun j => ?_, fun j => ?_⟩
    · rw [g3 j]
      by_cases hjs : start = j
      · subst hjs
        simp [List.getElem?_set_self (lt_length_of_getElem? hx), hy]
      · simp only [List.getElem?_set_ne hjs]
        by_cases h : start + 1 ≤ j ∧ j < start + 1 + cnt
        · rw [if_pos h, if_pos (by omega)]
        · rw [if_neg h, if_neg (by omega)]
    · rw [g4 j]
      by_cases hjs : start = j
      · subst hjs
        simp [List.getElem?_set_self (lt_length_of_getElem? hy), hx]
      · simp only [List.getElem?_set_ne hjs]
        by_cases h : start + 1 ≤ j ∧ j < start + 1 + cnt
        · rw [if_pos h, if_pos (by omega)]
        · rw [if_neg h, if_neg (by omega)]

/-- The loop `for (i = start; i < start + cnt; ++i) first[i].~value_type()`. -/
theorem for_range_destroy (r : storage) :
    ∀ (cnt start : Nat) (l : List (Option T)) (w : world T), w.slots r = some l →
      (∀ j, start ≤ j → j < start + cnt → ∃ v, l[j]? = some (some v)) →
      for_range (fun k => destroy_at (iterator.mk r k)) start cnt w
        = result.ok () (w.set_slots r (for_range_slots (fun k l => l.set k none) start cnt l)) := by
  intro cnt
  induction cnt with
  | zero =>
    intro start l w h _
    simp [for_range, for_range_slots, set_slots_self h]
  | succ cnt ih =>
    intro start l w h hc
    obtain ⟨v, hv⟩ := hc start (by omega) (by omega)
    have e1 := destroy_at_ok (iterator.mk r start) (w := w) h hv
    simp only [for_range, bind_run, e1, for_range_slots]
    rw [ih (start + 1) (l.set start none) _ (slots_set_slots_same h _)
      (fun j hj1 hj2 => by
        obtain ⟨x, hx⟩ := hc j (by omega) (by omega)
        exact ⟨x, by rw [List.getElem?_set_ne (by omega)]; exact hx⟩)]
    rw [set_slots_set_slots]

theorem for_range_set_none_spec :
    ∀ (cnt start : Nat) (l : List (Option T)),
      (for_range_slots (fun k l => l.set k none) start cnt l).length = l.length ∧
      ∀ j, j < start →
        (for_range_slots (fun k l => l.set k none) start cnt l)[j]? = l[j]? := by
  intro cnt
  induction cnt with
  | zero => intro start l; exact ⟨rfl, fun _ _ => rfl⟩
  | succ cnt ih =>
    intro start l
    obtain ⟨g1, g2⟩ := ih (start + 1) (l.set start none)
    simp only [for_range_slots]
    refine ⟨by rw [g1]; simp, fun j hj => ?_⟩
    rw [g2 j (by omega), List.getElem?_set_ne (by omega)]

/-- Second half of `swap_static_storages`: the surplus elements `m, ..., M - 1` of
the longer container are copied to the shorter one and destroyed at the source. -/
theorem swap_tail_ok {w : world T} {rt rf : storage} (hne : rf ≠ rt)
    {lt lf : List (Option T)} (vals : List T) (m M : Nat)
    (ht : w.slots rt = some lt) (hf : w.slots rf = some lf)
    (hvl : vals.length = M - m) (hmM : m ≤ M)
    (hvals : ∀ j v, vals[j]? = some v → lf[m + j]? = some (some v))
    (hM : M ≤ lt.length) (hcopy : w.copy_throws = []) :
    (do
      uninitialized_copy (iterator.mk rf m) (M - m) (iterator.mk rt m)
      for_range (fun k => destroy_at (iterator.mk rf k)) m (M - m)) w
    = result.ok () ((w.set_slots rt (set_range lt m vals)).set_slots rf
        (for_range_slots (fun k l => l.set k none) m (M - m) lf)) := by
  have e1 := uninitialized_copy_from_ok rf rt hne m m lf vals 0 lt w hcopy hf ht
    (fun j v hv => by simpa using hvals j v hv) (by simp; omega)
  rw [hvl] at e1
  simp only [Nat.add_zero] at e1
  have hf2 : (w.set_slots rt (set_range lt m vals)).slots rf = some lf := by
    rw [slots_set_slots_ne _ (Ne.symm hne)]; exact hf
  have e2 := for_range_destroy rf (M - m) m lf _ hf2 (fun j h1 h2 => by
    have hj : j - m < vals.length := by omega
    have := hvals (j - m) (vals.get ⟨j - m, hj⟩) (by simp)
    rw [show m + (j - m) = j by omega] at this
    exact ⟨_, this⟩)
  simp only [bind_run, uninitialized_copy, e1, e2]

theorem drop_getElem?_of_take {l : List (Option T)} {n m : Nat} {xs : List T}
    (h : l.take n = xs.map some) {j : Nat} {v : T}
    (hv : (xs.drop m)[j]? = some v) : l[m + j]? = some (some v) := by
  rw [List.getElem?_drop] at hv
  exact getElem?_of_take_eq_map h hv

theorem take_eq_of_getElem? {γ : Type} {l : List γ} (l2 : List γ) {n : Nat}
    (h : ∀ j, j < n → l[j]? = l2[j]?) : l.take n = l2.take n := by
  apply List.ext_getElem?
  intro j
  by_cases hj : j < n
  · rw [List.getElem?_take_of_lt hj, List.getElem?_take_of_lt hj, h j hj]
  · rw [List.getElem?_take_eq_none (by omega), List.getElem?_take_eq_none (by omega)]

theorem take_take_of_le {γ : Type} (l : List γ) {n m : Nat} (h : m ≤ n) :
    (l.take n).take m = l.take m := by
  rw [List.take_take, Nat.min_eq_left h]

theorem swap_static_storages_ok {w : world T} {a b : Nat} {ca cb : socow_vector T}
    {xa xb : List T}
    (ha : w.objs[a]? = some (some ca)) (hb : w.objs[b]? = some (some cb)) (hab : a ≠ b)
    (hela : ca.static_storage.take ca.size_ = xa.map some)
    (helb : cb.static_storage.take cb.size_ = xb.map some)
    (hna : ca.size_ ≤ ca.static_storage.length) (hnb : cb.size_ ≤ cb.static_storage.length)
    (hnab : ca.size_ ≤ cb.static_storage.length) (hnba : cb.size_ ≤ ca.static_storage.length)
    (hcopy : w.copy_throws = []) :
    ∃ la2 lb2 : List (Option T),
      swap_static_storages a b w = result.ok ()
        { w with
          objs := (w.objs.set a (some { ca with static_storage := la2 })).set b
              (some { cb with static_storage := lb2 }) } ∧
      la2.length = ca.static_storage.length ∧ lb2.length = cb.static_storage.length ∧
      la2.take cb.size_ = xb.map some ∧ lb2.take ca.size_ = xa.map some := by
  have hia := lt_length_of_getElem? ha
  have hib := lt_length_of_getElem? hb
  obtain ⟨hca, hxa⟩ := constructed_of_take hela hna
  obtain ⟨hcb, hxb⟩ := constructed_of_take helb hnb
  have hne : storage.static_storage a ≠ storage.static_storage b := by simpa using hab
  have hsa : w.slots (storage.static_storage a) = some ca.static_storage := by
    simp [world.slots, ha]
  have hsb : w.slots (storage.static_storage b) = some cb.static_storage := by
    simp [world.slots, hb]
  have hza : size a w = result.ok ca.size_ w := by simp [size, get_obj, ha]
  have hzb : size b w = result.ok cb.size_ w := by simp [size, get_obj, hb]
  -- the common prefix is swapped
  have e1 := swap_pair_loop hne (min ca.size_ cb.size_) 0 ca.static_storage cb.static_storage w
    hsa hsb (constructed_mono hca (by omega)) (constructed_mono hcb (by omega))
  obtain ⟨g1, g2, g3, g4⟩ := swap_pair_slots_spec (min ca.size_ cb.size_) 0
    ca.static_storage cb.static_storage (constructed_mono hca (by omega))
    (constructed_mono hcb (by omega))
  generalize (swap_pair_slots 0 (min ca.size_ cb.size_) ca.static_storage
    cb.static_storage).1 = la1 at e1 g1 g3
  generalize (swap_pair_slots 0 (min ca.size_ cb.size_) ca.static_storage
    cb.static_storage).2 = lb1 at e1 g2 g4
  generalize hw1 : (w.set_slots (storage.static_storage a) la1).set_slots
    (storage.static_storage b) lb1 = w1 at e1
  have hs1a : w1.slots (storage.static_storage a) = some la1 := by
    rw [← hw1, slots_set_slots_ne _ (Ne.symm hne)]; exact slots_set_slots_same hsa _
  have hs1b : w1.slots (storage.static_storage b) = some lb1 := by
    rw [← hw1]
    exact slots_set_slots_same
      (show (w.set_slots (storage.static_storage a) la1).slots (storage.static_storage b)
          = some cb.static_storage by rw [slots_set_slots_ne _ hne]; exact hsb) _
  have hz1a : size a w1 = result.ok ca.size_ w1 := by
    simp [size, get_obj, ← hw1, world.set_slots, ha, hb, List.getElem?_set_ne hab,
      List.getElem?_set_ne (Ne.symm hab), hia, hib]
  have hz1b : size b w1 = result.ok cb.size_ w1 := by
    simp [size, get_obj, ← hw1, world.set_slots, ha, hb, List.getElem?_set_ne hab,
      List.getElem?_set_ne (Ne.symm hab), hia, hib]
  have hc1 : w1.copy_throws = [] := by rw [← hw1]; simpa using hcopy
  have hw1x : w1 = { w with
      objs := (w.objs.set a (some { ca with static_storage := la1 })).set b
          (some { cb with static_storage := lb1 }) } := by
    simp [← hw1, world.set_slots, ha, hb, List.getElem?_set_ne hab,
      List.getElem?_set_ne (Ne.symm hab), hia, hib]
  by_cases hlt : ca.size_ < cb.size_
  · -- the surplus of `b` moves to `a`
    have hmin : min ca.size_ cb.size_ = ca.size_ := by omega
    have hmax : max ca.size_ cb.size_ = cb.size_ := by omega
    rw [hmin] at e1 g3 g4
    have e2 := swap_tail_ok (Ne.symm hne) (xb.drop ca.size_) ca.size_ cb.size_
      hs1a hs1b (by simp; omega) (by omega)
      (fun j v hv => by
        rw [g4, if_neg (by omega)]
        exact drop_getElem?_of_take helb hv)
      (by omega) hc1
    refine ⟨set_range la1 ca.size_ (xb.drop ca.size_),
      for_range_slots (fun k l => l.set k none) ca.size_ (cb.size_ - ca.size_) lb1, ?_, ?_, ?_,
      ?_, ?_⟩
    · simp only [swap_static_storages, bind_run, hza, hzb, hmin, hmax, e1, hz1a, hz1b,
        hlt, if_true, show ¬ ca.size_ ≥ cb.size_ by omega, if_false, iterator.add,
        Nat.zero_add]
      have := e2
      simp only [bind_run] at this
      rw [this, hw1x]
      simp [world.set_slots, hia, hib, List.getElem?_set_ne hab,
        List.getElem?_set_ne (Ne.symm hab), List.set_comm _ _ _ hab]
    · simp [g1]
    · rw [(for_range_set_none_spec _ _ _).1, g2]
    · have h1 : la1.take ca.size_ = (xb.take ca.size_).map some := by
        rw [take_eq_of_getElem? (cb.static_storage)
          (fun j hj => by rw [g3, if_pos (by omega)]),
          ← take_take_of_le cb.static_storage (show ca.size_ ≤ cb.size_ by omega), helb,
          List.map_take]
      have h2 := set_range_take (xb.drop ca.size_) la1 ca.size_ (by simp; omega)
      rw [h1, ← List.map_append, List.take_append_drop] at h2
      simpa [show ca.size_ + (xb.length - ca.size_) = cb.size_ by omega] using h2
    · rw [take_eq_of_getElem? (ca.static_storage)
        (fun j hj => by
          rw [(for_range_set_none_spec _ _ _).2 j hj, g4, if_pos (by omega)]), hela]
  · -- the surplus of `a` moves to `b`
    have hmin : min ca.size_ cb.size_ = cb.size_ := by omega
    have hmax : max ca.size_ cb.size_ = ca.size_ := by omega
    rw [hmin] at e1 g3 g4
    have e2 := swap_tail_ok hne (xa.drop cb.size_) cb.size_ ca.size_
      hs1b hs1a (by simp; omega) (by omega)
      (fun j v hv => by
        rw [g3, if_neg (by omega)]
        exact drop_getElem?_of_take hela hv)
      (by omega) hc1
    refine ⟨for_range_slots (fun k l => l.set k none) cb.size_ (ca.size_ - cb.size_) la1,
      set_range lb1 cb.size_ (xa.drop cb.size_), ?_, ?_, ?_, ?_, ?_⟩
    · simp only [swap_static_storages, bind_run, hza, hzb, hmin, hmax, e1, hz1a, hz1b,
        hlt, if_false, show ca.size_ ≥ cb.size_ by omega, if_true, iterator.add,
        Nat.zero_add]
      have := e2
      simp only [bind_run] at this
      rw [this, hw1x]
      simp [world.set_slots, hia, hib, List.getElem?_set_ne hab,
        List.getElem?_set_ne (Ne.symm hab), List.set_comm _ _ _ hab]
    · rw [(for_range_set_none_spec _ _ _).1, g1]
    · simp [g2]
    · rw [take_eq_of_getElem? (cb.static_storage)
        (fun j hj => by
          rw [(for_range_set_none_spec _ _ _).2 j hj, g3, if_pos (by omega)]), helb]
    · have h1 : lb1.take cb.size_ = (xa.take cb.size_).map some := by
        rw [take_eq_of_getElem? (ca.static_storage)
          (fun j hj => by rw [g4, if_pos (by omega)]),
          ← take_take_of_le ca.static_storage (show cb.size_ ≤ ca.size_ by omega), hela,
          List.map_take]
      have h2 := set_range_take (xa.drop cb.size_) lb1 cb.size_ (by simp; omega)
      rw [h1, ← List.map_append, List.take_append_drop] at h2
      simpa [show cb.size_ + (xa.length - cb.size_) = ca.size_ by omega] using h2

theorem swap_fields {w : world T} {a b : Nat} {ca cb : socow_vector T}
    (ha : w.objs[a]? = some (some ca)) (hb : w.objs[b]? = some (some cb)) (hab : a ≠ b) :
    (do
      let x ← get_obj a
      let y ← get_obj b
      modify_obj a (fun c => { c with size_ := y.size_ })
      modify_obj b (fun c => { c with size_ := x.size_ })
      let x ← get_obj a
      let y ← get_obj b
      modify_obj a (fun c => { c with type := y.type })
      modify_obj b (fun c => { c with type := x.type })) w
    = result.ok ()
      { w with
        objs := (w.objs.set a (some { ca with type := cb.type, size_ := cb.size_ })).set b
            (some { cb with type := ca.type, size_ := ca.size_ }) } := by
  have hia := lt_length_of_getElem? ha
  have hib := lt_length_of_getElem? hb
  simp [get_obj, ha, hb, modify_obj, hia, hib, List.getElem?_set_ne hab,
    List.getElem?_set_ne (Ne.symm hab), List.set_comm _ _ _ hab]

theorem swap_small_small {w : world T} {a b : Nat} {ca cb : socow_vector T}
    {xa xb : List T}
    (ha : w.objs[a]? = some (some ca)) (hb : w.objs[b]? = some (some cb)) (hab : a ≠ b)
    (hta : ca.type = vector_type.SMALL) (htb : cb.type = vector_type.SMALL)
    (hela : ca.static_storage.take ca.size_ = xa.map some)
    (helb : cb.static_storage.take cb.size_ = xb.map some)
    (hna : ca.size_ ≤ ca.static_storage.length) (hnb : cb.size_ ≤ cb.static_storage.length)
    (hnab : ca.size_ ≤ cb.static_storage.length) (hnba : cb.size_ ≤ ca.static_storage.length)
    (hcopy : w.copy_throws = []) :
    ∃ la2 lb2 : List (Option T),
      swap a b w = result.ok ()
        { w with
          objs := (w.objs.set a (some { ca with size_ := cb.size_, static_storage := la2 })).set b
              (some { cb with size_ := ca.size_, static_storage := lb2 }) } ∧
      la2.length = ca.static_storage.length ∧ lb2.length = cb.static_storage.length ∧
      la2.take cb.size_ = xb.map some ∧ lb2.take ca.size_ = xa.map some := by
  have hia := lt_length_of_getElem? ha
  have hib := lt_length_of_getElem? hb
  obtain ⟨la2, lb2, e, h1, h2, h3, h4⟩ :=
    swap_static_storages_ok ha hb hab hela helb hna hnb hnab hnba hcopy
  refine ⟨la2, lb2, ?_, h1, h2, h3, h4⟩
  have hsa : is_small a w = result.ok true w := by simp [is_small, get_obj, ha, hta]
  have hsb : is_small b w = result.ok true w := by simp [is_small, get_obj, hb, htb]
  have hf := swap_fields
    (w := { w with
      objs := (w.objs.set a (some { ca with static_storage := la2 })).set b
          (some { cb with static_storage := lb2 }) })
    (a := a) (b := b)
    (by simp [List.getElem?_set_ne (Ne.symm hab), hia]; rfl)
    (by simp [hib]; rfl) hab
  simp only [bind_run] at hf
  simp only [swap, bind_run, hsa, hsb, and_self, if_true, ite_run, e, hf]
  simp [hta, htb, List.set_comm _ _ _ hab]

theorem swap_small_big {w : world T} {a b : Nat} {ca cb : socow_vector T}
    {bb : buffer T} {xs : List T}
    (ha : w.objs[a]? = some (some ca)) (hb : w.objs[b]? = some (some cb)) (hab : a ≠ b)
    (hta : ca.type = vector_type.SMALL) (htb : cb.type = vector_type.BIG)
    (hbuf : w.heap[cb.dynamic_storage]? = some (some bb)) (hk : 1 ≤ bb.cnt_references)
    (hel : ca.static_storage.take ca.size_ = xs.map some)
    (hn : ca.size_ ≤ ca.static_storage.length) (hbl : ca.size_ ≤ cb.static_storage.length)
    (hcopy : w.copy_throws = []) :
    swap a b w = result.ok ()
      { w with
        objs := (w.objs.set a (some (socow_vector.mk vector_type.BIG cb.size_
            cb.dynamic_storage (destroy_slots ca.static_storage ca.size_)))).set b
            (some (socow_vector.mk vector_type.SMALL ca.size_ cb.dynamic_storage
              (set_range cb.static_storage 0 xs))) } := by
  have hia := lt_length_of_getElem? ha
  have hib := lt_length_of_getElem? hb
  have e := swap_data_small_to_big_ok ha hb hab hta htb hbuf hk hel hn hbl hcopy
  have hsa : is_small a w = result.ok true w := by simp [is_small, get_obj, ha, hta]
  have hsb : is_small b w = result.ok false w := by simp [is_small, get_obj, hb, htb]
  have hf := swap_fields
    (w := { w with
      objs := (w.objs.set a (some { ca with
          dynamic_storage := cb.dynamic_storage,
          static_storage := destroy_slots ca.static_storage ca.size_ })).set b (some { cb with
          static_storage := set_range cb.static_storage 0 xs }) })
    (a := a) (b := b)
    (by simp [List.getElem?_set_ne (Ne.symm hab), hia]; rfl)
    (by simp [hib]; rfl) hab
  simp only [bind_run] at hf
  simp only [swap, bind_run, hsa, hsb, ite_run, e, hf]
  simp [hta, htb, List.set_comm _ _ _ hab]

theorem swap_big_small {w : world T} {a b : Nat} {ca cb : socow_vector T}
    {ba : buffer T} {xs : List T}
    (ha : w.objs[a]? = some (some ca)) (hb : w.objs[b]? = some (some cb)) (hab : a ≠ b)
    (hta : ca.type = vector_type.BIG) (htb : cb.type = vector_type.SMALL)
    (hbuf : w.heap[ca.dynamic_storage]? = some (some ba)) (hk : 1 ≤ ba.cnt_references)
    (hel : cb.static_storage.take cb.size_ = xs.map some)
    (hn : cb.size_ ≤ cb.static_storage.length) (hbl : cb.size_ ≤ ca.static_storage.length)
    (hcopy : w.copy_throws = []) :
    swap a b w = result.ok ()
      { w with
        objs := (w.objs.set a (some (socow_vector.mk vector_type.SMALL cb.size_
            ca.dynamic_storage (set_range ca.static_storage 0 xs)))).set b
            (some (socow_vector.mk vector_type.BIG ca.size_ ca.dynamic_storage
              (destroy_slots cb.static_storage cb.size_))) } := by
  have hia := lt_length_of_getElem? ha
  have hib := lt_length_of_getElem? hb
  have e := swap_data_small_to_big_ok hb ha (Ne.symm hab) htb hta hbuf hk hel hn hbl hcopy
  have hsa : is_small a w = result.ok false w := by simp [is_small, get_obj, ha, hta]
  have hsb : is_small b w = result.ok true w := by simp [is_small, get_obj, hb, htb]
  have hf := swap_fields
    (w := { w with
      objs := (w.objs.set b (some { cb with
          dynamic_storage := ca.dynamic_storage,
          static_storage := destroy_slots cb.static_storage cb.size_ })).set a (some { ca with
          static_storage := set_range ca.static_storage 0 xs }) })
    (a := a) (b := b)
    (by simp [hia]; rfl)
    (by simp [List.getElem?_set_ne hab, hib]; rfl) hab
  simp only [bind_run] at hf
  simp only [swap, bind_run, hsa, hsb, ite_run, e, hf]
  simp [hta, htb, List.set_comm _ _ _ hab]

/-- What `swap` does to two distinct well-formed containers when nothing throws. -/
theorem swap_spec {N : Nat} {w : world T} {a b : Nat} (hva : valid N w a)
    (hvb : valid N w b) (hab : a ≠ b) (hnf : no_failure w) :
    ∃ xa sa ca ta xb sb cb tb w1,
      elements a w = result.ok xa w ∧ size a w = result.ok sa w ∧
      capacity N a w = result.ok ca w ∧ is_small a w = result.ok ta w ∧
      elements b w = result.ok xb w ∧ size b w = result.ok sb w ∧
      capacity N b w = result.ok cb w ∧ is_small b w = result.ok tb w ∧
      swap a b w = result.ok () w1 ∧ valid N w1 a ∧ valid N w1 b ∧ no_failure w1 ∧
      w1.heap = w.heap ∧
      elements a w1 = result.ok xb w1 ∧ size a w1 = result.ok sb w1 ∧
      capacity N a w1 = result.ok cb w1 ∧ is_small a w1 = result.ok tb w1 ∧
      elements b w1 = result.ok xa w1 ∧ size b w1 = result.ok sa w1 ∧
      capacity N b w1 = result.ok ca w1 ∧ is_small b w1 = result.ok ta w1 ∧
      (tb = false → ∀ d, data_const b w = result.ok d w → data_const a w1 = result.ok d w1) ∧
      (ta = false → ∀ d, data_const a w = result.ok d w → data_const b w1 = result.ok d w1) ∧
      (∀ j, j ≠ a → j ≠ b → w1.objs[j]? = w.objs[j]?) := by
  obtain ⟨hcopy, halloc⟩ := hnf
  rcases valid_cases hva with ⟨ca, xa, ha, hla, hta, hlea, hela, hxa⟩ |
    ⟨ca, ba, xa, ha, hla, hta, hbufa, hbla, hlea, hela, hxa, hka⟩ <;>
  rcases valid_cases hvb with ⟨cb, xb, hb, hlb, htb, hleb, helb, hxb⟩ |
    ⟨cb, bb, xb, hb, hlb, htb, hbufb, hblb, hleb, helb, hxb, hkb⟩
  · -- small, small
    obtain ⟨o1, o2, o3, o4⟩ := observe_small N ha hta hela (by omega)
    obtain ⟨p1, p2, p3, p4⟩ := observe_small N hb htb helb (by omega)
    have hia := lt_length_of_getElem? ha
    have hib := lt_length_of_getElem? hb
    obtain ⟨la2, lb2, e, h1, h2, h3, h4⟩ := swap_small_small ha hb hab hta htb hela helb
      (by omega) (by omega) (by omega) (by omega) hcopy
    obtain ⟨w1, e, hw1⟩ := exists_world e
    have ha1 : w1.objs[a]? = some (some { ca with size_ := cb.size_, static_storage := la2 }) := by
      simp [hw1, List.getElem?_set_ne (Ne.symm hab), hia]
    have hb1 : w1.objs[b]? = some (some { cb with size_ := ca.size_, static_storage := lb2 }) := by
      simp [hw1, hib]
    obtain ⟨q1, q2, q3, q4⟩ := observe_small N ha1 hta h3 (by simp; omega)
    obtain ⟨r1, r2, r3, r4⟩ := observe_small N hb1 htb h4 (by simp; omega)
    refine ⟨xa, ca.size_, N, true, xb, cb.size_, N, true, w1, o1, o2, o3, o4, p1, p2, p3, p4, e,
      valid_small ha1 (by simp [h1, hla]) hta hleb h3,
      valid_small hb1 (by simp [h2, hlb]) htb hlea h4,
      by simp [no_failure, hw1, hcopy, halloc], by simp [hw1], q1, q2, q3, q4, r1, r2, r3, r4,
      fun h => absurd h (by decide), fun h => absurd h (by decide), fun j h1 h2 => ?_⟩
    simp [hw1, List.getElem?_set_ne (Ne.symm h1), List.getElem?_set_ne (Ne.symm h2)]
  · -- small, big
    obtain ⟨o1, o2, o3, o4⟩ := observe_small N ha hta hela (by omega)
    obtain ⟨p1, p2, p3, p4, p5, _⟩ := observe_big N hb htb hbufb helb (by omega)
    have hia := lt_length_of_getElem? ha
    have hib := lt_length_of_getElem? hb
    obtain ⟨w1, e, hw1⟩ := exists_world (swap_small_big ha hb hab hta htb hbufb hkb hela
      (by omega) (by omega) hcopy)
    have ha1 : w1.objs[a]? = some (some (socow_vector.mk vector_type.BIG cb.size_
        cb.dynamic_storage (destroy_slots ca.static_storage ca.size_))) := by
      simp [hw1, List.getElem?_set_ne (Ne.symm hab), hia]
    have hb1 : w1.objs[b]? = some (some (socow_vector.mk vector_type.SMALL ca.size_
        cb.dynamic_storage (set_range cb.static_storage 0 xa))) := by
      simp [hw1, hib]
    have hbuf1 : w1.heap[cb.dynamic_storage]? = some (some bb) := by simp [hw1, hbufb]
    have hel1 : (set_range cb.static_storage 0 xa).take ca.size_ = xa.map some := by
      have := set_range_take xa cb.static_storage 0 (by simp; omega)
      simpa [hxa] using this
    obtain ⟨q1, q2, q3, q4, q5, _⟩ := observe_big N ha1 rfl hbuf1 helb (by simp; omega)
    obtain ⟨r1, r2, r3, r4⟩ := observe_small N hb1 rfl hel1 (by simp; omega)
    refine ⟨xa, ca.size_, N, true, xb, cb.size_, bb.capacity, false, w1, o1, o2, o3, o4,
      p1, p2, p3, p4, e,
      valid_big ha1 (by simp [destroy_slots_length, hla]) rfl hbuf1 hblb hleb helb hkb,
      valid_small hb1 (by simp [hlb]) rfl hlea hel1,
      by simp [no_failure, hw1, hcopy, halloc], by simp [hw1], q1, q2, q3, q4, r1, r2, r3, r4,
      fun _ d hd => ?_, fun h => absurd h (by decide), fun j h1 h2 => ?_⟩
    · obtain ⟨rfl, _⟩ := result_ok_inj hd p5
      exact q5
    · simp [hw1, List.getElem?_set_ne (Ne.symm h1), List.getElem?_set_ne (Ne.symm h2)]
  · -- big, small
    obtain ⟨o1, o2, o3, o4, o5, _⟩ := observe_big N ha hta hbufa hela (by omega)
    obtain ⟨p1, p2, p3, p4⟩ := observe_small N hb htb helb (by omega)
    have hia := lt_length_of_getElem? ha
    have hib := lt_length_of_getElem? hb
    obtain ⟨w1, e, hw1⟩ := exists_world (swap_big_small ha hb hab hta htb hbufa hka helb
      (by omega) (by omega) hcopy)
    have ha1 : w1.objs[a]? = some (some (socow_vector.mk vector_type.SMALL cb.size_
        ca.dynamic_storage (set_range ca.static_storage 0 xb))) := by
      simp [hw1, List.getElem?_set_ne (Ne.symm hab), hia]
    have hb1 : w1.objs[b]? = some (some (socow_vector.mk vector_type.BIG ca.size_
        ca.dynamic_storage (destroy_slots cb.static_storage cb.size_))) := by
      simp [hw1, hib]
    have hbuf1 : w1.heap[ca.dynamic_storage]? = some (some ba) := by simp [hw1, hbufa]
    have hel1 : (set_range ca.static_storage 0 xb).take cb.size_ = xb.map some := by
      have := set_range_take xb ca.static_storage 0 (by simp; omega)
      simpa [hxb] using this
    obtain ⟨q1, q2, q3, q4⟩ := observe_small N ha1 rfl hel1 (by simp; omega)
    obtain ⟨r1, r2, r3, r4, r5, _⟩ := observe_big N hb1 rfl hbuf1 hela (by simp; omega)
    refine ⟨xa, ca.size_, ba.capacity, false, xb, cb.size_, N, true, w1, o1, o2, o3, o4,
      p1, p2, p3, p4, e,
      valid_small ha1 (by simp [hla]) rfl hleb hel1,
      valid_big hb1 (by simp [destroy_slots_length, hlb]) rfl hbuf1 hbla hlea hela hka,
      by simp [no_failure, hw1, hcopy, halloc], by simp [hw1], q1, q2, q3, q4, r1, r2, r3, r4,
      fun h => absurd h (by decide), fun _ d hd => ?_, fun j h1 h2 => ?_⟩
    · obtain ⟨rfl, _⟩ := result_ok_inj hd o5
      exact r5
    · simp [hw1, List.getElem?_set_ne (Ne.symm h1), List.getElem?_set_ne (Ne.symm h2)]
  · -- big, big
    obtain ⟨o1, o2, o3, o4, o5, _⟩ := observe_big N ha hta hbufa hela (by omega)
    obtain ⟨p1, p2, p3, p4, p5, _⟩ := observe_big N hb htb hbufb helb (by omega)
    have hia := lt_length_of_getElem? ha
    have hib := lt_length_of_getElem? hb
    obtain ⟨w1, e, hw1⟩ := exists_world (swap_big_big ha hb hab hta htb)
    have ha1 : w1.objs[a]? = some (some { ca with
        size_ := cb.size_, dynamic_storage := cb.dynamic_storage }) := by
      simp [hw1, List.getElem?_set_ne (Ne.symm hab), hia]
    have hb1 : w1.objs[b]? = some (some { cb with
        size_ := ca.size_, dynamic_storage := ca.dynamic_storage }) := by
      simp [hw1, hib]
    have hbufa1 : w1.heap[ca.dynamic_storage]? = some (some ba) := by simp [hw1, hbufa]
    have hbufb1 : w1.heap[cb.dynamic_storage]? = some (some bb) := by simp [hw1, hbufb]
    obtain ⟨q1, q2, q3, q4, q5, _⟩ := observe_big N ha1 hta hbufb1 helb (by simp; omega)
    obtain ⟨r1, r2, r3, r4, r5, _⟩ := observe_big N hb1 htb hbufa1 hela (by simp; omega)
    refine ⟨xa, ca.size_, ba.capacity, false, xb, cb.size_, bb.capacity, false, w1,
      o1, o2, o3, o4, p1, p2, p3, p4, e,
      valid_big ha1 hla hta hbufb1 hblb hleb helb hkb,
      valid_big hb1 hlb htb hbufa1 hbla hlea hela hka,
      by simp [no_failure, hw1, hcopy, halloc], by simp [hw1], q1, q2, q3, q4, r1, r2, r3, r4,
      fun _ d hd => ?_, fun _ d hd => ?_, fun j h1 h2 => ?_⟩
    · obtain ⟨rfl, _⟩ := result_ok_inj hd p5
      exact q5
    · obtain ⟨rfl, _⟩ := result_ok_inj hd o5
      exact r5
    · simp [hw1, List.getElem?_set_ne (Ne.symm h1), List.getElem?_set_ne (Ne.symm h2)]

/-! ## Exceptions: where they can come from and what they leave behind -/

theorem bind_throw {m : M T α} {f : α → M T β} {w w1 : world T}
    (h : (m >>= f) w = result.throw w1) :
    m w = result.throw w1 ∨ ∃ a w2, m w = result.ok a w2 ∧ f a w2 = result.throw w1 := by
  simp only [bind_run] at h
  rcases hm : m w with ⟨a, w2⟩ | w2 | _ | _
  · rw [hm] at h; exact Or.inr ⟨a, w2, rfl, h⟩
  · rw [hm] at h; simp at h; exact Or.inl (by rw [h])
  · rw [hm] at h; simp at h
  · rw [hm] at h; simp at h

theorem bind_ok_inv {m : M T α} {f : α → M T β} {w w1 : world T} {b : β}
    (h : (m >>= f) w = result.ok b w1) :
    ∃ a w2, m w = result.ok a w2 ∧ f a w2 = result.ok b w1 := by
  simp only [bind_run] at h
  rcases hm : m w with ⟨a, w2⟩ | w2 | _ | _
  · rw [hm] at h; exact ⟨a, w2, rfl, h⟩
  · rw [hm] at h; simp at h
  · rw [hm] at h; simp at h
  · rw [hm] at h; simp at h

theorem scope_exit_throw {body : M T α} {dtor : M T Unit} {w w1 : world T}
    (h : scope_exit body dtor w = result.throw w1) :
    ∃ w2, body w = result.throw w2 ∧ dtor w2 = result.ok () w1 := by
  simp only [scope_exit] at h
  rcases hm : body w with ⟨a, w2⟩ | w2 | _ | _
  · rw [hm] at h
    simp only at h
    rcases hd : dtor w2 with ⟨u, w3⟩ | w3 | _ | _ <;> rw [hd] at h <;> simp at h
  · rw [hm] at h
    simp only at h
    rcases hd : dtor w2 with ⟨u, w3⟩ | w3 | _ | _ <;> rw [hd] at h <;> simp at h
    exact ⟨w2, rfl, h ▸ hd⟩
  · rw [hm] at h; simp at h
  · rw [hm] at h; simp at h

theorem try_catch_throw {body : M T α} {handler : M T Unit} {w w1 : world T}
    (h : try_catch body handler w = result.throw w1) :
    ∃ w2, body w = result.throw w2 ∧
      (handler w2 = result.ok () w1 ∨ handler w2 = result.throw w1) := by
  simp only [try_catch] at h
  rcases hm : body w with ⟨a, w2⟩ | w2 | _ | _
  · rw [hm] at h; simp at h
  · rw [hm] at h
    simp only at h
    rcases hd : handler w2 with ⟨u, w3⟩ | w3 | _ | _ <;> rw [hd] at h <;> simp at h
    · exact ⟨w2, rfl, Or.inl (h ▸ hd)⟩
    · exact ⟨w2, rfl, Or.inr (h ▸ hd)⟩
  · rw [hm] at h; simp at h
  · rw [hm] at h; simp at h

theorem try_catch_ok {body : M T α} {handler : M T Unit} {w w1 : world T} {a : α}
    (h : try_catch body handler w = result.ok a w1) : body w = result.ok a w1 := by
  simp only [try_catch] at h
  rcases hm : body w with ⟨a, w2⟩ | w2 | _ | _
  · rw [hm] at h; exact h
  · rw [hm] at h
    simp only at h
    rcases hd : handler w2 with ⟨u, w3⟩ | w3 | _ | _ <;> rw [hd] at h <;> simp at h
  · rw [hm] at h; simp at h
  · rw [hm] at h; simp at h

/-! ### Code that does not throw -/

theorem nothrow_pure (a : α) : nothrow (pure a : M T α) := by
  intro w w1 h; simp at h

theorem nothrow_ub : nothrow (undefined_behaviour : M T α) := by
  intro w w1 h; simp [undefined_behaviour] at h

theorem nothrow_bind {m : M T α} {f : α → M T β} (hm : nothrow m) (hf : ∀ a, nothrow (f a)) :
    nothrow (m >>= f) := by
  intro w w1 h
  rcases bind_throw h with h | ⟨a, w2, _, h⟩
  · exact hm _ _ h
  · exact hf a _ _ h

theorem nothrow_ite (c : Prop) [Decidable c] {a b : M T α} (ha : nothrow a) (hb : nothrow b) :
    nothrow (if c then a else b) := by
  split
  · exact ha
  · exact hb

theorem nothrow_get_obj (i : Nat) : nothrow (get_obj i : M T (socow_vector T)) := by
  intro w w1 h
  simp only [get_obj] at h
  split at h <;> simp at h

theorem nothrow_get_buf (p : Nat) : nothrow (get_buf p : M T (buffer T)) := by
  intro w w1 h
  simp only [get_buf] at h
  split at h <;> simp at h

theorem nothrow_modify_obj (i : Nat) (f : socow_vector T → socow_vector T) :
    nothrow (modify_obj i f) := by
  intro w w1 h
  simp only [modify_obj] at h
  split at h <;> simp at h

theorem nothrow_modify_buf (p : Nat) (f : buffer T → buffer T) : nothrow (modify_buf p f) := by
  intro w w1 h
  simp only [modify_buf] at h
  split at h <;> simp at h

theorem nothrow_delete_buf (p : Nat) : nothrow (delete_buf p : M T Unit) := by
  intro w w1 h
  simp only [delete_buf] at h
  split at h <;> simp at h

theorem nothrow_read_slot (it : iterator) : nothrow (read_slot it : M T (Option T)) := by
  intro w w1 h
  simp only [read_slot] at h
  split at h
  · split at h <;> simp at h
  · simp at h

theorem nothrow_write_slot (it : iterator) (s : Option T) : nothrow (write_slot it s) := by
  intro w w1 h
  simp only [write_slot] at h
  split at h
  · split at h <;> simp at h
  · simp at h

theorem nothrow_deref (it : iterator) : nothrow (deref it : M T T) := by
  unfold deref
  refine nothrow_bind (nothrow_read_slot it) (fun s => ?_)
  cases s
  · exact nothrow_ub
  · exact nothrow_pure _

theorem nothrow_destroy_at (it : iterator) : nothrow (destroy_at it : M T Unit) :=
  nothrow_bind (nothrow_deref it) (fun _ => nothrow_write_slot it none)

theorem nothrow_for_down {body : Nat → M T Unit} (h : ∀ k, nothrow (body k)) :
    ∀ n, nothrow (for_down body n) := by
  intro n
  induction n with
  | zero => exact nothrow_pure ()
  | succ n ih => exact nothrow_bind (h n) (fun _ => ih)

theorem nothrow_is_small (i : Nat) : nothrow (is_small i : M T Bool) :=
  nothrow_bind (nothrow_get_obj i) (fun _ => nothrow_pure _)

theorem nothrow_size (i : Nat) : nothrow (size i : M T Nat) :=
  nothrow_bind (nothrow_get_obj i) (fun _ => nothrow_pure _)

theorem nothrow_use_count (p : Nat) : nothrow (my_shared_ptr.use_count p : M T Nat) :=
  nothrow_bind (nothrow_get_buf p) (fun _ => nothrow_pure _)

theorem nothrow_is_master (i : Nat) : nothrow (is_master i : M T Bool) := by
  unfold is_master
  refine nothrow_bind (nothrow_is_small i) (fun s => ?_)
  cases s
  · exact nothrow_bind (nothrow_get_obj i) (fun _ =>
      nothrow_bind (nothrow_use_count _) (fun _ => nothrow_pure _))
  · exact nothrow_pure _

theorem nothrow_data_const (i : Nat) : nothrow (data_const i : M T iterator) := by
  unfold data_const
  refine nothrow_bind (nothrow_is_small i) (fun s => ?_)
  cases s
  · exact nothrow_bind (nothrow_get_obj i) (fun _ => nothrow_pure _)
  · exact nothrow_pure _

theorem nothrow_destroy_storage (i : Nat) : nothrow (destroy_storage i : M T Unit) := by
  unfold destroy_storage
  refine nothrow_bind (nothrow_is_master i) (fun m => ?_)
  cases m
  · exact nothrow_pure _
  · exact nothrow_bind (nothrow_size i) (fun n => nothrow_for_down (fun k =>
      nothrow_bind (nothrow_bind (nothrow_data_const i) (fun _ => nothrow_pure _))
        (fun it => nothrow_destroy_at it)) n)

theorem nothrow_copy_ctor (p : Nat) : nothrow (my_shared_ptr.copy_ctor p : M T Nat) :=
  nothrow_bind (nothrow_modify_buf _ _) (fun _ => nothrow_pure _)

theorem nothrow_dtor (p : Nat) : nothrow (my_shared_ptr.dtor p : M T Unit) := by
  unfold my_shared_ptr.dtor
  exact nothrow_bind (nothrow_use_count p) (fun n =>
    nothrow_ite _ (nothrow_modify_buf _ _) (nothrow_delete_buf _))

theorem nothrow_assign (i p : Nat) : nothrow (my_shared_ptr.assign i p : M T Unit) :=
  nothrow_bind (nothrow_copy_ctor p) (fun _ => nothrow_bind (nothrow_get_obj i) (fun _ =>
    nothrow_bind (nothrow_modify_obj _ _) (fun _ => nothrow_dtor _)))

/-! ### Code that touches one heap cell only -/

theorem frame_except_refl (L : Nat) (w : world T) : frame_except L w w :=
  ⟨rfl, fun _ _ => rfl⟩

theorem frame_except_trans {L : Nat} {w w1 w2 : world T}
    (h1 : frame_except L w w1) (h2 : frame_except L w1 w2) : frame_except L w w2 :=
  ⟨h2.1.trans h1.1, fun p hp => (h2.2 p hp).trans (h1.2 p hp)⟩

theorem framed_pure (L : Nat) (a : α) : framed L (pure a : M T α) := by
  intro w r h
  rcases h with h | ⟨b, h⟩
  · simp at h
  · simp at h; rw [← h.2]; exact frame_except_refl L w

theorem framed_ub (L : Nat) : framed L (undefined_behaviour : M T α) := by
  intro w r h
  rcases h with h | ⟨b, h⟩ <;> simp [undefined_behaviour] at h

theorem framed_bind {L : Nat} {m : M T α} {f : α → M T β}
    (hm : framed L m) (hf : ∀ a, framed L (f a)) : framed L (m >>= f) := by
  intro w r h
  rcases h with h | ⟨b, h⟩
  · rcases bind_throw h with h | ⟨a, w2, h1, h2⟩
    · exact hm w r (Or.inl h)
    · exact frame_except_trans (hm w w2 (Or.inr ⟨a, h1⟩)) (hf a w2 r (Or.inl h2))
  · obtain ⟨a, w2, h1, h2⟩ := bind_ok_inv h
    exact frame_except_trans (hm w w2 (Or.inr ⟨a, h1⟩)) (hf a w2 r (Or.inr ⟨b, h2⟩))

theorem framed_ite {L : Nat} (c : Prop) [Decidable c] {a b : M T α}
    (ha : framed L a) (hb : framed L b) : framed L (if c then a else b) := by
  split
  · exact ha
  · exact hb

theorem framed_try_catch {L : Nat} {body : M T α} {handler : M T Unit}
    (hb : framed L body) (hh : framed L handler) : framed L (try_catch body handler) := by
  intro w r h
  rcases h with h | ⟨b, h⟩
  · obtain ⟨w2, h1, h2⟩ := try_catch_throw h
    refine frame_except_trans (hb w w2 (Or.inl h1)) ?_
    rcases h2 with h2 | h2
    · exact hh w2 r (Or.inr ⟨(), h2⟩)
    · exact hh w2 r (Or.inl h2)
  · exact hb w r (Or.inr ⟨b, try_catch_ok h⟩)

theorem framed_for_down {L : Nat} {body : Nat → M T Unit} (h : ∀ k, framed L (body k)) :
    ∀ n, framed L (for_down body n) := by
  intro n
  induction n with
  | zero => exact framed_pure L ()
  | succ n ih => exact framed_bind (h n) (fun _ => ih)

theorem framed_get_obj (L i : Nat) : framed L (get_obj i : M T (socow_vector T)) := by
  intro w r h
  simp only [get_obj] at h
  rcases h with h | ⟨b, h⟩
  · split at h <;> simp at h
  · split at h
    · simp at h; rw [← h.2]; exact frame_except_refl L w
    · simp at h

theorem framed_size (L i : Nat) : framed L (size i : M T Nat) :=
  framed_bind (framed_get_obj L i) (fun _ => framed_pure L _)

theorem framed_read_slot (L : Nat) (it : iterator) :
    framed L (read_slot it : M T (Option T)) := by
  intro w r h
  simp only [read_slot] at h
  rcases h with h | ⟨b, h⟩
  · split at h
    · split at h <;> simp at h
    · simp at h
  · split at h
    · split at h
      · simp at h; rw [← h.2]; exact frame_except_refl L w
      · simp at h
    · simp at h

theorem framed_deref (L : Nat) (it : iterator) : framed L (deref it : M T T) := by
  unfold deref
  refine framed_bind (framed_read_slot L it) (fun s => ?_)
  cases s
  · exact framed_ub L
  · exact framed_pure L _

theorem frame_except_set_slots (L : Nat) (w : world T) (l : List (Option T)) :
    frame_except L w (w.set_slots (storage.arr L) l) := by
  simp only [world.set_slots]
  split
  · exact ⟨rfl, fun p hp => by simp [List.getElem?_set_ne (Ne.symm hp)]⟩
  · exact frame_except_refl L w

theorem framed_write_slot (L k : Nat) (s : Option T) :
    framed L (write_slot ⟨storage.arr L, k⟩ s : M T Unit) := by
  intro w r h
  simp only [write_slot] at h
  rcases h with h | ⟨b, h⟩
  · split at h
    · split at h <;> simp at h
    · simp at h
  · split at h
    · split at h
      · simp at h; rw [← h]; exact frame_except_set_slots L w _
      · simp at h
    · simp at h

theorem framed_destroy_at (L k : Nat) :
    framed L (destroy_at ⟨storage.arr L, k⟩ : M T Unit) :=
  framed_bind (framed_deref L _) (fun _ => framed_write_slot L k none)

theorem framed_value_type_copy (L : Nat) (v : T) : framed L (value_type_copy v) := by
  intro w r h
  simp only [value_type_copy] at h
  rcases h with h | ⟨b, h⟩
  · split at h <;> simp at h
    rw [← h]; exact ⟨rfl, fun _ _ => rfl⟩
  · split at h <;> simp at h
    · rw [← h.2]; exact frame_except_refl L w
    · rw [← h.2]; exact ⟨rfl, fun _ _ => rfl⟩

theorem framed_destroy_range (L off k : Nat) :
    framed L (destroy_range ⟨storage.arr L, off⟩ k : M T Unit) :=
  framed_for_down (fun i => framed_destroy_at L (off + i)) k

theorem framed_destroy (L n : Nat) : framed L (my_shared_ptr.destroy L n : M T Unit) :=
  framed_for_down (fun i => framed_destroy_at L i) n

theorem framed_uninitialized_copy_from (L off : Nat) (first : iterator) :
    ∀ n k, framed L (uninitialized_copy_from first ⟨storage.arr L, off⟩ k n : M T Unit) := by
  intro n
  induction n with
  | zero => intro k; exact framed_pure L ()
  | succ n ih =>
    intro k
    exact framed_bind (framed_deref L _) (fun v =>
      framed_bind (framed_try_catch (framed_value_type_copy L v) (framed_destroy_range L off k))
        (fun v1 => framed_bind (framed_write_slot L (off + k) (some v1)) (fun _ => ih (k + 1))))

/-! ### Observations carried over to a world that preserves objects and buffers -/

theorem preserved_refl (w : world T) : preserved w w :=
  ⟨rfl, fun _ _ h => h⟩

theorem transfers_pure (a : α) : transfers (pure a : M T α) := by
  intro w w1 b w2 _ h
  simp at h
  exact ⟨h.2.symm, by simp [h.1]⟩

theorem transfers_ub : transfers (undefined_behaviour : M T α) := by
  intro w w1 b w2 _ h
  simp [undefined_behaviour] at h

theorem transfers_bind {m : M T α} {f : α → M T β}
    (hm : transfers m) (hf : ∀ a, transfers (f a)) : transfers (m >>= f) := by
  intro w w1 b w3 hp h
  obtain ⟨a, w2, h1, h2⟩ := bind_ok_inv h
  obtain ⟨e, h1t⟩ := hm w w1 a w2 hp h1
  subst e
  obtain ⟨e, h2t⟩ := hf a w2 w1 b w3 hp h2
  exact ⟨e, by simp [h1t, h2t]⟩

theorem transfers_ite (c : Prop) [Decidable c] {a b : M T α}
    (ha : transfers a) (hb : transfers b) : transfers (if c then a else b) := by
  split
  · exact ha
  · exact hb

theorem transfers_get_obj (i : Nat) : transfers (get_obj i : M T (socow_vector T)) := by
  intro w w1 c w2 hp h
  simp only [get_obj] at h ⊢
  rw [hp.1]
  split at h
  · simp at h; simp [*]
  · simp at h

theorem transfers_get_buf (p : Nat) : transfers (get_buf p : M T (buffer T)) := by
  intro w w1 c w2 hp h
  simp only [get_buf] at h ⊢
  rcases hc : w.heap[p]? with _ | _ | b
  · simp [hc] at h
  · simp [hc] at h
  · simp [hc] at h
    simp [hp.2 p b hc, h.1, h.2]

theorem slots_of_preserved {w w1 : world T} (hp : preserved w w1) (s : storage)
    (l : List (Option T)) (h : w.slots s = some l) : w1.slots s = some l := by
  cases s with
  | static_storage o => simpa [world.slots, hp.1] using h
  | arr p =>
    simp only [world.slots] at h ⊢
    rcases hc : w.heap[p]? with _ | _ | b
    · simp [hc] at h
    · simp [hc] at h
    · simp [hc] at h
      simp [hp.2 p b hc, h]

theorem transfers_read_slot (it : iterator) : transfers (read_slot it : M T (Option T)) := by
  intro w w1 c w2 hp h
  simp only [read_slot] at h ⊢
  rcases hs : w.slots it.base with _ | l
  · simp [hs] at h
  · rw [slots_of_preserved hp _ l hs]
    simp only [hs] at h
    split at h
    · simp at h; simp [*]
    · simp at h

theorem transfers_deref (it : iterator) : transfers (deref it : M T T) := by
  unfold deref
  refine transfers_bind (transfers_read_slot it) (fun s => ?_)
  cases s
  · exact transfers_ub
  · exact transfers_pure _

theorem transfers_is_small (i : Nat) : transfers (is_small i : M T Bool) :=
  transfers_bind (transfers_get_obj i) (fun _ => transfers_pure _)

theorem transfers_size (i : Nat) : transfers (size i : M T Nat) :=
  transfers_bind (transfers_get_obj i) (fun _ => transfers_pure _)

theorem transfers_use_count (p : Nat) : transfers (my_shared_ptr.use_count p : M T Nat) :=
  transfers_bind (transfers_get_buf p) (fun _ => transfers_pure _)

theorem transfers_get_capacity (p : Nat) :
    transfers (my_shared_ptr.get_capacity p : M T Nat) :=
  transfers_bind (transfers_get_buf p) (fun _ => transfers_pure _)

theorem transfers_capacity (N i : Nat) : transfers (capacity N i : M T Nat) := by
  unfold capacity
  refine transfers_bind (transfers_is_small i) (fun s => ?_)
  cases s
  · exact transfers_bind (transfers_get_obj i) (fun _ => transfers_get_capacity _)
  · exact transfers_pure _

theorem transfers_is_master (i : Nat) : transfers (is_master i : M T Bool) := by
  unfold is_master
  refine transfers_bind (transfers_is_small i) (fun s => ?_)
  cases s
  · exact transfers_bind (transfers_get_obj i) (fun _ =>
      transfers_bind (transfers_use_count _) (fun _ => transfers_pure _))
  · exact transfers_pure _

theorem transfers_data_const (i : Nat) : transfers (data_const i : M T iterator) := by
  unfold data_const
  refine transfers_bind (transfers_is_small i) (fun s => ?_)
  cases s
  · exact transfers_bind (transfers_get_obj i) (fun _ => transfers_pure _)
  · exact transfers_pure _

theorem transfers_operator_index_const (i k : Nat) :
    transfers (operator_index_const i k : M T iterator) :=
  transfers_bind (transfers_data_const i) (fun _ => transfers_pure _)

theorem transfers_read_elements (i : Nat) :
    ∀ n, transfers (read_elements i n : M T (List T)) := by
  intro n
  induction n with
  | zero => exact transfers_pure _
  | succ n ih =>
    exact transfers_bind ih (fun _ => transfers_bind (transfers_operator_index_const i n)
      (fun it => transfers_bind (transfers_deref it) (fun _ => transfers_pure _)))

theorem transfers_elements (i : Nat) : transfers (elements i : M T (List T)) :=
  transfers_bind (transfers_size i) (fun n => transfers_read_elements i n)

theorem ok_world {m : M T α} (hm : transfers m) {w w2 : world T} {a : α}
    (h : m w = result.ok a w2) : w2 = w :=
  (hm w w a w2 (preserved_refl w) h).1

/-! ### A failed growth attempt leaves every object and buffer as it was -/

theorem throw_framed_of_nothrow {L : Nat} {m : M T α} (h : nothrow m) : throw_framed L m :=
  fun w r e => absurd e (h w r)

theorem throw_framed_of_framed {L : Nat} {m : M T α} (h : framed L m) : throw_framed L m :=
  fun w r e => h w r (Or.inl e)

theorem throw_framed_bind {L : Nat} {m : M T α} {f : α → M T β}
    (hm : framed L m) (hf : ∀ a, throw_framed L (f a)) : throw_framed L (m >>= f) := by
  intro w r h
  rcases bind_throw h with h | ⟨a, w2, h1, h2⟩
  · exact hm w r (Or.inl h)
  · exact frame_except_trans (hm w w2 (Or.inr ⟨a, h1⟩)) (hf a w2 r h2)

theorem framed_get_buf (L p : Nat) : framed L (get_buf p : M T (buffer T)) := by
  intro w r h
  simp only [get_buf] at h
  rcases h with h | ⟨b, h⟩
  · split at h <;> simp at h
  · split at h
    · simp at h; rw [← h.2]; exact frame_except_refl L w
    · simp at h

theorem framed_modify_buf (L : Nat) (f : buffer T → buffer T) :
    framed L (modify_buf L f : M T Unit) := by
  intro w r h
  simp only [modify_buf] at h
  rcases h with h | ⟨b, h⟩
  · split at h <;> simp at h
  · split at h
    · simp at h; rw [← h]
      exact ⟨rfl, fun p hp => by simp [List.getElem?_set_ne (Ne.symm hp)]⟩
    · simp at h

theorem framed_delete_buf (L : Nat) : framed L (delete_buf L : M T Unit) := by
  intro w r h
  simp only [delete_buf] at h
  rcases h with h | ⟨b, h⟩
  · split at h <;> simp at h
  · split at h
    · simp at h; rw [← h]
      exact ⟨rfl, fun p hp => by simp [List.getElem?_set_ne (Ne.symm hp)]⟩
    · simp at h

theorem framed_dtor (L : Nat) : framed L (my_shared_ptr.dtor L : M T Unit) := by
  unfold my_shared_ptr.dtor
  exact framed_bind (framed_bind (framed_get_buf L L) (fun _ => framed_pure L _)) (fun n =>
    framed_ite _ (framed_modify_buf L _) (framed_delete_buf L))

theorem ctor_ok {cap : Nat} {w w2 : world T} {p : Nat}
    (h : my_shared_ptr.ctor cap w = result.ok p w2) :
    p = w.heap.length ∧ frame_except w.heap.length w w2 := by
  simp only [my_shared_ptr.ctor] at h
  split at h <;> simp at h
  · refine ⟨h.1.symm, ?_⟩
    rw [← h.2]
    exact ⟨rfl, fun p hp => by
      rcases Nat.lt_or_gt_of_ne hp with hlt | hgt
      · simp [List.getElem?_append_left hlt]
      · have h1 : w.heap.length + 1 ≤ p := hgt
        simp [List.getElem?_eq_none, h1, Nat.le_of_lt hgt]⟩
  · refine ⟨h.1.symm, ?_⟩
    rw [← h.2]
    exact ⟨rfl, fun p hp => by
      rcases Nat.lt_or_gt_of_ne hp with hlt | hgt
      · simp [List.getElem?_append_left hlt]
      · have h1 : w.heap.length + 1 ≤ p := hgt
        simp [List.getElem?_eq_none, h1, Nat.le_of_lt hgt]⟩

theorem ctor_throw {cap : Nat} {w w1 : world T}
    (h : my_shared_ptr.ctor cap w = result.throw w1) : preserved w w1 := by
  simp only [my_shared_ptr.ctor] at h
  split at h <;> simp at h
  rw [← h]
  exact ⟨rfl, fun _ _ e => e⟩

theorem preserved_of_frame_except {w w1 : world T}
    (h : frame_except w.heap.length w w1) : preserved w w1 := by
  refine ⟨h.1, fun p b e => ?_⟩
  have hlt := lt_length_of_getElem? e
  rw [h.2 p (Nat.ne_of_lt hlt)]
  exact e

theorem change_static_storage_to_dynamic_throw (i cap : Nat) (value : Option T)
    (w w1 : world T)
    (h : change_static_storage_to_dynamic i cap value w = result.throw w1) :
    preserved w w1 := by
  unfold change_static_storage_to_dynamic at h
  rcases bind_throw h with h | ⟨temp, w2, h1, h2⟩
  · exact ctor_throw h
  · obtain ⟨etemp, hf1⟩ := ctor_ok h1
    obtain ⟨w3, h3, h4⟩ := scope_exit_throw h2
    have hf3 : frame_except temp w3 w1 := framed_dtor temp w3 w1 (Or.inr ⟨(), h4⟩)
    have hsuffix : ∀ new_size : Nat, throw_framed temp
        ((destroy_storage i : M T Unit) >>= fun _ =>
          my_shared_ptr.copy_ctor temp >>= fun p =>
          modify_obj i (fun c => { c with dynamic_storage := p }) >>= fun _ =>
          modify_obj i (fun c => { c with type := vector_type.BIG }) >>= fun _ =>
          modify_obj i (fun c =>
            { c with size_ := new_size + (if value.isSome then 1 else 0) })) :=
      fun _ => throw_framed_of_nothrow (nothrow_bind (nothrow_destroy_storage i) (fun _ =>
        nothrow_bind (nothrow_copy_ctor temp) (fun _ => nothrow_bind (nothrow_modify_obj _ _)
          (fun _ => nothrow_bind (nothrow_modify_obj _ _) (fun _ => nothrow_modify_obj _ _)))))
    have hf2 : frame_except temp w2 w3 := by
      revert h3
      cases value with
      | none =>
        intro h3
        exact throw_framed_bind (framed_size temp i) (fun n =>
          throw_framed_bind (framed_uninitialized_copy_from temp 0 _ n 0) (fun _ =>
            throw_framed_bind (framed_size temp i) (fun new_size =>
              throw_framed_bind (framed_pure temp ()) (fun _ => hsuffix new_size)))) w2 w3 h3
      | some v =>
        intro h3
        exact throw_framed_bind (framed_size temp i) (fun n =>
          throw_framed_bind (framed_uninitialized_copy_from temp 0 _ n 0) (fun _ =>
            throw_framed_bind (framed_size temp i) (fun new_size =>
              throw_framed_bind
                (framed_try_catch
                  (framed_bind (framed_value_type_copy temp v)
                    (fun v1 => framed_write_slot temp (0 + new_size) (some v1)))
                  (framed_bind (framed_size temp i) (fun n => framed_destroy temp n)))
                (fun _ => hsuffix new_size)))) w2 w3 h3
    subst etemp
    exact preserved_of_frame_except (frame_except_trans hf1 (frame_except_trans hf2 hf3))

theorem change_dynamic_storage_throw (i cap n : Nat) (value : Option T) (w w1 : world T)
    (h : change_dynamic_storage i cap n value w = result.throw w1) : preserved w w1 := by
  unfold change_dynamic_storage at h
  rcases bind_throw h with ha | ⟨small, w0, h0, ha⟩
  · exact absurd ha (nothrow_is_small i w w1)
  · clear h
    have e0 := ok_world (transfers_is_small i) h0
    subst e0
    cases small with
    | true =>
      simp only [if_true] at ha
      exact absurd ha (nothrow_ub _ w1)
    | false =>
      simp only [Bool.false_eq_true, if_false] at ha
      rcases bind_throw ha with hb | ⟨temp, w2, h1, h2⟩
      · exact ctor_throw hb
      · obtain ⟨etemp, hf1⟩ := ctor_ok h1
        obtain ⟨w3, h3, h4⟩ := scope_exit_throw h2
        have hf3 : frame_except temp w3 w1 := framed_dtor temp w3 w1 (Or.inr ⟨(), h4⟩)
        have hsuffix : throw_framed temp
            ((destroy_storage i : M T Unit) >>= fun _ =>
              my_shared_ptr.assign i temp >>= fun _ =>
              modify_obj i (fun c =>
                { c with size_ := n + (if value.isSome then 1 else 0) })) :=
          throw_framed_of_nothrow (nothrow_bind (nothrow_destroy_storage i) (fun _ =>
            nothrow_bind (nothrow_assign i temp) (fun _ => nothrow_modify_obj _ _)))
        have hf2 : frame_except temp w2 w3 := by
          revert h3
          cases value with
          | none =>
            intro h3
            exact throw_framed_bind (framed_get_obj temp i) (fun c =>
              throw_framed_bind (framed_uninitialized_copy_from temp 0 _ n 0) (fun _ =>
                throw_framed_bind (framed_pure temp ()) (fun _ => hsuffix))) w2 w3 h3
          | some v =>
            intro h3
            exact throw_framed_bind (framed_get_obj temp i) (fun c =>
              throw_framed_bind (framed_uninitialized_copy_from temp 0 _ n 0) (fun _ =>
                throw_framed_bind
                  (framed_try_catch
                    (framed_bind (framed_value_type_copy temp v)
                      (fun v1 => framed_write_slot temp (0 + n) (some v1)))
                    (framed_destroy temp n))
                  (fun _ => hsuffix))) w2 w3 h3
        subst etemp
        exact preserved_of_frame_except (frame_except_trans hf1 (frame_except_trans hf2 hf3))

theorem reserve_value_throw (N i cap : Nat) (value : Option T) (w w1 : world T)
    (h : reserve_value N i cap value w = result.throw w1) : preserved w w1 := by
  unfold reserve_value at h
  rcases bind_throw h with ha | ⟨c, w2, h1, ha⟩
  · exact absurd ha (nothrow_bind (nothrow_is_small i) (fun s => by
      cases s
      · exact nothrow_bind (nothrow_get_obj i) (fun _ =>
          nothrow_bind (nothrow_get_buf _) (fun _ => nothrow_pure _))
      · exact nothrow_pure _) w w1)
  clear h
  have e := ok_world (transfers_capacity N i) h1
  subst e
  rcases bind_throw ha with hb | ⟨m, w3, h2, hb⟩
  · exact absurd hb (nothrow_is_master i _ w1)
  clear ha
  have e := ok_world (transfers_is_master i) h2
  subst e
  rcases bind_throw hb with hc | ⟨n, w4, h3, hc⟩
  · exact absurd hc (nothrow_size i _ w1)
  clear hb
  have e := ok_world (transfers_size i) h3
  subst e
  split at hc
  · rcases bind_throw hc with hd | ⟨s, w5, h4, hd⟩
    · exact absurd hd (nothrow_is_small i _ w1)
    clear hc
    have e := ok_world (transfers_is_small i) h4
    subst e
    cases s with
    | true => exact change_static_storage_to_dynamic_throw i cap value _ w1 hd
    | false =>
      simp only [Bool.false_eq_true, if_false] at hd
      rcases bind_throw hd with he | ⟨k, w6, h5, he⟩
      · exact absurd he (nothrow_size i _ w1)
      clear hd
      have e := ok_world (transfers_size i) h5
      subst e
      exact change_dynamic_storage_throw i cap k value _ w1 he
  · exact absurd hc (nothrow_pure () _ w1)

theorem observes_same_of_preserved {w w1 : world T} (hp : preserved w w1) (N j : Nat) :
    observes_same N j w w1 :=
  ⟨fun s h => (transfers_size j w w1 s w hp h).2,
   fun c h => (transfers_capacity N j w w1 c w hp h).2,
   fun t h => (transfers_is_small j w w1 t w hp h).2,
   fun xs h => (transfers_elements j w w1 xs w hp h).2,
   fun d h => (transfers_data_const j w w1 d w hp h).2⟩

theorem counts_same_of_preserved {w w1 : world T} (hp : preserved w w1) :
    counts_same w w1 :=
  fun p k h => (transfers_use_count p w w1 k w hp h).2

theorem enlarge_capacity_throw (N i m : Nat) (value : Option T) (w w1 : world T)
    (h : enlarge_capacity N i m value w = result.throw w1) : preserved w w1 := by
  unfold enlarge_capacity at h
  rcases bind_throw h with ha | ⟨c, w2, h1, ha⟩
  · exact absurd ha (nothrow_bind (nothrow_is_small i) (fun s => by
      cases s
      · exact nothrow_bind (nothrow_get_obj i) (fun _ =>
          nothrow_bind (nothrow_get_buf _) (fun _ => nothrow_pure _))
      · exact nothrow_pure _) w w1)
  clear h
  have e := ok_world (transfers_capacity N i) h1
  subst e
  split at ha
  · exact reserve_value_throw N i _ value _ w1 ha
  · exact absurd ha (nothrow_pure () _ w1)

theorem push_back_growth_throw (N i : Nat) (v : T) (w w1 : world T) (n c : Nat)
    (hn : size i w = result.ok n w) (hc : capacity N i w = result.ok c w) (hfull : c < n + 1)
    (h : push_back N i v w = result.throw w1) : preserved w w1 := by
  unfold push_back at h
  simp only [bind_run, hn, hc] at h
  rw [if_pos hfull] at h
  exact enlarge_capacity_throw N i (n + 1) (some v) w w1 h

/-! ## Containers that an operation leaves alone -/

theorem unchanged_refl {N : Nat} {w : world T} {j : Nat} (hv : valid N w j) :
    unchanged w w j := by
  refine ⟨rfl, fun c b hc hty hb => ?_⟩
  rcases valid_cases hv with ⟨c1, xs, hobj, hlen, hty1, hle, hel, hxl⟩ |
    ⟨c1, b1, xs, hobj, hlen, hty1, hbuf, hbl, hle, hel, hxl, hk⟩
  · rw [hobj] at hc
    simp only [Option.some.injEq] at hc
    subst hc
    rw [hty1] at hty
    cases hty
  · rw [hobj] at hc
    simp only [Option.some.injEq] at hc
    subst hc
    rw [hbuf] at hb
    simp only [Option.some.injEq] at hb
    subst hb
    exact ⟨b1, hbuf, rfl, rfl, hk⟩

theorem unchanged_trans {w w1 w2 : world T} {j : Nat}
    (h1 : unchanged w w1 j) (h2 : unchanged w1 w2 j) : unchanged w w2 j := by
  refine ⟨h2.1.trans h1.1, fun c b hc hty hb => ?_⟩
  obtain ⟨b1, hb1, hcap1, harr1, _⟩ := h1.2 c b hc hty hb
  obtain ⟨b2, hb2, hcap2, harr2, hk2⟩ := h2.2 c b1 (h1.1.trans hc) hty hb1
  exact ⟨b2, hb2, hcap2.trans hcap1, harr2.trans harr1, hk2⟩

/-- A container left alone stays well formed and shows the same contents. -/
theorem valid_of_unchanged {N : Nat} {w w1 : world T} {j : Nat} (hv : valid N w j)
    (hu : unchanged w w1 j) : valid N w1 j ∧ observes_same N j w w1 := by
  rcases valid_cases hv with ⟨c, xs, hobj, hlen, hty, hle, hel, hxl⟩ |
    ⟨c, b, xs, hobj, hlen, hty, hbuf, hbl, hle, hel, hxl, hk⟩
  · have hobj1 : w1.objs[j]? = some (some c) := hu.1.trans hobj
    obtain ⟨o1, o2, o3, o4⟩ := observe_small N hobj hty hel (by omega)
    obtain ⟨p1, p2, p3, p4⟩ := observe_small N hobj1 hty hel (by omega)
    have d0 : data_const j w = result.ok (iterator.mk (storage.static_storage j) 0) w := by
      simp [data_const, o4]
    have d1 : data_const j w1 = result.ok (iterator.mk (storage.static_storage j) 0) w1 := by
      simp [data_const, p4]
    refine ⟨valid_small hobj1 hlen hty hle hel, ?_, ?_, ?_, ?_, ?_⟩
    · intro s h; obtain ⟨rfl, _⟩ := result_ok_inj h o2; exact p2
    · intro s h; obtain ⟨rfl, _⟩ := result_ok_inj h o3; exact p3
    · intro s h; obtain ⟨rfl, _⟩ := result_ok_inj h o4; exact p4
    · intro s h; obtain ⟨rfl, _⟩ := result_ok_inj h o1; exact p1
    · intro s h; obtain ⟨rfl, _⟩ := result_ok_inj h d0; exact d1
  · have hobj1 : w1.objs[j]? = some (some c) := hu.1.trans hobj
    obtain ⟨b1, hbuf1, hcap1, harr1, hk1⟩ := hu.2 c b hobj hty hbuf
    obtain ⟨o1, o2, o3, o4, o5, _⟩ := observe_big N hobj hty hbuf hel (by omega)
    obtain ⟨p1, p2, p3, p4, p5, _⟩ := observe_big N hobj1 hty hbuf1 (by rw [harr1]; exact hel)
      (by rw [harr1]; omega)
    refine ⟨valid_big hobj1 hlen hty hbuf1 (by rw [harr1, hcap1]; exact hbl)
      (by rw [hcap1]; exact hle) (by rw [harr1]; exact hel) hk1, ?_, ?_, ?_, ?_, ?_⟩
    · intro s h; obtain ⟨rfl, _⟩ := result_ok_inj h o2; exact p2
    · intro s h; obtain ⟨rfl, _⟩ := result_ok_inj h o3; rw [← hcap1]; exact p3
    · intro s h; obtain ⟨rfl, _⟩ := result_ok_inj h o4; exact p4
    · intro s h; obtain ⟨rfl, _⟩ := result_ok_inj h o1; exact p1
    · intro s h; obtain ⟨rfl, _⟩ := result_ok_inj h o5; exact p5

/-! ## The destructor -/

theorem dtor_small {w : world T} {t : Nat} {c : socow_vector T}
    (hobj : w.objs[t]? = some (some c)) (hty : c.type = vector_type.SMALL)
    (hc : constructed c.static_storage c.size_) :
    dtor t w = result.ok ()
      { w with objs := w.objs.set t (some { c with
          static_storage := destroy_slots c.static_storage c.size_ }) } := by
  have ho : owns w t (storage.static_storage t) c.size_ :=
    Or.inl ⟨c.dynamic_storage, by simp [world.header, hobj, hty], rfl⟩
  have hs : w.slots (storage.static_storage t) = some c.static_storage := by
    simp [world.slots, hobj]
  have hi := lt_length_of_getElem? hobj
  simp [dtor, noexcept, destroy_storage_of_owns ho hs hc, world.set_slots, hobj, is_small,
    get_obj, hi, hty]

theorem dtor_big_master {w : world T} {t : Nat} {c : socow_vector T} {b : buffer T}
    (hobj : w.objs[t]? = some (some c)) (hty : c.type = vector_type.BIG)
    (hbuf : w.heap[c.dynamic_storage]? = some (some b)) (hcnt : b.cnt_references = 1)
    (hc : constructed b.arr c.size_) :
    dtor t w = result.ok () { w with heap := w.heap.set c.dynamic_storage none } := by
  have ho : owns w t (storage.arr c.dynamic_storage) c.size_ :=
    Or.inr ⟨c.dynamic_storage, b.capacity, by simp [world.header, hobj, hty], rfl,
      by simp [world.buf_header, hbuf, hcnt]⟩
  have hs : w.slots (storage.arr c.dynamic_storage) = some b.arr := by
    simp [world.slots, hbuf]
  have hp := lt_length_of_getElem? hbuf
  simp [dtor, noexcept, destroy_storage_of_owns ho hs hc, world.set_slots, hbuf, is_small,
    get_obj, hobj, hty, my_shared_ptr.dtor, my_shared_ptr.use_count, get_buf, hp, hcnt,
    delete_buf]

theorem dtor_big_shared {w : world T} {t : Nat} {c : socow_vector T} {b : buffer T}
    (hobj : w.objs[t]? = some (some c)) (hty : c.type = vector_type.BIG)
    (hbuf : w.heap[c.dynamic_storage]? = some (some b)) (hcnt : b.cnt_references ≠ 1) :
    dtor t w = result.ok ()
      { w with heap := w.heap.set c.dynamic_storage (some { b with
          cnt_references := b.cnt_references - 1 }) } := by
  have hm := is_master_big hobj hty hbuf
  simp [dtor, noexcept, destroy_storage, hm, hcnt, is_small, get_obj, hobj, hty,
    my_shared_ptr.dtor, my_shared_ptr.use_count, get_buf, hbuf, modify_buf]

theorem unchanged_of_eq {w w1 : world T} {j : Nat}
    (hobj : w1.objs[j]? = w.objs[j]?) (hheap : w1.heap = w.heap)
    (hk : ∀ c b, w.objs[j]? = some (some c) → c.type = vector_type.BIG →
      w.heap[c.dynamic_storage]? = some (some b) → 1 ≤ b.cnt_references) :
    unchanged w w1 j :=
  ⟨hobj, fun c b hc hty hb => ⟨b, by rw [hheap]; exact hb, rfl, rfl, hk c b hc hty hb⟩⟩

theorem count_pos_of_valid {N : Nat} {w : world T} {j : Nat} (hv : valid N w j) :
    ∀ c b, w.objs[j]? = some (some c) → c.type = vector_type.BIG →
      w.heap[c.dynamic_storage]? = some (some b) → 1 ≤ b.cnt_references := by
  intro c b hc hty hb
  obtain ⟨b1, hb1, _, _, hk⟩ := (unchanged_refl hv).2 c b hc hty hb
  rw [hb] at hb1
  simp only [Option.some.injEq] at hb1
  rw [hb1]; exact hk

/-- One buffer gets one more reference: every well-formed container stays as it is. -/
theorem unchanged_of_acquire {N : Nat} {w w1 : world T} {j p : Nat} {b : buffer T}
    (hv : valid N w j) (hobj : w1.objs[j]? = w.objs[j]?)
    (hb : w.heap[p]? = some (some b))
    (hheap : w1.heap = w.heap.set p (some { b with cnt_references := b.cnt_references + 1 })) :
    unchanged w w1 j := by
  refine ⟨hobj, fun c b0 hc hty hb0 => ?_⟩
  have hp := lt_length_of_getElem? hb
  by_cases e : c.dynamic_storage = p
  · rw [e, hb] at hb0
    simp only [Option.some.injEq] at hb0
    subst hb0
    exact ⟨{ b with cnt_references := b.cnt_references + 1 }, by rw [hheap, e]; simp [hp],
      rfl, rfl, by simp⟩
  · exact ⟨b0, by rw [hheap, List.getElem?_set_ne (Ne.symm e)]; exact hb0, rfl, rfl,
      count_pos_of_valid hv c b0 hc hty hb0⟩

/-- One buffer loses a reference (and its life with the last one): a well-formed
container stays as it is unless it holds that buffer as the only owner. -/
theorem unchanged_of_release {N : Nat} {w w1 : world T} {j p : Nat} {b : buffer T}
    (hv : valid N w j) (hobj : w1.objs[j]? = w.objs[j]?)
    (hb : w.heap[p]? = some (some b)) (hheap : w1.heap = w.heap.set p b.release)
    (hshared : ∀ c, w.objs[j]? = some (some c) → c.type = vector_type.BIG →
      c.dynamic_storage = p → 2 ≤ b.cnt_references) :
    unchanged w w1 j := by
  refine ⟨hobj, fun c b0 hc hty hb0 => ?_⟩
  have hp := lt_length_of_getElem? hb
  by_cases e : c.dynamic_storage = p
  · have h2 := hshared c hc hty e
    rw [e, hb] at hb0
    simp only [Option.some.injEq] at hb0
    subst hb0
    have hrel : b.release = some { b with cnt_references := b.cnt_references - 1 } := by
      simp only [buffer.release]
      rw [if_neg (by omega)]
    exact ⟨{ b with cnt_references := b.cnt_references - 1 },
      by rw [hheap, e, hrel]; simp [hp], rfl, rfl, by simp; omega⟩
  · exact ⟨b0, by rw [hheap, List.getElem?_set_ne (Ne.symm e)]; exact hb0, rfl, rfl,
      count_pos_of_valid hv c b0 hc hty hb0⟩

/-- The copy constructor leaves the existing objects alone; the heap changes by
one reference to the source's buffer, and only when the size exceeds `N`. -/
theorem copy_ctor_frame {N : Nat} {w w1 : world T} {a m : Nat} (hv : valid N w a)
    (hnf : no_failure w) (h : copy_ctor N a w = result.ok m w1) :
    w1.objs.length = w.objs.length + 1 ∧
    (∀ j, j < w.objs.length → w1.objs[j]? = w.objs[j]?) ∧
    ∃ c, w.objs[a]? = some (some c) ∧
      ((c.size_ ≤ N ∧ w1.heap = w.heap) ∨
       (N < c.size_ ∧ c.type = vector_type.BIG ∧ ∃ b, w.heap[c.dynamic_storage]? = some (some b) ∧
          w1.heap = w.heap.set c.dynamic_storage
            (some { b with cnt_references := b.cnt_references + 1 }))) := by
  obtain ⟨hcopy, halloc⟩ := hnf
  rcases valid_cases hv with ⟨c, xs, hobj, hlen, hty, hle, hel, hxl⟩ |
    ⟨c, b, xs, hobj, hlen, hty, hbuf, hbl, hle, hel, hxl, hk⟩
  · have e := copy_ctor_elementwise (r := storage.static_storage a)
      N hobj (by simp [hty]) (by simp [world.slots, hobj]) hel (by omega) hle hcopy
    obtain ⟨_, hw⟩ := result_ok_inj h e
    subst hw
    exact ⟨by simp, fun j hj => by simp [List.getElem?_append_left hj], c, hobj,
      Or.inl ⟨hle, rfl⟩⟩
  · by_cases hsz : c.size_ ≤ N
    · have e := copy_ctor_elementwise (r := storage.arr c.dynamic_storage) N hobj
        (by simp [hty]) (by simp [world.slots, hbuf]) hel (by omega) hsz hcopy
      obtain ⟨_, hw⟩ := result_ok_inj h e
      subst hw
      exact ⟨by simp, fun j hj => by simp [List.getElem?_append_left hj], c, hobj,
        Or.inl ⟨hsz, rfl⟩⟩
    · have e := copy_ctor_share N hobj hbuf (by omega)
      obtain ⟨_, hw⟩ := result_ok_inj h e
      subst hw
      exact ⟨by simp, fun j hj => by simp [List.getElem?_append_left hj], c, hobj,
        Or.inr ⟨by omega, hty, b, hbuf, rfl⟩⟩

/-- The end of a temporary: its destructor runs and its storage is given back. -/
theorem cleanup_spec {N : Nat} {w : world T} {m : Nat} (hv : valid N w m) :
    ∃ w1 c, (dtor m >>= fun _ => free_obj m) w = result.ok () w1 ∧
      w1.copy_throws = w.copy_throws ∧ w1.alloc_throws = w.alloc_throws ∧
      (∀ j, j ≠ m → w1.objs[j]? = w.objs[j]?) ∧
      w.objs[m]? = some (some c) ∧
      ((c.type = vector_type.SMALL ∧ w1.heap = w.heap) ∨
       (c.type = vector_type.BIG ∧ ∃ b, w.heap[c.dynamic_storage]? = some (some b) ∧
          w1.heap = w.heap.set c.dynamic_storage b.release)) := by
  rcases valid_cases hv with ⟨c, xs, hobj, hlen, hty, hle, hel, hxl⟩ |
    ⟨c, b, xs, hobj, hlen, hty, hbuf, hbl, hle, hel, hxl, hk⟩
  · have hi := lt_length_of_getElem? hobj
    have hc : constructed c.static_storage c.size_ := (constructed_of_take hel (by omega)).1
    refine ⟨{ w with objs := w.objs.set m none }, c, ?_, rfl, rfl, ?_, hobj,
      Or.inl ⟨hty, rfl⟩⟩
    · simp [bind_run, dtor_small hobj hty hc, free_obj, hi]
    · intro j hj
      simp [List.getElem?_set_ne (Ne.symm hj)]
  · have hi := lt_length_of_getElem? hobj
    by_cases hcnt : b.cnt_references = 1
    · have hc : constructed b.arr c.size_ := (constructed_of_take hel (by omega)).1
      refine ⟨{ w with heap := w.heap.set c.dynamic_storage none,
                       objs := w.objs.set m none }, c, ?_, rfl, rfl, ?_, hobj,
        Or.inr ⟨hty, b, hbuf, by simp [buffer.release, hcnt]⟩⟩
      · simp [bind_run, dtor_big_master hobj hty hbuf hcnt hc, free_obj, hobj]
      · intro j hj
        simp [List.getElem?_set_ne (Ne.symm hj)]
    · refine ⟨{ w with heap := w.heap.set c.dynamic_storage (some { b with
                         cnt_references := b.cnt_references - 1 }),
                       objs := w.objs.set m none }, c, ?_, rfl, rfl, ?_, hobj,
        Or.inr ⟨hty, b, hbuf, by simp [buffer.release, hcnt]⟩⟩
      · simp [bind_run, dtor_big_shared hobj hty hbuf hcnt, free_obj, hobj]
      · intro j hj
        simp [List.getElem?_set_ne (Ne.symm hj)]

/-! ## From observations back to the members -/

theorem is_small_of_obj {w : world T} {i : Nat} {c : socow_vector T}
    (hobj : w.objs[i]? = some (some c)) :
    is_small i w = result.ok (decide (c.type = vector_type.SMALL)) w := by
  simp [is_small, get_obj, hobj]

theorem data_const_of_obj_big {w : world T} {i : Nat} {c : socow_vector T}
    (hobj : w.objs[i]? = some (some c)) (hty : c.type = vector_type.BIG) :
    data_const i w = result.ok (iterator.mk (storage.arr c.dynamic_storage) 0) w := by
  simp [data_const, is_small, get_obj, hobj, hty, my_shared_ptr.get]

theorem data_const_of_obj_small {w : world T} {i : Nat} {c : socow_vector T}
    (hobj : w.objs[i]? = some (some c)) (hty : c.type = vector_type.SMALL) :
    data_const i w = result.ok (iterator.mk (storage.static_storage i) 0) w := by
  simp [data_const, is_small, get_obj, hobj, hty]

theorem use_count_of_buf {w : world T} {p : Nat} {b : buffer T}
    (hbuf : w.heap[p]? = some (some b)) :
    my_shared_ptr.use_count p w = result.ok b.cnt_references w := by
  simp [my_shared_ptr.use_count, get_buf, hbuf]

theorem size_of_obj {w : world T} {i : Nat} {c : socow_vector T}
    (hobj : w.objs[i]? = some (some c)) : size i w = result.ok c.size_ w := by
  simp [size, get_obj, hobj]

theorem obj_of_valid {N : Nat} {w : world T} {i : Nat} (hv : valid N w i) :
    ∃ c, w.objs[i]? = some (some c) := by
  obtain ⟨c, hc, _⟩ := hv
  exact ⟨c, hc⟩

theorem type_eq_of_decide {x y : vector_type}
    (h : decide (x = vector_type.SMALL) = decide (y = vector_type.SMALL)) : x = y := by
  cases x <;> cases y <;> simp at h <;> rfl

/-- The members of two containers after `swap`: representation tags and buffer
handles have changed places. -/
theorem swap_records {N : Nat} {w : world T} {a b : Nat} (hva : valid N w a)
    (hvb : valid N w b) (hab : a ≠ b) (hnf : no_failure w) :
    ∃ ca cb ca2 cb2 w1, w.objs[a]? = some (some ca) ∧ w.objs[b]? = some (some cb) ∧
      swap a b w = result.ok () w1 ∧
      w1.objs[a]? = some (some ca2) ∧ w1.objs[b]? = some (some cb2) ∧
      ca2.type = cb.type ∧ cb2.type = ca.type ∧
      (cb.type = vector_type.BIG → ca2.dynamic_storage = cb.dynamic_storage) ∧
      (ca.type = vector_type.BIG → cb2.dynamic_storage = ca.dynamic_storage) := by
  obtain ⟨xa, sa, cpa, ta, xb, sb, cpb, tb, w1, _, _, _, ia, _, _, _, ib, e, hva1, hvb1, _, _,
    _, _, _, ia1, _, _, _, ib1, da, db, _⟩ := swap_spec hva hvb hab hnf
  obtain ⟨ca, hca⟩ := obj_of_valid hva
  obtain ⟨cb, hcb⟩ := obj_of_valid hvb
  obtain ⟨ca2, hca2⟩ := obj_of_valid hva1
  obtain ⟨cb2, hcb2⟩ := obj_of_valid hvb1
  obtain ⟨hta, _⟩ := result_ok_inj ia (is_small_of_obj hca)
  obtain ⟨htb, _⟩ := result_ok_inj ib (is_small_of_obj hcb)
  obtain ⟨hta1, _⟩ := result_ok_inj ia1 (is_small_of_obj hca2)
  obtain ⟨htb1, _⟩ := result_ok_inj ib1 (is_small_of_obj hcb2)
  have e1 : ca2.type = cb.type := type_eq_of_decide (hta1.symm.trans htb)
  have e2 : cb2.type = ca.type := type_eq_of_decide (htb1.symm.trans hta)
  refine ⟨ca, cb, ca2, cb2, w1, hca, hcb, e, hca2, hcb2, e1, e2, ?_, ?_⟩
  · intro hbig
    have h1 := da (by rw [htb, hbig]; decide) _ (data_const_of_obj_big hcb hbig)
    obtain ⟨h2, _⟩ := result_ok_inj h1 (data_const_of_obj_big hca2 (e1.trans hbig))
    simpa using h2.symm
  · intro hbig
    have h1 := db (by rw [hta, hbig]; decide) _ (data_const_of_obj_big hca hbig)
    obtain ⟨h2, _⟩ := result_ok_inj h1 (data_const_of_obj_big hcb2 (e2.trans hbig))
    simpa using h2.symm

/-- The members of the object made by the copy constructor. -/
theorem copy_ctor_new_obj {N : Nat} {w w1 : world T} {a m : Nat} {c : socow_vector T}
    (hv : valid N w a) (hnf : no_failure w) (hobj : w.objs[a]? = some (some c))
    (h : copy_ctor N a w = result.ok m w1) :
    m = w.objs.length ∧ ∃ cn, w1.objs[m]? = some (some cn) ∧
      (c.size_ ≤ N → cn.type = vector_type.SMALL) ∧
      (N < c.size_ → cn.type = vector_type.BIG ∧ cn.dynamic_storage = c.dynamic_storage) := by
  obtain ⟨xs, s, w2, _, o2, e, _, _, hvm, _, _, _, _, _, hs, hb⟩ := copy_ctor_spec hv hnf
  obtain ⟨hm, hw⟩ := result_ok_inj h e
  subst hw
  subst hm
  obtain ⟨hsz, _⟩ := result_ok_inj o2 (size_of_obj hobj)
  subst hsz
  obtain ⟨cn, hcn⟩ := obj_of_valid hvm
  refine ⟨rfl, cn, hcn, ?_, ?_⟩
  · intro hle
    obtain ⟨h1, _⟩ := result_ok_inj (hs hle).1 (is_small_of_obj hcn)
    simpa using h1.symm
  · intro hlt
    obtain ⟨i1, p, cap, k, d0, _, d1, _⟩ := hb hlt
    obtain ⟨h1, _⟩ := result_ok_inj i1 (is_small_of_obj hcn)
    have hbig : cn.type = vector_type.BIG := by
      cases hcase : cn.type
      · rw [hcase] at h1; simp at h1
      · rfl
    have hcbig : c.type = vector_type.BIG := by
      cases hcase : c.type
      · have := data_const_of_obj_small hobj hcase
        obtain ⟨h2, _⟩ := result_ok_inj d0 this
        simp at h2
      · rfl
    obtain ⟨h2, _⟩ := result_ok_inj d1 (data_const_of_obj_big hcn hbig)
    obtain ⟨h3, _⟩ := result_ok_inj d0 (data_const_of_obj_big hobj hcbig)
    simp at h2 h3
    exact ⟨hbig, by rw [← h2, h3]⟩

/-! ## Copy and swap -/

/-- What `socow_vector(o).swap(t)` does to the target `t` and to the source `o`
when nothing throws.  The hypothesis `hshare` is the reference count invariant for
the one case in which it matters: a big source of size at most `N` whose buffer
the target holds too is counted at least twice. -/
theorem copy_and_swap_spec {N : Nat} {w : world T} {o t : Nat} (hvo : valid N w o)
    (hvt : valid N w t) (hnf : no_failure w)
    (hshare : t ≠ o → ∀ ct co b, w.objs[t]? = some (some ct) → w.objs[o]? = some (some co) →
      ct.type = vector_type.BIG → co.type = vector_type.BIG →
      ct.dynamic_storage = co.dynamic_storage → co.size_ ≤ N →
      w.heap[co.dynamic_storage]? = some (some b) → 2 ≤ b.cnt_references) :
    ∃ xs co ct w3, elements o w = result.ok xs w ∧ w.objs[o]? = some (some co) ∧
      w.objs[t]? = some (some ct) ∧
      copy_and_swap N o t w = result.ok () w3 ∧ valid N w3 t ∧ no_failure w3 ∧
      elements t w3 = result.ok xs w3 ∧ size t w3 = result.ok co.size_ w3 ∧
      (t ≠ o → unchanged w w3 o) ∧
      (co.size_ ≤ N → is_small t w3 = result.ok true w3) ∧
      (N < co.size_ → co.type = vector_type.BIG ∧ is_small t w3 = result.ok false w3 ∧
        data_const t w3 = result.ok (iterator.mk (storage.arr co.dynamic_storage) 0) w3 ∧
        ∃ b, w.heap[co.dynamic_storage]? = some (some b) ∧
          my_shared_ptr.use_count co.dynamic_storage w3 = result.ok
            (if ct.type = vector_type.BIG ∧ ct.dynamic_storage = co.dynamic_storage
              then b.cnt_references else b.cnt_references + 1) w3) := by
  obtain ⟨co, hco⟩ := obj_of_valid hvo
  obtain ⟨ct, hct⟩ := obj_of_valid hvt
  have ht : t < w.objs.length := lt_length_of_getElem? hct
  have ho : o < w.objs.length := lt_length_of_getElem? hco
  obtain ⟨xs, s, w1, o1, o2, e1, _, hvo1, hvm1, hnf1, sm1, em1, _, _, _, _⟩ :=
    copy_ctor_spec hvo hnf
  obtain ⟨hsz, _⟩ := result_ok_inj o2 (size_of_obj hco)
  subst hsz
  obtain ⟨_, hfr1, co0, hco0, hheap1⟩ := copy_ctor_frame hvo hnf e1
  rw [hco] at hco0
  simp only [Option.some.injEq] at hco0
  subst hco0
  obtain ⟨_, cn, hcn, hcnS, hcnB⟩ := copy_ctor_new_obj hvo hnf hco e1
  have hu1 : ∀ j, valid N w j → unchanged w w1 j := by
    intro j hvj
    obtain ⟨cj, hcj⟩ := obj_of_valid hvj
    have hj := lt_length_of_getElem? hcj
    rcases hheap1 with ⟨_, hh⟩ | ⟨_, _, bo, hbo, hh⟩
    · exact unchanged_of_eq (hfr1 j hj) hh (count_pos_of_valid hvj)
    · exact unchanged_of_acquire hvj (hfr1 j hj) hbo hh
  have hvt1 := (valid_of_unchanged hvt (hu1 t hvt)).1
  have hct1 : w1.objs[t]? = some (some ct) := (hfr1 t ht).trans hct
  have hco1 : w1.objs[o]? = some (some co) := (hfr1 o ho).trans hco
  have hmt : w.objs.length ≠ t := by omega
  have hmo : w.objs.length ≠ o := by omega
  obtain ⟨ca, cb, ca2, cb2, w2, hca, hcb, e2, hca2, hcb2, ty1, ty2, dy1, dy2⟩ :=
    swap_records hvm1 hvt1 hmt hnf1
  rw [hcn] at hca
  simp only [Option.some.injEq] at hca
  subst hca
  rw [hct1] at hcb
  simp only [Option.some.injEq] at hcb
  subst hcb
  obtain ⟨xa, sa, _, _, _, _, _, _, w2b, ea, esa, _, _, _, _, _, _, e2b, hvm2, hvt2, hnf2,
    hheap2, _, _, _, _, et2, st2, _, _, _, _, hfr2⟩ := swap_spec hvm1 hvt1 hmt hnf1
  obtain ⟨_, hw2⟩ := result_ok_inj e2b e2
  subst hw2
  obtain ⟨hxa, _⟩ := result_ok_inj ea em1
  obtain ⟨hsa, _⟩ := result_ok_inj esa sm1
  rw [hxa] at et2
  rw [hsa] at st2
  obtain ⟨w3, cm, e3, hcp3, hal3, hfr3, hcm, hheap3⟩ := cleanup_spec hvm2
  rw [hca2] at hcm
  simp only [Option.some.injEq] at hcm
  subst hcm
  have e : copy_and_swap N o t w = result.ok () w3 := by
    have e3b := e3
    simp only [bind_run] at e3b
    simp only [copy_and_swap, bind_run, e1, scope_exit, e2]
    rw [e3b]
  have hbo1 : ∀ bo, N < co.size_ → w.heap[co.dynamic_storage]? = some (some bo) →
      w2b.heap[co.dynamic_storage]? = some (some { bo with
        cnt_references := bo.cnt_references + 1 }) := by
    intro bo hlt hbo
    rcases hheap1 with ⟨hle, _⟩ | ⟨_, _, bo1, hbo1, hh⟩
    · omega
    · rw [hbo] at hbo1
      simp only [Option.some.injEq] at hbo1
      subst hbo1
      rw [hheap2, hh]
      simp [lt_length_of_getElem? hbo]
  have hcb2t : w3.objs[t]? = some (some cb2) := (hfr3 t (Ne.symm hmt)).trans hcb2
  have hut3 : unchanged w2b w3 t := by
    rcases hheap3 with ⟨_, hh⟩ | ⟨hB, bm, hbm, hh⟩
    · exact unchanged_of_eq (hfr3 t (Ne.symm hmt)) hh (count_pos_of_valid hvt2)
    · refine unchanged_of_release hvt2 (hfr3 t (Ne.symm hmt)) hbm hh (fun c hc hty hdyn => ?_)
      rw [hcb2] at hc
      simp only [Option.some.injEq] at hc
      subst hc
      have hcnbig : cn.type = vector_type.BIG := ty2.symm.trans hty
      have hlt : N < co.size_ := by
        by_contra hle
        have := hcnS (by omega)
        rw [this] at hcnbig
        cases hcnbig
      obtain ⟨_, hcnd⟩ := hcnB hlt
      rcases hheap1 with ⟨hle, _⟩ | ⟨_, hcobig, bo, hbo, _⟩
      · omega
      · have h1 := hbo1 bo hlt hbo
        have hpos := count_pos_of_valid hvo co bo hco hcobig hbo
        rw [← hcnd, ← dy2 hcnbig, hdyn, hbm] at h1
        simp only [Option.some.injEq] at h1
        rw [h1]
        simp only
        omega
  obtain ⟨hvt3, os3⟩ := valid_of_unchanged hvt2 hut3
  refine ⟨xs, co, ct, w3, o1, hco, hct, e, hvt3, ?_, os3.2.2.2.1 _ et2, os3.1 _ st2, ?_, ?_, ?_⟩
  · exact ⟨hcp3.trans hnf2.1, hal3.trans hnf2.2⟩
  · intro hne
    have hvo2u : unchanged w1 w2b o :=
      unchanged_of_eq (hfr2 o (Ne.symm hmo) (Ne.symm hne)) hheap2 (count_pos_of_valid hvo1)
    have hvo2 := (valid_of_unchanged hvo1 hvo2u).1
    have hco2 : w2b.objs[o]? = some (some co) :=
      (hfr2 o (Ne.symm hmo) (Ne.symm hne)).trans hco1
    refine unchanged_trans (hu1 o hvo) (unchanged_trans hvo2u ?_)
    rcases hheap3 with ⟨_, hh⟩ | ⟨hB, bm, hbm, hh⟩
    · exact unchanged_of_eq (hfr3 o (Ne.symm hmo)) hh (count_pos_of_valid hvo2)
    · refine unchanged_of_release hvo2 (hfr3 o (Ne.symm hmo)) hbm hh (fun c hc hty hdyn => ?_)
      rw [hco2] at hc
      simp only [Option.some.injEq] at hc
      subst hc
      have hctbig : ct.type = vector_type.BIG := ty1.symm.trans hB
      have hctd : ct.dynamic_storage = co.dynamic_storage := by
        rw [← dy1 hctbig, hdyn]
      rcases hheap1 with ⟨hle, hh1⟩ | ⟨hlt, _, bo, hbo, _⟩
      · rw [hheap2, hh1, ← hdyn] at hbm
        exact hshare hne ct co bm hct hco hctbig hty hctd hle hbm
      · have h1 := hbo1 bo hlt hbo
        have hpos := count_pos_of_valid hvo co bo hco hty hbo
        rw [hdyn, hbm] at h1
        simp only [Option.some.injEq] at h1
        rw [h1]
        simp only
        omega
  · intro hle
    rw [is_small_of_obj hcb2t, ty2, hcnS hle]
    simp
  · intro hlt
    obtain ⟨hcnbig, hcnd⟩ := hcnB hlt
    rcases hheap1 with ⟨hle, _⟩ | ⟨_, hcobig, bo, hbo, hh1⟩
    · omega
    have hbo2 := hbo1 bo hlt hbo
    have hcb2big : cb2.type = vector_type.BIG := ty2.trans hcnbig
    have hcb2d : cb2.dynamic_storage = co.dynamic_storage := (dy2 hcnbig).trans hcnd
    refine ⟨hcobig, ?_, ?_, bo, hbo, ?_⟩
    · rw [is_small_of_obj hcb2t, hcb2big]
      simp
    · rw [data_const_of_obj_big hcb2t hcb2big, hcb2d]
    · have hp := lt_length_of_getElem? hbo2
      rcases hheap3 with ⟨hS, hh⟩ | ⟨hB, bm, hbm, hh⟩
      · have hctS : ct.type = vector_type.SMALL := ty1.symm.trans hS
        rw [if_neg (by rw [hctS]; simp)]
        exact use_count_of_buf (by rw [hh]; exact hbo2)
      · have hctbig : ct.type = vector_type.BIG := ty1.symm.trans hB
        have hcad : ca2.dynamic_storage = ct.dynamic_storage := dy1 hctbig
        by_cases hd : ct.dynamic_storage = co.dynamic_storage
        · rw [if_pos ⟨hctbig, hd⟩]
          rw [hcad, hd, hbo2] at hbm
          simp only [Option.some.injEq] at hbm
          have hpos := count_pos_of_valid hvo co bo hco hcobig hbo
          have hrel : bm.release = some { bo with cnt_references := bo.cnt_references } := by
            rw [← hbm]
            simp only [buffer.release]
            rw [if_neg (by omega)]
            simp
          refine (use_count_of_buf (b := { bo with cnt_references := bo.cnt_references })
            ?_)
          rw [hh, hcad, hd, hrel]
          simp [hp]
        · rw [if_neg (fun h => hd h.2)]
          refine use_count_of_buf (b := { bo with cnt_references := bo.cnt_references + 1 }) ?_
          rw [hh, hcad, List.getElem?_set_ne hd]
          exact hbo2

/-! ## The capacity invariant and the mutable accessors -/

theorem capacity_of_valid {N : Nat} {w : world T} {i : Nat} (hv : valid N w i) :
    capacity_invariant N w i := by
  rcases valid_cases hv with ⟨c, xs, hobj, hlen, hty, hle, hel, hxl⟩ |
    ⟨c, b, xs, hobj, hlen, hty, hbuf, hbl, hle, hel, hxl, hk⟩
  · obtain ⟨_, o2, o3, o4⟩ := observe_small N hobj hty hel (by omega)
    exact ⟨c.size_, N, true, o2, o3, o4, hle, fun _ => rfl⟩
  · obtain ⟨_, o2, o3, o4, _, _⟩ := observe_big N hobj hty hbuf hel (by omega)
    exact ⟨c.size_, b.capacity, false, o2, o3, o4, hle, fun h => absurd h (by decide)⟩

/-- Every mutable accessor first makes the container the only owner of its
storage and then returns a position in that storage; the world it leaves is the
one `make_master()` leaves. -/
theorem accessors_spec {N : Nat} {w : world T} {i : Nat} (hv : valid N w i)
    (hnf : no_failure w) :
    ∃ xs s cloned d w1, elements i w = result.ok xs w ∧ size i w = result.ok s w ∧
      make_master N i w = result.ok cloned w1 ∧ valid N w1 i ∧ no_failure w1 ∧
      is_master i w1 = result.ok true w1 ∧
      elements i w1 = result.ok xs w1 ∧ size i w1 = result.ok s w1 ∧
      data_const i w1 = result.ok d w1 ∧
      (∀ t, is_small i w = result.ok t w → is_small i w1 = result.ok t w1) ∧
      (∀ cap, capacity N i w = result.ok cap w → capacity N i w1 = result.ok cap w1) ∧
      data N i w = result.ok d w1 ∧ «begin» N i w = result.ok d w1 ∧
      «end» N i w = result.ok (d.add s) w1 ∧
      (∀ k, operator_index N i k w = result.ok (d.add k) w1) ∧
      front N i w = result.ok (d.add 0) w1 ∧
      back N i w = result.ok (d.add (s - 1)) w1 := by
  obtain ⟨xs, s, cloned, w1, o1, o2, e, hv1, hnf1, hm1, e1, s1, i1, c1, _⟩ :=
    make_master_spec hv hnf
  obtain ⟨r, l, ys, n, ho, _, _, _, _, hsz, hd⟩ := owned_of_valid hv1 hm1
  obtain ⟨hns, _⟩ := result_ok_inj hsz s1
  subst hns
  have hdata1 := data_of_owns N ho
  have hdata : data N i w = result.ok (iterator.mk r 0) w1 := by
    have h1 := hdata1
    simp only [data, noexcept, bind_run, make_master_of_owns N ho] at h1
    simp only [data, noexcept, bind_run, e]
    exact h1
  refine ⟨xs, n, cloned, iterator.mk r 0, w1, o1, o2, e, hv1, hnf1, hm1, e1, s1, hd, i1, c1,
    hdata, ?_, ?_, ?_, ?_, ?_⟩
  · simp [«begin», noexcept, hdata]
  · simp [«end», noexcept, hdata, s1]
  · intro k
    simp [operator_index, noexcept, hdata]
  · simp [front, noexcept, e, hdata1]
  · simp [back, e, hdata1, s1]

/-! ## `pop_back` -/

theorem take_pred_of_take {l : List (Option T)} {n : Nat} {xs : List T}
    (h : l.take n = xs.map some) : l.take (n - 1) = (xs.take (n - 1)).map some := by
  have h1 : (l.take n).take (n - 1) = (xs.map some).take (n - 1) := by rw [h]
  rw [List.take_take, Nat.min_eq_left (Nat.sub_le n 1)] at h1
  rw [h1, List.map_take]

/-- What `pop_back()` does to a well-formed non-empty container when nothing
throws. -/
theorem pop_back_spec {N : Nat} {w : world T} {i : Nat} (hv : valid N w i)
    (hnf : no_failure w) :
    ∃ xs s, elements i w = result.ok xs w ∧ size i w = result.ok s w ∧
      (0 < s → ∃ w1, pop_back N i w = result.ok () w1 ∧ valid N w1 i ∧ no_failure w1 ∧
        elements i w1 = result.ok (xs.take (s - 1)) w1 ∧
        size i w1 = result.ok (s - 1) w1 ∧ is_master i w1 = result.ok true w1 ∧
        (∀ t, is_small i w = result.ok t w → is_small i w1 = result.ok t w1) ∧
        (∀ cap, capacity N i w = result.ok cap w → capacity N i w1 = result.ok cap w1)) := by
  obtain ⟨hcopy, halloc⟩ := hnf
  have hmaster_case : is_master i w = result.ok true w →
      ∃ xs s, elements i w = result.ok xs w ∧ size i w = result.ok s w ∧
      (0 < s → ∃ w1, pop_back N i w = result.ok () w1 ∧ valid N w1 i ∧ no_failure w1 ∧
        elements i w1 = result.ok (xs.take (s - 1)) w1 ∧
        size i w1 = result.ok (s - 1) w1 ∧ is_master i w1 = result.ok true w1 ∧
        (∀ t, is_small i w = result.ok t w → is_small i w1 = result.ok t w1) ∧
        (∀ cap, capacity N i w = result.ok cap w →
          capacity N i w1 = result.ok cap w1)) := by
    intro hm
    obtain ⟨r, l, xs, n, ho, hs, hel, hnl, o1, o2, _⟩ := owned_of_valid hv hm
    refine ⟨xs, n, o1, o2, fun hpos => ?_⟩
    obtain ⟨v, hlast⟩ := (constructed_of_take hel hnl).1 (n - 1) (by omega)
    have e := pop_back_of_owns N ho hpos hs hlast
    obtain ⟨v1, v2, v3, v4, _, v6, v7, v8, v9⟩ := valid_after_update (n - 1) hv ho hs
      (show (l.set (n - 1) none).length = l.length by simp) (by omega)
      (show (l.set (n - 1) none).take (n - 1) = (xs.take (n - 1)).map some by
        rw [← take_pred_of_take hel]
        exact pop_slots_take l n 1 hpos)
    exact ⟨_, e, v1, ⟨v8.trans hcopy, v9.trans halloc⟩, v2, v3, v4, v6, v7⟩
  rcases valid_cases hv with ⟨c, xs, hobj, hlen, hty, hle, hel, hxl⟩ |
    ⟨c, b, xs, hobj, hlen, hty, hbuf, hbl, hle, hel, hxl, hk⟩
  · exact hmaster_case (is_master_small hobj hty)
  · have hm := is_master_big hobj hty hbuf
    by_cases hcnt : b.cnt_references = 1
    · rw [hcnt] at hm
      exact hmaster_case hm
    · obtain ⟨o1, o2, o3, o4, _, _⟩ := observe_big N hobj hty hbuf hel (by omega)
      refine ⟨xs, c.size_, o1, o2, fun hpos => ?_⟩
      have hi := lt_length_of_getElem? hobj
      have hp := lt_length_of_getElem? hbuf
      have hel0 := take_pred_of_take hel
      obtain ⟨w1, e, hw1⟩ := exists_world (change_dynamic_storage_ok b.capacity (c.size_ - 1)
        none hobj hty hbuf hel0 (by omega) (fun h => absurd h hcnt) (by simp; omega)
        hcopy halloc)
      simp only [Option.toList_none, List.length_nil, Nat.add_zero, List.append_nil] at hw1
      have hobj1 : w1.objs[i]? = some (some { c with
          size_ := c.size_ - 1, dynamic_storage := w.heap.length }) := by
        simp [hw1, hi]
      have hbuf1 : w1.heap[({ c with size_ := c.size_ - 1, dynamic_storage := w.heap.length } :
          socow_vector T).dynamic_storage]? = some (some (buffer.mk 1 b.capacity
            (set_range (List.replicate b.capacity none) 0 (xs.take (c.size_ - 1))))) := by
        simp [hw1]
      have hxl1 : (xs.take (c.size_ - 1)).length = c.size_ - 1 := by
        simp; omega
      have hel1 : (set_range (List.replicate b.capacity (none : Option T)) 0
          (xs.take (c.size_ - 1))).take (c.size_ - 1) = (xs.take (c.size_ - 1)).map some := by
        have := set_range_take_zero (xs.take (c.size_ - 1)) b.capacity (by omega)
        rw [hxl1] at this
        exact this
      obtain ⟨p1, p2, p3, p4, _, _⟩ := observe_big N hobj1 hty hbuf1 hel1
        (by simp [set_range_length]; omega)
      have hm1 := is_master_big hobj1 hty hbuf1
      have e1 : pop_back N i w = result.ok () w1 := by
        have hne : c.size_ ≠ 0 := by omega
        simp [pop_back, noexcept, make_master_to, o2, o3, hm, hcnt, e, hne]
      refine ⟨w1, e1, valid_big hobj1 hlen hty hbuf1 (by simp [set_range_length])
          (by simp; omega) hel1 (by simp),
        by simp [no_failure, hw1, hcopy, halloc], p1, p2, by simpa using hm1, ?_, ?_⟩
      · intro t ht
        obtain ⟨rfl, _⟩ := result_ok_inj ht o4
        exact p4
      · intro cap hc
        obtain ⟨rfl, _⟩ := result_ok_inj hc o3
        exact p3

/-! ## `clear` -/

theorem clear_shared {N : Nat} {w : world T} {i : Nat} {c : socow_vector T} {b : buffer T}
    (hobj : w.objs[i]? = some (some c)) (hty : c.type = vector_type.BIG)
    (hbuf : w.heap[c.dynamic_storage]? = some (some b)) (hcnt : b.cnt_references ≠ 1)
    (halloc : w.alloc_throws = []) :
    clear N i w = result.ok ()
      { w with
        heap := (w.heap ++ [some (buffer.mk 1 b.capacity
          (List.replicate b.capacity none))]).set c.dynamic_storage
            (some { b with cnt_references := b.cnt_references - 1 }),
        objs := w.objs.set i (some { c with size_ := 0, dynamic_storage := w.heap.length }) } := by
  have hm := is_master_big hobj hty hbuf
  have hi := lt_length_of_getElem? hobj
  have hp := lt_length_of_getElem? hbuf
  simp [clear, noexcept, destroy_storage, hm, hcnt, capacity, is_small, get_obj, hobj, hty,
    my_shared_ptr.get_capacity, get_buf, hbuf, my_shared_ptr.reset, my_shared_ptr.ctor, halloc,
    modify_obj, my_shared_ptr.dtor, my_shared_ptr.use_count, modify_buf, hi, hp,
    List.getElem?_append_left hp]

/-- What `clear()` does to a well-formed container when nothing throws. -/
theorem clear_spec {N : Nat} {w : world T} {i : Nat} (hv : valid N w i)
    (hnf : no_failure w) :
    ∃ w1, clear N i w = result.ok () w1 ∧ valid N w1 i ∧ no_failure w1 ∧
      elements i w1 = result.ok [] w1 ∧ size i w1 = result.ok 0 w1 ∧
      is_master i w1 = result.ok true w1 ∧
      (∀ t, is_small i w = result.ok t w → is_small i w1 = result.ok t w1) ∧
      (∀ cap, capacity N i w = result.ok cap w → capacity N i w1 = result.ok cap w1) := by
  obtain ⟨hcopy, halloc⟩ := hnf
  have hmaster_case : is_master i w = result.ok true w →
      ∃ w1, clear N i w = result.ok () w1 ∧ valid N w1 i ∧ no_failure w1 ∧
      elements i w1 = result.ok [] w1 ∧ size i w1 = result.ok 0 w1 ∧
      is_master i w1 = result.ok true w1 ∧
      (∀ t, is_small i w = result.ok t w → is_small i w1 = result.ok t w1) ∧
      (∀ cap, capacity N i w = result.ok cap w → capacity N i w1 = result.ok cap w1) := by
    intro hm
    obtain ⟨r, l, xs, n, ho, hs, hel, hnl, _, _, _⟩ := owned_of_valid hv hm
    have hc := (constructed_of_take hel hnl).1
    have e0 := destroy_storage_of_owns ho hs hc
    have ho1 := owns_set_slots ho r (destroy_slots l n)
    have hm1 := is_master_of_owns ho1
    have e1 : modify_obj i (fun c => { c with size_ := 0 }) (w.set_slots r (destroy_slots l n))
        = result.ok () ((w.set_slots r (destroy_slots l n)).set_size i 0) := by
      rcases ho1 with ⟨d, h, hr⟩ | ⟨p, cap, h, hr, hb⟩ <;>
        obtain ⟨c, hc, _, hn, _⟩ := header_eq_some h <;>
        simp [modify_obj, world.set_size, hc]
    have e : clear N i w = result.ok () ((w.set_size i 0).set_slots r (destroy_slots l n)) := by
      rw [← set_size_set_slots]
      simp [clear, noexcept, e0, hm1, e1]
    obtain ⟨v1, v2, v3, v4, _, v6, v7, v8, v9⟩ := valid_after_update 0 hv ho hs
      (destroy_slots_length n l) (by omega)
      (show (destroy_slots l n).take 0 = ([] : List T).map some by simp)
    exact ⟨_, e, v1, ⟨v8.trans hcopy, v9.trans halloc⟩, v2, v3, v4, v6, v7⟩
  rcases valid_cases hv with ⟨c, xs, hobj, hlen, hty, hle, hel, hxl⟩ |
    ⟨c, b, xs, hobj, hlen, hty, hbuf, hbl, hle, hel, hxl, hk⟩
  · exact hmaster_case (is_master_small hobj hty)
  · have hm := is_master_big hobj hty hbuf
    by_cases hcnt : b.cnt_references = 1
    · rw [hcnt] at hm
      exact hmaster_case hm
    · obtain ⟨_, _, o3, o4, _, _⟩ := observe_big N hobj hty hbuf hel (by omega)
      have hi := lt_length_of_getElem? hobj
      have hp := lt_length_of_getElem? hbuf
      obtain ⟨w1, e, hw1⟩ := exists_world (clear_shared (N := N) hobj hty hbuf hcnt halloc)
      have hobj1 : w1.objs[i]? = some (some { c with
          size_ := 0, dynamic_storage := w.heap.length }) := by
        simp [hw1, hi]
      have hbuf1 : w1.heap[({ c with size_ := 0, dynamic_storage := w.heap.length } :
          socow_vector T).dynamic_storage]? = some (some (buffer.mk 1 b.capacity
            (List.replicate b.capacity none))) := by
        simp [hw1, List.getElem?_set_ne (Nat.ne_of_lt hp)]
      have hel1 : (List.replicate b.capacity (none : Option T)).take 0
          = ([] : List T).map some := by simp
      obtain ⟨p1, p2, p3, p4, _, _⟩ := observe_big N hobj1 hty hbuf1 hel1 (by simp)
      have hm1 := is_master_big hobj1 hty hbuf1
      refine ⟨w1, e, valid_big hobj1 hlen hty hbuf1 (by simp) (by simp) hel1 (by simp),
        by simp [no_failure, hw1, hcopy, halloc], p1, p2, by simpa using hm1, ?_, ?_⟩
      · intro t ht
        obtain ⟨rfl, _⟩ := result_ok_inj ht o4
        exact p4
      · intro cap hc
        obtain ⟨rfl, _⟩ := result_ok_inj hc o3
        exact p3

/-! ## `reserve` and `shrink_to_fit` -/

theorem length_of_take_eq_map {l : List (Option T)} {n : Nat} {ys : List T}
    (h : l.take n = ys.map some) (hn : n ≤ l.length) : ys.length = n := by
  have := congrArg List.length h
  simp at this
  omega

/-- A move of the elements to a fresh buffer, without a new element. -/
theorem change_dynamic_storage_spec {N : Nat} {w : world T} {i : Nat} {c : socow_vector T}
    {b : buffer T} {ys : List T} (new_capacity new_size : Nat)
    (hobj : w.objs[i]? = some (some c)) (hlen : c.static_storage.length = N)
    (hty : c.type = vector_type.BIG)
    (hbuf : w.heap[c.dynamic_storage]? = some (some b))
    (hel : b.arr.take new_size = ys.map some) (hns : new_size ≤ b.arr.length)
    (hmaster : b.cnt_references = 1 → constructed b.arr c.size_)
    (hcap : new_size ≤ new_capacity) (hnf : no_failure w) :
    ∃ w1, change_dynamic_storage i new_capacity new_size none w = result.ok () w1 ∧
      valid N w1 i ∧ no_failure w1 ∧ elements i w1 = result.ok ys w1 ∧
      size i w1 = result.ok new_size w1 ∧ capacity N i w1 = result.ok new_capacity w1 ∧
      is_small i w1 = result.ok false w1 ∧ is_master i w1 = result.ok true w1 := by
  obtain ⟨hcopy, halloc⟩ := hnf
  have hi := lt_length_of_getElem? hobj
  have hyl := length_of_take_eq_map hel hns
  obtain ⟨w1, e, hw1⟩ := exists_world (change_dynamic_storage_ok new_capacity new_size
    none hobj hty hbuf hel hns hmaster (by simpa using hcap) hcopy halloc)
  simp only [Option.toList_none, List.length_nil, Nat.add_zero, List.append_nil] at hw1
  have hobj1 : w1.objs[i]? = some (some { c with
      size_ := new_size, dynamic_storage := w.heap.length }) := by
    simp [hw1, hi]
  have hbuf1 : w1.heap[({ c with size_ := new_size, dynamic_storage := w.heap.length } :
      socow_vector T).dynamic_storage]? = some (some (buffer.mk 1 new_capacity
        (set_range (List.replicate new_capacity none) 0 ys))) := by
    simp [hw1]
  have hel1 : (set_range (List.replicate new_capacity (none : Option T)) 0 ys).take new_size
      = ys.map some := by
    rw [← hyl]; exact set_range_take_zero ys _ (by omega)
  obtain ⟨p1, p2, p3, p4, _, _⟩ := observe_big N hobj1 hty hbuf1 hel1
    (by simp [set_range_length]; omega)
  have hm1 := is_master_big hobj1 hty hbuf1
  exact ⟨w1, e, valid_big hobj1 hlen hty hbuf1 (by simp [set_range_length]) hcap hel1 (by simp),
    by simp [no_failure, hw1, hcopy, halloc], p1, p2, p3, p4, by simpa using hm1⟩

/-- A move of the elements from the static storage to a fresh buffer, without a
new element. -/
theorem change_static_storage_to_dynamic_spec {N : Nat} {w : world T} {i : Nat}
    {c : socow_vector T} {xs : List T} (new_capacity : Nat)
    (hobj : w.objs[i]? = some (some c)) (hlen : c.static_storage.length = N)
    (hty : c.type = vector_type.SMALL)
    (hel : c.static_storage.take c.size_ = xs.map some)
    (hn : c.size_ ≤ c.static_storage.length) (hcap : c.size_ ≤ new_capacity)
    (hnf : no_failure w) :
    ∃ w1, change_static_storage_to_dynamic i new_capacity none w = result.ok () w1 ∧
      valid N w1 i ∧ no_failure w1 ∧ elements i w1 = result.ok xs w1 ∧
      size i w1 = result.ok c.size_ w1 ∧ capacity N i w1 = result.ok new_capacity w1 ∧
      is_small i w1 = result.ok false w1 ∧ is_master i w1 = result.ok true w1 := by
  obtain ⟨hcopy, halloc⟩ := hnf
  have hi := lt_length_of_getElem? hobj
  have hxl := length_of_take_eq_map hel hn
  obtain ⟨w1, e, hw1⟩ := exists_world (change_static_storage_to_dynamic_ok new_capacity
    none hobj hty hel hn (by simpa using hcap) hcopy halloc)
  simp only [Option.toList_none, List.length_nil, Nat.add_zero, List.append_nil] at hw1
  have hobj1 : w1.objs[i]? = some (some (socow_vector.mk vector_type.BIG c.size_ w.heap.length
      (destroy_slots c.static_storage c.size_))) := by
    simp [hw1, hi]
  have hbuf1 : w1.heap[(socow_vector.mk vector_type.BIG c.size_ w.heap.length
      (destroy_slots c.static_storage c.size_)).dynamic_storage]?
      = some (some (buffer.mk 1 new_capacity
        (set_range (List.replicate new_capacity none) 0 xs))) := by
    simp [hw1]
  have hel1 : (set_range (List.replicate new_capacity (none : Option T)) 0 xs).take c.size_
      = xs.map some := by
    rw [← hxl]; exact set_range_take_zero xs _ (by omega)
  obtain ⟨p1, p2, p3, p4, _, _⟩ := observe_big N hobj1 rfl hbuf1 hel1
    (by simp [set_range_length]; omega)
  have hm1 := is_master_big hobj1 rfl hbuf1
  exact ⟨w1, e, valid_big hobj1 (by simp [destroy_slots_length, hlen]) rfl hbuf1
      (by simp [set_range_length]) hcap hel1 (by simp),
    by simp [no_failure, hw1, hcopy, halloc], p1, p2, p3, p4, by simpa using hm1⟩

/-- What `reserve(n)` does to a well-formed container when nothing throws. -/
theorem reserve_spec {N : Nat} {w : world T} {i : Nat} (n : Nat) (hv : valid N w i)
    (hnf : no_failure w) :
    ∃ xs s c w1, elements i w = result.ok xs w ∧ size i w = result.ok s w ∧
      capacity N i w = result.ok c w ∧
      reserve N i n w = result.ok () w1 ∧ valid N w1 i ∧ no_failure w1 ∧
      elements i w1 = result.ok xs w1 ∧ size i w1 = result.ok s w1 ∧
      (∃ c1, capacity N i w1 = result.ok c1 w1 ∧ n ≤ c1) ∧
      (n ≤ c → is_master i w = result.ok true w → w1 = w) := by
  rcases valid_cases hv with ⟨c, xs, hobj, hlen, hty, hle, hel, hxl⟩ |
    ⟨c, b, xs, hobj, hlen, hty, hbuf, hbl, hle, hel, hxl, hk⟩
  · obtain ⟨o1, o2, o3, o4⟩ := observe_small N hobj hty hel (by omega)
    have hm := is_master_small hobj hty
    by_cases hgt : N < n
    · obtain ⟨w1, e, v1, v2, v3, v4, v5, _⟩ := change_static_storage_to_dynamic_spec n hobj
        hlen hty hel (by omega) (by omega) hnf
      have e1 : reserve N i n w = result.ok () w1 := by
        simp [reserve, reserve_value, o3, hm, o2, o4, hgt, e]
      exact ⟨xs, c.size_, N, w1, o1, o2, o3, e1, v1, v2, v3, v4, ⟨n, v5, Nat.le_refl n⟩,
        fun h => absurd h (by omega)⟩
    · have e1 : reserve N i n w = result.ok () w := by
        simp [reserve, reserve_value, o3, hm, o2, hgt]
      exact ⟨xs, c.size_, N, w, o1, o2, o3, e1, hv, hnf, o1, o2, ⟨N, o3, by omega⟩,
        fun _ _ => rfl⟩
  · obtain ⟨o1, o2, o3, o4, _, _⟩ := observe_big N hobj hty hbuf hel (by omega)
    have hm := is_master_big hobj hty hbuf
    by_cases hcond : b.capacity < n ∨ (¬ b.cnt_references = 1 ∧ c.size_ < n)
    · obtain ⟨w1, e, v1, v2, v3, v4, v5, _⟩ := change_dynamic_storage_spec n c.size_ hobj
        hlen hty hbuf hel (by omega) (fun _ => (constructed_of_take hel (by omega)).1)
        (by omega) hnf
      have e1 : reserve N i n w = result.ok () w1 := by
        simp only [reserve, reserve_value, bind_run, o3, hm, o2, o4]
        simp only [gt_iff_lt, decide_eq_true_eq]
        rw [if_pos hcond]
        simp [bind_run, o4, o2, e]
      refine ⟨xs, c.size_, b.capacity, w1, o1, o2, o3, e1, v1, v2, v3, v4,
        ⟨n, v5, Nat.le_refl n⟩, fun hle1 hmm => ?_⟩
      obtain ⟨h2, _⟩ := result_ok_inj hmm hm
      simp at h2
      omega
    · have e1 : reserve N i n w = result.ok () w := by
        simp only [reserve, reserve_value, bind_run, o3, hm, o2, o4]
        simp only [gt_iff_lt, decide_eq_true_eq]
        rw [if_neg hcond]
        rfl
      exact ⟨xs, c.size_, b.capacity, w, o1, o2, o3, e1, hv, hnf, o1, o2,
        ⟨b.capacity, o3, by omega⟩, fun _ _ => rfl⟩

/-- What `shrink_to_fit()` does to a well-formed container when nothing throws. -/
theorem shrink_to_fit_spec {N : Nat} {w : world T} {i : Nat} (hv : valid N w i)
    (hnf : no_failure w) :
    ∃ xs s c w1, elements i w = result.ok xs w ∧ size i w = result.ok s w ∧
      capacity N i w = result.ok c w ∧
      shrink_to_fit N i w = result.ok () w1 ∧ valid N w1 i ∧ no_failure w1 ∧
      elements i w1 = result.ok xs w1 ∧ size i w1 = result.ok s w1 ∧
      (c = s → w1 = w) ∧
      (s < c → s ≤ N → is_small i w1 = result.ok true w1) ∧
      (s < c → N < s → is_small i w1 = result.ok false w1 ∧
        capacity N i w1 = result.ok s w1) := by
  obtain ⟨xs, s, c, t, hsz, hcap, _, hsc, _⟩ : ∃ xs s c t, size i w = result.ok s w ∧
      capacity N i w = result.ok c w ∧ elements i w = result.ok xs w ∧ s ≤ c ∧
      is_small i w = result.ok t w := by
    rcases valid_cases hv with ⟨c, xs, hobj, hlen, hty, hle, hel, hxl⟩ |
      ⟨c, b, xs, hobj, hlen, hty, hbuf, hbl, hle, hel, hxl, hk⟩
    · obtain ⟨o1, o2, o3, o4⟩ := observe_small N hobj hty hel (by omega)
      exact ⟨xs, _, _, _, o2, o3, o1, hle, o4⟩
    · obtain ⟨o1, o2, o3, o4, _, _⟩ := observe_big N hobj hty hbuf hel (by omega)
      exact ⟨xs, _, _, _, o2, o3, o1, hle, o4⟩
  by_cases hlt : s < c
  · by_cases hsmall : s ≤ N
    · obtain ⟨ys, co, ct, w3, o1, hco, _, e3, v3, nf3, el3, sz3, _, hs3, _⟩ :=
        copy_and_swap_spec hv hv hnf (fun h => absurd rfl h)
      obtain ⟨hs, _⟩ := result_ok_inj hsz (size_of_obj hco)
      subst hs
      have e : shrink_to_fit N i w = result.ok () w3 := by
        simp [shrink_to_fit, hcap, hsz, hlt, hsmall, e3]
      exact ⟨ys, co.size_, c, w3, o1, hsz, hcap, e, v3, nf3, el3, sz3,
        fun h => absurd h (by omega), fun _ _ => hs3 hsmall, fun _ h => absurd h (by omega)⟩
    · rcases valid_cases hv with ⟨c0, xs0, hobj, hlen, hty, hle, hel, hxl⟩ |
        ⟨c0, b, xs0, hobj, hlen, hty, hbuf, hbl, hle, hel, hxl, hk⟩
      · obtain ⟨hs, _⟩ := result_ok_inj hsz (size_of_obj hobj)
        omega
      · obtain ⟨o1, o2, o3, o4, _, _⟩ := observe_big N hobj hty hbuf hel (by omega)
        obtain ⟨hs, _⟩ := result_ok_inj hsz o2
        subst hs
        obtain ⟨w1, e1, v1, v2, v3, v4, v5, v6, _⟩ := change_dynamic_storage_spec
          c0.size_ c0.size_ hobj hlen hty hbuf hel (by omega)
          (fun _ => (constructed_of_take hel (by omega)).1) (Nat.le_refl _) hnf
        have e : shrink_to_fit N i w = result.ok () w1 := by
          simp [shrink_to_fit, hcap, hsz, hlt, hsmall, e1]
        exact ⟨xs0, c0.size_, c, w1, o1, hsz, hcap, e, v1, v2, v3, v4,
          fun h => absurd h (by omega), fun _ h => absurd h hsmall, fun _ _ => ⟨v6, v5⟩⟩
  · have e : shrink_to_fit N i w = result.ok () w := by
      simp [shrink_to_fit, hcap, hsz, hlt]
    obtain ⟨ys, hys⟩ : ∃ ys, elements i w = result.ok ys w := by
      rcases valid_cases hv with ⟨c0, xs0, hobj, hlen, hty, hle, hel, hxl⟩ |
        ⟨c0, b, xs0, hobj, hlen, hty, hbuf, hbl, hle, hel, hxl, hk⟩
      · exact ⟨xs0, (observe_small N hobj hty hel (by omega)).1⟩
      · exact ⟨xs0, (observe_big N hobj hty hbuf hel (by omega)).1⟩
    exact ⟨ys, s, c, w, hys, hsz, hcap, e, hv, hnf, hys, hsz, fun _ => rfl,
      fun h => absurd h hlt, fun h => absurd h hlt⟩

/-! ## A container swapped with itself -/

theorem swap_slots_self {l : List (Option T)} {a : Nat} {v : Option T}
    (h : l[a]? = some v) : swap_slots l a a = l := by
  simp only [swap_slots, h]
  rw [List.set_set, list_set_self l a v h]

theorem modify_obj_self {w : world T} {i : Nat} {c : socow_vector T}
    (f : socow_vector T → socow_vector T) (hobj : w.objs[i]? = some (some c))
    (hf : f c = c) : modify_obj i f w = result.ok () w := by
  simp only [modify_obj, hobj, hf]
  rw [list_set_self w.objs i (some c) hobj]

theorem std_swap_self_loop {r : storage} {l : List (Option T)} {n : Nat} {w : world T}
    (hs : w.slots r = some l) (hc : constructed l n) :
    ∀ cnt start, start + cnt ≤ n →
      for_range (fun i => std_swap (iterator.mk r i) (iterator.mk r i)) start cnt w
        = result.ok () w := by
  intro cnt
  induction cnt with
  | zero => intro start _; rfl
  | succ k ih =>
    intro start hle
    obtain ⟨v, hv⟩ := hc start (by omega)
    have e := std_swap_ok hs hv hv
    rw [swap_slots_self hv, set_slots_self hs] at e
    simp only [for_range, bind_run, e]
    exact ih (start + 1) (by omega)

/-- The call `a.swap(a)` changes nothing. -/
theorem swap_self {N : Nat} {w : world T} {a : Nat} (hv : valid N w a) :
    swap a a w = result.ok () w := by
  rcases valid_cases hv with ⟨c, xs, hobj, hlen, hty, hle, hel, hxl⟩ |
    ⟨c, b, xs, hobj, hlen, hty, hbuf, hbl, hle, hel, hxl, hk⟩
  · have hs : w.slots (storage.static_storage a) = some c.static_storage := by
      simp [world.slots, hobj]
    have hloop := std_swap_self_loop hs (constructed_of_take hel (by omega)).1 c.size_ 0
      (by omega)
    have h1 : swap_static_storages a a w = result.ok () w := by
      simp [swap_static_storages, size_of_obj hobj, hloop, uninitialized_copy,
        uninitialized_copy_from, for_range]
    have h2 := modify_obj_self (fun x => { x with size_ := c.size_ }) hobj rfl
    have h3 := modify_obj_self (fun x => { x with type := vector_type.SMALL }) hobj
      (by cases c; simp_all)
    simp [swap, is_small_of_obj hobj, hty, h1, get_obj, hobj, h2, h3]
  · have h1 := modify_obj_self (fun x => { x with dynamic_storage := c.dynamic_storage })
      hobj rfl
    have h2 := modify_obj_self (fun x => { x with size_ := c.size_ }) hobj rfl
    have h3 := modify_obj_self (fun x => { x with type := vector_type.BIG }) hobj
      (by cases c; simp_all)
    simp [swap, is_small_of_obj hobj, hty, my_shared_ptr.swap, get_obj, hobj, h1, h2, h3]

/-! ## Every public operation keeps its containers well formed -/

theorem default_ctor_spec (N : Nat) (w : world T) :
    ∃ w1, default_ctor N w = result.ok w.objs.length w1 ∧ valid N w1 w.objs.length ∧
      size w.objs.length w1 = result.ok 0 w1 ∧ empty w.objs.length w1 = result.ok true w1 ∧
      is_small w.objs.length w1 = result.ok true w1 ∧
      capacity N w.objs.length w1 = result.ok N w1 ∧
      elements w.objs.length w1 = result.ok [] w1 := by
  have hobj : ({ w with objs := w.objs ++ [some (socow_vector.mk vector_type.SMALL 0 0
      (List.replicate N none))] } : world T).objs[w.objs.length]?
      = some (some (socow_vector.mk vector_type.SMALL 0 0 (List.replicate N none))) := by
    simp
  have hel : (List.replicate N (none : Option T)).take 0 = ([] : List T).map some := by simp
  obtain ⟨o1, o2, o3, o4⟩ := observe_small N hobj rfl hel (by simp)
  refine ⟨_, rfl, valid_small hobj (by simp) rfl (by simp) hel, o2, ?_, o4, o3, o1⟩
  simp only [empty, bind_run, o2]
  rfl

theorem operation_preserves_valid {N : Nat} (op : operation T) (w : world T)
    (hv : ∀ j ∈ op.operands, valid N w j) (hnf : no_failure w) (hpre : op.pre w) :
    ∃ w1, op.run N w = result.ok () w1 ∧ no_failure w1 ∧
      ∀ j ∈ op.results w, valid N w1 j := by
  cases op with
  | copy_construct o =>
    obtain ⟨_, _, w1, _, _, e, _, v1, v2, nf, _⟩ :=
      copy_ctor_spec (hv o (by simp [operation.operands])) hnf
    refine ⟨w1, by simp [operation.run, e], nf, fun j hj => ?_⟩
    simp only [operation.results, List.mem_cons, List.mem_singleton, List.not_mem_nil,
      or_false] at hj
    rcases hj with rfl | rfl
    · exact v1
    · exact v2
  | copy_assign t o =>
    have hvt := hv t (by simp [operation.operands])
    have hvo := hv o (by simp [operation.operands])
    by_cases hto : t = o
    · refine ⟨w, by simp [operation.run, operator_assign, hto], hnf, fun j hj => hv j hj⟩
    · obtain ⟨_, _, _, w3, _, _, _, e3, v3, nf3, _, _, hu3, _⟩ :=
        copy_and_swap_spec hvo hvt hnf (fun _ ct co b hct hco htt hot hd _ hb =>
          hpre hto co.dynamic_storage b.cnt_references
            (by rw [data_const_of_obj_big hct htt, hd]) (data_const_of_obj_big hco hot)
            (use_count_of_buf hb))
      refine ⟨w3, by simp [operation.run, operator_assign, hto, e3], nf3, fun j hj => ?_⟩
      simp only [operation.results, operation.operands, List.mem_cons, List.mem_singleton,
        List.not_mem_nil, or_false] at hj
      rcases hj with rfl | rfl
      · exact v3
      · exact (valid_of_unchanged hvo (hu3 hto)).1
  | swap a b =>
    have hva := hv a (by simp [operation.operands])
    have hvb := hv b (by simp [operation.operands])
    by_cases hab : a = b
    · subst hab
      exact ⟨w, by simp [operation.run, swap_self hva], hnf, fun j hj => hv j hj⟩
    · obtain ⟨_, _, _, _, _, _, _, _, w1, _, _, _, _, _, _, _, _, e, v1, v2, nf, _⟩ :=
        swap_spec hva hvb hab hnf
      refine ⟨w1, by simp [operation.run, e], nf, fun j hj => ?_⟩
      simp only [operation.results, operation.operands, List.mem_cons, List.mem_singleton,
        List.not_mem_nil, or_false] at hj
      rcases hj with rfl | rfl
      · exact v1
      · exact v2
  | push_back i v =>
    obtain ⟨_, _, _, _, w1, _, _, _, _, e, v1, nf, _⟩ :=
      push_back_spec v (hv i (by simp [operation.operands])) hnf
    refine ⟨w1, by simp [operation.run, e], nf, fun j hj => ?_⟩
    simp only [operation.results, operation.operands, List.mem_singleton] at hj
    subst hj
    exact v1
  | insert i pos v =>
    obtain ⟨_, s, d, _, hs, hd, h⟩ :=
      insert_spec pos v (hv i (by simp [operation.operands])) hnf
    obtain ⟨s1, hs1, hle⟩ := hpre
    obtain ⟨rfl, _⟩ := result_ok_inj hs1 hs
    obtain ⟨d1, w1, e, _, v1, nf, _⟩ := h hle
    refine ⟨w1, by simp [operation.run, begin_const, hd, e], nf, fun j hj => ?_⟩
    simp only [operation.results, operation.operands, List.mem_singleton] at hj
    subst hj
    exact v1
  | erase i fi la =>
    obtain ⟨_, s, d, _, hs, hd, h⟩ :=
      erase_spec fi la (hv i (by simp [operation.operands])) hnf
    obtain ⟨s1, hs1, hle1, hle2⟩ := hpre
    obtain ⟨rfl, _⟩ := result_ok_inj hs1 hs
    obtain ⟨d1, w1, e, _, v1, nf, _⟩ := h hle1 hle2
    refine ⟨w1, by simp [operation.run, begin_const, hd, e], nf, fun j hj => ?_⟩
    simp only [operation.results, operation.operands, List.mem_singleton] at hj
    subst hj
    exact v1
  | erase_pos i pos =>
    obtain ⟨_, s, d, _, hs, hd, h⟩ :=
      erase_spec pos (pos + 1) (hv i (by simp [operation.operands])) hnf
    obtain ⟨s1, hs1, hlt⟩ := hpre
    obtain ⟨rfl, _⟩ := result_ok_inj hs1 hs
    obtain ⟨d1, w1, e, _, v1, nf, _⟩ := h (by omega) (by omega)
    have hadd : (d.add pos).add 1 = d.add (pos + 1) := by
      simp [iterator.add, Nat.add_assoc]
    refine ⟨w1, by simp [operation.run, begin_const, hd, erase_pos, hadd, e], nf,
      fun j hj => ?_⟩
    simp only [operation.results, operation.operands, List.mem_singleton] at hj
    subst hj
    exact v1
  | pop_back i =>
    obtain ⟨_, s, _, hs, h⟩ := pop_back_spec (hv i (by simp [operation.operands])) hnf
    obtain ⟨s1, hs1, hpos⟩ := hpre
    obtain ⟨rfl, _⟩ := result_ok_inj hs1 hs
    obtain ⟨w1, e, v1, nf, _⟩ := h hpos
    refine ⟨w1, by simp [operation.run, e], nf, fun j hj => ?_⟩
    simp only [operation.results, operation.operands, List.mem_singleton] at hj
    subst hj
    exact v1
  | clear i =>
    obtain ⟨w1, e, v1, nf, _⟩ := clear_spec (hv i (by simp [operation.operands])) hnf
    refine ⟨w1, by simp [operation.run, e], nf, fun j hj => ?_⟩
    simp only [operation.results, operation.operands, List.mem_singleton] at hj
    subst hj
    exact v1
  | reserve i n =>
    obtain ⟨_, _, _, w1, _, _, _, e, v1, nf, _⟩ :=
      reserve_spec n (hv i (by simp [operation.operands])) hnf
    refine ⟨w1, by simp [operation.run, e], nf, fun j hj => ?_⟩
    simp only [operation.results, operation.operands, List.mem_singleton] at hj
    subst hj
    exact v1
  | shrink_to_fit i =>
    obtain ⟨_, _, _, w1, _, _, _, e, v1, nf, _⟩ :=
      shrink_to_fit_spec (hv i (by simp [operation.operands])) hnf
    refine ⟨w1, by simp [operation.run, e], nf, fun j hj => ?_⟩
    simp only [operation.results, operation.operands, List.mem_singleton] at hj
    subst hj
    exact v1
  | data i =>
    obtain ⟨_, _, _, _, w1, _, _, _, v1, nf, _, _, _, _, _, _, e, _⟩ :=
      accessors_spec (hv i (by simp [operation.operands])) hnf
    refine ⟨w1, by simp [operation.run, e], nf, fun j hj => ?_⟩
    simp only [operation.results, operation.operands, List.mem_singleton] at hj
    subst hj
    exact v1
  | «begin» i =>
    obtain ⟨_, _, _, _, w1, _, _, _, v1, nf, _, _, _, _, _, _, _, e, _⟩ :=
      accessors_spec (hv i (by simp [operation.operands])) hnf
    refine ⟨w1, by simp [operation.run, e], nf, fun j hj => ?_⟩
    simp only [operation.results, operation.operands, List.mem_singleton] at hj
    subst hj
    exact v1
  | «end» i =>
    obtain ⟨_, _, _, _, w1, _, _, _, v1, nf, _, _, _, _, _, _, _, _, e, _⟩ :=
      accessors_spec (hv i (by simp [operation.operands])) hnf
    refine ⟨w1, by simp [operation.run, e], nf, fun j hj => ?_⟩
    simp only [operation.results, operation.operands, List.mem_singleton] at hj
    subst hj
    exact v1
  | operator_index i pos =>
    obtain ⟨_, _, _, _, w1, _, _, _, v1, nf, _, _, _, _, _, _, _, _, _, e, _⟩ :=
      accessors_spec (hv i (by simp [operation.operands])) hnf
    refine ⟨w1, by simp [operation.run, e pos], nf, fun j hj => ?_⟩
    simp only [operation.results, operation.operands, List.mem_singleton] at hj
    subst hj
    exact v1
  | front i =>
    obtain ⟨_, _, _, _, w1, _, _, _, v1, nf, _, _, _, _, _, _, _, _, _, _, e, _⟩ :=
      accessors_spec (hv i (by simp [operation.operands])) hnf
    refine ⟨w1, by simp [operation.run, e], nf, fun j hj => ?_⟩
    simp only [operation.results, operation.operands, List.mem_singleton] at hj
    subst hj
    exact v1
  | back i =>
    obtain ⟨_, _, _, _, w1, _, _, _, v1, nf, _, _, _, _, _, _, _, _, _, _, _, e⟩ :=
      accessors_spec (hv i (by simp [operation.operands])) hnf
    refine ⟨w1, by simp [operation.run, e], nf, fun j hj => ?_⟩
    simp only [operation.results, operation.operands, List.mem_singleton] at hj
    subst hj
    exact v1

/-! ## Footprints -/

theorem own_step_of_stay {N i : Nat} {w w1 : world T} (h : stay_step N i w w1) :
    own_step N i w w1 := by
  obtain ⟨hv, h1, h2, c, c1, hc, ho, hs⟩ := h
  exact ⟨hv, h1, h2, c, c1, hc, ho, Or.inl hs⟩

theorem stay_step_refl {N i : Nat} {w : world T} (hv : valid N w i) : stay_step N i w w := by
  rcases valid_cases hv with ⟨c, xs, hobj, hlen, hty, hle, hel, hxl⟩ |
    ⟨c, b, xs, hobj, hlen, hty, hbuf, hbl, hle, hel, hxl, hk⟩
  · exact ⟨hv, rfl, rfl, c, c, hobj, (list_set_self _ _ _ hobj).symm, rfl, rfl,
      Or.inl ⟨hty, rfl⟩⟩
  · exact ⟨hv, rfl, rfl, c, c, hobj, (list_set_self _ _ _ hobj).symm, rfl, rfl,
      Or.inr ⟨hty, b, b.arr, hbuf, (list_set_self _ _ _ hbuf).symm, fun _ => ⟨rfl, rfl⟩⟩⟩

/-- An update of the size and the slots of a container that owns its storage. -/
theorem stay_step_in_place {N : Nat} {w : world T} {i : Nat} {r : storage} {n : Nat}
    {l2 : List (Option T)} (m : Nat) (ho : owns w i r n)
    (hv1 : valid N ((w.set_size i m).set_slots r l2) i) :
    stay_step N i w ((w.set_size i m).set_slots r l2) := by
  have hcp : ((w.set_size i m).set_slots r l2).copy_throws = w.copy_throws := by
    rw [set_slots_copy_throws]
    rcases hc : w.objs[i]? with _ | _ | c <;> simp [world.set_size, hc]
  have hal : ((w.set_size i m).set_slots r l2).alloc_throws = w.alloc_throws := by
    rw [set_slots_alloc_throws]
    rcases hc : w.objs[i]? with _ | _ | c <;> simp [world.set_size, hc]
  refine ⟨hv1, hcp, hal, ?_⟩
  rcases ho with ⟨d, h, hr⟩ | ⟨p, cap, h, hr, hb⟩
  · obtain ⟨c, hc, hty, hn, hd⟩ := header_eq_some h
    have hi := lt_length_of_getElem? hc
    subst hr
    refine ⟨c, { c with size_ := m, static_storage := l2 }, hc, ?_, rfl, rfl,
      Or.inl ⟨hty, ?_⟩⟩
    · simp [world.set_size, world.set_slots, hc, hi]
    · simp [world.set_size, world.set_slots, hc, hi]
  · obtain ⟨c, hc, hty, hn, hd⟩ := header_eq_some h
    obtain ⟨b, hbuf, hk, _⟩ := buf_header_eq_some hb
    have hi := lt_length_of_getElem? hc
    subst hr
    subst hd
    refine ⟨c, { c with size_ := m }, hc, ?_, rfl, rfl,
      Or.inr ⟨hty, b, l2, hbuf, ?_, fun h => absurd hk h⟩⟩
    · simp [world.set_size, world.set_slots, hc, hi, hbuf]
    · simp [world.set_size, world.set_slots, hc, hi, hbuf]

theorem set_append_last {γ : Type} (l : List γ) (x y : γ) :
    (l ++ [x]).set l.length y = l ++ [y] := by
  induction l with
  | nil => rfl
  | cons a l ih => simp [List.set, ih]

/-- A step of any kind followed by a step in place is a step of the first kind. -/
theorem own_step_then_stay {N i : Nat} {w w2 w1 : world T} (h1 : own_step N i w w2)
    (h2 : stay_step N i w2 w1) : own_step N i w w1 := by
  obtain ⟨_, hcp1, hal1, c, c2, hc, ho1, sh1⟩ := h1
  obtain ⟨hv, hcp2, hal2, c2b, c1, hc2, ho2, sh2⟩ := h2
  have hi := lt_length_of_getElem? hc
  have e : c2b = c2 := by
    rw [ho1] at hc2
    simpa [hi] using hc2.symm
  subst e
  refine ⟨hv, hcp2.trans hcp1, hal2.trans hal1, c, c1, hc, by rw [ho2, ho1, List.set_set], ?_⟩
  obtain ⟨t2, d2, hh2⟩ := sh2
  rcases sh1 with ⟨t1, d1, hh1⟩ | ⟨t1, d1, b1, hb1, hh1⟩
  · refine Or.inl ⟨t2.trans t1, d2.trans d1, ?_⟩
    rcases hh1 with ⟨hty, hheap⟩ | ⟨hty, b, l2, hbuf, hheap, hcond⟩
    · rcases hh2 with ⟨_, hheap2⟩ | ⟨hty2, _⟩
      · exact Or.inl ⟨hty, hheap2.trans hheap⟩
      · rw [t1, hty] at hty2
        cases hty2
    · rcases hh2 with ⟨hty2, _⟩ | ⟨_, b2, l3, hbuf2, hheap2, hcond2⟩
      · rw [t1, hty] at hty2
        cases hty2
      · have hp := lt_length_of_getElem? hbuf
        rw [d1, hheap] at hbuf2
        simp only [List.getElem?_set_self, hp, List.getElem?_eq_getElem, Option.some.injEq,
          List.length_set, List.getElem_set_self] at hbuf2
        subst hbuf2
        refine Or.inr ⟨hty, b, l3, hbuf, ?_, fun hne => ?_⟩
        · rw [hheap2, d1, hheap, List.set_set]
        · obtain ⟨e1, e2⟩ := hcond hne
          obtain ⟨e3, e4⟩ := hcond2 hne
          exact ⟨by rw [e3]; exact e1, e4.trans e2⟩
  · rcases hh2 with ⟨hty2, _⟩ | ⟨_, b2, l3, hbuf2, hheap2, _⟩
    · rw [t1] at hty2
      cases hty2
    · rcases hh1 with ⟨hty, hheap, hcap⟩ | ⟨hty, b, hbuf, hheap, hcap⟩
      · rw [d1, hheap] at hbuf2
        simp only [List.getElem?_concat_length, Option.some.injEq] at hbuf2
        subst hbuf2
        refine Or.inr ⟨t2.trans t1, d2.trans d1, { b1 with arr := l3 }, hb1,
          Or.inl ⟨hty, ?_, hcap⟩⟩
        rw [hheap2, d1, hheap, set_append_last]
      · have hlen : (w.heap.set c.dynamic_storage b.release).length = w.heap.length := by simp
        rw [d1, hheap, ← hlen] at hbuf2
        simp only [List.getElem?_concat_length, Option.some.injEq] at hbuf2
        subst hbuf2
        refine Or.inr ⟨t2.trans t1, d2.trans d1, { b1 with arr := l3 }, hb1,
          Or.inr ⟨hty, b, hbuf, ?_, hcap⟩⟩
        rw [hheap2, d1, hheap]
        nth_rewrite 1 [← hlen]
        rw [set_append_last]

/-- The footprint of `change_dynamic_storage` without a new element. -/
theorem change_dynamic_storage_own_step {N : Nat} {w w1 : world T} {i : Nat}
    {c : socow_vector T} {b : buffer T} {ys : List T} (new_capacity new_size : Nat)
    (hobj : w.objs[i]? = some (some c)) (hty : c.type = vector_type.BIG)
    (hbuf : w.heap[c.dynamic_storage]? = some (some b))
    (hel : b.arr.take new_size = ys.map some) (hns : new_size ≤ b.arr.length)
    (hmaster : b.cnt_references = 1 → constructed b.arr c.size_)
    (hcap : new_size ≤ new_capacity) (hnf : no_failure w)
    (hN : b.capacity ≤ new_capacity ∨ (b.cnt_references ≠ 1 ∧ c.size_ < new_capacity) ∨
      N < new_capacity)
    (h : change_dynamic_storage i new_capacity new_size none w = result.ok () w1)
    (hv1 : valid N w1 i) :
    own_step N i w w1 ∧ ∃ c1, w1.objs = w.objs.set i (some c1) ∧ moves N c c1 w w1 := by
  have e := change_dynamic_storage_ok new_capacity new_size none hobj hty hbuf hel hns hmaster
    (by simpa using hcap) hnf.1 hnf.2
  obtain ⟨_, hw⟩ := result_ok_inj h e
  simp only [Option.toList_none, List.length_nil, Nat.add_zero, List.append_nil] at hw
  have hm : moves N c { c with size_ := new_size, dynamic_storage := w.heap.length } w w1 := by
    refine ⟨hty, rfl, buffer.mk 1 new_capacity
      (set_range (List.replicate new_capacity none) 0 ys), rfl, Or.inr ⟨hty, b, hbuf, ?_, hN⟩⟩
    rw [hw]
  have ho : w1.objs = w.objs.set i (some { c with
      size_ := new_size, dynamic_storage := w.heap.length }) := by rw [hw]
  exact ⟨⟨hv1, by rw [hw], by rw [hw], c, _, hobj, ho, Or.inr hm⟩, _, ho, hm⟩

/-- The footprint of `change_static_storage_to_dynamic` without a new element. -/
theorem change_static_storage_to_dynamic_own_step {N : Nat} {w w1 : world T} {i : Nat}
    {c : socow_vector T} {xs : List T} (new_capacity : Nat)
    (hobj : w.objs[i]? = some (some c)) (hty : c.type = vector_type.SMALL)
    (hel : c.static_storage.take c.size_ = xs.map some)
    (hn : c.size_ ≤ c.static_storage.length) (hcap : c.size_ ≤ new_capacity)
    (hnf : no_failure w) (hN : N < new_capacity)
    (h : change_static_storage_to_dynamic i new_capacity none w = result.ok () w1)
    (hv1 : valid N w1 i) :
    own_step N i w w1 := by
  have e := change_static_storage_to_dynamic_ok new_capacity none hobj hty hel hn
    (by simpa using hcap) hnf.1 hnf.2
  obtain ⟨_, hw⟩ := result_ok_inj h e
  simp only [Option.toList_none, List.length_nil, Nat.add_zero, List.append_nil] at hw
  refine ⟨hv1, by rw [hw], by rw [hw], c, socow_vector.mk vector_type.BIG c.size_ w.heap.length
    (destroy_slots c.static_storage c.size_), hobj, by rw [hw], Or.inr ⟨rfl, rfl,
      buffer.mk 1 new_capacity (set_range (List.replicate new_capacity none) 0 xs), rfl,
      Or.inl ⟨hty, by rw [hw], hN⟩⟩⟩

/-- The footprint of `make_master()`. -/
theorem make_master_own_step {N : Nat} {w w1 : world T} {i : Nat} {cloned : Bool}
    (hv : valid N w i) (hnf : no_failure w)
    (h : make_master N i w = result.ok cloned w1) : own_step N i w w1 := by
  obtain ⟨_, _, cl, w2, _, _, e, hv1, _, _, _, _, _, _, hsame⟩ := make_master_spec hv hnf
  obtain ⟨_, hw⟩ := result_ok_inj h e
  subst hw
  rcases valid_cases hv with ⟨c, xs, hobj, hlen, hty, hle, hel, hxl⟩ |
    ⟨c, b, xs, hobj, hlen, hty, hbuf, hbl, hle, hel, hxl, hk⟩
  · rw [hsame (is_master_small hobj hty)]
    exact own_step_of_stay (stay_step_refl hv)
  · have hm := is_master_big hobj hty hbuf
    by_cases hcnt : b.cnt_references = 1
    · rw [hcnt] at hm
      rw [hsame hm]
      exact own_step_of_stay (stay_step_refl hv)
    · obtain ⟨_, o2, o3, _⟩ := observe_big N hobj hty hbuf hel (by omega)
      obtain ⟨w3, e3, v3, _⟩ := change_dynamic_storage_spec (N := N) b.capacity c.size_ hobj
        hlen hty hbuf hel (by omega) (fun h => absurd h hcnt) (by omega) hnf
      have e1 : make_master N i w = result.ok true w3 := by
        simp [make_master, make_master_to, o2, o3, hm, hcnt, e3]
      obtain ⟨_, hw⟩ := result_ok_inj h e1
      subst hw
      exact (change_dynamic_storage_own_step b.capacity c.size_ hobj hty hbuf hel (by omega)
        (fun h => absurd h hcnt) (by omega) hnf (Or.inl (Nat.le_refl _)) e3 v3).1

/-! ## Footprints of the operations on one container -/

theorem push_back_own_step {N : Nat} {w w1 : world T} {i : Nat} (v : T) (hv : valid N w i)
    (hnf : no_failure w) (h : push_back N i v w = result.ok () w1) : own_step N i w w1 := by
  obtain ⟨_, _, _, _, w2, _, _, _, _, e, hv1, _⟩ := push_back_spec v hv hnf
  obtain ⟨_, hw⟩ := result_ok_inj h e
  subst hw
  obtain ⟨hcopy, halloc⟩ := hnf
  rcases valid_cases hv with ⟨c, xs, hobj, hlen, hty, hle, hel, hxl⟩ |
    ⟨c, b, xs, hobj, hlen, hty, hbuf, hbl, hle, hel, hxl, hk⟩
  · by_cases hroom : c.size_ + 1 ≤ N
    · obtain ⟨_, hw⟩ := result_ok_inj h (push_back_small_room N v hobj hty hroom hlen hcopy)
      exact ⟨hv1, by rw [hw], by rw [hw], c, { c with
          size_ := c.size_ + 1, static_storage := c.static_storage.set c.size_ (some v) },
        hobj, by rw [hw], Or.inl ⟨rfl, rfl, Or.inl ⟨hty, by rw [hw]⟩⟩⟩
    · obtain ⟨_, hw⟩ := result_ok_inj h (push_back_small_full N v hobj hty (by omega) hlen
        hel hcopy halloc)
      exact ⟨hv1, by rw [hw], by rw [hw], c, socow_vector.mk vector_type.BIG
          (N + 1) w.heap.length (destroy_slots c.static_storage N), hobj, by rw [hw],
        Or.inr ⟨rfl, rfl, buffer.mk 1 (max (N * 2) (N + 1))
          (set_range (List.replicate (max (N * 2) (N + 1)) none) 0 (xs ++ [v])), rfl,
        Or.inl ⟨hty, by rw [hw], by simp only; omega⟩⟩⟩
  · by_cases hroom : b.cnt_references = 1 ∧ c.size_ + 1 ≤ b.capacity
    · obtain ⟨_, hw⟩ := result_ok_inj h (push_back_big_master_room N v hobj hty hbuf hroom.1
        hroom.2 hbl hcopy)
      exact ⟨hv1, by rw [hw], by rw [hw], c, { c with size_ := c.size_ + 1 }, hobj,
        by rw [hw], Or.inl ⟨rfl, rfl,
        Or.inr ⟨hty, b, b.arr.set c.size_ (some v), hbuf, by rw [hw],
          fun hne => absurd hroom.1 hne⟩⟩⟩
    · obtain ⟨_, hw⟩ := result_ok_inj h (push_back_big_clone N v hobj hty hbuf (by omega)
        hle hbl hel hcopy halloc)
      refine ⟨hv1, by rw [hw], by rw [hw], c, { c with
          size_ := c.size_ + 1, dynamic_storage := w.heap.length }, hobj, by rw [hw],
        Or.inr ⟨hty, rfl, buffer.mk 1
            (if b.capacity < c.size_ + 1 then max (b.capacity * 2) (c.size_ + 1) else b.capacity)
            (set_range (List.replicate
              (if b.capacity < c.size_ + 1 then max (b.capacity * 2) (c.size_ + 1)
                else b.capacity) none) 0 (xs ++ [v])), rfl,
        Or.inr ⟨hty, b, hbuf, by rw [hw], Or.inl ?_⟩⟩⟩
      simp only
      split <;> omega

theorem pop_back_own_step {N : Nat} {w w1 : world T} {i : Nat} {s : Nat} (hv : valid N w i)
    (hnf : no_failure w) (hs : size i w = result.ok s w) (hpos : 0 < s)
    (h : pop_back N i w = result.ok () w1) : own_step N i w w1 := by
  obtain ⟨_, s1, _, hs1, hspec⟩ := pop_back_spec hv hnf
  obtain ⟨rfl, _⟩ := result_ok_inj hs hs1
  obtain ⟨w2, e, hv1, _⟩ := hspec hpos
  obtain ⟨_, hw⟩ := result_ok_inj h e
  subst hw
  have hmaster_case : is_master i w = result.ok true w → own_step N i w w1 := by
    intro hm
    obtain ⟨r, l, xs, n, ho, hsl, hel, hnl, _, o2, _⟩ := owned_of_valid hv hm
    obtain ⟨rfl, _⟩ := result_ok_inj hs o2
    obtain ⟨v, hlast⟩ := (constructed_of_take hel hnl).1 (s - 1) (by omega)
    obtain ⟨_, hw⟩ := result_ok_inj h (pop_back_of_owns N ho hpos hsl hlast)
    rw [hw] at hv1 ⊢
    exact own_step_of_stay (stay_step_in_place (s - 1) ho hv1)
  rcases valid_cases hv with ⟨c, xs, hobj, hlen, hty, hle, hel, hxl⟩ |
    ⟨c, b, xs, hobj, hlen, hty, hbuf, hbl, hle, hel, hxl, hk⟩
  · exact hmaster_case (is_master_small hobj hty)
  · have hm := is_master_big hobj hty hbuf
    by_cases hcnt : b.cnt_references = 1
    · rw [hcnt] at hm
      exact hmaster_case hm
    · obtain ⟨_, o2, o3, _⟩ := observe_big N hobj hty hbuf hel (by omega)
      obtain ⟨rfl, _⟩ := result_ok_inj hs o2
      obtain ⟨w3, e3, v3, _⟩ := change_dynamic_storage_spec (N := N) b.capacity (c.size_ - 1)
        hobj hlen hty hbuf (take_pred_of_take hel) (by omega) (fun h => absurd h hcnt)
        (by omega) hnf
      have e1 : pop_back N i w = result.ok () w3 := by
        have hne : c.size_ ≠ 0 := by omega
        simp [pop_back, noexcept, make_master_to, o2, o3, hm, hcnt, e3, hne]
      obtain ⟨_, hw⟩ := result_ok_inj h e1
      subst hw
      exact (change_dynamic_storage_own_step b.capacity (c.size_ - 1) hobj hty hbuf
        (take_pred_of_take hel) (by omega) (fun h => absurd h hcnt) (by omega) hnf
        (Or.inl (Nat.le_refl _)) e3 v3).1

theorem clear_own_step {N : Nat} {w w1 : world T} {i : Nat} (hv : valid N w i)
    (hnf : no_failure w) (h : clear N i w = result.ok () w1) : own_step N i w w1 := by
  obtain ⟨w2, e, hv1, _⟩ := clear_spec hv hnf
  obtain ⟨_, hw⟩ := result_ok_inj h e
  subst hw
  have hmaster_case : is_master i w = result.ok true w → own_step N i w w1 := by
    intro hm
    obtain ⟨r, l, xs, n, ho, hsl, hel, hnl, _, _, _⟩ := owned_of_valid hv hm
    have hc := (constructed_of_take hel hnl).1
    have e0 := destroy_storage_of_owns ho hsl hc
    have ho1 := owns_set_slots ho r (destroy_slots l n)
    have hm1 := is_master_of_owns ho1
    have e1 : modify_obj i (fun c => { c with size_ := 0 }) (w.set_slots r (destroy_slots l n))
        = result.ok () ((w.set_slots r (destroy_slots l n)).set_size i 0) := by
      rcases ho1 with ⟨d, h, hr⟩ | ⟨p, cap, h, hr, hb⟩ <;>
        obtain ⟨c, hc, _, hn, _⟩ := header_eq_some h <;>
        simp [modify_obj, world.set_size, hc]
    have e2 : clear N i w = result.ok () ((w.set_size i 0).set_slots r (destroy_slots l n)) := by
      rw [← set_size_set_slots]
      simp [clear, noexcept, e0, hm1, e1]
    obtain ⟨_, hw⟩ := result_ok_inj h e2
    rw [hw] at hv1 ⊢
    exact own_step_of_stay (stay_step_in_place 0 ho hv1)
  rcases valid_cases hv with ⟨c, xs, hobj, hlen, hty, hle, hel, hxl⟩ |
    ⟨c, b, xs, hobj, hlen, hty, hbuf, hbl, hle, hel, hxl, hk⟩
  · exact hmaster_case (is_master_small hobj hty)
  · have hm := is_master_big hobj hty hbuf
    by_cases hcnt : b.cnt_references = 1
    · rw [hcnt] at hm
      exact hmaster_case hm
    · obtain ⟨_, hw⟩ := result_ok_inj h (clear_shared (N := N) hobj hty hbuf hcnt hnf.2)
      have hp := lt_length_of_getElem? hbuf
      refine ⟨hv1, by rw [hw], by rw [hw], c, { c with
          size_ := 0, dynamic_storage := w.heap.length }, hobj, by rw [hw], Or.inr ⟨hty, rfl,
        buffer.mk 1 b.capacity (List.replicate b.capacity none), rfl,
        Or.inr ⟨hty, b, hbuf, ?_, Or.inl (Nat.le_refl _)⟩⟩⟩
      rw [hw]
      simp only [buffer.release, if_neg hcnt]
      rw [List.set_append_left _ _ hp]

theorem reserve_own_step {N : Nat} {w w1 : world T} {i : Nat} (n : Nat) (hv : valid N w i)
    (hnf : no_failure w) (h : reserve N i n w = result.ok () w1) : own_step N i w w1 := by
  rcases valid_cases hv with ⟨c, xs, hobj, hlen, hty, hle, hel, hxl⟩ |
    ⟨c, b, xs, hobj, hlen, hty, hbuf, hbl, hle, hel, hxl, hk⟩
  · obtain ⟨o1, o2, o3, o4⟩ := observe_small N hobj hty hel (by omega)
    have hm := is_master_small hobj hty
    by_cases hgt : N < n
    · obtain ⟨w2, e, v1, _⟩ := change_static_storage_to_dynamic_spec n hobj
        hlen hty hel (by omega) (by omega) hnf
      have e1 : reserve N i n w = result.ok () w2 := by
        simp [reserve, reserve_value, o3, hm, o2, o4, hgt, e]
      obtain ⟨_, hw⟩ := result_ok_inj h e1
      subst hw
      exact change_static_storage_to_dynamic_own_step n hobj hty hel (by omega) (by omega)
        hnf hgt e v1
    · have e1 : reserve N i n w = result.ok () w := by
        simp [reserve, reserve_value, o3, hm, o2, hgt]
      obtain ⟨_, hw⟩ := result_ok_inj h e1
      subst hw
      exact own_step_of_stay (stay_step_refl hv)
  · obtain ⟨o1, o2, o3, o4, _, _⟩ := observe_big N hobj hty hbuf hel (by omega)
    have hm := is_master_big hobj hty hbuf
    by_cases hcond : b.capacity < n ∨ (¬ b.cnt_references = 1 ∧ c.size_ < n)
    · obtain ⟨w2, e, v1, _⟩ := change_dynamic_storage_spec n c.size_ hobj
        hlen hty hbuf hel (by omega) (fun _ => (constructed_of_take hel (by omega)).1)
        (by omega) hnf
      have e1 : reserve N i n w = result.ok () w2 := by
        simp only [reserve, reserve_value, bind_run, o3, hm, o2, o4]
        simp only [gt_iff_lt, decide_eq_true_eq]
        rw [if_pos hcond]
        simp [bind_run, o4, o2, e]
      obtain ⟨_, hw⟩ := result_ok_inj h e1
      subst hw
      refine (change_dynamic_storage_own_step n c.size_ hobj hty hbuf hel (by omega)
        (fun _ => (constructed_of_take hel (by omega)).1) (by omega) hnf ?_ e v1).1
      rcases hcond with h1 | h1
      · exact Or.inl (by omega)
      · exact Or.inr (Or.inl h1)
    · have e1 : reserve N i n w = result.ok () w := by
        simp only [reserve, reserve_value, bind_run, o3, hm, o2, o4]
        simp only [gt_iff_lt, decide_eq_true_eq]
        rw [if_neg hcond]
        rfl
      obtain ⟨_, hw⟩ := result_ok_inj h e1
      subst hw
      exact own_step_of_stay (stay_step_refl hv)

/-- The footprint of `shrink_to_fit()` when the container stays big or nothing
is done (the case of a new small container is a copy, a swap and the end of a
temporary). -/
theorem shrink_to_fit_own_step {N : Nat} {w w1 : world T} {i : Nat} {s c : Nat}
    (hv : valid N w i) (hnf : no_failure w) (hs : size i w = result.ok s w)
    (hc : capacity N i w = result.ok c w) (hcase : c ≤ s ∨ N < s)
    (h : shrink_to_fit N i w = result.ok () w1) : own_step N i w w1 := by
  by_cases hlt : s < c
  · have hN : N < s := by omega
    rcases valid_cases hv with ⟨c0, xs0, hobj, hlen, hty, hle, hel, hxl⟩ |
      ⟨c0, b, xs0, hobj, hlen, hty, hbuf, hbl, hle, hel, hxl, hk⟩
    · obtain ⟨hs1, _⟩ := result_ok_inj hs (size_of_obj hobj)
      omega
    · obtain ⟨o1, o2, o3, o4, _, _⟩ := observe_big N hobj hty hbuf hel (by omega)
      obtain ⟨hs1, _⟩ := result_ok_inj hs o2
      subst hs1
      obtain ⟨w2, e1, v1, _⟩ := change_dynamic_storage_spec
        c0.size_ c0.size_ hobj hlen hty hbuf hel (by omega)
        (fun _ => (constructed_of_take hel (by omega)).1) (Nat.le_refl _) hnf
      have e : shrink_to_fit N i w = result.ok () w2 := by
        simp [shrink_to_fit, hc, hs, hlt, show ¬ c0.size_ ≤ N by omega, e1]
      obtain ⟨_, hw⟩ := result_ok_inj h e
      subst hw
      exact (change_dynamic_storage_own_step c0.size_ c0.size_ hobj hty hbuf hel (by omega)
        (fun _ => (constructed_of_take hel (by omega)).1) (Nat.le_refl _) hnf
        (Or.inr (Or.inr hN)) e1 v1).1
  · have e : shrink_to_fit N i w = result.ok () w := by
      simp [shrink_to_fit, hc, hs, hlt]
    obtain ⟨_, hw⟩ := result_ok_inj h e
    subst hw
    exact own_step_of_stay (stay_step_refl hv)

theorem erase_own_step {N : Nat} {w w1 : world T} {i : Nat} {s : Nat} {d it : iterator}
    (fi la : Nat) (hv : valid N w i) (hnf : no_failure w) (hs : size i w = result.ok s w)
    (hd : data_const i w = result.ok d w) (h1 : fi ≤ la) (h2 : la ≤ s)
    (h : erase N i (d.add fi) (d.add la) w = result.ok it w1) : own_step N i w w1 := by
  obtain ⟨xs, s0, cloned, w2, o1, o2, e1, hv1, hnf1, hm1, p1, p2, p3, p4, _⟩ :=
    make_master_spec hv hnf
  obtain ⟨rfl, _⟩ := result_ok_inj hs o2
  have hstep := make_master_own_step hv hnf e1
  obtain ⟨r, l, ys, n, ho, hsl, hel, hn, q1, q2, q3⟩ := owned_of_valid hv1 hm1
  obtain ⟨rfl, _⟩ := result_ok_inj p1 q1
  obtain ⟨rfl, _⟩ := result_ok_inj p2 q2
  obtain ⟨hcons, hxl⟩ := constructed_of_take hel hn
  have e2 := for_range_owned (i := i) (r := r) (n := s)
    (fun k => do
      let a ← operator_index N i k
      let b ← operator_index N i (k + (la - fi))
      std_swap a b)
    (fun k l => swap_slots l k (k + (la - fi))) (fun l => constructed l s) (s - (la - fi))
    (fun k l w hk ho hs hc => erase_body_of_owns N (la - fi) s k l w hk ho hs hc)
    (s - (la - fi) - fi) fi l w2 (by omega) ho hsl hcons
  generalize hl1 : for_range_slots (fun k l => swap_slots l k (k + (la - fi))) fi
    (s - (la - fi) - fi) l = l1 at e2
  obtain ⟨g1, _, _, g4⟩ := erase_loop_slots (la - fi) (s - (la - fi) - fi) fi l
    (by rwa [show fi + (s - (la - fi) - fi) + (la - fi) = s by omega])
  rw [hl1] at g1 g4
  rw [show fi + (s - (la - fi) - fi) + (la - fi) = s by omega] at g4
  have e3 := pop_back_loop_of_owns N (la - fi) 0 s l1 (w2.set_slots r l1)
    (owns_set_slots ho _ _) (slots_set_slots_same hsl _) g4 (by omega)
  rw [set_size_set_slots, set_slots_set_slots] at e3
  have ho3 : owns ((w2.set_size i (s - (la - fi))).set_slots r (pop_slots l1 s (la - fi))) i r
      (s - (la - fi)) := owns_set_slots (owns_set_size ho _) _ _
  have e : erase N i (d.add fi) (d.add la) w = result.ok ((iterator.mk r 0).add fi)
      ((w2.set_size i (s - (la - fi))).set_slots r (pop_slots l1 s (la - fi))) := by
    simp only [erase, bind_run, get_index_add hd, show ¬ la < fi by omega, if_false, ite_run,
      e1, q2, e2, e3, begin_of_owns N ho3, pure_run]
  obtain ⟨_, _, d0, _, hs0, hd0, hspec⟩ := erase_spec fi la hv hnf
  obtain ⟨rfl, _⟩ := result_ok_inj hs hs0
  obtain ⟨rfl, _⟩ := result_ok_inj hd hd0
  obtain ⟨d1, w3, e4, _, v3, _⟩ := hspec h1 h2
  obtain ⟨_, hw3⟩ := result_ok_inj e4 e
  obtain ⟨_, hw⟩ := result_ok_inj h e
  rw [hw3] at v3
  rw [hw]
  exact own_step_then_stay hstep (stay_step_in_place _ ho v3)

theorem insert_own_step {N : Nat} {w w1 : world T} {i : Nat} {s : Nat} {d it : iterator}
    (id : Nat) (v : T) (hv : valid N w i) (hnf : no_failure w)
    (hs : size i w = result.ok s w) (hd : data_const i w = result.ok d w) (h1 : id ≤ s)
    (h : socow_vector.insert N i (d.add id) v w = result.ok it w1) : own_step N i w w1 := by
  obtain ⟨xs, s0, c, t, w2, o1, o2, _, _, e1, hv1, hnf1, hm1, p1, p2, _, _⟩ :=
    push_back_spec v hv hnf
  obtain ⟨rfl, _⟩ := result_ok_inj hs o2
  have hstep := push_back_own_step v hv hnf e1
  obtain ⟨r, l, ys, n, ho, hsl, hel, hn, q1, q2, q3⟩ := owned_of_valid hv1 hm1
  obtain ⟨rfl, _⟩ := result_ok_inj p1 q1
  obtain ⟨rfl, _⟩ := result_ok_inj p2 q2
  obtain ⟨hcons, hxl⟩ := constructed_of_take hel hn
  have e2 := for_range_owned (i := i) (r := r) (n := s + 1)
    (fun k => do
      let b ← back N i
      let e ← operator_index N i k
      std_swap b e)
    (fun k l => swap_slots l s k) (fun l => constructed l (s + 1)) s
    (fun k l w hk ho hs hc => insert_body_of_owns N s k l w hk ho hs hc)
    (s - id) id l w2 (by omega) ho hsl hcons
  generalize hl1 : for_range_slots (fun k l => swap_slots l s k) id (s - id) l = l1 at e2
  obtain ⟨t0, d0, hh⟩ := owns_header ho
  have ho2 : owns (w2.set_slots r l1) i r (s + 1) := owns_set_slots ho _ _
  have e : socow_vector.insert N i (d.add id) v w = result.ok ((iterator.mk r 0).add id)
      (w2.set_slots r l1) := by
    simp only [socow_vector.insert, bind_run, get_index_add hd, e1, q2, Nat.add_sub_cancel, e2,
      begin_of_owns N ho2, pure_run]
  obtain ⟨_, _, d2, _, hs0, hd0, hspec⟩ := insert_spec id v hv hnf
  obtain ⟨rfl, _⟩ := result_ok_inj hs hs0
  obtain ⟨rfl, _⟩ := result_ok_inj hd hd0
  obtain ⟨d1, w3, e4, _, v3, _⟩ := hspec h1
  obtain ⟨_, hw3⟩ := result_ok_inj e4 e
  obtain ⟨_, hw⟩ := result_ok_inj h e
  rw [hw3] at v3
  rw [hw]
  have hself : w2.set_slots r l1 = (w2.set_size i (s + 1)).set_slots r l1 := by
    rw [set_size_self hh]
  rw [hself] at v3 ⊢
  exact own_step_then_stay hstep (stay_step_in_place _ ho v3)

/-! ## What a step on one container means for the others and for the heap -/

/-- Another well-formed container is left alone by a step on `i`, provided that a
buffer it has in common with `i` is counted for both. -/
theorem unchanged_of_own_step {N : Nat} {w w1 : world T} {i j : Nat}
    (h : own_step N i w w1) (hji : j ≠ i) (hvj : valid N w j)
    (hshare : ∀ c cj b, w.objs[i]? = some (some c) → w.objs[j]? = some (some cj) →
      c.type = vector_type.BIG → cj.type = vector_type.BIG →
      cj.dynamic_storage = c.dynamic_storage →
      w.heap[c.dynamic_storage]? = some (some b) → 2 ≤ b.cnt_references) :
    unchanged w w1 j := by
  obtain ⟨_, _, _, c, c1, hc, ho, sh⟩ := h
  have hobj : w1.objs[j]? = w.objs[j]? := by
    rw [ho, List.getElem?_set_ne (Ne.symm hji)]
  rcases sh with ⟨_, _, hh⟩ | ⟨_, _, b1, _, hh⟩
  · rcases hh with ⟨_, hheap⟩ | ⟨hty, b, l2, hbuf, hheap, hcond⟩
    · exact unchanged_of_eq hobj hheap (count_pos_of_valid hvj)
    · refine ⟨hobj, fun cj bj hcj htyj hbj => ?_⟩
      by_cases e : cj.dynamic_storage = c.dynamic_storage
      · have h2 := hshare c cj b hc hcj hty htyj e hbuf
        rw [e, hbuf] at hbj
        simp only [Option.some.injEq] at hbj
        subst hbj
        obtain ⟨e2, _⟩ := hcond (by omega)
        refine ⟨b, ?_, rfl, rfl, by omega⟩
        rw [hheap, e, e2]
        simp [lt_length_of_getElem? hbuf]
      · exact ⟨bj, by rw [hheap, List.getElem?_set_ne (Ne.symm e)]; exact hbj, rfl, rfl,
          count_pos_of_valid hvj cj bj hcj htyj hbj⟩
  · rcases hh with ⟨_, hheap, _⟩ | ⟨hty, b, hbuf, hheap, _⟩
    · refine ⟨hobj, fun cj bj hcj htyj hbj => ?_⟩
      exact ⟨bj, by rw [hheap, List.getElem?_append_left (lt_length_of_getElem? hbj)]; exact hbj,
        rfl, rfl, count_pos_of_valid hvj cj bj hcj htyj hbj⟩
    · have hrel : unchanged w { w with heap := w.heap.set c.dynamic_storage b.release } j :=
        unchanged_of_release hvj rfl hbuf rfl (fun cj hcj htyj e =>
          hshare c cj b hc hcj hty htyj e hbuf)
      refine ⟨hobj, fun cj bj hcj htyj hbj => ?_⟩
      obtain ⟨b2, hb2, r1, r2, r3⟩ := hrel.2 cj bj hcj htyj hbj
      have hlt : cj.dynamic_storage < (w.heap.set c.dynamic_storage b.release).length :=
        lt_length_of_getElem? hb2
      exact ⟨b2, by rw [hheap, List.getElem?_append_left hlt]; exact hb2, r1, r2, r3⟩

/-- The record-level form of `shared_counted`. -/
theorem shared_counted_records {w : world T} {i j : Nat} (h : shared_counted w i j) :
    ∀ c cj b, w.objs[i]? = some (some c) → w.objs[j]? = some (some cj) →
      c.type = vector_type.BIG → cj.type = vector_type.BIG →
      cj.dynamic_storage = c.dynamic_storage →
      w.heap[c.dynamic_storage]? = some (some b) → 2 ≤ b.cnt_references :=
  fun c cj b hc hcj hty htyj e hb =>
    h c.dynamic_storage b.cnt_references (data_const_of_obj_big hc hty)
      (by rw [data_const_of_obj_big hcj htyj, e]) (use_count_of_buf hb)

/-- A container that was sharing and is the only owner after a step has moved:
it is big on the fresh buffer at the end of the old heap, which is counted once,
and the buffer it left is counted once less. -/
theorem moved_of_own_step {N : Nat} {w w1 : world T} {i : Nat} {c : socow_vector T}
    {b : buffer T} (h : own_step N i w w1) (hc : w.objs[i]? = some (some c))
    (hty : c.type = vector_type.BIG) (hbuf : w.heap[c.dynamic_storage]? = some (some b))
    (hcnt : b.cnt_references ≠ 1) (hm1 : is_master i w1 = result.ok true w1) :
    w.heap[w.heap.length]? = none ∧
    is_small i w1 = result.ok false w1 ∧
    data_const i w1 = result.ok (iterator.mk (storage.arr w.heap.length) 0) w1 ∧
    my_shared_ptr.use_count w.heap.length w1 = result.ok 1 w1 ∧
    my_shared_ptr.use_count c.dynamic_storage w1 = result.ok (b.cnt_references - 1) w1 := by
  obtain ⟨_, _, _, c0, c1, hc0, ho, sh⟩ := h
  rw [hc] at hc0
  simp only [Option.some.injEq] at hc0
  subst hc0
  have hi := lt_length_of_getElem? hc
  have hp := lt_length_of_getElem? hbuf
  have hc1 : w1.objs[i]? = some (some c1) := by rw [ho]; simp [hi]
  rcases sh with ⟨t1, d1, hh⟩ | ⟨t1, d1, b1, hb1, hh⟩
  · rcases hh with ⟨hty2, _⟩ | ⟨_, b2, l2, hbuf2, hheap, _⟩
    · rw [hty] at hty2; cases hty2
    · rw [hbuf] at hbuf2
      simp only [Option.some.injEq] at hbuf2
      subst hbuf2
      have hb1 : w1.heap[c1.dynamic_storage]? = some (some { b with arr := l2 }) := by
        rw [d1, hheap]; simp [hp]
      have := is_master_big hc1 (t1.trans hty) hb1
      obtain ⟨h2, _⟩ := result_ok_inj hm1 this
      simp [hcnt] at h2
  · rcases hh with ⟨hty2, _⟩ | ⟨_, b2, hbuf2, hheap, _⟩
    · rw [hty] at hty2; cases hty2
    · rw [hbuf] at hbuf2
      simp only [Option.some.injEq] at hbuf2
      subst hbuf2
      have hlen : (w.heap.set c.dynamic_storage b.release).length = w.heap.length := by simp
      have hnew : w1.heap[w.heap.length]? = some (some b1) := by
        rw [hheap]
        nth_rewrite 1 [← hlen]
        simp
      have hold : w1.heap[c.dynamic_storage]? = some (some { b with
          cnt_references := b.cnt_references - 1 }) := by
        rw [hheap, List.getElem?_append_left (by rw [hlen]; exact hp)]
        simp [hp, buffer.release, hcnt]
      refine ⟨by simp, ?_, ?_, ?_, use_count_of_buf hold⟩
      · rw [is_small_of_obj hc1, t1]; rfl
      · rw [data_const_of_obj_big hc1 t1, d1]
      · rw [use_count_of_buf hnew, hb1]

/-- A container that does not own its storage exclusively is big on a buffer
counted at least twice. -/
theorem shared_of_not_master {N : Nat} {w : world T} {i : Nat} (hv : valid N w i)
    (hm : is_master i w = result.ok false w) :
    ∃ c b, w.objs[i]? = some (some c) ∧ c.type = vector_type.BIG ∧
      w.heap[c.dynamic_storage]? = some (some b) ∧ 2 ≤ b.cnt_references := by
  rcases valid_cases hv with ⟨c, xs, hobj, hlen, hty, hle, hel, hxl⟩ |
    ⟨c, b, xs, hobj, hlen, hty, hbuf, hbl, hle, hel, hxl, hk⟩
  · obtain ⟨h2, _⟩ := result_ok_inj hm (is_master_small hobj hty)
    cases h2
  · obtain ⟨h2, _⟩ := result_ok_inj hm (is_master_big hobj hty hbuf)
    have : b.cnt_references ≠ 1 := by simpa using h2.symm
    exact ⟨c, b, hobj, hty, hbuf, by omega⟩

theorem capacity_of_small {N : Nat} {w : world T} {i : Nat}
    (h : is_small i w = result.ok true w) : capacity N i w = result.ok N w := by
  simp [capacity, h]

theorem length_of_elements {N : Nat} {w : world T} {i : Nat} {xs : List T} {s : Nat}
    (hv : valid N w i) (hxs : elements i w = result.ok xs w) (hs : size i w = result.ok s w) :
    xs.length = s := by
  rcases valid_cases hv with ⟨c, ys, hobj, hlen, hty, hle, hel, hxl⟩ |
    ⟨c, b, ys, hobj, hlen, hty, hbuf, hbl, hle, hel, hxl, hk⟩
  · obtain ⟨o1, o2, _⟩ := observe_small N hobj hty hel (by omega)
    obtain ⟨rfl, _⟩ := result_ok_inj hxs o1
    obtain ⟨rfl, _⟩ := result_ok_inj hs o2
    exact hxl
  · obtain ⟨o1, o2, _⟩ := observe_big N hobj hty hbuf hel (by omega)
    obtain ⟨rfl, _⟩ := result_ok_inj hxs o1
    obtain ⟨rfl, _⟩ := result_ok_inj hs o2
    exact hxl

/-- The element at index `pos`, read through the data pointer. -/
theorem deref_of_elements {N : Nat} {w : world T} {i : Nat} {xs : List T} {d : iterator}
    (hv : valid N w i) (hxs : elements i w = result.ok xs w)
    (hd : data_const i w = result.ok d w) {pos : Nat} {v : T} (hp : xs[pos]? = some v) :
    deref (d.add pos) w = result.ok v w := by
  rcases valid_cases hv with ⟨c, ys, hobj, hlen, hty, hle, hel, hxl⟩ |
    ⟨c, b, ys, hobj, hlen, hty, hbuf, hbl, hle, hel, hxl, hk⟩
  · obtain ⟨o1, _⟩ := observe_small N hobj hty hel (by omega)
    obtain ⟨rfl, _⟩ := result_ok_inj hxs o1
    obtain ⟨rfl, _⟩ := result_ok_inj hd (data_const_of_obj_small hobj hty)
    exact deref_ok _ (show w.slots (storage.static_storage i) = some c.static_storage by
      simp [world.slots, hobj]) (by simpa [iterator.add] using getElem?_of_take_eq_map hel hp)
  · obtain ⟨o1, _⟩ := observe_big N hobj hty hbuf hel (by omega)
    obtain ⟨rfl, _⟩ := result_ok_inj hxs o1
    obtain ⟨rfl, _⟩ := result_ok_inj hd (data_const_of_obj_big hobj hty)
    exact deref_ok _ (show w.slots (storage.arr c.dynamic_storage) = some b.arr by
      simp [world.slots, hbuf]) (by simpa [iterator.add] using getElem?_of_take_eq_map hel hp)

/-- A master that is cleared keeps its storage. -/
theorem clear_stay_step {N : Nat} {w w1 : world T} {i : Nat} (hv : valid N w i)
    (hnf : no_failure w) (hm : is_master i w = result.ok true w)
    (h : clear N i w = result.ok () w1) : stay_step N i w w1 := by
  obtain ⟨w2, e, hv1, _⟩ := clear_spec hv hnf
  obtain ⟨_, hw⟩ := result_ok_inj h e
  subst hw
  obtain ⟨r, l, xs, n, ho, hsl, hel, hnl, _, _, _⟩ := owned_of_valid hv hm
  have hc := (constructed_of_take hel hnl).1
  have e0 := destroy_storage_of_owns ho hsl hc
  have ho1 := owns_set_slots ho r (destroy_slots l n)
  have hm1 := is_master_of_owns ho1
  have e1 : modify_obj i (fun c => { c with size_ := 0 }) (w.set_slots r (destroy_slots l n))
      = result.ok () ((w.set_slots r (destroy_slots l n)).set_size i 0) := by
    rcases ho1 with ⟨d, h, hr⟩ | ⟨p, cap, h, hr, hb⟩ <;>
      obtain ⟨c, hc, _, hn, _⟩ := header_eq_some h <;>
      simp [modify_obj, world.set_size, hc]
  have e2 : clear N i w = result.ok () ((w.set_size i 0).set_slots r (destroy_slots l n)) := by
    rw [← set_size_set_slots]
    simp [clear, noexcept, e0, hm1, e1]
  obtain ⟨_, hw⟩ := result_ok_inj h e2
  rw [hw] at hv1 ⊢
  exact stay_step_in_place 0 ho hv1

/-- A container that kept its storage has the data pointer it had. -/
theorem data_const_of_stay {N : Nat} {w w1 : world T} {i : Nat} (h : stay_step N i w w1)
    {d : iterator} (hd : data_const i w = result.ok d w) : data_const i w1 = result.ok d w1 := by
  obtain ⟨_, _, _, c, c1, hc, ho, t1, d1, _⟩ := h
  have hi := lt_length_of_getElem? hc
  have hc1 : w1.objs[i]? = some (some c1) := by rw [ho]; simp [hi]
  cases hty : c.type
  · obtain ⟨rfl, _⟩ := result_ok_inj hd (data_const_of_obj_small hc hty)
    exact data_const_of_obj_small hc1 (t1.trans hty)
  · obtain ⟨rfl, _⟩ := result_ok_inj hd (data_const_of_obj_big hc hty)
    rw [data_const_of_obj_big hc1 (t1.trans hty), d1]

/-- Growing by `reserve`: the container ends up big, as the only owner of a fresh
buffer of capacity `n`. -/
theorem reserve_grows {N : Nat} {w w1 : world T} {i : Nat} {n s c : Nat} (hv : valid N w i)
    (hnf : no_failure w) (hs : size i w = result.ok s w) (hc : capacity N i w = result.ok c w)
    (hcond : c < n ∨ (is_master i w = result.ok false w ∧ s < n))
    (h : reserve N i n w = result.ok () w1) :
    is_small i w1 = result.ok false w1 ∧ is_master i w1 = result.ok true w1 ∧
      capacity N i w1 = result.ok n w1 ∧
      data_const i w1 = result.ok (iterator.mk (storage.arr w.heap.length) 0) w1 ∧
      my_shared_ptr.use_count w.heap.length w1 = result.ok 1 w1 := by
  rcases valid_cases hv with ⟨c0, xs, hobj, hlen, hty, hle, hel, hxl⟩ |
    ⟨c0, b, xs, hobj, hlen, hty, hbuf, hbl, hle, hel, hxl, hk⟩
  · obtain ⟨o1, o2, o3, o4⟩ := observe_small N hobj hty hel (by omega)
    have hm := is_master_small hobj hty
    obtain ⟨rfl, _⟩ := result_ok_inj hc o3
    have hgt : c < n := by
      rcases hcond with h1 | ⟨h1, _⟩
      · exact h1
      · obtain ⟨h2, _⟩ := result_ok_inj h1 hm
        cases h2
    obtain ⟨w2, e, v1, _, _, _, v5, v6, v7⟩ := change_static_storage_to_dynamic_spec n hobj
      hlen hty hel (by omega) (by omega) hnf
    have e1 : reserve c i n w = result.ok () w2 := by
      simp [reserve, reserve_value, o3, hm, o2, o4, hgt, e]
    obtain ⟨_, hw⟩ := result_ok_inj h e1
    subst hw
    have e0 := change_static_storage_to_dynamic_ok n none hobj hty hel (by omega)
      (by simp; omega) hnf.1 hnf.2
    obtain ⟨_, hw⟩ := result_ok_inj e e0
    simp only [Option.toList_none, List.length_nil, Nat.add_zero, List.append_nil] at hw
    have hi := lt_length_of_getElem? hobj
    refine ⟨v6, v7, v5, ?_, ?_⟩
    · rw [data_const_of_obj_big (c := socow_vector.mk vector_type.BIG c0.size_ w.heap.length
        (destroy_slots c0.static_storage c0.size_)) (by rw [hw]; simp [hi]) rfl]
    · exact use_count_of_buf (b := buffer.mk 1 n
        (set_range (List.replicate n none) 0 xs)) (by rw [hw]; simp)
  · obtain ⟨o1, o2, o3, o4, _, _⟩ := observe_big N hobj hty hbuf hel (by omega)
    have hm := is_master_big hobj hty hbuf
    obtain ⟨rfl, _⟩ := result_ok_inj hc o3
    obtain ⟨rfl, _⟩ := result_ok_inj hs o2
    have hcond2 : b.capacity < n ∨ (¬ b.cnt_references = 1 ∧ c0.size_ < n) := by
      rcases hcond with h1 | ⟨h1, h2⟩
      · exact Or.inl h1
      · obtain ⟨h3, _⟩ := result_ok_inj h1 hm
        exact Or.inr ⟨by simpa using h3.symm, h2⟩
    obtain ⟨w2, e, v1, _, _, _, v5, v6, v7⟩ := change_dynamic_storage_spec n c0.size_ hobj
      hlen hty hbuf hel (by omega) (fun _ => (constructed_of_take hel (by omega)).1)
      (by omega) hnf
    have e1 : reserve N i n w = result.ok () w2 := by
      simp only [reserve, reserve_value, bind_run, o3, hm, o2, o4]
      simp only [gt_iff_lt, decide_eq_true_eq]
      rw [if_pos hcond2]
      simp [bind_run, o4, o2, e]
    obtain ⟨_, hw⟩ := result_ok_inj h e1
    subst hw
    have e0 := change_dynamic_storage_ok n c0.size_ none hobj hty hbuf hel (by omega)
      (fun _ => (constructed_of_take hel (by omega)).1) (by simp; omega) hnf.1 hnf.2
    obtain ⟨_, hw⟩ := result_ok_inj e e0
    simp only [Option.toList_none, List.length_nil, Nat.add_zero, List.append_nil] at hw
    have hi := lt_length_of_getElem? hobj
    refine ⟨v6, v7, v5, ?_, ?_⟩
    · rw [data_const_of_obj_big (c := { c0 with
        size_ := c0.size_, dynamic_storage := w.heap.length }) (by rw [hw]; simp [hi]) hty]
    · exact use_count_of_buf (b := buffer.mk 1 n
        (set_range (List.replicate n none) 0 xs)) (by rw [hw]; simp)

/-! ## Counting the holders of a buffer -/

theorem countP_set {γ : Type} (p : γ → Bool) :
    ∀ (l : List γ) (i : Nat) (x y : γ), l[i]? = some x →
      (l.set i y).countP p + (if p x then 1 else 0)
        = l.countP p + (if p y then 1 else 0) := by
  intro l
  induction l with
  | nil => intro i x y h; simp at h
  | cons a l ih =>
    intro i x y h
    cases i with
    | zero =>
      simp only [List.getElem?_cons_zero, Option.some.injEq] at h
      subst h
      simp only [List.set_cons_zero, List.countP_cons]
      omega
    | succ k =>
      simp only [List.getElem?_cons_succ] at h
      have := ih k x y h
      simp only [List.set_cons_succ, List.countP_cons]
      omega

theorem holders_set {w w1 : world T} {i : Nat} {o o1 : Option (socow_vector T)}
    (hc : w.objs[i]? = some o) (ho : w1.objs = w.objs.set i o1) (p : Nat) :
    holders w1 p + (if holds p o then 1 else 0)
      = holders w p + (if holds p o1 then 1 else 0) := by
  simp only [holders, ho]
  exact countP_set (holds p) w.objs i o o1 hc

theorem holders_append {w w1 : world T} {o1 : Option (socow_vector T)}
    (ho : w1.objs = w.objs ++ [o1]) (p : Nat) :
    holders w1 p = holders w p + (if holds p o1 then 1 else 0) := by
  simp only [holders, ho, List.countP_append, List.countP_cons, List.countP_nil]
  omega

theorem holders_zero {w : world T} {p : Nat}
    (h : ∀ (j : Nat) (c : socow_vector T), w.objs[j]? = some (some c) →
      c.type = vector_type.BIG → c.dynamic_storage ≠ p) : holders w p = 0 := by
  simp only [holders, List.countP_eq_zero]
  intro o ho
  obtain ⟨j, hj, rfl⟩ := List.getElem_of_mem ho
  cases hcase : w.objs[j] with
  | none => simp [holds]
  | some c =>
    have hc : w.objs[j]? = some (some c) := by
      rw [List.getElem?_eq_getElem hj, hcase]
    simp only [holds, decide_eq_true_eq, not_and]
    exact fun hty => h j c hc hty

theorem holds_of_obj {c : socow_vector T} {p : Nat} (hty : c.type = vector_type.BIG)
    (hd : c.dynamic_storage = p) : holds p (some c) = true := by
  simp [holds, hty, hd]

theorem holders_pos {w : world T} {p i : Nat} {c : socow_vector T}
    (hc : w.objs[i]? = some (some c)) (hty : c.type = vector_type.BIG)
    (hd : c.dynamic_storage = p) : 1 ≤ holders w p := by
  have hi := lt_length_of_getElem? hc
  have hmem : some c ∈ w.objs := by
    rw [List.mem_iff_getElem?]
    exact ⟨i, hc⟩
  exact List.countP_pos_iff.mpr ⟨some c, hmem, holds_of_obj hty hd⟩

theorem holders_two {w : world T} {p i j : Nat} {ci cj : socow_vector T} (hij : i ≠ j)
    (hci : w.objs[i]? = some (some ci)) (hcj : w.objs[j]? = some (some cj))
    (hti : ci.type = vector_type.BIG) (htj : cj.type = vector_type.BIG)
    (hdi : ci.dynamic_storage = p) (hdj : cj.dynamic_storage = p) : 2 ≤ holders w p := by
  have h1 := @holders_set T w { w with objs := w.objs.set i none } i (some ci) none hci rfl p
  rw [holds_of_obj hti hdi] at h1
  have hcj1 : ({ w with objs := w.objs.set i none } : world T).objs[j]? = some (some cj) := by
    simp only [List.getElem?_set_ne hij]
    exact hcj
  have h2 := holders_pos hcj1 htj hdj
  simp only [holds, if_true] at h1
  simp at h1
  omega

/-! ## Reasoning about every outcome of a run -/

theorem wp_iff {m : M T α} {Q : α → world T → Prop} {E : world T → Prop} {w : world T} :
    wp m Q E w ↔ (∀ a w1, m w = result.ok a w1 → Q a w1) ∧
      (∀ w1, m w = result.throw w1 → E w1) := by
  unfold wp
  rcases hm : m w with ⟨a, w1⟩ | w1 | _ | _ <;> simp

theorem wp_leaves {m : M T α} {P : world T → Prop} {w : world T}
    (h : wp m (fun _ w1 => P w1) P w) : ∀ w1, leaves m w w1 → P w1 := by
  intro w1 hl
  rw [wp_iff] at h
  rcases hl with ⟨a, e⟩ | e
  · exact h.1 a w1 e
  · exact h.2 w1 e

theorem wp_ok {m : M T α} {Q : α → world T → Prop} {E : world T → Prop} {w w1 : world T}
    {a : α} (h : wp m Q E w) (e : m w = result.ok a w1) : Q a w1 :=
  (wp_iff.mp h).1 a w1 e

theorem wp_throw {m : M T α} {Q : α → world T → Prop} {E : world T → Prop} {w w1 : world T}
    (h : wp m Q E w) (e : m w = result.throw w1) : E w1 :=
  (wp_iff.mp h).2 w1 e

theorem wp_mono {m : M T α} {Q Q2 : α → world T → Prop} {E E2 : world T → Prop}
    {w : world T} (h : wp m Q E w) (hq : ∀ a w1, Q a w1 → Q2 a w1)
    (he : ∀ w1, E w1 → E2 w1) : wp m Q2 E2 w := by
  unfold wp at h ⊢
  rcases hm : m w with ⟨a, w1⟩ | w1 | _ | _ <;> rw [hm] at h <;> simp only at h ⊢
  · exact hq a w1 h
  · exact he w1 h

theorem wp_pure {a : α} {Q : α → world T → Prop} {E : world T → Prop} {w : world T} :
    wp (pure a : M T α) Q E w ↔ Q a w := Iff.rfl

theorem wp_ub {Q : α → world T → Prop} {E : world T → Prop} {w : world T} :
    wp (undefined_behaviour : M T α) Q E w := trivial

theorem wp_bind {m : M T α} {f : α → M T β} {Q : β → world T → Prop}
    {E : world T → Prop} {w : world T} :
    wp (m >>= f) Q E w ↔ wp m (fun a w1 => wp (f a) Q E w1) E w := by
  unfold wp
  simp only [bind_run]
  rcases hm : m w with ⟨a, w1⟩ | w1 | _ | _ <;> simp

/-- A step whose result is known. -/
theorem wp_of_ok {m : M T α} {Q : α → world T → Prop} {E : world T → Prop} {w w1 : world T}
    {a : α} (e : m w = result.ok a w1) : wp m Q E w ↔ Q a w1 := by
  unfold wp
  rw [e]

theorem wp_of_throw {m : M T α} {Q : α → world T → Prop} {E : world T → Prop}
    {w w1 : world T} (e : m w = result.throw w1) : wp m Q E w ↔ E w1 := by
  unfold wp
  rw [e]

theorem wp_ite {c : Prop} [Decidable c] {a b : M T α} {Q : α → world T → Prop}
    {E : world T → Prop} {w : world T} :
    wp (if c then a else b) Q E w ↔ (c → wp a Q E w) ∧ (¬ c → wp b Q E w) := by
  split <;> simp [*]

theorem wp_try_catch {body : M T α} {handler : M T Unit} {Q : α → world T → Prop}
    {E : world T → Prop} {w : world T} :
    wp (try_catch body handler) Q E w ↔
      wp body Q (fun w1 => wp handler (fun _ w2 => E w2) E w1) w := by
  unfold wp try_catch
  rcases hm : body w with ⟨a, w1⟩ | w1 | _ | _ <;> simp only
  rcases hh : handler w1 with ⟨a, w2⟩ | w2 | _ | _ <;> simp

theorem wp_noexcept {body : M T α} {Q : α → world T → Prop} {E : world T → Prop}
    {w : world T} : wp (noexcept body) Q E w ↔ wp body Q (fun _ => True) w := by
  unfold wp noexcept
  rcases hm : body w with ⟨a, w1⟩ | w1 | _ | _ <;> simp

theorem wp_scope_exit {body : M T α} {dtor : M T Unit} {Q : α → world T → Prop}
    {E : world T → Prop} {w : world T} :
    wp (scope_exit body dtor) Q E w ↔
      wp body (fun a w1 => wp dtor (fun _ w2 => Q a w2) (fun _ => True) w1)
        (fun w1 => wp dtor (fun _ w2 => E w2) (fun _ => True) w1) w := by
  unfold wp scope_exit
  rcases hm : body w with ⟨a, w1⟩ | w1 | _ | _ <;> simp only
  · rcases hh : dtor w1 with ⟨a, w2⟩ | w2 | _ | _ <;> simp
  · rcases hh : dtor w1 with ⟨a, w2⟩ | w2 | _ | _ <;> simp

/-- A loop keeps what every round keeps. -/
theorem wp_for_range {body : Nat → M T Unit} {I : world T → Prop} {E : world T → Prop}
    (h : ∀ k w, I w → wp (body k) (fun _ w1 => I w1) E w) :
    ∀ (n start : Nat) (w : world T), I w →
      wp (for_range body start n) (fun _ w1 => I w1) E w := by
  intro n
  induction n with
  | zero => intro start w hw; exact hw
  | succ n ih =>
    intro start w hw
    unfold for_range
    rw [wp_bind]
    exact wp_mono (h start w hw) (fun _ w1 h1 => ih (start + 1) w1 h1) (fun _ h1 => h1)

theorem wp_for_down {body : Nat → M T Unit} {I : world T → Prop} {E : world T → Prop}
    (h : ∀ k w, I w → wp (body k) (fun _ w1 => I w1) E w) :
    ∀ (n : Nat) (w : world T), I w → wp (for_down body n) (fun _ w1 => I w1) E w := by
  intro n
  induction n with
  | zero => intro w hw; exact hw
  | succ n ih =>
    intro w hw
    unfold for_down
    rw [wp_bind]
    exact wp_mono (h n w hw) (fun _ w1 h1 => ih w1 h1) (fun _ h1 => h1)

/-! ### The primitive steps -/

theorem wp_get_obj {i : Nat} {Q : socow_vector T → world T → Prop} {E : world T → Prop}
    {w : world T} :
    wp (get_obj i) Q E w ↔ ∀ c, w.objs[i]? = some (some c) → Q c w := by
  unfold wp get_obj
  rcases h : w.objs[i]? with _ | _ | c <;> simp

theorem wp_modify_obj {i : Nat} {f : socow_vector T → socow_vector T}
    {Q : Unit → world T → Prop} {E : world T → Prop} {w : world T} :
    wp (modify_obj i f) Q E w ↔
      ∀ c, w.objs[i]? = some (some c) → Q () { w with objs := w.objs.set i (some (f c)) } := by
  unfold wp modify_obj
  rcases h : w.objs[i]? with _ | _ | c <;> simp

theorem wp_free_obj {i : Nat} {Q : Unit → world T → Prop} {E : world T → Prop}
    {w : world T} :
    wp (free_obj i) Q E w ↔
      ∀ c, w.objs[i]? = some (some c) → Q () { w with objs := w.objs.set i none } := by
  unfold wp free_obj
  rcases h : w.objs[i]? with _ | _ | c <;> simp

theorem wp_new_obj {c : socow_vector T} {Q : Nat → world T → Prop} {E : world T → Prop}
    {w : world T} :
    wp (new_obj c) Q E w ↔ Q w.objs.length { w with objs := w.objs ++ [some c] } := Iff.rfl

theorem wp_get_buf {p : Nat} {Q : buffer T → world T → Prop} {E : world T → Prop}
    {w : world T} :
    wp (get_buf p) Q E w ↔ ∀ b, w.heap[p]? = some (some b) → Q b w := by
  unfold wp get_buf
  rcases h : w.heap[p]? with _ | _ | c <;> simp

theorem wp_modify_buf {p : Nat} {f : buffer T → buffer T} {Q : Unit → world T → Prop}
    {E : world T → Prop} {w : world T} :
    wp (modify_buf p f) Q E w ↔
      ∀ b, w.heap[p]? = some (some b) → Q () { w with heap := w.heap.set p (some (f b)) } := by
  unfold wp modify_buf
  rcases h : w.heap[p]? with _ | _ | c <;> simp

theorem wp_delete_buf {p : Nat} {Q : Unit → world T → Prop} {E : world T → Prop}
    {w : world T} :
    wp (delete_buf p) Q E w ↔
      ∀ b, w.heap[p]? = some (some b) → Q () { w with heap := w.heap.set p none } := by
  unfold wp delete_buf
  rcases h : w.heap[p]? with _ | _ | c <;> simp

theorem wp_value_type_copy {v : T} {Q : T → world T → Prop} {E : world T → Prop}
    {w : world T} :
    wp (value_type_copy v) Q E w ↔
      (w.copy_throws = [] → Q v w) ∧
      (∀ rest, w.copy_throws = true :: rest → E { w with copy_throws := rest }) ∧
      (∀ rest, w.copy_throws = false :: rest → Q v { w with copy_throws := rest }) := by
  unfold wp value_type_copy
  rcases h : w.copy_throws with _ | ⟨b, rest⟩
  · simp
  · cases b <;> simp

theorem wp_ctor {cap : Nat} {Q : Nat → world T → Prop} {E : world T → Prop} {w : world T} :
    wp (my_shared_ptr.ctor cap) Q E w ↔
      (w.alloc_throws = [] → Q w.heap.length { w with heap := w.heap ++
        [some (buffer.mk 1 cap (List.replicate cap none))] }) ∧
      (∀ rest, w.alloc_throws = true :: rest → E { w with alloc_throws := rest }) ∧
      (∀ rest, w.alloc_throws = false :: rest → Q w.heap.length { w with
        heap := w.heap ++ [some (buffer.mk 1 cap (List.replicate cap none))],
        alloc_throws := rest }) := by
  unfold wp my_shared_ptr.ctor
  rcases h : w.alloc_throws with _ | ⟨b, rest⟩
  · simp
  · cases b <;> simp

theorem wp_read_slot {it : iterator} {Q : Option T → world T → Prop} {E : world T → Prop}
    {w : world T} :
    wp (read_slot it) Q E w ↔
      ∀ l s, w.slots it.base = some l → l[it.pos]? = some s → Q s w := by
  unfold wp read_slot
  rcases h : w.slots it.base with _ | l
  · simp
  · simp only
    rcases h2 : l[it.pos]? with _ | s
    · simp
      intro l1 s e
      subst e
      simp [h2]
    · simp
      constructor
      · intro hq l1 s1 e e2
        subst e
        rw [h2] at e2
        simp only [Option.some.injEq] at e2
        subst e2
        exact hq
      · intro hq
        exact hq l s rfl h2

theorem wp_write_slot {it : iterator} {s : Option T} {Q : Unit → world T → Prop}
    {E : world T → Prop} {w : world T} :
    wp (write_slot it s) Q E w ↔
      ∀ l, w.slots it.base = some l → it.pos < l.length →
        Q () (w.set_slots it.base (l.set it.pos s)) := by
  unfold wp write_slot
  rcases h : w.slots it.base with _ | l
  · simp
  · by_cases h2 : it.pos < l.length <;> simp [h2]

theorem wp_deref {it : iterator} {Q : T → world T → Prop} {E : world T → Prop}
    {w : world T} :
    wp (deref it) Q E w ↔
      ∀ l v, w.slots it.base = some l → l[it.pos]? = some (some v) → Q v w := by
  unfold deref
  rw [wp_bind, wp_read_slot]
  constructor
  · intro h l v hl hv
    exact h l (some v) hl hv
  · intro h l s hl hs
    cases s with
    | none => exact wp_ub
    | some v => exact h l v hl hs

/-! ## Work done in place -/

theorem set_size_schedules (w : world T) (i m : Nat) (cs al : List Bool) :
    ({ w with copy_throws := cs, alloc_throws := al } : world T).set_size i m
      = { w.set_size i m with copy_throws := cs, alloc_throws := al } := by
  rcases hc : w.objs[i]? with _ | _ | c <;> simp [world.set_size, hc]

theorem set_slots_schedules (w : world T) (r : storage) (l : List (Option T))
    (cs al : List Bool) :
    ({ w with copy_throws := cs, alloc_throws := al } : world T).set_slots r l
      = { w.set_slots r l with copy_throws := cs, alloc_throws := al } := by
  cases r with
  | static_storage o =>
    rcases hc : w.objs[o]? with _ | _ | c <;> simp [world.set_slots, hc]
  | arr p =>
    rcases hc : w.heap[p]? with _ | _ | c <;> simp [world.set_slots, hc]

theorem set_size_copy_throws (w : world T) (i m : Nat) :
    (w.set_size i m).copy_throws = w.copy_throws := by
  rcases hc : w.objs[i]? with _ | _ | c <;> simp [world.set_size, hc]

theorem set_size_alloc_throws (w : world T) (i m : Nat) :
    (w.set_size i m).alloc_throws = w.alloc_throws := by
  rcases hc : w.objs[i]? with _ | _ | c <;> simp [world.set_size, hc]

theorem schedules_self (w : world T) :
    ({ w with copy_throws := w.copy_throws, alloc_throws := w.alloc_throws } : world T) = w := by
  cases w; rfl

theorem slots_of_owns {w : world T} {i : Nat} {r : storage} {n : Nat} (h : owns w i r n) :
    ∃ l, w.slots r = some l := by
  rcases h with ⟨d, h, hr⟩ | ⟨p, cap, h, hr, hb⟩
  · obtain ⟨c, hc, _⟩ := header_eq_some h
    subst hr
    exact ⟨c.static_storage, by simp [world.slots, hc]⟩
  · obtain ⟨b, hb, _⟩ := buf_header_eq_some hb
    subst hr
    exact ⟨b.arr, by simp [world.slots, hb]⟩

theorem inplace_refl {w : world T} {i : Nat} {r : storage} {n : Nat} (h : owns w i r n) :
    inplace i r w w := by
  obtain ⟨l, hl⟩ := slots_of_owns h
  obtain ⟨t, d, hh⟩ := owns_header h
  refine ⟨n, l, w.copy_throws, w.alloc_throws, ?_⟩
  rw [set_size_self hh, set_slots_self hl, schedules_self]

theorem inplace_trans {i : Nat} {r : storage} {w w1 w2 : world T}
    (h1 : inplace i r w w1) (h2 : inplace i r w1 w2) : inplace i r w w2 := by
  obtain ⟨m, l, cs, al, e1⟩ := h1
  obtain ⟨m2, l2, cs2, al2, e2⟩ := h2
  refine ⟨m2, l2, cs2, al2, ?_⟩
  rw [e2, e1, set_size_schedules, set_slots_schedules, set_size_set_slots, set_size_set_size,
    set_slots_set_slots]

theorem owns_schedules {w : world T} {i : Nat} {r : storage} {n : Nat} (h : owns w i r n)
    (cs al : List Bool) :
    owns ({ w with copy_throws := cs, alloc_throws := al } : world T) i r n := h

theorem owns_of_inplace {w w1 : world T} {i : Nat} {r : storage} {n : Nat}
    (h : owns w i r n) (hi : inplace i r w w1) : ∃ m, owns w1 i r m := by
  obtain ⟨m, l, cs, al, e⟩ := hi
  exact ⟨m, by rw [e]; exact owns_schedules (owns_set_slots (owns_set_size h m) r l) cs al⟩

/-- The steps a container takes in place: change of the size, of a slot of its
array, of the schedules. -/
theorem inplace_set_size {w : world T} (i : Nat) (r : storage) (m : Nat) :
    inplace i r w (w.set_size i m) := by
  rcases hs : w.slots r with _ | l
  · refine ⟨m, [], w.copy_throws, w.alloc_throws, ?_⟩
    have : (w.set_size i m).set_slots r [] = w.set_size i m := by
      have h2 : (w.set_size i m).slots r = none := by rw [slots_set_size]; exact hs
      cases r with
      | static_storage o =>
        simp only [world.slots] at h2
        rcases hc : (w.set_size i m).objs[o]? with _ | _ | c
        · simp [world.set_slots, hc]
        · simp [world.set_slots, hc]
        · simp [hc] at h2
      | arr p =>
        simp only [world.slots] at h2
        rcases hc : (w.set_size i m).heap[p]? with _ | _ | c
        · simp [world.set_slots, hc]
        · simp [world.set_slots, hc]
        · simp [hc] at h2
    rw [this, ← set_size_copy_throws w i m, ← set_size_alloc_throws w i m, schedules_self]
  · refine ⟨m, l, w.copy_throws, w.alloc_throws, ?_⟩
    have h2 : (w.set_size i m).slots r = some l := by rw [slots_set_size]; exact hs
    rw [set_slots_self h2, ← set_size_copy_throws w i m, ← set_size_alloc_throws w i m,
      schedules_self]

theorem inplace_set_slots {w : world T} {i : Nat} {r : storage} {n : Nat}
    (h : owns w i r n) (l : List (Option T)) : inplace i r w (w.set_slots r l) := by
  obtain ⟨t, d, hh⟩ := owns_header h
  refine ⟨n, l, w.copy_throws, w.alloc_throws, ?_⟩
  rw [set_size_self hh]
  have e1 : (w.set_slots r l).copy_throws = w.copy_throws := set_slots_copy_throws w r l
  have e2 : (w.set_slots r l).alloc_throws = w.alloc_throws := set_slots_alloc_throws w r l
  rw [← e1, ← e2, schedules_self]

theorem inplace_copy_throws {w : world T} {i : Nat} {r : storage} {n : Nat}
    (h : owns w i r n) (cs : List Bool) :
    inplace i r w { w with copy_throws := cs } := by
  obtain ⟨l, hl⟩ := slots_of_owns h
  obtain ⟨t, d, hh⟩ := owns_header h
  refine ⟨n, l, cs, w.alloc_throws, ?_⟩
  rw [set_size_self hh, set_slots_self hl]

/-- What work in place leaves of the members and of the heap. -/
theorem stays_of_inplace {w w1 : world T} {i : Nat} {r : storage} {n : Nat}
    (ho : owns w i r n) (hi : inplace i r w w1) :
    ∃ c c1, w.objs[i]? = some (some c) ∧ w1.objs = w.objs.set i (some c1) ∧
      stays c c1 w w1 := by
  obtain ⟨m, l2, cs, al, e⟩ := hi
  rcases ho with ⟨d, h, hr⟩ | ⟨p, cap, h, hr, hb⟩
  · obtain ⟨c, hc, hty, hn, hd⟩ := header_eq_some h
    have hlt := lt_length_of_getElem? hc
    subst hr
    refine ⟨c, { c with size_ := m, static_storage := l2 }, hc, ?_, rfl, rfl,
      Or.inl ⟨hty, ?_⟩⟩
    · rw [e]; simp [world.set_size, world.set_slots, hc, hlt]
    · rw [e]; simp [world.set_size, world.set_slots, hc, hlt]
  · obtain ⟨c, hc, hty, hn, hd⟩ := header_eq_some h
    obtain ⟨b, hbuf, hk, _⟩ := buf_header_eq_some hb
    have hlt := lt_length_of_getElem? hc
    subst hr
    subst hd
    refine ⟨c, { c with size_ := m }, hc, ?_, rfl, rfl,
      Or.inr ⟨hty, b, l2, hbuf, ?_, fun h => absurd hk h⟩⟩
    · rw [e]; simp [world.set_size, world.set_slots, hc, hlt, hbuf]
    · rw [e]; simp [world.set_size, world.set_slots, hc, hlt, hbuf]

/-- A step of any kind followed by a step in place is a step of the first kind. -/
theorem step_then_stays {N i : Nat} {w w2 w1 : world T} {c c2 c1 : socow_vector T}
    (hc : w.objs[i]? = some (some c)) (ho1 : w2.objs = w.objs.set i (some c2))
    (sh1 : stays c c2 w w2 ∨ moves N c c2 w w2)
    (ho2 : w1.objs = w2.objs.set i (some c1)) (sh2 : stays c2 c1 w2 w1) :
    w1.objs = w.objs.set i (some c1) ∧ (stays c c1 w w1 ∨ moves N c c1 w w1) := by
  have hi := lt_length_of_getElem? hc
  refine ⟨by rw [ho2, ho1, List.set_set], ?_⟩
  obtain ⟨t2, d2, hh2⟩ := sh2
  rcases sh1 with ⟨t1, d1, hh1⟩ | ⟨t1, d1, b1, hb1, hh1⟩
  · refine Or.inl ⟨t2.trans t1, d2.trans d1, ?_⟩
    rcases hh1 with ⟨hty, hheap⟩ | ⟨hty, b, l2, hbuf, hheap, hcond⟩
    · rcases hh2 with ⟨_, hheap2⟩ | ⟨hty2, _⟩
      · exact Or.inl ⟨hty, hheap2.trans hheap⟩
      · rw [t1, hty] at hty2
        cases hty2
    · rcases hh2 with ⟨hty2, _⟩ | ⟨_, b2, l3, hbuf2, hheap2, hcond2⟩
      · rw [t1, hty] at hty2
        cases hty2
      · have hp := lt_length_of_getElem? hbuf
        rw [d1, hheap] at hbuf2
        simp only [List.getElem?_set_self, hp, List.getElem?_eq_getElem, Option.some.injEq,
          List.length_set, List.getElem_set_self] at hbuf2
        subst hbuf2
        refine Or.inr ⟨hty, b, l3, hbuf, ?_, fun hne => ?_⟩
        · rw [hheap2, d1, hheap, List.set_set]
        · obtain ⟨e1, e2⟩ := hcond hne
          obtain ⟨e3, e4⟩ := hcond2 hne
          exact ⟨by rw [e3]; exact e1, e4.trans e2⟩
  · rcases hh2 with ⟨hty2, _⟩ | ⟨_, b2, l3, hbuf2, hheap2, _⟩
    · rw [t1] at hty2
      cases hty2
    · rcases hh1 with ⟨hty, hheap, hcap⟩ | ⟨hty, b, hbuf, hheap, hcap⟩
      · rw [d1, hheap] at hbuf2
        simp only [List.getElem?_concat_length, Option.some.injEq] at hbuf2
        subst hbuf2
        refine Or.inr ⟨t2.trans t1, d2.trans d1, { b1 with arr := l3 }, hb1,
          Or.inl ⟨hty, ?_, hcap⟩⟩
        rw [hheap2, d1, hheap, set_append_last]
      · have hlen : (w.heap.set c.dynamic_storage b.release).length = w.heap.length := by simp
        rw [d1, hheap, ← hlen] at hbuf2
        simp only [List.getElem?_concat_length, Option.some.injEq] at hbuf2
        subst hbuf2
        refine Or.inr ⟨t2.trans t1, d2.trans d1, { b1 with arr := l3 }, hb1,
          Or.inr ⟨hty, b, hbuf, ?_, hcap⟩⟩
        rw [hheap2, d1, hheap]
        nth_rewrite 1 [← hlen]
        rw [set_append_last]

theorem obj_of_set {w w1 : world T} {i : Nat} {c c1 : socow_vector T}
    (hc : w.objs[i]? = some (some c)) (ho : w1.objs = w.objs.set i (some c1)) :
    w1.objs[i]? = some (some c1) := by
  rw [ho]
  simp [lt_length_of_getElem? hc]

/-- A container that owns its storage and works in place evolves. -/
theorem evolves_of_inplace {N : Nat} {w w1 : world T} {i : Nat} {r : storage} {n : Nat}
    (ho : owns w i r n) (hi : inplace i r w w1)
    (hf : ∀ c1, w1.objs[i]? = some (some c1) → fits N w1 c1) : evolves N i w w1 := by
  obtain ⟨c, c1, hc, ho1, hs⟩ := stays_of_inplace ho hi
  exact ⟨c, c1, hc, ho1, Or.inl hs, hf c1 (obj_of_set hc ho1)⟩

/-- A container that evolved, owns its storage and goes on in place evolves. -/
theorem evolves_then_inplace {N : Nat} {w w2 w1 : world T} {i : Nat} {r : storage} {n : Nat}
    (h : evolves N i w w2) (ho : owns w2 i r n) (hi : inplace i r w2 w1)
    (hf : ∀ c1, w1.objs[i]? = some (some c1) → fits N w1 c1) : evolves N i w w1 := by
  obtain ⟨c, c2, hc, ho1, sh1, _⟩ := h
  obtain ⟨c2b, c1, hc2, ho2, hs⟩ := stays_of_inplace ho hi
  have e : c2b = c2 := by
    have := obj_of_set hc ho1
    rw [hc2] at this
    simpa using this
  subst e
  obtain ⟨h1, h2⟩ := step_then_stays hc ho1 sh1 ho2 hs
  exact ⟨c, c1, hc, h1, h2, hf c1 (obj_of_set hc h1)⟩

/-! ## The global invariant under a step on one container -/

theorem wf_buffer {N : Nat} {w : world T} (h : wf N w) {j : Nat} {c : socow_vector T}
    (hc : w.objs[j]? = some (some c)) (hty : c.type = vector_type.BIG) :
    ∃ b, w.heap[c.dynamic_storage]? = some (some b) := by
  rcases h.1 j c hc with ⟨hs, _⟩ | ⟨_, b, hb, _⟩
  · rw [hty] at hs
    cases hs
  · exact ⟨b, hb⟩

theorem wf_share_two {N : Nat} {w : world T} (h : wf N w) {i j : Nat}
    {ci cj : socow_vector T} {b : buffer T} (hij : i ≠ j)
    (hci : w.objs[i]? = some (some ci)) (hcj : w.objs[j]? = some (some cj))
    (hti : ci.type = vector_type.BIG) (htj : cj.type = vector_type.BIG)
    (hd : cj.dynamic_storage = ci.dynamic_storage)
    (hb : w.heap[ci.dynamic_storage]? = some (some b)) : 2 ≤ b.cnt_references := by
  rw [(h.2.1 _ b hb).1]
  exact holders_two hij hci hcj hti htj rfl hd

theorem wf_fresh_unheld {N : Nat} {w : world T} (h : wf N w) : holders w w.heap.length = 0 :=
  holders_zero (fun j c hc hty hd => by
    obtain ⟨b, hb⟩ := wf_buffer h hc hty
    have := lt_length_of_getElem? hb
    omega)

/-- A buffer that the container of the step does not own alone is found after
the step with its capacity and its slots. -/
theorem evolves_keeps {N : Nat} {w w1 : world T} {i : Nat} (h : evolves N i w w1)
    {p : Nat} {b : buffer T} (hb : w.heap[p]? = some (some b))
    (hk : ∀ c, w.objs[i]? = some (some c) → c.type = vector_type.BIG →
      c.dynamic_storage = p → b.cnt_references ≠ 1) :
    ∃ b1, w1.heap[p]? = some (some b1) ∧ b1.capacity = b.capacity ∧ b1.arr = b.arr := by
  obtain ⟨c, c1, hc, ho, sh, _⟩ := h
  have hp := lt_length_of_getElem? hb
  rcases sh with ⟨t1, d1, hh⟩ | ⟨t1, d1, bn, hbn, hh⟩
  · rcases hh with ⟨_, hheap⟩ | ⟨hty, b2, l2, hbuf, hheap, hcond⟩
    · exact ⟨b, by rw [hheap]; exact hb, rfl, rfl⟩
    · by_cases e : p = c.dynamic_storage
      · subst e
        rw [hb] at hbuf
        simp only [Option.some.injEq] at hbuf
        subst hbuf
        obtain ⟨e2, _⟩ := hcond (hk c hc hty rfl)
        exact ⟨{ b with arr := l2 }, by rw [hheap]; simp [hp], rfl, e2⟩
      · exact ⟨b, by rw [hheap, List.getElem?_set_ne (Ne.symm e)]; exact hb, rfl, rfl⟩
  · rcases hh with ⟨_, hheap, _⟩ | ⟨hty, b2, hbuf, hheap, _⟩
    · exact ⟨b, by rw [hheap, List.getElem?_append_left hp]; exact hb, rfl, rfl⟩
    · have hlen : (w.heap.set c.dynamic_storage b2.release).length = w.heap.length := by
        simp
      by_cases e : p = c.dynamic_storage
      · subst e
        rw [hb] at hbuf
        simp only [Option.some.injEq] at hbuf
        subst hbuf
        refine ⟨{ b with cnt_references := b.cnt_references - 1 }, ?_, rfl, rfl⟩
        rw [hheap, List.getElem?_append_left (by rw [hlen]; exact hp)]
        simp only [buffer.release]
        rw [if_neg (hk c hc hty rfl)]
        simp [hp]
      · refine ⟨b, ?_, rfl, rfl⟩
        rw [hheap, List.getElem?_append_left (by rw [hlen]; exact hp),
          List.getElem?_set_ne (Ne.symm e)]
        exact hb

/-- The size of every live container fits after a step on `i`. -/
theorem evolves_fits {N : Nat} {w w1 : world T} {i : Nat} (hwf : wf N w)
    (h : evolves N i w w1) :
    ∀ (j : Nat) (cj : socow_vector T), w1.objs[j]? = some (some cj) → fits N w1 cj := by
  intro j cj hcj
  have h2 := h
  obtain ⟨c, c1, hc, ho, sh, hfit⟩ := h
  by_cases hji : j = i
  · subst hji
    rw [obj_of_set hc ho] at hcj
    simp only [Option.some.injEq] at hcj
    subst hcj
    exact hfit
  · have hcj0 : w.objs[j]? = some (some cj) := by
      rw [ho, List.getElem?_set_ne (Ne.symm hji)] at hcj
      exact hcj
    rcases hwf.1 j cj hcj0 with hs | ⟨hty, b, hb, hle⟩
    · exact Or.inl hs
    · obtain ⟨b1, hb1, hcap, _⟩ := evolves_keeps h2 hb (fun c0 hc0 hty0 hd0 => by
        rw [hc] at hc0
        simp only [Option.some.injEq] at hc0
        subst hc0
        have := wf_share_two hwf (Ne.symm hji) hc hcj0 hty0 hty hd0.symm
          (by rw [hd0]; exact hb)
        omega)
      exact Or.inr ⟨hty, b1, hb1, by omega⟩

/-- Where a buffer of the world after a step on one container comes from: it is
the fresh buffer of a move, or it was there with the same capacity and at least
as many references. -/
theorem evolves_cell {N : Nat} {w w1 : world T} {i : Nat} (h : evolves N i w w1)
    {p : Nat} {b1 : buffer T} (hb1 : w1.heap[p]? = some (some b1)) :
    (p = w.heap.length ∧ b1.cnt_references = 1 ∧
      ∃ c c1, w.objs[i]? = some (some c) ∧ w1.objs[i]? = some (some c1) ∧
        moves N c c1 w w1) ∨
    (∃ b, w.heap[p]? = some (some b) ∧ b1.capacity = b.capacity ∧
      b1.cnt_references ≤ b.cnt_references) := by
  obtain ⟨c, c1, hc, ho, sh, _⟩ := h
  have hi := lt_length_of_getElem? hc
  have hc1 : w1.objs[i]? = some (some c1) := by rw [ho]; simp [hi]
  rcases sh with ⟨t1, d1, hh⟩ | hm
  · right
    rcases hh with ⟨_, hheap⟩ | ⟨hty, b, l2, hbuf, hheap, _⟩
    · exact ⟨b1, by rw [← hheap]; exact hb1, rfl, Nat.le_refl _⟩
    · by_cases e : p = c.dynamic_storage
      · subst e
        rw [hheap] at hb1
        simp only [List.getElem?_set_self, lt_length_of_getElem? hbuf, List.getElem?_eq_getElem,
          Option.some.injEq, List.length_set, List.getElem_set_self] at hb1
        subst hb1
        exact ⟨b, hbuf, rfl, Nat.le_refl _⟩
      · rw [hheap, List.getElem?_set_ne (Ne.symm e)] at hb1
        exact ⟨b1, hb1, rfl, Nat.le_refl _⟩
  · have hm0 := hm
    obtain ⟨t1, d1, bn, hbn, hh⟩ := hm
    rcases hh with ⟨_, hheap, _⟩ | ⟨hty, b, hbuf, hheap, _⟩
    · rcases Nat.lt_trichotomy p w.heap.length with hlt | heq | hgt
      · right
        rw [hheap, List.getElem?_append_left hlt] at hb1
        exact ⟨b1, hb1, rfl, Nat.le_refl _⟩
      · left
        subst heq
        rw [hheap] at hb1
        simp only [List.getElem?_concat_length, Option.some.injEq] at hb1
        subst hb1
        exact ⟨rfl, hbn, c, c1, hc, hc1, hm0⟩
      · have := lt_length_of_getElem? hb1
        rw [hheap] at this
        simp at this
        omega
    · have hlen : (w.heap.set c.dynamic_storage b.release).length = w.heap.length := by simp
      rcases Nat.lt_trichotomy p w.heap.length with hlt | heq | hgt
      · right
        rw [hheap, List.getElem?_append_left (by rw [hlen]; exact hlt)] at hb1
        by_cases e : p = c.dynamic_storage
        · subst e
          simp only [List.getElem?_set_self, hlt, List.getElem?_eq_getElem,
            Option.some.injEq, List.length_set, List.getElem_set_self] at hb1
          simp only [buffer.release] at hb1
          split at hb1
          · cases hb1
          · simp only [Option.some.injEq] at hb1
            subst hb1
            exact ⟨b, hbuf, rfl, Nat.sub_le _ _⟩
        · rw [List.getElem?_set_ne (Ne.symm e)] at hb1
          exact ⟨b1, hb1, rfl, Nat.le_refl _⟩
      · left
        subst heq
        rw [hheap] at hb1
        nth_rewrite 1 [← hlen] at hb1
        simp only [List.getElem?_concat_length, Option.some.injEq] at hb1
        subst hb1
        exact ⟨rfl, hbn, c, c1, hc, hc1, hm0⟩
      · have := lt_length_of_getElem? hb1
        rw [hheap] at this
        simp at this
        omega

theorem holds_false_of_small {c : socow_vector T} (p : Nat)
    (hty : c.type = vector_type.SMALL) : holds p (some c) = false := by
  simp [holds, hty]

theorem holds_eq_of_big {c : socow_vector T} (p : Nat) (hty : c.type = vector_type.BIG) :
    holds p (some c) = decide (c.dynamic_storage = p) := by
  simp [holds, hty]

/-- The reference counts are right after a step on one container. -/
theorem evolves_counts {N : Nat} {w w1 : world T} {i : Nat} (hwf : wf N w)
    (h : evolves N i w w1) :
    ∀ p b1, w1.heap[p]? = some (some b1) →
      b1.cnt_references = holders w1 p ∧ 1 ≤ b1.cnt_references ∧ N < b1.capacity := by
  intro p b1 hb1
  obtain ⟨c, c1, hc, ho, sh, _⟩ := h
  have hset := holders_set hc ho p
  have hfresh := wf_fresh_unheld hwf
  rcases sh with ⟨t1, d1, hh⟩ | ⟨t1, d1, bn, hbn, hh⟩
  · have hsame : holds p (some c1) = holds p (some c) := by
      simp [holds, t1, d1]
    rw [hsame] at hset
    have hcount : holders w1 p = holders w p := by omega
    rw [hcount]
    rcases hh with ⟨_, hheap⟩ | ⟨hty, b, l2, hbuf, hheap, _⟩
    · exact hwf.2.1 p b1 (by rw [← hheap]; exact hb1)
    · by_cases e : p = c.dynamic_storage
      · subst e
        rw [hheap] at hb1
        simp only [List.getElem?_set_self, lt_length_of_getElem? hbuf, List.getElem?_eq_getElem,
          Option.some.injEq, List.length_set, List.getElem_set_self] at hb1
        subst hb1
        exact hwf.2.1 _ b hbuf
      · rw [hheap, List.getElem?_set_ne (Ne.symm e)] at hb1
        exact hwf.2.1 p b1 hb1
  · rw [holds_eq_of_big p t1, d1] at hset
    rcases hh with ⟨hty, hheap, hcap⟩ | ⟨hty, b, hbuf, hheap, hcap⟩
    · rw [holds_false_of_small p hty] at hset
      rcases Nat.lt_trichotomy p w.heap.length with hlt | heq | hgt
      · rw [hheap, List.getElem?_append_left hlt] at hb1
        have hne : ¬ w.heap.length = p := by omega
        simp only [hne, decide_False, Bool.false_eq_true, if_false] at hset
        have hcount : holders w1 p = holders w p := by omega
        rw [hcount]
        exact hwf.2.1 p b1 hb1
      · subst heq
        rw [hheap] at hb1
        simp only [List.getElem?_concat_length, Option.some.injEq] at hb1
        subst hb1
        simp only [decide_True, if_true, Bool.false_eq_true, if_false] at hset
        exact ⟨by omega, by omega, hcap⟩
      · have := lt_length_of_getElem? hb1
        rw [hheap] at this
        simp at this
        omega
    · have hlen : (w.heap.set c.dynamic_storage b.release).length = w.heap.length := by simp
      have hP := lt_length_of_getElem? hbuf
      obtain ⟨hbc, hbpos, hbcap⟩ := hwf.2.1 _ b hbuf
      rw [holds_eq_of_big p hty] at hset
      rcases Nat.lt_trichotomy p w.heap.length with hlt | heq | hgt
      · rw [hheap, List.getElem?_append_left (by rw [hlen]; exact hlt)] at hb1
        have hne : ¬ w.heap.length = p := by omega
        simp only [hne, decide_False, Bool.false_eq_true, if_false] at hset
        by_cases e : p = c.dynamic_storage
        · subst e
          simp only [List.getElem?_set_self, hlt, List.getElem?_eq_getElem,
            Option.some.injEq, List.length_set, List.getElem_set_self] at hb1
          simp only [buffer.release] at hb1
          split at hb1
          · cases hb1
          · simp only [Option.some.injEq] at hb1
            subst hb1
            simp only [decide_True, if_true] at hset
            exact ⟨by simp only; omega, by simp only; omega, hbcap⟩
        · rw [List.getElem?_set_ne (Ne.symm e)] at hb1
          have hne2 : ¬ c.dynamic_storage = p := fun h => e h.symm
          simp only [hne2, decide_False, Bool.false_eq_true, if_false] at hset
          have hcount : holders w1 p = holders w p := by omega
          rw [hcount]
          exact hwf.2.1 p b1 hb1
      · subst heq
        rw [hheap] at hb1
        nth_rewrite 1 [← hlen] at hb1
        simp only [List.getElem?_concat_length, Option.some.injEq] at hb1
        subst hb1
        have hne2 : ¬ c.dynamic_storage = w.heap.length := by omega
        simp only [hne2, decide_True, decide_False, if_true, Bool.false_eq_true,
          if_false] at hset
        refine ⟨by omega, by omega, ?_⟩
        rcases hcap with h1 | ⟨h1, h2⟩ | h1
        · omega
        · have := hwf.2.2.2 i c b hc hty hbuf (by omega)
          omega
        · exact h1
      · have := lt_length_of_getElem? hb1
        rw [hheap] at this
        simp at this
        omega

/-- A step on one container leaves shared buffers and the sizes of their owners
alone. -/
theorem quiet_of_evolves {N : Nat} {w w1 : world T} {i : Nat} (h : evolves N i w w1) :
    quiet w w1 := by
  intro p b hb hshared
  have h2 := h
  obtain ⟨c, c1, hc, ho, sh, _⟩ := h
  have hi := lt_length_of_getElem? hc
  have hp := lt_length_of_getElem? hb
  have hc1 : w1.objs[i]? = some (some c1) := by rw [ho]; simp [hi]
  have hother : ∀ j, j ≠ i → w1.objs[j]? = w.objs[j]? := fun j hji => by
    rw [ho, List.getElem?_set_ne (Ne.symm hji)]
  refine ⟨?_, fun j cj cj1 hcj hcj1 hty hd hty1 hd1 => ?_⟩
  · obtain ⟨b1, hb1, _, harr⟩ := evolves_keeps h2 hb (fun _ _ _ _ => by omega)
    exact ⟨b1, hb1, harr⟩
  · by_cases hji : j = i
    · subst hji
      rw [hc] at hcj
      rw [hc1] at hcj1
      simp only [Option.some.injEq] at hcj hcj1
      subst hcj
      subst hcj1
      rcases sh with ⟨t1, d1, hh⟩ | ⟨t1, d1, bn, hbn, hh⟩
      · rcases hh with ⟨hty2, _⟩ | ⟨_, b2, l2, hbuf, _, hcond⟩
        · rw [hty] at hty2; cases hty2
        · rw [hd, hb] at hbuf
          simp only [Option.some.injEq] at hbuf
          subst hbuf
          exact (hcond (by omega)).2
      · omega
    · rw [hother j hji, hcj] at hcj1
      simp only [Option.some.injEq] at hcj1
      rw [hcj1]

/-- Containers on one buffer have one size after a step on one container. -/
theorem evolves_sizes {N : Nat} {w w1 : world T} {i : Nat} (hwf : wf N w)
    (h : evolves N i w w1) :
    ∀ (a b : Nat) (ca cb : socow_vector T), w1.objs[a]? = some (some ca) →
      w1.objs[b]? = some (some cb) → ca.type = vector_type.BIG → cb.type = vector_type.BIG →
      ca.dynamic_storage = cb.dynamic_storage → ca.size_ = cb.size_ := by
  have hq := quiet_of_evolves h
  obtain ⟨c, c1, hc, ho, sh, _⟩ := h
  have hi := lt_length_of_getElem? hc
  have hc1 : w1.objs[i]? = some (some c1) := by rw [ho]; simp [hi]
  have hother : ∀ j, j ≠ i → w1.objs[j]? = w.objs[j]? := fun j hji => by
    rw [ho, List.getElem?_set_ne (Ne.symm hji)]
  -- the container of the step against another one
  have hkey : ∀ (j : Nat) (cj : socow_vector T), j ≠ i → w.objs[j]? = some (some cj) →
      c1.type = vector_type.BIG → cj.type = vector_type.BIG →
      c1.dynamic_storage = cj.dynamic_storage → c1.size_ = cj.size_ := by
    intro j cj hji hcj hty1 htyj hd
    obtain ⟨bj, hbj⟩ := wf_buffer hwf hcj htyj
    have hlt := lt_length_of_getElem? hbj
    rcases sh with ⟨t1, d1, _⟩ | ⟨t1, d1, _⟩
    · have htyc : c.type = vector_type.BIG := t1.symm.trans hty1
      have hdc : cj.dynamic_storage = c.dynamic_storage := by rw [← hd, d1]
      have h2 : 2 ≤ bj.cnt_references := by
        rw [hdc] at hbj
        exact wf_share_two hwf (Ne.symm hji) hc hcj htyc htyj hdc hbj
      have e1 := (hq cj.dynamic_storage bj hbj (by omega)).2 i c c1 hc hc1 htyc hdc.symm hty1 hd
      rw [e1]
      exact hwf.2.2.1 i j c cj hc hcj htyc htyj hdc.symm
    · omega
  intro a b ca cb hca hcb hta htb hd
  by_cases hai : a = i
  · by_cases hbi : b = i
    · subst hai
      subst hbi
      rw [hca] at hcb
      simp only [Option.some.injEq] at hcb
      rw [hcb]
    · subst hai
      rw [hc1] at hca
      simp only [Option.some.injEq] at hca
      subst hca
      rw [hother b hbi] at hcb
      exact hkey b cb hbi hcb hta htb hd
  · rw [hother a hai] at hca
    by_cases hbi : b = i
    · subst hbi
      rw [hc1] at hcb
      simp only [Option.some.injEq] at hcb
      subst hcb
      exact (hkey a ca hai hca htb hta hd.symm).symm
    · rw [hother b hbi] at hcb
      exact hwf.2.2.1 a b ca cb hca hcb hta htb hd

/-- A container on a shared buffer has more than `N` elements after a step on one
container. -/
theorem evolves_shared_large {N : Nat} {w w1 : world T} {i : Nat} (hwf : wf N w)
    (h : evolves N i w w1) :
    ∀ (j : Nat) (cj : socow_vector T) (b1 : buffer T), w1.objs[j]? = some (some cj) →
      cj.type = vector_type.BIG → w1.heap[cj.dynamic_storage]? = some (some b1) →
      1 < b1.cnt_references → N < cj.size_ := by
  intro j cj b1 hcj htyj hb1 hshared
  have hq := quiet_of_evolves h
  rcases evolves_cell h hb1 with ⟨_, hone, _⟩ | ⟨b, hb, _, hle⟩
  · omega
  · obtain ⟨c, c1, hc, ho, sh, _⟩ := h
    have hi := lt_length_of_getElem? hc
    have hc1 : w1.objs[i]? = some (some c1) := by rw [ho]; simp [hi]
    have hlt := lt_length_of_getElem? hb
    by_cases hji : j = i
    · subst hji
      rw [hc1] at hcj
      simp only [Option.some.injEq] at hcj
      subst hcj
      rcases sh with ⟨t1, d1, _⟩ | ⟨t1, d1, _⟩
      · have htyc : c.type = vector_type.BIG := t1.symm.trans htyj
        have e1 := (hq c1.dynamic_storage b hb (by omega)).2 j c c1 hc hc1 htyc d1.symm htyj rfl
        rw [e1]
        rw [d1] at hb
        exact hwf.2.2.2 j c b hc htyc hb (by omega)
      · omega
    · have hcj0 : w.objs[j]? = some (some cj) := by
        rw [ho, List.getElem?_set_ne (Ne.symm hji)] at hcj
        exact hcj
      exact hwf.2.2.2 j cj b hcj0 htyj hb (by omega)

/-- The global invariant is kept by a step on one container, and shared buffers
are left alone. -/
theorem wf_of_evolves {N : Nat} {w w1 : world T} {i : Nat} (hwf : wf N w)
    (h : evolves N i w w1) : wf N w1 ∧ quiet w w1 :=
  ⟨⟨evolves_fits hwf h, evolves_counts hwf h, evolves_sizes hwf h, evolves_shared_large hwf h⟩,
    quiet_of_evolves h⟩

theorem quiet_refl (w : world T) : quiet w w :=
  fun p b hb _ => ⟨⟨b, hb, rfl⟩, fun j c c1 hc hc1 _ _ _ _ => by
    rw [hc] at hc1
    simp only [Option.some.injEq] at hc1
    rw [hc1]⟩

theorem holders_congr {w w1 : world T} (h : w1.objs = w.objs) (p : Nat) :
    holders w1 p = holders w p := by
  simp [holders, h]

/-- The global invariant is kept by a failed attempt. -/
theorem wf_of_failed {N : Nat} {w w1 : world T} (hwf : wf N w) (h : failed w w1) :
    wf N w1 ∧ quiet w w1 := by
  obtain ⟨ho, hh⟩ := h
  have hcell : ∀ (p : Nat) (b : buffer T), w1.heap[p]? = some (some b) ↔
      w.heap[p]? = some (some b) := by
    intro p b
    rcases hh with e | e
    · rw [e]
    · rw [e]
      rcases Nat.lt_trichotomy p w.heap.length with hlt | heq | hgt
      · rw [List.getElem?_append_left hlt]
      · subst heq
        simp only [List.getElem?_concat_length]
        constructor
        · intro h; cases h
        · intro h
          have := lt_length_of_getElem? h
          omega
      · constructor
        · intro h
          have := lt_length_of_getElem? h
          simp at this
          omega
        · intro h
          have := lt_length_of_getElem? h
          omega
  refine ⟨⟨?_, ?_, ?_, ?_⟩, ?_⟩
  · intro j c hc
    rw [ho] at hc
    rcases hwf.1 j c hc with hs | ⟨hty, b, hb, hle⟩
    · exact Or.inl hs
    · exact Or.inr ⟨hty, b, (hcell _ b).mpr hb, hle⟩
  · intro p b hb
    rw [holders_congr ho]
    exact hwf.2.1 p b ((hcell p b).mp hb)
  · intro a b ca cb hca hcb
    rw [ho] at hca hcb
    exact hwf.2.2.1 a b ca cb hca hcb
  · intro j c b hc hty hb
    rw [ho] at hc
    exact hwf.2.2.2 j c b hc hty ((hcell _ b).mp hb)
  · intro p b hb _
    refine ⟨⟨b, (hcell p b).mpr hb, rfl⟩, fun j c c1 hc hc1 _ _ _ _ => ?_⟩
    rw [ho, hc] at hc1
    simp only [Option.some.injEq] at hc1
    rw [hc1]

/-- A container whose size fits evolves when nothing happens. -/
theorem evolves_refl {N : Nat} {w : world T} {i : Nat} {c : socow_vector T}
    (hc : w.objs[i]? = some (some c)) (hf : fits N w c) : evolves N i w w := by
  refine ⟨c, c, hc, (list_set_self _ _ _ hc).symm, Or.inl ⟨rfl, rfl, ?_⟩, hf⟩
  rcases hf with ⟨hs, _⟩ | ⟨hty, b, hb, _⟩
  · exact Or.inl ⟨hs, rfl⟩
  · exact Or.inr ⟨hty, b, b.arr, hb, (list_set_self _ _ _ hb).symm, fun _ => ⟨rfl, rfl⟩⟩

/-! ## Code confined to one array -/

theorem wp_congr {m m2 : M T α} {Q : α → world T → Prop} {E : world T → Prop} {w : world T}
    (e : m w = m2 w) : wp m Q E w ↔ wp m2 Q E w := by
  unfold wp
  rw [e]

theorem set_slots_of_dead {w : world T} {r : storage} (h : w.slots r = none)
    (l : List (Option T)) : w.set_slots r l = w := by
  cases r with
  | static_storage o =>
    simp only [world.slots] at h
    rcases hc : w.objs[o]? with _ | _ | c
    · simp [world.set_slots, hc]
    · simp [world.set_slots, hc]
    · simp [hc] at h
  | arr p =>
    simp only [world.slots] at h
    rcases hc : w.heap[p]? with _ | _ | c
    · simp [world.set_slots, hc]
    · simp [world.set_slots, hc]
    · simp [hc] at h

theorem exists_set_slots_self (w : world T) (r : storage) : ∃ l, w.set_slots r l = w := by
  rcases hs : w.slots r with _ | l
  · exact ⟨[], set_slots_of_dead hs []⟩
  · exact ⟨l, set_slots_self hs⟩

theorem copy_throws_self (w : world T) :
    ({ w with copy_throws := w.copy_throws } : world T) = w := by
  cases w; rfl

theorem set_slots_copy_schedule (w : world T) (r : storage) (l : List (Option T))
    (cs : List Bool) :
    ({ w with copy_throws := cs } : world T).set_slots r l
      = { w.set_slots r l with copy_throws := cs } := by
  cases r with
  | static_storage o =>
    rcases hc : w.objs[o]? with _ | _ | c <;> simp [world.set_slots, hc]
  | arr p =>
    rcases hc : w.heap[p]? with _ | _ | c <;> simp [world.set_slots, hc]

theorem touches_refl (r : storage) (w : world T) : touches r w w := by
  obtain ⟨l, hl⟩ := exists_set_slots_self w r
  exact ⟨l, w.copy_throws, by rw [hl, copy_throws_self]⟩

theorem touches_trans {r : storage} {w w1 w2 : world T} (h1 : touches r w w1)
    (h2 : touches r w1 w2) : touches r w w2 := by
  obtain ⟨l, cs, e1⟩ := h1
  obtain ⟨l2, cs2, e2⟩ := h2
  refine ⟨l2, cs2, ?_⟩
  rw [e2, e1, set_slots_copy_schedule, set_slots_set_slots]

theorem touches_set_slots (r : storage) (w : world T) (l : List (Option T)) :
    touches r w (w.set_slots r l) :=
  ⟨l, w.copy_throws, by
    have e : (w.set_slots r l).copy_throws = w.copy_throws := set_slots_copy_throws w r l
    rw [← e, copy_throws_self]⟩

theorem touches_copy_schedule (r : storage) (w : world T) (cs : List Bool) :
    touches r w { w with copy_throws := cs } := by
  obtain ⟨l, hl⟩ := exists_set_slots_self w r
  exact ⟨l, cs, by rw [hl]⟩

theorem confined_pure (r : storage) (a : α) : confined r (pure a : M T α) :=
  fun w => touches_refl r w

theorem confined_ub (r : storage) : confined r (undefined_behaviour : M T α) :=
  fun _ => trivial

theorem confined_bind {r : storage} {m : M T α} {f : α → M T β} (hm : confined r m)
    (hf : ∀ a, confined r (f a)) : confined r (m >>= f) := by
  intro w
  rw [wp_bind]
  exact wp_mono (hm w)
    (fun a w1 h1 => wp_mono (hf a w1) (fun _ w2 h2 => touches_trans h1 h2)
      (fun w2 h2 => touches_trans h1 h2))
    (fun w1 h1 => h1)

theorem confined_ite {r : storage} (c : Prop) [Decidable c] {a b : M T α}
    (ha : confined r a) (hb : confined r b) : confined r (if c then a else b) := by
  split
  · exact ha
  · exact hb

theorem confined_try_catch {r : storage} {body : M T α} {handler : M T Unit}
    (hb : confined r body) (hh : confined r handler) : confined r (try_catch body handler) := by
  intro w
  rw [wp_try_catch]
  exact wp_mono (hb w) (fun _ _ h => h)
    (fun w1 h1 => wp_mono (hh w1) (fun _ w2 h2 => touches_trans h1 h2)
      (fun w2 h2 => touches_trans h1 h2))

theorem confined_for_down {r : storage} {body : Nat → M T Unit}
    (h : ∀ k, confined r (body k)) : ∀ n, confined r (for_down body n) := by
  intro n
  induction n with
  | zero => exact confined_pure r ()
  | succ n ih =>
    unfold for_down
    exact confined_bind (h n) (fun _ => ih)

theorem confined_for_range {r : storage} {body : Nat → M T Unit}
    (h : ∀ k, confined r (body k)) : ∀ n start, confined r (for_range body start n) := by
  intro n
  induction n with
  | zero => intro start; exact confined_pure r ()
  | succ n ih =>
    intro start
    unfold for_range
    exact confined_bind (h start) (fun _ => ih (start + 1))

/-- An observation is confined to any array. -/
theorem confined_of_transfers (r : storage) {m : M T α} (ht : transfers m) (hn : nothrow m) :
    confined r m := by
  intro w
  rw [wp_iff]
  refine ⟨fun a w1 e => ?_, fun w1 e => absurd e (hn w w1)⟩
  rw [ok_world ht e]
  exact touches_refl r w

theorem confined_deref (r : storage) (it : iterator) : confined r (deref it : M T T) :=
  confined_of_transfers r (transfers_deref it) (nothrow_deref it)

theorem confined_write_slot (it : iterator) (s : Option T) :
    confined it.base (write_slot it s) := by
  intro w
  rw [wp_write_slot]
  intro l _ _
  exact touches_set_slots _ _ _

theorem confined_value_type_copy (r : storage) (v : T) : confined r (value_type_copy v) := by
  intro w
  rw [wp_value_type_copy]
  exact ⟨fun _ => touches_refl r w, fun rest _ => touches_copy_schedule r w rest,
    fun rest _ => touches_copy_schedule r w rest⟩

theorem confined_construct_at (it : iterator) (v : T) : confined it.base (construct_at it v) :=
  confined_write_slot it (some v)

theorem confined_destroy_at (it : iterator) :
    confined it.base (destroy_at it : M T Unit) :=
  confined_bind (confined_deref _ it) (fun _ => confined_write_slot it none)

theorem confined_assign_at (it : iterator) (v : T) : confined it.base (assign_at it v) :=
  confined_bind (confined_deref _ it) (fun _ => confined_write_slot it (some v))

theorem confined_std_swap (r : storage) (a b : Nat) :
    confined r (std_swap (iterator.mk r a) (iterator.mk r b) : M T Unit) :=
  confined_bind (confined_deref _ _) (fun _ =>
    confined_bind (confined_deref _ _) (fun y =>
      confined_bind (confined_assign_at (iterator.mk r a) y) (fun _ =>
        confined_assign_at (iterator.mk r b) _)))

theorem confined_destroy_range (d : iterator) (k : Nat) :
    confined d.base (destroy_range d k : M T Unit) :=
  confined_for_down (fun i => confined_destroy_at (d.add i)) k

theorem confined_destroy (p n : Nat) :
    confined (storage.arr p) (my_shared_ptr.destroy p n : M T Unit) :=
  confined_for_down (fun i => confined_destroy_at (iterator.mk (storage.arr p) i)) n

theorem confined_uninitialized_copy_from (first d : iterator) :
    ∀ n k, confined d.base (uninitialized_copy_from first d k n : M T Unit) := by
  intro n
  induction n with
  | zero => intro k; exact confined_pure _ ()
  | succ n ih =>
    intro k
    unfold uninitialized_copy_from
    exact confined_bind (confined_deref _ _) (fun v =>
      confined_bind (confined_try_catch (confined_value_type_copy _ v)
          (confined_destroy_range d k)) (fun v1 =>
        confined_bind (confined_construct_at (d.add k) v1) (fun _ => ih (k + 1))))

theorem confined_uninitialized_copy (first : iterator) (n : Nat) (d : iterator) :
    confined d.base (uninitialized_copy first n d : M T Unit) :=
  confined_uninitialized_copy_from first d n 0

/-! ### What is left of the world -/

theorem touches_alloc_throws {r : storage} {w w1 : world T} (h : touches r w w1) :
    w1.alloc_throws = w.alloc_throws := by
  obtain ⟨l, cs, e⟩ := h
  rw [e]
  exact set_slots_alloc_throws w r l

theorem touches_header {r : storage} {w w1 : world T} (h : touches r w w1) (i : Nat) :
    w1.header i = w.header i := by
  obtain ⟨l, cs, e⟩ := h
  rw [e]
  exact header_set_slots w r l i

theorem touches_buf_header {r : storage} {w w1 : world T} (h : touches r w w1) (p : Nat) :
    w1.buf_header p = w.buf_header p := by
  obtain ⟨l, cs, e⟩ := h
  rw [e]
  exact buf_header_set_slots w r l p

/-- Work on the slots of a buffer leaves the objects alone and changes the heap
in the cell of that buffer only, and there only the slots. -/
theorem touches_arr {p : Nat} {w w1 : world T} (h : touches (storage.arr p) w w1) :
    w1.objs = w.objs ∧
    ((∃ b l, w.heap[p]? = some (some b) ∧ w1.heap = w.heap.set p (some { b with arr := l })) ∨
      w1.heap = w.heap) := by
  obtain ⟨l, cs, e⟩ := h
  rcases hb : w.heap[p]? with _ | _ | b
  · rw [e]; simp [world.set_slots, hb]
  · rw [e]; simp [world.set_slots, hb]
  · rw [e]
    exact ⟨by simp [world.set_slots, hb], Or.inl ⟨b, l, rfl, by simp [world.set_slots, hb]⟩⟩

/-- Work on the inline slots of a container leaves the heap alone and changes
the objects in the cell of that container only, and there only the slots. -/
theorem touches_static {o : Nat} {w w1 : world T}
    (h : touches (storage.static_storage o) w w1) :
    w1.heap = w.heap ∧
    ((∃ c l, w.objs[o]? = some (some c) ∧
        w1.objs = w.objs.set o (some { c with static_storage := l })) ∨
      w1.objs = w.objs) := by
  obtain ⟨l, cs, e⟩ := h
  rcases hb : w.objs[o]? with _ | _ | b
  · rw [e]; simp [world.set_slots, hb]
  · rw [e]; simp [world.set_slots, hb]
  · rw [e]
    exact ⟨by simp [world.set_slots, hb], Or.inl ⟨b, l, rfl, by simp [world.set_slots, hb]⟩⟩

theorem owns_of_touches {r2 : storage} {w w1 : world T} {i : Nat} {r : storage} {n : Nat}
    (ho : owns w i r n) (h : touches r2 w w1) : owns w1 i r n := by
  rcases ho with ⟨d, hh, hr⟩ | ⟨p, cap, hh, hr, hb⟩
  · exact Or.inl ⟨d, by rw [touches_header h]; exact hh, hr⟩
  · exact Or.inr ⟨p, cap, by rw [touches_header h]; exact hh, hr,
      by rw [touches_buf_header h]; exact hb⟩

theorem building_touches {cap : Nat} {w w1 w2 : world T} (hb : building cap w w1)
    (ht : touches (storage.arr w.heap.length) w1 w2) : building cap w w2 := by
  obtain ⟨ho, l, hh⟩ := hb
  obtain ⟨ho2, h2⟩ := touches_arr ht
  refine ⟨ho2.trans ho, ?_⟩
  rcases h2 with ⟨b, l2, hb2, e⟩ | e
  · rw [hh] at hb2
    simp only [List.getElem?_concat_length, Option.some.injEq] at hb2
    subst hb2
    refine ⟨l2, ?_⟩
    rw [e, hh, set_append_last]
  · exact ⟨l, by rw [e, hh]⟩

/-! ### Work in place -/

theorem shrinks_inplace {i : Nat} {r : storage} {w w1 : world T} (h : shrinks i r w w1) :
    inplace i r w w1 := by
  obtain ⟨m, l, cs, al, e, _⟩ := h
  exact ⟨m, l, cs, al, e⟩

theorem shrinks_of_touches {w w1 : world T} {i : Nat} {r : storage} {n : Nat}
    (ho : owns w i r n) (h : touches r w w1) : shrinks i r w w1 := by
  obtain ⟨l, cs, e⟩ := h
  obtain ⟨t, d, hh⟩ := owns_header ho
  obtain ⟨c, hc, _, hn, _⟩ := header_eq_some hh
  refine ⟨n, l, cs, w.alloc_throws, ?_, fun c0 hc0 => ?_⟩
  · rw [set_size_self hh, e]
    have e2 : (w.set_slots r l).alloc_throws = w.alloc_throws := set_slots_alloc_throws w r l
    rw [← e2]
  · rw [hc] at hc0
    simp only [Option.some.injEq] at hc0
    subst hc0
    omega

theorem shrinks_refl {w : world T} {i : Nat} {r : storage} {n : Nat} (ho : owns w i r n) :
    shrinks i r w w :=
  shrinks_of_touches ho (touches_refl r w)

theorem obj_set_size {w : world T} {i : Nat} {c : socow_vector T}
    (hc : w.objs[i]? = some (some c)) (m : Nat) :
    (w.set_size i m).objs[i]? = some (some { c with size_ := m }) := by
  simp [world.set_size, hc, lt_length_of_getElem? hc]

theorem size_of_shrinks {w w1 : world T} {i : Nat} {r : storage} {n : Nat}
    (ho : owns w i r n) (h : shrinks i r w w1) : ∃ m, owns w1 i r m ∧ m ≤ n := by
  obtain ⟨m, l, cs, al, e, hle⟩ := h
  obtain ⟨t, d, hh⟩ := owns_header ho
  obtain ⟨c, hc, _, hn, _⟩ := header_eq_some hh
  exact ⟨m, by rw [e]; exact owns_schedules (owns_set_slots (owns_set_size ho m) r l) cs al,
    by have := hle c hc; omega⟩

theorem shrinks_trans {i : Nat} {r : storage} {n : Nat} {w w1 w2 : world T}
    (ho : owns w i r n) (h1 : shrinks i r w w1) (h2 : shrinks i r w1 w2) :
    shrinks i r w w2 := by
  obtain ⟨m1, ho1, hle1⟩ := size_of_shrinks ho h1
  obtain ⟨m, l, cs, al, e1, hm⟩ := h1
  obtain ⟨m2, l2, cs2, al2, e2, hm2⟩ := h2
  obtain ⟨t, d, hh⟩ := owns_header ho
  obtain ⟨c, hc, _, hn, _⟩ := header_eq_some hh
  obtain ⟨t1, d1, hh1⟩ := owns_header ho1
  obtain ⟨c1, hc1, _, hn1, _⟩ := header_eq_some hh1
  refine ⟨m2, l2, cs2, al2, ?_, fun c0 hc0 => ?_⟩
  · rw [e2, e1, set_size_schedules, set_slots_schedules, set_size_set_slots, set_size_set_size,
      set_slots_set_slots]
  · rw [hc] at hc0
    simp only [Option.some.injEq] at hc0
    subst hc0
    have := hm2 c1 hc1
    omega

theorem shrinks_set_size {w : world T} {i : Nat} {r : storage} {n : Nat}
    (ho : owns w i r n) {m : Nat} (hm : m ≤ n) : shrinks i r w (w.set_size i m) := by
  obtain ⟨m0, l, cs, al, e⟩ := @inplace_set_size T w i r m
  obtain ⟨t, d, hh⟩ := owns_header ho
  obtain ⟨c, hc, _, hn, _⟩ := header_eq_some hh
  have hc1 := obj_set_size hc m
  refine ⟨m, (w.set_size i m).slots r |>.getD [], w.copy_throws, w.alloc_throws, ?_,
    fun c0 hc0 => ?_⟩
  · obtain ⟨l1, hl1⟩ := slots_of_owns (owns_set_size ho m)
    rw [hl1]
    simp only [Option.getD_some]
    rw [set_slots_self hl1, ← set_size_copy_throws w i m, ← set_size_alloc_throws w i m,
      schedules_self]
  · rw [hc] at hc0
    simp only [Option.some.injEq] at hc0
    subst hc0
    omega

/-! ## Every outcome of the storage changes -/

theorem owns_of_small {w : world T} {i : Nat} {c : socow_vector T}
    (hc : w.objs[i]? = some (some c)) (hty : c.type = vector_type.SMALL) :
    owns w i (storage.static_storage i) c.size_ :=
  Or.inl ⟨c.dynamic_storage, by simp [world.header, hc, ← hty], rfl⟩

theorem owns_of_big {w : world T} {i : Nat} {c : socow_vector T} {b : buffer T}
    (hc : w.objs[i]? = some (some c)) (hty : c.type = vector_type.BIG)
    (hb : w.heap[c.dynamic_storage]? = some (some b)) (hk : b.cnt_references = 1) :
    owns w i (storage.arr c.dynamic_storage) c.size_ :=
  Or.inr ⟨c.dynamic_storage, b.capacity, by simp [world.header, hc, ← hty], rfl,
    by simp [world.buf_header, hb, ← hk]⟩

theorem obj_of_owns {w : world T} {i : Nat} {r : storage} {n : Nat} (h : owns w i r n) :
    ∃ c, w.objs[i]? = some (some c) ∧ c.size_ = n ∧
      ((c.type = vector_type.SMALL ∧ r = storage.static_storage i) ∨
       (c.type = vector_type.BIG ∧ r = storage.arr c.dynamic_storage ∧
         ∃ b, w.heap[c.dynamic_storage]? = some (some b) ∧ b.cnt_references = 1)) := by
  rcases h with ⟨d, hh, hr⟩ | ⟨p, cap, hh, hr, hb⟩
  · obtain ⟨c, hc, hty, hn, _⟩ := header_eq_some hh
    exact ⟨c, hc, hn, Or.inl ⟨hty, hr⟩⟩
  · obtain ⟨c, hc, hty, hn, hd⟩ := header_eq_some hh
    obtain ⟨b, hb, hk, _⟩ := buf_header_eq_some hb
    subst hd
    exact ⟨c, hc, hn, Or.inr ⟨hty, hr, b, hb, hk⟩⟩

/-- When `is_master()` is true the container owns its storage. -/
theorem owns_of_is_master {w w1 : world T} {i : Nat}
    (h : is_master i w = result.ok true w1) : ∃ r n, owns w i r n := by
  rcases hc : w.objs[i]? with _ | _ | c
  · simp [is_master, is_small, get_obj, hc] at h
  · simp [is_master, is_small, get_obj, hc] at h
  · cases hty : c.type with
    | SMALL => exact ⟨_, _, owns_of_small hc hty⟩
    | BIG =>
      rcases hb : w.heap[c.dynamic_storage]? with _ | _ | b
      · simp [is_master, is_small, get_obj, hc, hty, my_shared_ptr.use_count, get_buf, hb] at h
      · simp [is_master, is_small, get_obj, hc, hty, my_shared_ptr.use_count, get_buf, hb] at h
      · rw [is_master_big hc hty hb] at h
        simp only [result.ok.injEq, decide_eq_true_eq] at h
        exact ⟨_, _, owns_of_big hc hty hb h.1⟩

/-- The member `destroy_storage()` in every world: it works on the slots of the
storage the container owns, and does nothing when the container owns none. -/
theorem wp_destroy_storage (i : Nat) (w : world T) :
    wp (destroy_storage i)
      (fun _ w1 => (∃ r n, owns w i r n ∧ touches r w w1) ∨
        (is_master i w = result.ok false w ∧ w1 = w))
      (fun _ => False) w := by
  unfold destroy_storage
  rw [wp_bind, wp_iff]
  refine ⟨fun master w1 e => ?_, fun w1 e => absurd e (nothrow_is_master i w w1)⟩
  have hw1 := ok_world (transfers_is_master i) e
  subst hw1
  cases master with
  | false => exact Or.inr ⟨e, rfl⟩
  | true =>
    obtain ⟨r, n, ho⟩ := owns_of_is_master e
    simp only [if_true]
    rw [wp_bind, wp_of_ok (size_of_owns ho)]
    refine wp_mono (wp_for_down (I := fun w2 => touches r w1 w2) (E := fun _ => False)
      (fun k w2 h2 => ?_) n w1 (touches_refl r w1)) (fun _ w2 h2 => Or.inl ⟨r, n, ho, h2⟩)
      (fun _ h => h)
    have ho2 := owns_of_touches ho h2
    rw [wp_bind, wp_of_ok (operator_index_const_of_owns ho2 k)]
    have := confined_destroy_at (T := T) (iterator.mk r k) w2
    rw [wp_iff] at this ⊢
    refine ⟨fun a w3 e3 => touches_trans h2 (this.1 a w3 e3), fun w3 e3 => ?_⟩
    exact absurd e3 (nothrow_destroy_at _ w2 w3)

/-- The allocation in every world: it throws and leaves all but the schedule, or
it appends a buffer with one reference and the requested capacity. -/
theorem wp_sized_ctor {L : layout} {cap : Nat} {Q : Nat → world T → Prop}
    {E : world T → Prop} {w : world T}
    (hq : ∀ l al, Q w.heap.length
      { w with heap := w.heap ++ [some (buffer.mk 1 cap l)], alloc_throws := al })
    (he : ∀ al, E { w with alloc_throws := al }) :
    wp (sized.my_shared_ptr.ctor L cap) Q E w := by
  rw [wp_iff]
  unfold sized.my_shared_ptr.ctor
  rcases h : w.alloc_throws with _ | ⟨b, rest⟩
  · refine ⟨fun a w1 e => ?_, fun w1 e => ?_⟩
    · dsimp only at e
      split at e
      · cases e
      · cases e
        exact hq _ _
    · dsimp only at e
      split at e <;> cases e
  · cases b
    · refine ⟨fun a w1 e => ?_, fun w1 e => ?_⟩
      · dsimp only at e
        split at e
        · cases e
        · cases e
          exact hq _ rest
      · dsimp only at e
        split at e <;> cases e
    · refine ⟨fun a w1 e => ?_, fun w1 e => ?_⟩
      · cases e
      · cases e
        exact he rest

/-- The handle of a buffer under construction dies: the buffer is freed. -/
theorem dtor_of_building {cap : Nat} {w w1 : world T} (h : building cap w w1) :
    ∃ w2, my_shared_ptr.dtor w.heap.length w1 = result.ok () w2 ∧ failed w w2 := by
  obtain ⟨ho, l, hh⟩ := h
  have hb : w1.heap[w.heap.length]? = some (some (buffer.mk 1 cap l)) := by
    rw [hh]; simp
  refine ⟨{ w1 with heap := w1.heap.set w.heap.length none }, ?_, ho, Or.inr ?_⟩
  · simp [my_shared_ptr.dtor, my_shared_ptr.use_count, get_buf, hb, delete_buf]
  · simp only [hh]
    rw [set_append_last]

theorem wp_of_bind_ok {m : M T α} {d : M T β} {w w6 : world T} {b : β}
    (e : (m >>= fun _ => d) w = result.ok b w6) {Q : world T → Prop}
    {E : world T → Prop} {E2 : world T → Prop} (hq : Q w6) :
    wp m (fun _ w5 => wp d (fun _ w7 => Q w7) E2 w5) E w := by
  obtain ⟨a, w5, e1, e2⟩ := bind_ok_inv e
  rw [wp_of_ok e1, wp_of_ok e2]
  exact hq

/-- The last steps of `change_dynamic_storage`, once the new buffer is filled:
the handle of the container moves to the new buffer, the old buffer loses a
reference or is freed, and the temporary handle dies. -/
theorem change_dynamic_storage_tail {w4 : world T} {i : Nat} {c : socow_vector T}
    {b4 : buffer T} {h0 : List (Option (buffer T))} {cap s : Nat} {l : List (Option T)}
    (hc : w4.objs[i]? = some (some c)) (hp : c.dynamic_storage < h0.length)
    (hh : w4.heap = h0.set c.dynamic_storage (some b4) ++ [some (buffer.mk 1 cap l)]) :
    ((do
        my_shared_ptr.assign i h0.length
        modify_obj i (fun c => { c with size_ := s })) >>= fun _ =>
      my_shared_ptr.dtor h0.length) w4 = result.ok ()
        { w4 with
          objs := w4.objs.set i (some { c with size_ := s, dynamic_storage := h0.length }),
          heap := h0.set c.dynamic_storage b4.release ++ [some (buffer.mk 1 cap l)] } := by
  have hi : i < w4.objs.length := lt_length_of_getElem? hc
  have hpne : c.dynamic_storage ≠ h0.length := by omega
  have hlen : (h0.set c.dynamic_storage (some b4)).length = h0.length := by simp
  by_cases hk : b4.cnt_references = 1
  · simp [my_shared_ptr.assign, my_shared_ptr.copy_ctor, modify_buf, modify_obj, hi,
      my_shared_ptr.dtor, my_shared_ptr.use_count, get_buf, get_obj, hc, delete_buf,
      buffer.release, hk, hp, hpne, hh, List.getElem?_append_left, List.set_append_left]
  · simp [my_shared_ptr.assign, my_shared_ptr.copy_ctor, modify_buf, modify_obj, hi,
      my_shared_ptr.dtor, my_shared_ptr.use_count, get_buf, get_obj, hc, delete_buf,
      buffer.release, hk, hp, hpne, hh, List.getElem?_append_left, List.set_append_left]

/-- Every outcome of `change_dynamic_storage` on a big container with a live
buffer: it returns with the container alone on a fresh buffer of the requested
capacity and the old buffer released once, or it throws and leaves every object
and every buffer as it was. -/
theorem wp_change_dynamic_storage (L : layout) {w : world T} {i : Nat}
    {c : socow_vector T} {b : buffer T} (cap ns : Nat) (v : Option T)
    (hc : w.objs[i]? = some (some c)) (hty : c.type = vector_type.BIG)
    (hb : w.heap[c.dynamic_storage]? = some (some b)) :
    wp (sized.socow_vector.change_dynamic_storage L i cap ns v)
      (fun _ w1 => ∃ l, w1.objs = w.objs.set i (some { c with
            size_ := ns + (if v.isSome then 1 else 0), dynamic_storage := w.heap.length }) ∧
          w1.heap = w.heap.set c.dynamic_storage b.release ++ [some (buffer.mk 1 cap l)])
      (fun w1 => failed w w1) w := by
  have hp := lt_length_of_getElem? hb
  unfold sized.socow_vector.change_dynamic_storage
  rw [wp_bind, wp_of_ok (is_small_of_obj hc), wp_ite]
  refine ⟨fun h => by simp [hty] at h, fun _ => ?_⟩
  rw [wp_bind]
  refine wp_sized_ctor (fun l al => ?_) (fun al => ⟨rfl, Or.inl rfl⟩)
  generalize hw1 : (world.mk (w.heap ++ [some (buffer.mk 1 cap l)]) w.objs w.copy_throws al)
    = w1
  have hbld : building cap w w1 := by rw [← hw1]; exact ⟨rfl, l, rfl⟩
  have hexit : ∀ w2, building cap w w2 →
      wp (my_shared_ptr.dtor w.heap.length) (fun _ w3 => failed w w3) (fun _ => True) w2 := by
    intro w2 h2
    obtain ⟨w3, e, hf⟩ := dtor_of_building h2
    rw [wp_of_ok e]
    exact hf
  have hg1 : get_obj i w1 = result.ok c w1 := by
    simp [get_obj, ← hw1, hc]
  rw [wp_scope_exit, wp_bind, wp_of_ok hg1, wp_bind]
  refine wp_mono (confined_uninitialized_copy (my_shared_ptr.get c.dynamic_storage) ns
    (my_shared_ptr.get w.heap.length) w1) (fun _ w2 h2 => ?_)
    (fun w2 h2 => hexit w2 (building_touches hbld h2))
  have hb2 := building_touches hbld h2
  have htail : ∀ w3, building cap w w3 →
      wp (do
          destroy_storage i
          my_shared_ptr.assign i w.heap.length
          modify_obj i (fun c =>
            { c with size_ := ns + (if v.isSome then 1 else 0) }))
        (fun _ w5 => wp (my_shared_ptr.dtor w.heap.length)
          (fun _ w6 => ∃ l, w6.objs = w.objs.set i (some { c with
              size_ := ns + (if v.isSome then 1 else 0), dynamic_storage := w.heap.length }) ∧
            w6.heap = w.heap.set c.dynamic_storage b.release ++ [some (buffer.mk 1 cap l)])
          (fun _ => True) w5)
        (fun w5 => wp (my_shared_ptr.dtor w.heap.length) (fun _ w6 => failed w w6)
          (fun _ => True) w5) w3 := by
    intro w3 h3
    rw [wp_bind]
    refine wp_mono (wp_destroy_storage i w3) (fun _ w4 h4 => ?_) (fun _ h => h.elim)
    obtain ⟨ho3, l3, hh3⟩ := h3
    have hc3 : w3.objs[i]? = some (some c) := by rw [ho3]; exact hc
    have hb3 : w3.heap[c.dynamic_storage]? = some (some b) := by
      rw [hh3, List.getElem?_append_left hp]; exact hb
    have hshape : ∃ b4, b4.release = b.release ∧ w4.objs = w.objs ∧
        w4.heap = w.heap.set c.dynamic_storage (some b4) ++ [some (buffer.mk 1 cap l3)] := by
      rcases h4 with ⟨r, n, ho, ht⟩ | ⟨hm, e⟩
      · obtain ⟨c0, hc0, _, hcase⟩ := obj_of_owns ho
        rw [hc3] at hc0
        simp only [Option.some.injEq] at hc0
        subst hc0
        rcases hcase with ⟨hs, _⟩ | ⟨_, hr, b0, hb0, hk⟩
        · rw [hty] at hs; cases hs
        · subst hr
          rw [hb3] at hb0
          simp only [Option.some.injEq] at hb0
          subst hb0
          obtain ⟨ho4, h4h⟩ := touches_arr ht
          rcases h4h with ⟨b1, l4, hb1, e⟩ | e
          · rw [hb3] at hb1
            simp only [Option.some.injEq] at hb1
            subst hb1
            refine ⟨{ b with arr := l4 }, by simp [buffer.release, hk], ho4.trans ho3, ?_⟩
            rw [e, hh3, List.set_append_left _ _ hp]
          · exact ⟨b, rfl, ho4.trans ho3, by rw [e, hh3, list_set_self _ _ _ hb]⟩
      · subst e
        exact ⟨b, rfl, ho3, by rw [hh3, list_set_self _ _ _ hb]⟩
    obtain ⟨b4, hrel, ho4, hh4⟩ := hshape
    have hc4 : w4.objs[i]? = some (some c) := by rw [ho4]; exact hc
    have ht := change_dynamic_storage_tail (s := ns + (if v.isSome then 1 else 0)) hc4 hp hh4
    refine wp_of_bind_ok ht ?_
    exact ⟨l3, by simp [ho4], by simp [hrel]⟩
  cases v with
  | none =>
    simp only []
    rw [wp_bind, wp_pure]
    exact htail w2 hb2
  | some v =>
    simp only []
    rw [wp_bind]
    have := confined_try_catch
      (confined_bind (confined_value_type_copy (storage.arr w.heap.length) v)
        (fun v1 => confined_construct_at ((my_shared_ptr.get w.heap.length).add ns) v1))
      (confined_destroy w.heap.length ns) w2
    exact wp_mono this (fun _ w3 h3 => htail w3 (building_touches hb2 h3))
      (fun w3 h3 => hexit w3 (building_touches hb2 h3))

theorem confined_size (r : storage) (i : Nat) : confined r (size i : M T Nat) :=
  confined_of_transfers r (transfers_size i) (nothrow_size i)

/-- The last steps of `change_static_storage_to_dynamic`, once the new buffer is
filled: the container takes a handle to the new buffer and becomes big, and the
temporary handle dies. -/
theorem change_static_storage_to_dynamic_tail {w4 : world T} {i : Nat} {c : socow_vector T}
    {h0 : List (Option (buffer T))} {cap s : Nat} {l : List (Option T)}
    (hc : w4.objs[i]? = some (some c))
    (hh : w4.heap = h0 ++ [some (buffer.mk 1 cap l)]) :
    ((do
        let p ← my_shared_ptr.copy_ctor h0.length
        modify_obj i (fun c => { c with dynamic_storage := p })
        modify_obj i (fun c => { c with type := vector_type.BIG })
        modify_obj i (fun c => { c with size_ := s })) >>= fun _ =>
      my_shared_ptr.dtor h0.length) w4 = result.ok ()
        { w4 with
          objs := w4.objs.set i (some { c with
            type := vector_type.BIG, size_ := s, dynamic_storage := h0.length }) } := by
  have hi : i < w4.objs.length := lt_length_of_getElem? hc
  cases w4 with
  | mk heap objs cs al =>
    simp only at hh hc hi
    subst hh
    simp [my_shared_ptr.copy_ctor, modify_buf, modify_obj, hi,
      my_shared_ptr.dtor, my_shared_ptr.use_count, get_buf, hc]

/-- Every outcome of `change_static_storage_to_dynamic` on a small container: it
returns with the container big and alone on a fresh buffer of the requested
capacity, or it throws and leaves every object and every buffer as it was. -/
theorem wp_change_static_storage_to_dynamic (L : layout) {w : world T} {i : Nat}
    {c : socow_vector T} (cap : Nat) (v : Option T)
    (hc : w.objs[i]? = some (some c)) (hty : c.type = vector_type.SMALL) :
    wp (sized.socow_vector.change_static_storage_to_dynamic L i cap v)
      (fun _ w1 => ∃ l ls, w1.objs = w.objs.set i (some { c with
            type := vector_type.BIG, size_ := c.size_ + (if v.isSome then 1 else 0),
            dynamic_storage := w.heap.length, static_storage := ls }) ∧
          w1.heap = w.heap ++ [some (buffer.mk 1 cap l)])
      (fun w1 => failed w w1) w := by
  unfold sized.socow_vector.change_static_storage_to_dynamic
  rw [wp_bind]
  refine wp_sized_ctor (fun l al => ?_) (fun al => ⟨rfl, Or.inl rfl⟩)
  generalize hw1 : (world.mk (w.heap ++ [some (buffer.mk 1 cap l)]) w.objs w.copy_throws al)
    = w1
  have hbld : building cap w w1 := by rw [← hw1]; exact ⟨rfl, l, rfl⟩
  have hexit : ∀ w2, building cap w w2 →
      wp (my_shared_ptr.dtor w.heap.length) (fun _ w3 => failed w w3) (fun _ => True) w2 := by
    intro w2 h2
    obtain ⟨w3, e, hf⟩ := dtor_of_building h2
    rw [wp_of_ok e]
    exact hf
  have hsize : ∀ w2, building cap w w2 → size i w2 = result.ok c.size_ w2 := by
    intro w2 h2
    exact size_of_obj (by rw [h2.1]; exact hc)
  rw [wp_scope_exit, wp_bind, wp_of_ok (hsize w1 hbld), wp_bind]
  refine wp_mono (confined_uninitialized_copy (iterator.mk (storage.static_storage i) 0)
    c.size_ (my_shared_ptr.get w.heap.length) w1) (fun _ w2 h2 => ?_)
    (fun w2 h2 => hexit w2 (building_touches hbld h2))
  have hb2 := building_touches hbld h2
  rw [wp_bind, wp_of_ok (hsize w2 hb2)]
  have htail : ∀ w3, building cap w w3 →
      wp (do
          destroy_storage i
          let p ← my_shared_ptr.copy_ctor w.heap.length
          modify_obj i (fun c => { c with dynamic_storage := p })
          modify_obj i (fun c => { c with type := vector_type.BIG })
          modify_obj i (fun x =>
            { x with size_ := c.size_ + (if v.isSome then 1 else 0) }))
        (fun _ w5 => wp (my_shared_ptr.dtor w.heap.length)
          (fun _ w6 => ∃ l ls, w6.objs = w.objs.set i (some { c with
              type := vector_type.BIG, size_ := c.size_ + (if v.isSome then 1 else 0),
              dynamic_storage := w.heap.length, static_storage := ls }) ∧
            w6.heap = w.heap ++ [some (buffer.mk 1 cap l)])
          (fun _ => True) w5)
        (fun w5 => wp (my_shared_ptr.dtor w.heap.length) (fun _ w6 => failed w w6)
          (fun _ => True) w5) w3 := by
    intro w3 h3
    rw [wp_bind]
    refine wp_mono (wp_destroy_storage i w3) (fun _ w4 h4 => ?_) (fun _ h => h.elim)
    obtain ⟨ho3, l3, hh3⟩ := h3
    have hc3 : w3.objs[i]? = some (some c) := by rw [ho3]; exact hc
    have hshape : ∃ ls, w4.objs = w.objs.set i (some { c with static_storage := ls }) ∧
        w4.heap = w.heap ++ [some (buffer.mk 1 cap l3)] := by
      rcases h4 with ⟨r, n, ho, ht⟩ | ⟨hm, e⟩
      · obtain ⟨c0, hc0, _, hcase⟩ := obj_of_owns ho
        rw [hc3] at hc0
        simp only [Option.some.injEq] at hc0
        subst hc0
        rcases hcase with ⟨_, hr⟩ | ⟨hs, _⟩
        · subst hr
          obtain ⟨hh4, h4o⟩ := touches_static ht
          rcases h4o with ⟨c1, l4, hc1, e⟩ | e
          · rw [hc3] at hc1
            simp only [Option.some.injEq] at hc1
            subst hc1
            exact ⟨l4, by rw [e, ho3], by rw [hh4, hh3]⟩
          · exact ⟨c.static_storage, by rw [e, ho3, list_set_self _ _ _ hc], by rw [hh4, hh3]⟩
        · rw [hty] at hs; cases hs
      · subst e
        exact ⟨c.static_storage, by rw [ho3, list_set_self _ _ _ hc], hh3⟩
    obtain ⟨ls, ho4, hh4⟩ := hshape
    have hc4 : w4.objs[i]? = some (some { c with static_storage := ls }) := by
      rw [ho4]; simp [lt_length_of_getElem? hc]
    have ht := change_static_storage_to_dynamic_tail
      (s := c.size_ + (if v.isSome then 1 else 0)) hc4 hh4
    refine wp_of_bind_ok ht ?_
    exact ⟨l3, ls, by simp [ho4], by simp [hh4]⟩
  cases v with
  | none =>
    simp only []
    rw [wp_bind, wp_pure]
    exact htail w2 hb2
  | some v =>
    simp only []
    rw [wp_bind]
    have := confined_try_catch
      (confined_bind (confined_value_type_copy (storage.arr w.heap.length) v)
        (fun v1 => confined_construct_at ((my_shared_ptr.get w.heap.length).add c.size_) v1))
      (confined_bind (confined_size (storage.arr w.heap.length) i)
        (fun n => confined_destroy w.heap.length n)) w2
    exact wp_mono this (fun _ w3 h3 => htail w3 (building_touches hb2 h3))
      (fun w3 h3 => hexit w3 (building_touches hb2 h3))

/-- Every outcome of `reset` on the handle of a big container with a live buffer:
it returns with the handle on a fresh buffer and the old buffer released once, or
it throws and leaves every object and every buffer as it was. -/
theorem wp_reset (L : layout) {w : world T} {i : Nat} {c : socow_vector T} {b : buffer T}
    (cap : Nat) (hc : w.objs[i]? = some (some c))
    (hb : w.heap[c.dynamic_storage]? = some (some b)) :
    wp (sized.my_shared_ptr.reset L i cap)
      (fun _ w1 => ∃ l, w1.objs = w.objs.set i (some { c with
            dynamic_storage := w.heap.length }) ∧
          w1.heap = w.heap.set c.dynamic_storage b.release ++ [some (buffer.mk 1 cap l)])
      (fun w1 => failed w w1) w := by
  have hp := lt_length_of_getElem? hb
  have hi := lt_length_of_getElem? hc
  unfold sized.my_shared_ptr.reset
  rw [wp_bind]
  refine wp_sized_ctor (fun l al => ?_) (fun al => ⟨rfl, Or.inl rfl⟩)
  rw [wp_iff]
  have hpne : c.dynamic_storage ≠ w.heap.length := by omega
  by_cases hk : b.cnt_references = 1
  · refine ⟨fun a w1 e => ?_, fun w1 e => ?_⟩
    · simp [modify_obj, hi, my_shared_ptr.dtor, my_shared_ptr.use_count, get_buf, get_obj, hc,
        delete_buf, hk, hp, hpne, hb, List.getElem?_append_left] at e
      subst e
      exact ⟨l, rfl, by simp [buffer.release, hk, List.set_append_left, hp]⟩
    · simp [modify_obj, hi, my_shared_ptr.dtor, my_shared_ptr.use_count, get_buf, get_obj, hc,
        delete_buf, hk, hp, hpne, hb, List.getElem?_append_left] at e
  · refine ⟨fun a w1 e => ?_, fun w1 e => ?_⟩
    · simp [modify_obj, hi, my_shared_ptr.dtor, my_shared_ptr.use_count, get_buf, get_obj, hc,
        delete_buf, hk, hp, hpne, hb, List.getElem?_append_left, modify_buf] at e
      subst e
      exact ⟨l, rfl, by simp [buffer.release, hk, List.set_append_left, hp]⟩
    · simp [modify_obj, hi, my_shared_ptr.dtor, my_shared_ptr.use_count, get_buf, get_obj, hc,
        delete_buf, hk, hp, hpne, hb, List.getElem?_append_left, modify_buf] at e

/-! ## Capacity and fit -/

theorem capacity_of_obj_small (N : Nat) {w : world T} {i : Nat} {c : socow_vector T}
    (hc : w.objs[i]? = some (some c)) (hty : c.type = vector_type.SMALL) :
    capacity N i w = result.ok N w := by
  simp [capacity, is_small, get_obj, hc, hty]

theorem capacity_of_obj_big (N : Nat) {w : world T} {i : Nat} {c : socow_vector T}
    {b : buffer T} (hc : w.objs[i]? = some (some c)) (hty : c.type = vector_type.BIG)
    (hb : w.heap[c.dynamic_storage]? = some (some b)) :
    capacity N i w = result.ok b.capacity w := by
  simp [capacity, is_small, get_obj, hc, hty, my_shared_ptr.get_capacity, get_buf, hb]

/-- A container fits exactly when `capacity()` is defined and not less than its
size. -/
theorem fits_iff_capacity {N : Nat} {w : world T} {i : Nat} {c : socow_vector T}
    (hc : w.objs[i]? = some (some c)) :
    fits N w c ↔ ∃ cap, capacity N i w = result.ok cap w ∧ c.size_ ≤ cap := by
  constructor
  · rintro (⟨hty, hle⟩ | ⟨hty, b, hb, hle⟩)
    · exact ⟨N, capacity_of_obj_small N hc hty, hle⟩
    · exact ⟨b.capacity, capacity_of_obj_big N hc hty hb, hle⟩
  · rintro ⟨cap, hcap, hle⟩
    cases hty : c.type with
    | SMALL =>
      rw [capacity_of_obj_small N hc hty] at hcap
      simp only [result.ok.injEq, and_true] at hcap
      exact Or.inl ⟨hty, by omega⟩
    | BIG =>
      rcases hb : w.heap[c.dynamic_storage]? with _ | _ | b
      · simp [capacity, is_small, get_obj, hc, hty, my_shared_ptr.get_capacity, get_buf,
          hb] at hcap
      · simp [capacity, is_small, get_obj, hc, hty, my_shared_ptr.get_capacity, get_buf,
          hb] at hcap
      · rw [capacity_of_obj_big N hc hty hb] at hcap
        simp only [result.ok.injEq, and_true] at hcap
        exact Or.inr ⟨hty, b, hb, by omega⟩

/-- A step in place leaves `capacity()` as it was. -/
theorem capacity_of_stays {N : Nat} {w w1 : world T} {i : Nat} {c c1 : socow_vector T}
    (hc : w.objs[i]? = some (some c)) (hc1 : w1.objs[i]? = some (some c1))
    (hs : stays c c1 w w1) {cap : Nat} (hcap : capacity N i w = result.ok cap w) :
    capacity N i w1 = result.ok cap w1 := by
  obtain ⟨t1, d1, hh⟩ := hs
  rcases hh with ⟨hty, _⟩ | ⟨hty, b, l2, hb, hheap, _⟩
  · rw [capacity_of_obj_small N hc hty] at hcap
    simp only [result.ok.injEq, and_true] at hcap
    rw [capacity_of_obj_small N hc1 (t1.trans hty), hcap]
  · rw [capacity_of_obj_big N hc hty hb] at hcap
    simp only [result.ok.injEq, and_true] at hcap
    have hb1 : w1.heap[c1.dynamic_storage]? = some (some { b with arr := l2 }) := by
      rw [d1, hheap]
      simp [lt_length_of_getElem? hb]
    rw [capacity_of_obj_big N hc1 (t1.trans hty) hb1]
    simp [hcap]

theorem capacity_of_inplace {N : Nat} {w w1 : world T} {i : Nat} {r : storage} {n : Nat}
    (ho : owns w i r n) (hi : inplace i r w w1) {cap : Nat}
    (hcap : capacity N i w = result.ok cap w) : capacity N i w1 = result.ok cap w1 := by
  obtain ⟨c, c1, hc, ho1, hs⟩ := stays_of_inplace ho hi
  exact capacity_of_stays hc (obj_of_set hc ho1) hs hcap

/-- A container that owns its storage and does not grow in place evolves. -/
theorem evolves_of_shrinks {N : Nat} {w w1 : world T} {i : Nat} {r : storage} {n : Nat}
    {c : socow_vector T} (hc : w.objs[i]? = some (some c)) (hf : fits N w c)
    (ho : owns w i r n) (h : shrinks i r w w1) : evolves N i w w1 := by
  refine evolves_of_inplace ho (shrinks_inplace h) (fun c1 hc1 => ?_)
  obtain ⟨m, ho1, hle⟩ := size_of_shrinks ho h
  obtain ⟨cap, hcap, hle2⟩ := (fits_iff_capacity hc).mp hf
  have hn : c.size_ = n := by
    have := size_of_owns ho
    rw [size_of_obj hc] at this
    simpa using this
  have hm : c1.size_ = m := by
    have := size_of_owns ho1
    rw [size_of_obj hc1] at this
    simpa using this
  exact (fits_iff_capacity hc1).mpr
    ⟨cap, capacity_of_inplace ho (shrinks_inplace h) hcap, by omega⟩

/-- A container that evolved, owns its storage and goes on in place without
growing evolves. -/
theorem evolves_then_shrinks {N : Nat} {w w2 w1 : world T} {i : Nat} {r : storage} {n : Nat}
    (h : evolves N i w w2) (ho : owns w2 i r n) (hs : shrinks i r w2 w1) :
    evolves N i w w1 := by
  obtain ⟨c, c2, hc, ho2, sh, hf2⟩ := h
  have hc2 := obj_of_set hc ho2
  obtain ⟨c2b, c1, hc2b, ho1, hst, hf1⟩ := evolves_of_shrinks hc2 hf2 ho hs
  exact evolves_then_inplace ⟨c, c2, hc, ho2, sh, hf2⟩ ho (shrinks_inplace hs)
    (fun c3 hc3 => by
      rw [obj_of_set hc2b ho1] at hc3
      simp only [Option.some.injEq] at hc3
      subst hc3
      exact hf1)

/-- A big container that moved to a fresh buffer evolves. -/
theorem evolves_of_moved_big {N : Nat} {w w1 : world T} {i : Nat} {c : socow_vector T}
    {b : buffer T} {cap s : Nat} {l : List (Option T)}
    (hc : w.objs[i]? = some (some c)) (hty : c.type = vector_type.BIG)
    (hb : w.heap[c.dynamic_storage]? = some (some b))
    (ho : w1.objs = w.objs.set i (some { c with size_ := s, dynamic_storage := w.heap.length }))
    (hh : w1.heap = w.heap.set c.dynamic_storage b.release ++ [some (buffer.mk 1 cap l)])
    (hcap : b.capacity ≤ cap ∨ (b.cnt_references ≠ 1 ∧ c.size_ < cap) ∨ N < cap)
    (hs : s ≤ cap) : evolves N i w w1 := by
  refine ⟨c, _, hc, ho, Or.inr ⟨hty, rfl, buffer.mk 1 cap l, rfl,
    Or.inr ⟨hty, b, hb, hh, hcap⟩⟩, Or.inr ⟨hty, buffer.mk 1 cap l, ?_, hs⟩⟩
  have hlen : (w.heap.set c.dynamic_storage b.release).length = w.heap.length := by simp
  rw [hh]
  simp only
  rw [← hlen]
  simp

/-- A small container that moved to a fresh buffer evolves. -/
theorem evolves_of_moved_small {N : Nat} {w w1 : world T} {i : Nat} {c : socow_vector T}
    {cap s : Nat} {l ls : List (Option T)}
    (hc : w.objs[i]? = some (some c)) (hty : c.type = vector_type.SMALL)
    (ho : w1.objs = w.objs.set i (some { c with
      type := vector_type.BIG, size_ := s, dynamic_storage := w.heap.length,
      static_storage := ls }))
    (hh : w1.heap = w.heap ++ [some (buffer.mk 1 cap l)])
    (hcap : N < cap) (hs : s ≤ cap) : evolves N i w w1 := by
  refine ⟨c, _, hc, ho, Or.inr ⟨rfl, rfl, buffer.mk 1 cap l, rfl,
    Or.inl ⟨hty, hh, hcap⟩⟩, Or.inr ⟨rfl, buffer.mk 1 cap l, ?_, hs⟩⟩
  rw [hh]
  simp

/-- The container of a move owns its fresh buffer. -/
theorem owns_of_moved {w w1 : world T} {i : Nat} {c c1 : socow_vector T} {cap : Nat}
    {l : List (Option T)} {H : List (Option (buffer T))}
    (hc : w.objs[i]? = some (some c)) (ho : w1.objs = w.objs.set i (some c1))
    (hty : c1.type = vector_type.BIG) (hd : c1.dynamic_storage = H.length)
    (hh : w1.heap = H ++ [some (buffer.mk 1 cap l)]) :
    owns w1 i (storage.arr H.length) c1.size_ := by
  have hc1 := obj_of_set hc ho
  have hb1 : w1.heap[c1.dynamic_storage]? = some (some (buffer.mk 1 cap l)) := by
    rw [hd, hh]; simp
  have := owns_of_big hc1 hty hb1 rfl
  rw [hd] at this
  exact this

/-! ## The accessors of a container that owns its storage, with the sized
allocation -/

theorem sized_make_master_to_of_owns (L : layout) {w : world T} {i : Nat} {r : storage}
    {n : Nat} (h : owns w i r n) (cap ns : Nat) :
    sized.socow_vector.make_master_to L i cap ns w = result.ok false w := by
  simp [sized.socow_vector.make_master_to, is_master_of_owns h]

theorem sized_make_master_of_owns (L : layout) (N : Nat) {w : world T} {i : Nat}
    {r : storage} {n : Nat} (h : owns w i r n) :
    sized.socow_vector.make_master L N i w = result.ok false w := by
  obtain ⟨cap, hcap⟩ := capacity_of_owns N h
  simp [sized.socow_vector.make_master, hcap, size_of_owns h,
    sized_make_master_to_of_owns L h]

theorem sized_data_of_owns (L : layout) (N : Nat) {w : world T} {i : Nat} {r : storage}
    {n : Nat} (h : owns w i r n) :
    sized.socow_vector.data L N i w = result.ok (iterator.mk r 0) w := by
  have h1 := sized_make_master_of_owns L N h
  have h2 := data_const_of_owns h
  unfold data_const at h2
  simp only [sized.socow_vector.data, noexcept, bind_run, h1]
  simp only [bind_run] at h2
  rw [h2]

theorem sized_operator_index_of_owns (L : layout) (N : Nat) {w : world T} {i : Nat}
    {r : storage} {n : Nat} (h : owns w i r n) (k : Nat) :
    sized.socow_vector.operator_index L N i k w = result.ok (iterator.mk r k) w := by
  simp [sized.socow_vector.operator_index, noexcept, sized_data_of_owns L N h, iterator.add]

theorem sized_back_of_owns (L : layout) (N : Nat) {w : world T} {i : Nat} {r : storage}
    {n : Nat} (h : owns w i r n) :
    sized.socow_vector.back L N i w = result.ok (iterator.mk r (n - 1)) w := by
  simp [sized.socow_vector.back, sized_make_master_of_owns L N h, sized_data_of_owns L N h,
    size_of_owns h, iterator.add]

theorem sized_front_of_owns (L : layout) (N : Nat) {w : world T} {i : Nat} {r : storage}
    {n : Nat} (h : owns w i r n) :
    sized.socow_vector.front L N i w = result.ok (iterator.mk r 0) w := by
  simp [sized.socow_vector.front, noexcept, sized_make_master_of_owns L N h,
    sized_data_of_owns L N h, iterator.add]

theorem sized_begin_of_owns (L : layout) (N : Nat) {w : world T} {i : Nat} {r : storage}
    {n : Nat} (h : owns w i r n) :
    sized.socow_vector.begin L N i w = result.ok (iterator.mk r 0) w := by
  simp [sized.socow_vector.begin, noexcept, sized_data_of_owns L N h]

theorem sized_end_of_owns (L : layout) (N : Nat) {w : world T} {i : Nat} {r : storage}
    {n : Nat} (h : owns w i r n) :
    sized.socow_vector.end L N i w = result.ok (iterator.mk r n) w := by
  simp [sized.socow_vector.end, noexcept, sized_data_of_owns L N h, size_of_owns h,
    iterator.add]

/-! ## Every outcome of gaining exclusive ownership -/

theorem size_eq_of_owns {w : world T} {i : Nat} {r : storage} {n : Nat} {c : socow_vector T}
    (hc : w.objs[i]? = some (some c)) (ho : owns w i r n) : c.size_ = n := by
  have := size_of_owns ho
  rw [size_of_obj hc] at this
  simpa using this

/-- A live container whose size fits owns its storage or is big on a shared
buffer. -/
theorem owns_or_shared {N : Nat} {w : world T} {i : Nat} {c : socow_vector T}
    (hc : w.objs[i]? = some (some c)) (hf : fits N w c) :
    (∃ r, owns w i r c.size_) ∨
    (c.type = vector_type.BIG ∧ ∃ b, w.heap[c.dynamic_storage]? = some (some b) ∧
      b.cnt_references ≠ 1 ∧ c.size_ ≤ b.capacity) := by
  rcases hf with ⟨hty, _⟩ | ⟨hty, b, hb, hle⟩
  · exact Or.inl ⟨_, owns_of_small hc hty⟩
  · by_cases hk : b.cnt_references = 1
    · exact Or.inl ⟨_, owns_of_big hc hty hb hk⟩
    · exact Or.inr ⟨hty, b, hb, hk, hle⟩

/-- Every outcome of `make_master(capacity(), new_size)` with `new_size` at most
the size: nothing happens to a container that owns its storage; a container on
a shared buffer moves to a fresh buffer of the same capacity, or the call throws
and leaves every object and every buffer as it was. -/
theorem wp_make_master_to (L : layout) {N : Nat} {w : world T} {i : Nat}
    {c : socow_vector T} {cap : Nat} (ns : Nat)
    (hc : w.objs[i]? = some (some c)) (hf : fits N w c)
    (hcap : capacity N i w = result.ok cap w) (hns : ns ≤ c.size_) :
    wp (sized.socow_vector.make_master_to L i cap ns)
      (fun cloned w1 =>
        (cloned = false ∧ w1 = w ∧ ∃ r, owns w i r c.size_) ∨
        (cloned = true ∧ evolves N i w w1 ∧ (∃ r, owns w1 i r ns) ∧
          capacity N i w1 = result.ok cap w1))
      (fun w1 => failed w w1) w := by
  rcases owns_or_shared hc hf with ⟨r, ho⟩ | ⟨hty, b, hb, hk, hle⟩
  · rw [wp_of_ok (sized_make_master_to_of_owns L ho cap ns)]
    exact Or.inl ⟨rfl, rfl, r, ho⟩
  · have hcb : cap = b.capacity := by
      rw [capacity_of_obj_big N hc hty hb] at hcap
      simp only [result.ok.injEq, and_true] at hcap
      exact hcap.symm
    subst hcb
    unfold sized.socow_vector.make_master_to
    rw [wp_bind, wp_of_ok (is_master_big hc hty hb)]
    simp only [hk, decide_False, Bool.not_false, if_true]
    rw [wp_bind]
    refine wp_mono (wp_change_dynamic_storage L b.capacity ns none hc hty hb)
      (fun _ w1 h1 => ?_) (fun _ h => h)
    obtain ⟨l, ho1, hh1⟩ := h1
    simp only [Option.isSome_none, Bool.false_eq_true, if_false, Nat.add_zero] at ho1
    have hev : evolves N i w w1 :=
      evolves_of_moved_big hc hty hb ho1 hh1 (Or.inl (Nat.le_refl _)) (by omega)
    have hlen : (w.heap.set c.dynamic_storage b.release).length = w.heap.length := by simp
    have hown := owns_of_moved (H := w.heap.set c.dynamic_storage b.release) hc ho1 hty
      (by simp) hh1
    have hc1 := obj_of_set hc ho1
    have hb1 : w1.heap[w.heap.length]? = some (some (buffer.mk 1 b.capacity l)) := by
      rw [hh1, ← hlen]; simp
    refine Or.inr ⟨rfl, hev, ⟨_, hown⟩, ?_⟩
    have hfin := capacity_of_obj_big (b := buffer.mk 1 b.capacity l) N hc1 hty hb1
    exact hfin

/-- Every outcome of `make_master()`: the container owns its storage afterwards,
with its size and its capacity, or the call throws and leaves every object and
every buffer as it was. -/
theorem wp_make_master (L : layout) {N : Nat} {w : world T} {i : Nat}
    {c : socow_vector T} (hc : w.objs[i]? = some (some c)) (hf : fits N w c) :
    wp (sized.socow_vector.make_master L N i)
      (fun _ w1 => evolves N i w w1 ∧ (∃ r, owns w1 i r c.size_) ∧
        ∀ cap, capacity N i w = result.ok cap w → capacity N i w1 = result.ok cap w1)
      (fun w1 => failed w w1) w := by
  obtain ⟨cap, hcap, _⟩ := (fits_iff_capacity hc).mp hf
  unfold sized.socow_vector.make_master
  rw [wp_bind, wp_of_ok hcap, wp_bind, wp_of_ok (size_of_obj hc)]
  refine wp_mono (wp_make_master_to L c.size_ hc hf hcap (Nat.le_refl _))
    (fun _ w1 h1 => ?_) (fun _ h => h)
  rcases h1 with ⟨_, e, ho⟩ | ⟨_, hev, ho, hcap1⟩
  · subst e
    exact ⟨evolves_refl hc hf, ho, fun _ h => h⟩
  · refine ⟨hev, ho, fun cap2 h2 => ?_⟩
    rw [hcap] at h2
    simp only [result.ok.injEq, and_true] at h2
    subst h2
    exact hcap1

/-- Every outcome of the mutable `data()`: it returns the start of the storage
the container then owns. -/
theorem wp_data (L : layout) {N : Nat} {w : world T} {i : Nat} {c : socow_vector T}
    (E : world T → Prop) (hc : w.objs[i]? = some (some c)) (hf : fits N w c) :
    wp (sized.socow_vector.data L N i)
      (fun d w1 => d.pos = 0 ∧ owns w1 i d.base c.size_ ∧ evolves N i w w1 ∧
        ∀ cap, capacity N i w = result.ok cap w → capacity N i w1 = result.ok cap w1)
      E w := by
  unfold sized.socow_vector.data
  rw [wp_noexcept, wp_bind]
  refine wp_mono (wp_make_master L hc hf) (fun _ w1 h1 => ?_) (fun _ _ => trivial)
  obtain ⟨hev, ⟨r, ho⟩, hcap⟩ := h1
  have h2 := data_const_of_owns ho
  unfold data_const at h2
  rw [wp_of_ok h2]
  exact ⟨rfl, ho, hev, hcap⟩

/-- Every outcome of the mutable accessors `begin`, `end`, `operator[]` and
`front`: the container evolved. -/
theorem wp_begin (L : layout) {N : Nat} {w : world T} {i : Nat} {c : socow_vector T}
    (E : world T → Prop) (hc : w.objs[i]? = some (some c)) (hf : fits N w c) :
    wp (sized.socow_vector.begin L N i) (fun _ w1 => evolves N i w w1) E w := by
  unfold sized.socow_vector.begin
  rw [wp_noexcept]
  exact wp_mono (wp_data L (fun _ => True) hc hf) (fun _ _ h => h.2.2.1) (fun _ h => h)

theorem wp_end (L : layout) {N : Nat} {w : world T} {i : Nat} {c : socow_vector T}
    (E : world T → Prop) (hc : w.objs[i]? = some (some c)) (hf : fits N w c) :
    wp (sized.socow_vector.end L N i) (fun _ w1 => evolves N i w w1) E w := by
  unfold sized.socow_vector.end
  rw [wp_noexcept, wp_bind]
  refine wp_mono (wp_data L (fun _ => True) hc hf) (fun d w1 h => ?_) (fun _ h => h)
  rw [wp_bind, wp_of_ok (size_of_owns h.2.1)]
  exact h.2.2.1

theorem wp_operator_index (L : layout) {N : Nat} {w : world T} {i : Nat}
    {c : socow_vector T} (E : world T → Prop) (k : Nat)
    (hc : w.objs[i]? = some (some c)) (hf : fits N w c) :
    wp (sized.socow_vector.operator_index L N i k) (fun _ w1 => evolves N i w w1) E w := by
  unfold sized.socow_vector.operator_index
  rw [wp_noexcept, wp_bind]
  exact wp_mono (wp_data L (fun _ => True) hc hf) (fun d w1 h => h.2.2.1) (fun _ h => h)

theorem wp_front (L : layout) {N : Nat} {w : world T} {i : Nat} {c : socow_vector T}
    (E : world T → Prop) (hc : w.objs[i]? = some (some c)) (hf : fits N w c) :
    wp (sized.socow_vector.front L N i) (fun _ w1 => evolves N i w w1) E w := by
  unfold sized.socow_vector.front
  rw [wp_noexcept, wp_bind]
  refine wp_mono (wp_make_master L hc hf) (fun _ w1 h1 => ?_) (fun _ _ => trivial)
  obtain ⟨hev, ⟨r, ho⟩, _⟩ := h1
  rw [wp_bind, wp_of_ok (sized_data_of_owns L N ho)]
  exact hev

/-- Every outcome of the mutable `back()`: the container evolved, or the call
throws and leaves every object and every buffer as it was. -/
theorem wp_back (L : layout) {N : Nat} {w : world T} {i : Nat} {c : socow_vector T}
    (hc : w.objs[i]? = some (some c)) (hf : fits N w c) :
    wp (sized.socow_vector.back L N i) (fun _ w1 => evolves N i w w1)
      (fun w1 => failed w w1) w := by
  unfold sized.socow_vector.back
  rw [wp_bind]
  refine wp_mono (wp_make_master L hc hf) (fun _ w1 h1 => ?_) (fun _ h => h)
  obtain ⟨hev, ⟨r, ho⟩, _⟩ := h1
  rw [wp_bind, wp_of_ok (sized_data_of_owns L N ho), wp_bind, wp_of_ok (size_of_owns ho)]
  exact hev

/-! ## Every outcome of `reserve` and `push_back` -/

theorem evolves_then_inplace_size {N : Nat} {w w2 w1 : world T} {i : Nat} {r : storage}
    {n m cap : Nat} (h : evolves N i w w2) (ho : owns w2 i r n) (hi : inplace i r w2 w1)
    (ho1 : owns w1 i r m) (hcap : capacity N i w2 = result.ok cap w2) (hm : m ≤ cap) :
    evolves N i w w1 :=
  evolves_then_inplace h ho hi (fun c1 hc1 =>
    (fits_iff_capacity hc1).mpr ⟨cap, capacity_of_inplace ho hi hcap,
      by rw [size_eq_of_owns hc1 ho1]; exact hm⟩)

theorem modify_size_eq {w : world T} {i : Nat} {c : socow_vector T}
    (hc : w.objs[i]? = some (some c)) (f : Nat → Nat) :
    modify_obj i (fun x => { x with size_ := f x.size_ }) w
      = result.ok () (w.set_size i (f c.size_)) := by
  simp [modify_obj, world.set_size, hc]

/-- Every outcome of the private `reserve(new_capacity, value)`: the container
evolved, on a fresh buffer of its own when the capacity had to grow, or the call
throws and leaves every object and every buffer as it was. -/
theorem wp_reserve_value (L : layout) {N : Nat} {w : world T} {i : Nat}
    {c : socow_vector T} (newcap : Nat) (v : Option T)
    (hc : w.objs[i]? = some (some c)) (hf : fits N w c)
    (hv : v.isSome = true → c.size_ + 1 ≤ newcap) :
    wp (sized.socow_vector.reserve_value L N i newcap v)
      (fun _ w1 => evolves N i w w1 ∧
        ∀ cap, capacity N i w = result.ok cap w → cap < newcap → ∃ r n, owns w1 i r n)
      (fun w1 => failed w w1) w := by
  have hdelta : c.size_ < newcap → c.size_ + (if v.isSome = true then 1 else 0) ≤ newcap := by
    intro h
    split
    · rename_i h1
      exact hv h1
    · omega
  unfold sized.socow_vector.reserve_value
  rcases hf with ⟨hty, hle⟩ | ⟨hty, b, hb, hle⟩
  · rw [wp_bind, wp_of_ok (capacity_of_obj_small N hc hty), wp_bind,
      wp_of_ok (is_master_small hc hty), wp_bind, wp_of_ok (size_of_obj hc), wp_ite]
    refine ⟨fun hcond => ?_, fun hcond => ?_⟩
    · have hgt : N < newcap := by
        rcases hcond with h | ⟨h, _⟩
        · exact h
        · exact absurd rfl h
      rw [wp_bind, wp_of_ok (is_small_of_obj hc), wp_ite]
      refine ⟨fun _ => ?_, fun h => absurd (by simp [hty]) h⟩
      refine wp_mono (wp_change_static_storage_to_dynamic L newcap v hc hty)
        (fun _ w1 h1 => ?_) (fun _ h => h)
      obtain ⟨l, ls, ho1, hh1⟩ := h1
      exact ⟨evolves_of_moved_small hc hty ho1 hh1 hgt (hdelta (by omega)),
        fun _ _ _ => ⟨_, _, owns_of_moved hc ho1 rfl rfl hh1⟩⟩
    · refine ⟨evolves_refl hc (Or.inl ⟨hty, hle⟩), fun cap hcap hlt => ?_⟩
      rw [capacity_of_obj_small N hc hty] at hcap
      simp only [result.ok.injEq, and_true] at hcap
      subst hcap
      exact absurd (Or.inl hlt) hcond
  · rw [wp_bind, wp_of_ok (capacity_of_obj_big N hc hty hb), wp_bind,
      wp_of_ok (is_master_big hc hty hb), wp_bind, wp_of_ok (size_of_obj hc), wp_ite]
    refine ⟨fun hcond => ?_, fun hcond => ?_⟩
    · rw [wp_bind, wp_of_ok (is_small_of_obj hc), wp_ite]
      refine ⟨fun h => by simp [hty] at h, fun _ => ?_⟩
      rw [wp_bind, wp_of_ok (size_of_obj hc)]
      refine wp_mono (wp_change_dynamic_storage L newcap c.size_ v hc hty hb)
        (fun _ w1 h1 => ?_) (fun _ h => h)
      obtain ⟨l, ho1, hh1⟩ := h1
      have hlen : (w.heap.set c.dynamic_storage b.release).length = w.heap.length := by simp
      have hlt : c.size_ < newcap := by
        rcases hcond with h | ⟨_, h⟩
        · omega
        · exact h
      have hcapc : b.capacity ≤ newcap ∨ (b.cnt_references ≠ 1 ∧ c.size_ < newcap) ∨
          N < newcap := by
        rcases hcond with h | ⟨h1, h2⟩
        · exact Or.inl (by omega)
        · exact Or.inr (Or.inl ⟨by simpa using h1, h2⟩)
      exact ⟨evolves_of_moved_big hc hty hb ho1 hh1 hcapc (hdelta hlt),
        fun _ _ _ => ⟨_, _, owns_of_moved (H := w.heap.set c.dynamic_storage b.release)
          hc ho1 hty (by simp) hh1⟩⟩
    · refine ⟨evolves_refl hc (Or.inr ⟨hty, b, hb, hle⟩), fun cap hcap hlt => ?_⟩
      rw [capacity_of_obj_big N hc hty hb] at hcap
      simp only [result.ok.injEq, and_true] at hcap
      subst hcap
      exact absurd (Or.inl hlt) hcond

/-- Every outcome of `reserve(new_capacity)`. -/
theorem wp_reserve (L : layout) {N : Nat} {w : world T} {i : Nat} {c : socow_vector T}
    (newcap : Nat) (hc : w.objs[i]? = some (some c)) (hf : fits N w c) :
    wp (sized.socow_vector.reserve L N i newcap) (fun _ w1 => evolves N i w w1)
      (fun w1 => failed w w1) w :=
  wp_mono (wp_reserve_value L newcap none hc hf (fun h => by simp at h))
    (fun _ _ h => h.1) (fun _ h => h)

/-- Every outcome of `enlarge_capacity(min_capacity, value)`. -/
theorem wp_enlarge_capacity (L : layout) {N : Nat} {w : world T} {i : Nat}
    {c : socow_vector T} (min_capacity : Nat) (v : Option T)
    (hc : w.objs[i]? = some (some c)) (hf : fits N w c)
    (hv : v.isSome = true → c.size_ + 1 ≤ min_capacity) :
    wp (sized.socow_vector.enlarge_capacity L N i min_capacity v)
      (fun _ w1 => evolves N i w w1 ∧
        ∀ cap, capacity N i w = result.ok cap w → cap < min_capacity → ∃ r n, owns w1 i r n)
      (fun w1 => failed w w1) w := by
  obtain ⟨cap, hcap, _⟩ := (fits_iff_capacity hc).mp hf
  unfold sized.socow_vector.enlarge_capacity
  rw [wp_bind, wp_of_ok hcap, wp_ite]
  refine ⟨fun hlt => ?_, fun hge => ⟨evolves_refl hc hf, fun cap2 h2 hlt => ?_⟩⟩
  · refine wp_mono (wp_reserve_value L (max (cap * 2) min_capacity) v hc hf
      (fun h => by have := hv h; omega)) (fun _ w1 h1 => ⟨h1.1, fun cap2 h2 _ => ?_⟩)
      (fun _ h => h)
    rw [hcap] at h2
    simp only [result.ok.injEq, and_true] at h2
    subst h2
    exact h1.2 cap hcap (by omega)
  · rw [hcap] at h2
    simp only [result.ok.injEq, and_true] at h2
    subst h2
    exact absurd hlt hge

/-- Every outcome of `push_back(value)`: when it returns the container evolved and
owns its storage; when it throws, either every object and every buffer is as it
was, or the container evolved (the copy of the value into a free slot failed
after `size_` had been incremented). -/
theorem wp_push_back (L : layout) {N : Nat} {w : world T} {i : Nat} {c : socow_vector T}
    (value : T) (hc : w.objs[i]? = some (some c)) (hf : fits N w c) :
    wp (sized.socow_vector.push_back L N i value)
      (fun _ w1 => evolves N i w w1 ∧ ∃ r n, owns w1 i r n)
      (fun w1 => evolves N i w w1 ∨ failed w w1) w := by
  obtain ⟨cap, hcap, hle⟩ := (fits_iff_capacity hc).mp hf
  unfold sized.socow_vector.push_back
  rw [wp_bind, wp_of_ok (size_of_obj hc), wp_bind, wp_of_ok hcap, wp_ite]
  refine ⟨fun hfull => ?_, fun hroom => ?_⟩
  · exact wp_mono (wp_enlarge_capacity L (c.size_ + 1) (some value) hc hf (fun _ => Nat.le_refl _))
      (fun _ w1 h1 => ⟨h1.1, h1.2 cap hcap (by omega)⟩) (fun _ h => Or.inr h)
  · rw [wp_bind]
    refine wp_mono (wp_data L (fun w1 => evolves N i w w1 ∨ failed w w1) hc hf)
      (fun d w1 h1 => ?_) (fun _ h => h)
    · obtain ⟨hpos, ho, hev, hcap1⟩ := h1
      have hcap1 := hcap1 cap hcap
      obtain ⟨c1, hc1, hn1, _⟩ := obj_of_owns ho
      rw [wp_bind, wp_of_ok (size_of_owns ho), wp_bind,
        wp_of_ok (modify_size_eq hc1 (fun n => n + 1)), hn1]
      have ho2 : owns (w1.set_size i (c.size_ + 1)) i d.base (c.size_ + 1) :=
        owns_set_size ho _
      have hi2 : inplace i d.base w1 (w1.set_size i (c.size_ + 1)) := inplace_set_size i _ _
      rw [wp_bind, wp_value_type_copy]
      have hfin : ∀ (cs : List Bool) (v1 : T),
          wp (construct_at (d.add c.size_) v1)
            (fun _ w4 => evolves N i w w4 ∧ ∃ r n, owns w4 i r n)
            (fun w4 => evolves N i w w4 ∨ failed w w4)
            { w1.set_size i (c.size_ + 1) with copy_throws := cs } := by
        intro cs v1
        have ho3 : owns ({ w1.set_size i (c.size_ + 1) with copy_throws := cs } : world T)
            i d.base (c.size_ + 1) := ho2
        have hi3 := inplace_trans hi2 (inplace_copy_throws ho2 cs)
        unfold construct_at
        rw [wp_write_slot]
        intro l hl hlt
        have hbase : (d.add c.size_).base = d.base := rfl
        rw [hbase]
        have ho4 := owns_set_slots ho3 d.base (l.set (d.add c.size_).pos (some v1))
        have hi4 := inplace_trans hi3 (inplace_set_slots ho3 (l.set (d.add c.size_).pos (some v1)))
        exact ⟨evolves_then_inplace_size hev ho hi4 ho4 hcap1 (by omega), _, _, ho4⟩
      refine ⟨fun hcs => ?_, fun rest hcs => ?_, fun rest hcs => hfin rest value⟩
      · have := hfin (w1.set_size i (c.size_ + 1)).copy_throws value
        rw [copy_throws_self] at this
        exact this
      · have ho3 : owns ({ w1.set_size i (c.size_ + 1) with copy_throws := rest } : world T)
            i d.base (c.size_ + 1) := ho2
        have hi3 := inplace_trans hi2 (inplace_copy_throws ho2 rest)
        exact Or.inl (evolves_then_inplace_size hev ho hi3 ho3 hcap1 (by omega))

/-! ## Every outcome of `pop_back`, `insert`, `erase` and `clear` -/

/-- An observation leaves the world as it is and does not throw. -/
theorem wp_of_observation {m : M T α} (ht : transfers m) (hn : nothrow m)
    {Q : α → world T → Prop} {E : world T → Prop} {w : world T} (h : ∀ a, Q a w) :
    wp m Q E w := by
  rw [wp_iff]
  refine ⟨fun a w1 e => ?_, fun w1 e => absurd e (hn w w1)⟩
  rw [ok_world ht e]
  exact h a

theorem transfers_sub (it first : iterator) : transfers (it.sub first : M T Nat) := by
  unfold iterator.sub
  exact transfers_ite _ (transfers_pure _) transfers_ub

theorem nothrow_sub (it first : iterator) : nothrow (it.sub first : M T Nat) := by
  unfold iterator.sub
  exact nothrow_ite _ (nothrow_pure _) nothrow_ub

theorem transfers_get_index (i : Nat) (pos : iterator) :
    transfers (get_index i pos : M T Nat) :=
  transfers_bind (transfers_data_const i) (fun b => transfers_sub pos b)

theorem nothrow_get_index (i : Nat) (pos : iterator) : nothrow (get_index i pos : M T Nat) :=
  nothrow_bind (nothrow_data_const i) (fun b => nothrow_sub pos b)

/-- Every outcome of `pop_back()` on a container that owns its storage: it works
in place and the container does not grow. -/
theorem wp_pop_back_of_owns (L : layout) (N : Nat) {w : world T} {i : Nat} {r : storage}
    {n : Nat} (E : world T → Prop) (ho : owns w i r n) :
    wp (sized.socow_vector.pop_back L N i) (fun _ w1 => shrinks i r w w1) E w := by
  obtain ⟨cap, hcap⟩ := capacity_of_owns N ho
  obtain ⟨c, hc, hn, _⟩ := obj_of_owns ho
  unfold sized.socow_vector.pop_back
  rw [wp_noexcept, wp_bind, wp_of_ok (size_of_owns ho), wp_ite]
  refine ⟨fun _ => wp_ub, fun hne => ?_⟩
  rw [wp_bind, wp_of_ok hcap, wp_bind, wp_of_ok (sized_make_master_to_of_owns L ho cap (n - 1))]
  simp only [Bool.not_false, if_true]
  rw [wp_bind, wp_of_ok (modify_size_eq hc (fun k => k - 1)), hn]
  have ho2 : owns (w.set_size i (n - 1)) i r (n - 1) := owns_set_size ho _
  have hs2 : shrinks i r w (w.set_size i (n - 1)) := shrinks_set_size ho (Nat.sub_le _ _)
  rw [wp_bind, wp_of_ok (size_of_owns ho2), wp_bind,
    wp_of_ok (sized_operator_index_of_owns L N ho2 (n - 1))]
  exact wp_mono (confined_destroy_at (T := T) (iterator.mk r (n - 1)) _)
    (fun _ w3 h3 => shrinks_trans ho hs2 (shrinks_of_touches ho2 h3))
    (fun _ _ => trivial)

/-- Every outcome of `pop_back()`: the container evolved. -/
theorem wp_pop_back (L : layout) {N : Nat} {w : world T} {i : Nat} {c : socow_vector T}
    (E : world T → Prop) (hc : w.objs[i]? = some (some c)) (hf : fits N w c) :
    wp (sized.socow_vector.pop_back L N i) (fun _ w1 => evolves N i w w1) E w := by
  rcases owns_or_shared hc hf with ⟨r, ho⟩ | ⟨hty, b, hb, hk, hle⟩
  · exact wp_mono (wp_pop_back_of_owns L N E ho)
      (fun _ w1 h => evolves_of_shrinks hc hf ho h) (fun _ h => h)
  · unfold sized.socow_vector.pop_back
    rw [wp_noexcept, wp_bind, wp_of_ok (size_of_obj hc), wp_ite]
    refine ⟨fun _ => wp_ub, fun hne => ?_⟩
    have hcap := capacity_of_obj_big N hc hty hb
    rw [wp_bind, wp_of_ok hcap, wp_bind]
    refine wp_mono (wp_make_master_to L (c.size_ - 1) hc hf hcap (Nat.sub_le _ _))
      (fun cloned w1 h1 => ?_) (fun _ _ => trivial)
    rcases h1 with ⟨_, _, r, ho⟩ | ⟨hcl, hev, _, _⟩
    · have h1 := is_master_of_owns ho
      rw [is_master_big hc hty hb] at h1
      simp [hk] at h1
    · subst hcl
      exact hev

/-- Every outcome of `insert(pos, value)`: the container evolved, or the call threw
and left every object and every buffer as it was. -/
theorem wp_insert (L : layout) {N : Nat} {w : world T} {i : Nat} {c : socow_vector T}
    (pos : iterator) (value : T) (hc : w.objs[i]? = some (some c)) (hf : fits N w c) :
    wp (sized.socow_vector.insert L N i pos value) (fun _ w1 => evolves N i w w1)
      (fun w1 => evolves N i w w1 ∨ failed w w1) w := by
  unfold sized.socow_vector.insert
  rw [wp_bind]
  refine wp_of_observation (transfers_get_index i pos) (nothrow_get_index i pos) (fun id => ?_)
  rw [wp_bind]
  refine wp_mono (wp_push_back L value hc hf) (fun _ w1 h1 => ?_) (fun _ h => h)
  obtain ⟨hev, r, n, ho⟩ := h1
  rw [wp_bind, wp_of_ok (size_of_owns ho), wp_bind]
  refine wp_mono (wp_for_range (I := fun w2 => touches r w1 w2)
    (E := fun w2 => evolves N i w w2 ∨ failed w w2) (fun k w2 h2 => ?_) (n - 1 - id) id w1
    (touches_refl r w1)) (fun _ w2 h2 => ?_) (fun _ h => h)
  · have ho2 := owns_of_touches ho h2
    rw [wp_bind, wp_of_ok (sized_back_of_owns L N ho2), wp_bind,
      wp_of_ok (sized_operator_index_of_owns L N ho2 k)]
    have := confined_std_swap (T := T) r (n - 1) k w2
    rw [wp_iff] at this ⊢
    refine ⟨fun a w3 e3 => touches_trans h2 (this.1 a w3 e3), fun w3 e3 => ?_⟩
    exact Or.inl (evolves_then_shrinks hev ho
      (shrinks_of_touches ho (touches_trans h2 (this.2 w3 e3))))
  · have ho2 := owns_of_touches ho h2
    rw [wp_bind, wp_of_ok (sized_begin_of_owns L N ho2)]
    exact evolves_then_shrinks hev ho (shrinks_of_touches ho h2)

/-- Every outcome of `erase(first, last)`: the container evolved, or the call threw
and left every object and every buffer as it was. -/
theorem wp_erase (L : layout) {N : Nat} {w : world T} {i : Nat} {c : socow_vector T}
    (first last : iterator) (hc : w.objs[i]? = some (some c)) (hf : fits N w c) :
    wp (sized.socow_vector.erase L N i first last) (fun _ w1 => evolves N i w w1)
      (fun w1 => failed w w1) w := by
  unfold sized.socow_vector.erase
  rw [wp_bind]
  refine wp_of_observation (transfers_get_index i first) (nothrow_get_index i first)
    (fun first_id => ?_)
  rw [wp_bind]
  refine wp_of_observation (transfers_get_index i last) (nothrow_get_index i last)
    (fun last_id => ?_)
  rw [wp_ite]
  refine ⟨fun _ => wp_ub, fun _ => ?_⟩
  rw [wp_bind]
  refine wp_mono (wp_make_master L hc hf) (fun _ w1 h1 => ?_) (fun _ h => h)
  obtain ⟨hev, ⟨r, ho⟩, _⟩ := h1
  have hstep : ∀ w2, shrinks i r w1 w2 → ∃ m, owns w2 i r m := fun w2 h2 => by
    obtain ⟨m, hm, _⟩ := size_of_shrinks ho h2
    exact ⟨m, hm⟩
  rw [wp_bind, wp_of_ok (size_of_owns ho), wp_bind]
  refine wp_mono (wp_for_range (I := fun w2 => shrinks i r w1 w2)
    (E := fun w2 => failed w w2) (fun k w2 h2 => ?_) _ first_id w1
    (shrinks_refl ho)) (fun _ w2 h2 => ?_) (fun _ h => h)
  · obtain ⟨m, ho2⟩ := hstep w2 h2
    rw [wp_bind, wp_of_ok (sized_operator_index_of_owns L N ho2 k), wp_bind,
      wp_of_ok (sized_operator_index_of_owns L N ho2 _)]
    have := confined_std_swap (T := T) r k (k + (last_id - first_id)) w2
    rw [wp_iff] at this ⊢
    refine ⟨fun a w3 e3 => shrinks_trans ho h2 (shrinks_of_touches ho2 (this.1 a w3 e3)),
      fun w3 e3 => ?_⟩
    exact absurd e3 (by
      intro e
      have hn : nothrow (std_swap (iterator.mk r k)
          (iterator.mk r (k + (last_id - first_id))) : M T Unit) := by
        unfold std_swap
        exact nothrow_bind (nothrow_deref _) (fun _ => nothrow_bind (nothrow_deref _)
          (fun _ => nothrow_bind (nothrow_bind (nothrow_deref _)
            (fun _ => nothrow_write_slot _ _)) (fun _ => nothrow_bind (nothrow_deref _)
              (fun _ => nothrow_write_slot _ _))))
      exact hn w2 w3 e)
  · rw [wp_bind]
    refine wp_mono (wp_for_range (I := fun w3 => shrinks i r w1 w3)
      (E := fun w3 => failed w w3) (fun k w3 h3 => ?_) _ 0 w2 h2) (fun _ w3 h3 => ?_)
      (fun _ h => h)
    · obtain ⟨m, ho3⟩ := hstep w3 h3
      exact wp_mono (wp_pop_back_of_owns L N (fun w4 => failed w w4) ho3)
        (fun _ w4 h4 => shrinks_trans ho h3 h4) (fun _ h => h)
    · obtain ⟨m, ho3⟩ := hstep w3 h3
      rw [wp_bind, wp_of_ok (sized_begin_of_owns L N ho3)]
      exact evolves_then_shrinks hev ho h3

theorem wp_erase_pos (L : layout) {N : Nat} {w : world T} {i : Nat} {c : socow_vector T}
    (pos : iterator) (hc : w.objs[i]? = some (some c)) (hf : fits N w c) :
    wp (sized.socow_vector.erase_pos L N i pos) (fun _ w1 => evolves N i w w1)
      (fun w1 => failed w w1) w :=
  wp_erase L pos (pos.add 1) hc hf

/-- Every outcome of `clear()`: the container evolved. -/
theorem wp_clear (L : layout) {N : Nat} {w : world T} {i : Nat} {c : socow_vector T}
    (E : world T → Prop) (hc : w.objs[i]? = some (some c)) (hf : fits N w c) :
    wp (sized.socow_vector.clear L N i) (fun _ w1 => evolves N i w w1) E w := by
  unfold sized.socow_vector.clear
  rw [wp_noexcept, wp_bind]
  refine wp_mono (wp_destroy_storage i w) (fun _ w1 h1 => ?_) (fun _ _ => trivial)
  rcases h1 with ⟨r, n, ho, ht⟩ | ⟨hm, e⟩
  · have ho1 := owns_of_touches ho ht
    obtain ⟨c1, hc1, hn1, _⟩ := obj_of_owns ho1
    rw [wp_bind, wp_of_ok (is_master_of_owns ho1)]
    simp only [Bool.not_true, Bool.false_eq_true, if_false]
    rw [wp_bind, wp_pure, wp_of_ok (modify_size_eq hc1 (fun _ => 0))]
    exact evolves_of_shrinks hc hf ho
      (shrinks_trans ho (shrinks_of_touches ho ht) (shrinks_set_size ho1 (Nat.zero_le _)))
  · subst e
    rcases owns_or_shared hc hf with ⟨r, ho⟩ | ⟨hty, b, hb, hk, hle⟩
    · rw [is_master_of_owns ho] at hm
      simp at hm
    · rw [wp_bind, wp_of_ok hm]
      simp only [Bool.not_false, if_true]
      rw [wp_bind, wp_of_ok (capacity_of_obj_big N hc hty hb), wp_bind]
      refine wp_mono (wp_reset L b.capacity hc hb) (fun _ w2 h2 => ?_) (fun _ _ => trivial)
      obtain ⟨l, ho2, hh2⟩ := h2
      have hc2 := obj_of_set hc ho2
      rw [wp_modify_obj]
      intro c2 hc2b
      rw [hc2] at hc2b
      simp only [Option.some.injEq] at hc2b
      subst hc2b
      refine @evolves_of_moved_big T N _ _ _ _ _ b.capacity 0 l hc hty hb ?_ hh2
        (Or.inl (Nat.le_refl _)) (Nat.zero_le _)
      simp only [ho2, List.set_set]

/-! ## The global invariant under steps on several containers -/

theorem twins_refl (w : world T) : twins w w :=
  fun j cj hc ht => ⟨j, cj, hc, ht, rfl, rfl⟩

theorem twins_trans {w w1 w2 : world T} (h1 : twins w w1) (h2 : twins w1 w2) : twins w w2 := by
  intro j cj hc ht
  obtain ⟨j1, c1, hc1, ht1, hd1, hs1⟩ := h2 j cj hc ht
  obtain ⟨j0, c0, hc0, ht0, hd0, hs0⟩ := h1 j1 c1 hc1 ht1
  exact ⟨j0, c0, hc0, ht0, hd0.trans hd1, hs0.trans hs1⟩

theorem twins_of_objs_eq {w w1 : world T} (h : w1.objs = w.objs) : twins w w1 :=
  fun j cj hc ht => ⟨j, cj, by rw [← h]; exact hc, ht, rfl, rfl⟩

theorem keeps_refl (w : world T) : keeps w w :=
  fun _ b hb => ⟨b, hb, rfl, Nat.le_refl _⟩

theorem keeps_trans {w w1 w2 : world T} (h1 : keeps w w1) (h2 : keeps w1 w2) : keeps w w2 := by
  intro p b hb
  obtain ⟨b1, hb1, ha1, hk1⟩ := h1 p b hb
  obtain ⟨b2, hb2, ha2, hk2⟩ := h2 p b1 hb1
  exact ⟨b2, hb2, ha2.trans ha1, Nat.le_trans hk1 hk2⟩

theorem keeps_of_cells {w w1 : world T}
    (h : ∀ (q : Nat) (b : buffer T), w.heap[q]? = some (some b) → w1.heap[q]? = some (some b)) :
    keeps w w1 :=
  fun p b hb => ⟨b, h p b hb, rfl, Nat.le_refl _⟩

/-- When every big container has a twin and the shared buffers keep their slots,
the shared buffers and the sizes of their owners are left alone. -/
theorem quiet_of_twins {N : Nat} {w w1 : world T} (hwf : wf N w) (ht : twins w w1)
    (hk : ∀ (p : Nat) (b : buffer T), w.heap[p]? = some (some b) → 1 < b.cnt_references →
      ∃ b1, w1.heap[p]? = some (some b1) ∧ b1.arr = b.arr) : quiet w w1 := by
  intro p b hb hsh
  refine ⟨hk p b hb hsh, fun j c c1 hc hc1 hty hd hty1 hd1 => ?_⟩
  obtain ⟨j0, c0, hc0, ht0, hd0, hs0⟩ := ht j c1 hc1 hty1
  rw [← hs0]
  exact hwf.2.2.1 j0 j c0 c hc0 hc ht0 hty (by rw [hd0, hd1, hd])

theorem quiet_of_keeps {N : Nat} {w w1 : world T} (hwf : wf N w) (ht : twins w w1)
    (hk : keeps w w1) : quiet w w1 :=
  quiet_of_twins hwf ht (fun p b hb _ => by
    obtain ⟨b1, hb1, ha, _⟩ := hk p b hb
    exact ⟨b1, hb1, ha⟩)

theorem holds_of_alike {c1 c2 : socow_vector T} (p : Nat) (h : alike c1 c2) :
    holds p (some c1) = holds p (some c2) := by
  obtain ⟨ht, _, hd⟩ := h
  cases e : c2.type
  · rw [holds_false_of_small p e, holds_false_of_small p (ht.trans e)]
  · rw [holds_eq_of_big p e, holds_eq_of_big p (ht.trans e), hd e]

theorem alike_refl (c : socow_vector T) : alike c c := ⟨rfl, rfl, fun _ => rfl⟩

/-- The global invariant in a world whose live buffers are those of `w` and whose
containers are small and fit, or are big and have a twin in `w`. -/
theorem wf_of_rearranged {N : Nat} {w w1 : world T} (hwf : wf N w)
    (hcell : ∀ (p : Nat) (b : buffer T), w1.heap[p]? = some (some b) ↔
      w.heap[p]? = some (some b))
    (hcount : ∀ p, holders w1 p = holders w p)
    (hsmall : ∀ (j : Nat) (cj : socow_vector T), w1.objs[j]? = some (some cj) →
      cj.type = vector_type.SMALL → cj.size_ ≤ N)
    (htw : twins w w1) : wf N w1 ∧ twins w w1 ∧ keeps w w1 ∧ quiet w w1 := by
  have hk : keeps w w1 := keeps_of_cells (fun p b hb => (hcell p b).mpr hb)
  refine ⟨⟨fun j cj hcj => ?_, fun p b hb => ?_, fun x y cx cy hcx hcy htx hty hd => ?_,
    fun j cj b hcj htyj hb hsh => ?_⟩, htw, hk, quiet_of_keeps hwf htw hk⟩
  · cases hty : cj.type with
    | SMALL => exact Or.inl ⟨hty, hsmall j cj hcj hty⟩
    | BIG =>
      obtain ⟨j0, c0, hc0, ht0, hd0, hs0⟩ := htw j cj hcj hty
      rcases hwf.1 j0 c0 hc0 with ⟨h, _⟩ | ⟨_, b, hb, hle⟩
      · rw [ht0] at h; cases h
      · exact Or.inr ⟨hty, b, by rw [← hd0]; exact (hcell _ b).mpr hb, by omega⟩
  · rw [hcount]
    exact hwf.2.1 p b ((hcell p b).mp hb)
  · obtain ⟨x0, cx0, h1, h2, h3, h4⟩ := htw x cx hcx htx
    obtain ⟨y0, cy0, g1, g2, g3, g4⟩ := htw y cy hcy hty
    rw [← h4, ← g4]
    exact hwf.2.2.1 x0 y0 cx0 cy0 h1 g1 h2 g2 (by rw [h3, g3, hd])
  · obtain ⟨j0, c0, h1, h2, h3, h4⟩ := htw j cj hcj htyj
    rw [← h4]
    exact hwf.2.2.2 j0 c0 b h1 h2 (by rw [h3]; exact (hcell _ b).mp hb) hsh

/-- The cells of live buffers are the same when the heap is the same or has got a
dead cell at the end. -/
theorem cells_of_failed_heap {w w1 : world T}
    (hh : w1.heap = w.heap ∨ w1.heap = w.heap ++ [none]) (p : Nat) (b : buffer T) :
    w1.heap[p]? = some (some b) ↔ w.heap[p]? = some (some b) := by
  rcases hh with e | e
  · rw [e]
  · rw [e]
    rcases Nat.lt_trichotomy p w.heap.length with hlt | heq | hgt
    · rw [List.getElem?_append_left hlt]
    · subst heq
      simp only [List.getElem?_concat_length]
      constructor
      · intro h; cases h
      · intro h
        have := lt_length_of_getElem? h
        omega
    · constructor
      · intro h
        have := lt_length_of_getElem? h
        simp at this
        omega
      · intro h
        have := lt_length_of_getElem? h
        omega

/-- A new container is added, small and fitting, or no container at all. -/
theorem wf_append {N : Nat} {w w1 : world T} {o1 : Option (socow_vector T)} (hwf : wf N w)
    (ho : w1.objs = w.objs ++ [o1]) (hheap : w1.heap = w.heap)
    (hnew : ∀ cn, o1 = some cn → cn.type = vector_type.SMALL ∧ cn.size_ ≤ N) :
    wf N w1 ∧ twins w w1 ∧ keeps w w1 ∧ quiet w w1 := by
  have hcases : ∀ (j : Nat) (cj : socow_vector T), w1.objs[j]? = some (some cj) →
      (o1 = some cj) ∨ w.objs[j]? = some (some cj) := by
    intro j cj hcj
    by_cases hj : j = w.objs.length
    · left
      subst hj
      rw [ho] at hcj
      simpa using hcj
    · right
      have hlt : j < w.objs.length := by
        have := lt_length_of_getElem? hcj
        rw [ho] at this
        simp at this
        omega
      rw [ho, List.getElem?_append_left hlt] at hcj
      exact hcj
  refine wf_of_rearranged hwf (fun p b => by rw [hheap]) (fun p => ?_)
    (fun j cj hcj hty => ?_) (fun j cj hcj hty => ?_)
  · rw [holders_append ho p]
    cases o1 with
    | none => simp [holds]
    | some cn => rw [holds_false_of_small p (hnew cn rfl).1]; simp
  · rcases hcases j cj hcj with h | h
    · exact (hnew cj h).2
    · rcases hwf.1 j cj h with ⟨_, hle⟩ | ⟨hb, _⟩
      · exact hle
      · rw [hty] at hb; cases hb
  · rcases hcases j cj hcj with h | h
    · rw [(hnew cj h).1] at hty; cases hty
    · exact ⟨j, cj, h, hty, rfl, rfl⟩

/-- A new big container is added on the buffer of container `o`, which is counted
once more. -/
theorem wf_append_share {N : Nat} {w w1 : world T} {o : Nat} {co cn : socow_vector T}
    {b : buffer T} (hwf : wf N w) (hco : w.objs[o]? = some (some co))
    (htyo : co.type = vector_type.BIG) (hb : w.heap[co.dynamic_storage]? = some (some b))
    (hlarge : N < co.size_)
    (ho : w1.objs = w.objs ++ [some cn])
    (hheap : w1.heap = w.heap.set co.dynamic_storage
      (some { b with cnt_references := b.cnt_references + 1 }))
    (hty : cn.type = vector_type.BIG) (hd : cn.dynamic_storage = co.dynamic_storage)
    (hsz : cn.size_ = co.size_) : wf N w1 ∧ twins w w1 ∧ keeps w w1 ∧ quiet w w1 := by
  have hP := lt_length_of_getElem? hb
  have hcases : ∀ (j : Nat) (cj : socow_vector T), w1.objs[j]? = some (some cj) →
      (j = w.objs.length ∧ cj = cn) ∨ (j ≠ w.objs.length ∧ w.objs[j]? = some (some cj)) := by
    intro j cj hcj
    by_cases hj : j = w.objs.length
    · left
      subst hj
      rw [ho] at hcj
      exact ⟨rfl, by simpa using hcj.symm⟩
    · right
      have hlt : j < w.objs.length := by
        have := lt_length_of_getElem? hcj
        rw [ho] at this
        simp at this
        omega
      rw [ho, List.getElem?_append_left hlt] at hcj
      exact ⟨hj, hcj⟩
  have htwin : twins w w1 := by
    intro j cj hcj htyj
    rcases hcases j cj hcj with ⟨_, rfl⟩ | ⟨_, hcj0⟩
    · exact ⟨o, co, hco, htyo, hd.symm, hsz.symm⟩
    · exact ⟨j, cj, hcj0, htyj, rfl, rfl⟩
  have hcell : ∀ (p : Nat) (b0 : buffer T), w.heap[p]? = some (some b0) →
      ∃ b1, w1.heap[p]? = some (some b1) ∧ b1.arr = b0.arr ∧ b1.capacity = b0.capacity ∧
        b0.cnt_references ≤ b1.cnt_references := by
    intro p b0 hb0
    by_cases e : p = co.dynamic_storage
    · subst e
      rw [hb] at hb0
      simp only [Option.some.injEq] at hb0
      subst hb0
      exact ⟨{ b with cnt_references := b.cnt_references + 1 }, by rw [hheap]; simp [hP],
        rfl, rfl, by simp⟩
    · exact ⟨b0, by rw [hheap, List.getElem?_set_ne (Ne.symm e)]; exact hb0, rfl, rfl,
        Nat.le_refl _⟩
  have hkeeps : keeps w w1 := fun p b0 hb0 => by
    obtain ⟨b1, h1, h2, _, h4⟩ := hcell p b0 hb0
    exact ⟨b1, h1, h2, h4⟩
  refine ⟨⟨fun j cj hcj => ?_, fun p b1 hb1 => ?_,
    fun a c ca cb hca hcb hta htb hdd => ?_, fun j cj b1 hcj htyj hb1 hsh => ?_⟩,
    htwin, hkeeps, quiet_of_keeps hwf htwin hkeeps⟩
  · cases htj : cj.type with
    | SMALL =>
      rcases hcases j cj hcj with ⟨_, rfl⟩ | ⟨_, hcj0⟩
      · rw [hty] at htj; cases htj
      · rcases hwf.1 j cj hcj0 with ⟨_, hle⟩ | ⟨h, _⟩
        · exact Or.inl ⟨htj, hle⟩
        · rw [htj] at h; cases h
    | BIG =>
      obtain ⟨j0, c0, hc0, ht0, hd0, hs0⟩ := htwin j cj hcj htj
      rcases hwf.1 j0 c0 hc0 with ⟨h, _⟩ | ⟨_, b0, hb0, hle⟩
      · rw [ht0] at h; cases h
      · obtain ⟨b1, h1, _, h3, _⟩ := hcell _ b0 hb0
        exact Or.inr ⟨htj, b1, by rw [← hd0]; exact h1, by omega⟩
  · rw [holders_append ho p, holds_eq_of_big p hty, hd]
    by_cases e : p = co.dynamic_storage
    · subst e
      rw [hheap] at hb1
      simp only [List.getElem?_set_self, hP, List.getElem?_eq_getElem, Option.some.injEq,
        List.length_set, List.getElem_set_self] at hb1
      subst hb1
      obtain ⟨h1, h2, h3⟩ := hwf.2.1 _ b hb
      simp only [decide_True, if_true]
      exact ⟨by omega, by omega, h3⟩
    · rw [hheap, List.getElem?_set_ne (Ne.symm e)] at hb1
      have hne : ¬ co.dynamic_storage = p := fun h => e h.symm
      simp only [hne, decide_False, Bool.false_eq_true, if_false, Nat.add_zero]
      exact hwf.2.1 p b1 hb1
  · obtain ⟨a0, ca0, h1, h2, h3, h4⟩ := htwin a ca hca hta
    obtain ⟨b0, cb0, g1, g2, g3, g4⟩ := htwin c cb hcb htb
    rw [← h4, ← g4]
    exact hwf.2.2.1 a0 b0 ca0 cb0 h1 g1 h2 g2 (by rw [h3, g3, hdd])
  · obtain ⟨j0, c0, h1, h2, h3, h4⟩ := htwin j cj hcj htyj
    rw [← h4]
    by_cases e : cj.dynamic_storage = co.dynamic_storage
    · rw [hwf.2.2.1 j0 o c0 co h1 hco h2 htyo (by rw [h3, e])]
      exact hlarge
    · rw [hheap, List.getElem?_set_ne (Ne.symm e)] at hb1
      rw [← h3] at hb1
      exact hwf.2.2.2 j0 c0 b1 h1 h2 hb1 hsh

/-- A container is destroyed: its cell is empty and its buffer, when it is big, is
released once. -/
theorem wf_cleanup {N : Nat} {w w1 : world T} {m : Nat} {c : socow_vector T}
    (hwf : wf N w) (hc : w.objs[m]? = some (some c)) (ho : w1.objs = w.objs.set m none)
    (hheap : (c.type = vector_type.SMALL ∧ w1.heap = w.heap) ∨
      (c.type = vector_type.BIG ∧ ∃ b, w.heap[c.dynamic_storage]? = some (some b) ∧
        w1.heap = w.heap.set c.dynamic_storage b.release)) :
    wf N w1 ∧ twins w w1 ∧ quiet w w1 := by
  have hold : ∀ (j : Nat) (cj : socow_vector T), w1.objs[j]? = some (some cj) →
      j ≠ m ∧ w.objs[j]? = some (some cj) := by
    intro j cj hcj
    have hi := lt_length_of_getElem? hc
    by_cases e : j = m
    · subst e
      rw [ho] at hcj
      simp [hi] at hcj
    · rw [ho, List.getElem?_set_ne (Ne.symm e)] at hcj
      exact ⟨e, hcj⟩
  have htwin : twins w w1 := fun j cj hcj hty => ⟨j, cj, (hold j cj hcj).2, hty, rfl, rfl⟩
  have hcount : ∀ p, holders w1 p + (if holds p (some c) then 1 else 0) = holders w p := by
    intro p
    have := holders_set hc ho p
    simpa [holds] using this
  have hcell : ∀ (p : Nat) (b1 : buffer T), w1.heap[p]? = some (some b1) →
      ∃ b, w.heap[p]? = some (some b) ∧ b1.arr = b.arr ∧ b1.capacity = b.capacity ∧
        b1.cnt_references ≤ b.cnt_references ∧
        b1.cnt_references + (if holds p (some c) then 1 else 0) = b.cnt_references ∧
        1 ≤ b1.cnt_references := by
    intro p b1 hb1
    rcases hheap with ⟨hty, hh⟩ | ⟨hty, b, hb, hh⟩
    · rw [hh] at hb1
      rw [holds_false_of_small p hty]
      exact ⟨b1, hb1, rfl, rfl, le_refl _, by simp, (hwf.2.1 p b1 hb1).2.1⟩
    · rw [holds_eq_of_big p hty]
      have hP := lt_length_of_getElem? hb
      by_cases e : c.dynamic_storage = p
      · subst e
        rw [hh] at hb1
        simp only [List.getElem?_set_self, hP, List.getElem?_eq_getElem,
          List.getElem_set_self, Option.some.injEq, List.length_set] at hb1
        have h1 := (hwf.2.1 _ b hb).2.1
        by_cases hcnt : b.cnt_references = 1
        · simp [buffer.release, hcnt] at hb1
        · simp only [buffer.release, hcnt, if_false, Option.some.injEq] at hb1
          subst hb1
          refine ⟨b, hb, rfl, rfl, by simp, ?_, ?_⟩
          · simp only [decide_True, if_true]
            omega
          · simp only
            omega
      · rw [hh, List.getElem?_set_ne e] at hb1
        simp only [e, decide_False, Bool.false_eq_true, if_false]
        exact ⟨b1, hb1, rfl, rfl, le_refl _, by simp, (hwf.2.1 p b1 hb1).2.1⟩
  have hfwd : ∀ (p : Nat) (b : buffer T), w.heap[p]? = some (some b) →
      (c.type = vector_type.BIG → c.dynamic_storage = p → b.cnt_references ≠ 1) →
      ∃ b1, w1.heap[p]? = some (some b1) ∧ b1.arr = b.arr ∧ b1.capacity = b.capacity := by
    intro p b hb hne
    rcases hheap with ⟨_, hh⟩ | ⟨hty, b0, hb0, hh⟩
    · exact ⟨b, by rw [hh]; exact hb, rfl, rfl⟩
    · have hP := lt_length_of_getElem? hb0
      by_cases e : c.dynamic_storage = p
      · subst e
        rw [hb0] at hb
        simp only [Option.some.injEq] at hb
        subst hb
        have hcnt : b0.cnt_references ≠ 1 := hne hty rfl
        exact ⟨{ b0 with cnt_references := b0.cnt_references - 1 },
          by rw [hh]; simp [buffer.release, hcnt, hP], rfl, rfl⟩
      · exact ⟨b, by rw [hh, List.getElem?_set_ne e]; exact hb, rfl, rfl⟩
  refine ⟨⟨fun j cj hcj => ?_, fun p b1 hb1 => ?_,
    fun x y cx cy hcx hcy htx hty hd => ?_, fun j cj b1 hcj htyj hb1 hsh => ?_⟩, htwin,
    quiet_of_twins hwf htwin (fun p b hb hsh => ?_)⟩
  · obtain ⟨hjm, hcj0⟩ := hold j cj hcj
    rcases hwf.1 j cj hcj0 with hs | ⟨hty, b, hb, hle⟩
    · exact Or.inl hs
    · obtain ⟨b1, hb1, _, hcap⟩ := hfwd _ b hb (fun htc hdc => by
        have := wf_share_two hwf (Ne.symm hjm) hc hcj0 htc hty hdc.symm (by rw [hdc]; exact hb)
        omega)
      exact Or.inr ⟨hty, b1, hb1, by omega⟩
  · obtain ⟨b, hb, _, hcap, _, hk, hpos⟩ := hcell p b1 hb1
    obtain ⟨g1, _, g3⟩ := hwf.2.1 p b hb
    have := hcount p
    exact ⟨by omega, hpos, by omega⟩
  · exact hwf.2.2.1 x y cx cy (hold x cx hcx).2 (hold y cy hcy).2 htx hty hd
  · obtain ⟨b, hb, _, _, hle, _⟩ := hcell _ b1 hb1
    exact hwf.2.2.2 j cj b (hold j cj hcj).2 htyj hb (by omega)
  · obtain ⟨b1, hb1, ha, _⟩ := hfwd p b hb (fun _ _ => by omega)
    exact ⟨b1, hb1, ha⟩

/-! ## Every outcome of the copy constructor and of the destructor -/

/-- Every outcome of the copy constructor: it returns a new container with the
size of the source, small with the heap untouched when the size is at most `N`,
else big on the buffer of the source, which got one more reference; or it throws,
and the object whose construction failed does not exist. -/
theorem wp_copy_ctor {N : Nat} {w : world T} {o : Nat} {co : socow_vector T}
    (hco : w.objs[o]? = some (some co)) (hf : fits N w co) :
    wp (copy_ctor N o)
      (fun m w1 => m = w.objs.length ∧ ∃ cn, w1.objs = w.objs ++ [some cn] ∧
        cn.size_ = co.size_ ∧
        ((cn.type = vector_type.SMALL ∧ co.size_ ≤ N ∧ w1.heap = w.heap) ∨
         (cn.type = vector_type.BIG ∧ N < co.size_ ∧ co.type = vector_type.BIG ∧
           cn.dynamic_storage = co.dynamic_storage ∧
           ∃ b, w.heap[co.dynamic_storage]? = some (some b) ∧
             w1.heap = w.heap.set co.dynamic_storage
               (some { b with cnt_references := b.cnt_references + 1 }))))
      (fun w1 => w1.objs = w.objs ++ [none] ∧ w1.heap = w.heap) w := by
  have ho := lt_length_of_getElem? hco
  unfold copy_ctor
  rw [wp_bind, wp_of_ok (size_of_obj hco), wp_bind, wp_new_obj]
  generalize hcnew : (socow_vector.mk
    (if co.size_ ≤ N then vector_type.SMALL else vector_type.BIG) co.size_ 0
    (List.replicate N none)) = cnew
  generalize hw0 : ({ w with objs := w.objs ++ [some cnew] } : world T) = w0
  have hco0 : w0.objs[o]? = some (some co) := by
    rw [← hw0]
    simp only
    rw [List.getElem?_append_left ho]
    exact hco
  have hnew0 : w0.objs[w.objs.length]? = some (some cnew) := by
    rw [← hw0]; simp
  have hobjs0 : w0.objs = w.objs ++ [some cnew] := by rw [← hw0]
  have hheap0 : w0.heap = w.heap := by rw [← hw0]
  rw [wp_bind, wp_try_catch, wp_bind, wp_of_ok (size_of_obj hco0), wp_ite]
  refine ⟨fun hle => ?_, fun hgt => ?_⟩
  · rw [wp_bind]
    refine wp_of_observation (transfers_data_const o) (nothrow_data_const o) (fun d => ?_)
    rw [wp_bind, wp_of_ok (size_of_obj hco0)]
    refine wp_mono (confined_uninitialized_copy d co.size_
      (iterator.mk (storage.static_storage w.objs.length) 0) w0) (fun _ w1 h1 => ?_)
      (fun w1 h1 => ?_)
    · obtain ⟨hh1, ho1⟩ := touches_static h1
      rw [wp_pure]
      refine ⟨rfl, ?_⟩
      rcases ho1 with ⟨c1, l, hc1, e⟩ | e
      · rw [hnew0] at hc1
        simp only [Option.some.injEq] at hc1
        subst hc1
        refine ⟨{ cnew with static_storage := l }, ?_, by rw [← hcnew],
          Or.inl ⟨by rw [← hcnew]; simp [hle], hle, hh1.trans hheap0⟩⟩
        rw [e, hobjs0, set_append_last]
      · exact ⟨cnew, by rw [e, hobjs0], by rw [← hcnew],
          Or.inl ⟨by rw [← hcnew]; simp [hle], hle, hh1.trans hheap0⟩⟩
    · obtain ⟨hh1, ho1⟩ := touches_static h1
      rw [wp_free_obj]
      intro c1 hc1
      refine ⟨?_, hh1.trans hheap0⟩
      simp only
      rcases ho1 with ⟨c2, l, hc2, e⟩ | e
      · rw [e, List.set_set, hobjs0, set_append_last]
      · rw [e, hobjs0, set_append_last]
  · rcases hf with ⟨_, hle⟩ | ⟨hty, b, hb, hle⟩
    · exact absurd hle hgt
    · have hb0 : w0.heap[co.dynamic_storage]? = some (some b) := by rw [hheap0]; exact hb
      rw [wp_bind, wp_get_obj]
      intro c0 hc0
      rw [hco0] at hc0
      simp only [Option.some.injEq] at hc0
      subst hc0
      unfold my_shared_ptr.copy_ctor
      rw [wp_bind, wp_bind, wp_modify_buf]
      intro b1 hb1
      rw [hb0] at hb1
      simp only [Option.some.injEq] at hb1
      subst hb1
      rw [wp_pure, wp_modify_obj]
      intro c1 hc1
      simp only at hc1
      rw [hnew0] at hc1
      simp only [Option.some.injEq] at hc1
      subst hc1
      rw [wp_pure]
      refine ⟨rfl, { cnew with dynamic_storage := co.dynamic_storage }, ?_, by rw [← hcnew],
        Or.inr ⟨by rw [← hcnew]; simp [hgt], by omega, hty, rfl, b, hb, ?_⟩⟩
      · simp only
        rw [hobjs0, set_append_last]
      · simp only
        rw [hheap0]

/-- Every outcome of the destructor followed by the end of the object: the cell
of the object is empty and its buffer, when it is big, is released once. -/
theorem wp_cleanup {N : Nat} {w : world T} {m : Nat} {c : socow_vector T}
    (hc : w.objs[m]? = some (some c)) (hf : fits N w c) :
    wp (dtor m >>= fun _ => free_obj m)
      (fun _ w1 => w1.objs = w.objs.set m none ∧
        ((c.type = vector_type.SMALL ∧ w1.heap = w.heap) ∨
         (c.type = vector_type.BIG ∧ ∃ b, w.heap[c.dynamic_storage]? = some (some b) ∧
           w1.heap = w.heap.set c.dynamic_storage b.release)))
      (fun _ => False) w := by
  have hi := lt_length_of_getElem? hc
  unfold dtor
  rw [wp_bind, wp_noexcept, wp_bind]
  refine wp_mono (wp_destroy_storage m w) (fun _ w1 h1 => ?_) (fun _ _ => trivial)
  rcases hf with ⟨hty, _⟩ | ⟨hty, b, hb, _⟩
  · -- a small container
    have hshape : ∃ ls, w1.objs = w.objs.set m (some { c with static_storage := ls }) ∧
        w1.heap = w.heap := by
      rcases h1 with ⟨r, n, ho, ht⟩ | ⟨_, e⟩
      · obtain ⟨c0, hc0, _, hcase⟩ := obj_of_owns ho
        rw [hc] at hc0
        simp only [Option.some.injEq] at hc0
        subst hc0
        rcases hcase with ⟨_, hr⟩ | ⟨hs, _⟩
        · subst hr
          obtain ⟨hh, ho1⟩ := touches_static ht
          rcases ho1 with ⟨c1, l, hc1, e⟩ | e
          · rw [hc] at hc1
            simp only [Option.some.injEq] at hc1
            subst hc1
            exact ⟨l, e, hh⟩
          · exact ⟨c.static_storage, by rw [e, list_set_self _ _ _ hc], hh⟩
        · rw [hty] at hs; cases hs
      · subst e
        exact ⟨c.static_storage, by rw [list_set_self _ _ _ hc], rfl⟩
    obtain ⟨ls, ho1, hh1⟩ := hshape
    have hc1 : w1.objs[m]? = some (some { c with static_storage := ls }) := by
      rw [ho1]; simp [hi]
    rw [wp_bind, wp_of_ok (is_small_of_obj hc1), wp_ite]
    refine ⟨fun h => by simp [hty] at h, fun _ => ?_⟩
    rw [wp_pure, wp_free_obj]
    intro c2 _
    exact ⟨by simp only [ho1, List.set_set], Or.inl ⟨hty, hh1⟩⟩
  · -- a big container
    have hP := lt_length_of_getElem? hb
    have hshape : w1.objs = w.objs ∧ ∃ b1, b1.release = b.release ∧
        w1.heap = w.heap.set c.dynamic_storage (some b1) := by
      rcases h1 with ⟨r, n, ho, ht⟩ | ⟨_, e⟩
      · obtain ⟨c0, hc0, _, hcase⟩ := obj_of_owns ho
        rw [hc] at hc0
        simp only [Option.some.injEq] at hc0
        subst hc0
        rcases hcase with ⟨hs, _⟩ | ⟨_, hr, b0, hb0, hk⟩
        · rw [hty] at hs; cases hs
        · subst hr
          rw [hb] at hb0
          simp only [Option.some.injEq] at hb0
          subst hb0
          obtain ⟨ho1, hh⟩ := touches_arr ht
          rcases hh with ⟨b1, l, hb1, e⟩ | e
          · rw [hb] at hb1
            simp only [Option.some.injEq] at hb1
            subst hb1
            exact ⟨ho1, { b with arr := l }, by simp [buffer.release, hk], e⟩
          · exact ⟨ho1, b, rfl, by rw [e, list_set_self _ _ _ hb]⟩
      · subst e
        exact ⟨rfl, b, rfl, by rw [list_set_self _ _ _ hb]⟩
    obtain ⟨ho1, b1, hrel, hh1⟩ := hshape
    have hc1 : w1.objs[m]? = some (some c) := by rw [ho1]; exact hc
    have hb1 : w1.heap[c.dynamic_storage]? = some (some b1) := by
      rw [hh1]; simp [hP]
    rw [wp_bind, wp_of_ok (is_small_of_obj hc1), wp_ite]
    refine ⟨fun _ => ?_, fun h => absurd (by simp [hty]) h⟩
    rw [wp_bind, wp_get_obj]
    intro c2 hc2
    rw [hc1] at hc2
    simp only [Option.some.injEq] at hc2
    subst hc2
    have hd : ∃ w2, my_shared_ptr.dtor c.dynamic_storage w1 = result.ok () w2 ∧
        w2.objs = w.objs ∧ w2.heap = w.heap.set c.dynamic_storage b.release := by
      by_cases hk : b1.cnt_references = 1
      · refine ⟨{ w1 with heap := w1.heap.set c.dynamic_storage none }, ?_, ho1, ?_⟩
        · simp [my_shared_ptr.dtor, my_shared_ptr.use_count, get_buf, hb1, hk, delete_buf]
        · simp only [hh1, List.set_set]
          rw [← hrel]
          simp [buffer.release, hk]
      · refine ⟨{ w1 with heap := (w1.heap.set c.dynamic_storage
          (some { b1 with cnt_references := b1.cnt_references - 1 })) }, ?_, ho1, ?_⟩
        · simp [my_shared_ptr.dtor, my_shared_ptr.use_count, get_buf, hb1, hk, modify_buf]
        · simp only [hh1, List.set_set]
          rw [← hrel]
          simp [buffer.release, hk]
    obtain ⟨w2, e2, ho2, hh2⟩ := hd
    rw [wp_of_ok e2, wp_free_obj]
    intro c3 _
    exact ⟨by simp only [ho2], Or.inr ⟨hty, b, hb, by simp only [hh2]⟩⟩

/-! ## Code confined to two arrays -/

theorem touches_both_iff {r1 r2 : storage} {w w1 : world T} :
    touches_both r1 r2 w w1 ↔ ∃ w2, touches r1 w w2 ∧ touches r2 w2 w1 := by
  constructor
  · rintro ⟨l1, l2, cs, e⟩
    exact ⟨w.set_slots r1 l1, touches_set_slots r1 w l1, l2, cs, e⟩
  · rintro ⟨w2, ⟨l1, cs1, e1⟩, ⟨l2, cs2, e2⟩⟩
    refine ⟨l1, l2, cs2, ?_⟩
    rw [e2, e1, set_slots_copy_schedule]

theorem touches_both_of_left {r1 : storage} (r2 : storage) {w w1 : world T}
    (h : touches r1 w w1) : touches_both r1 r2 w w1 :=
  touches_both_iff.mpr ⟨w1, h, touches_refl r2 w1⟩

theorem touches_both_of_right (r1 : storage) {r2 : storage} {w w1 : world T}
    (h : touches r2 w w1) : touches_both r1 r2 w w1 :=
  touches_both_iff.mpr ⟨w, touches_refl r1 w, h⟩

theorem touches_both_refl (r1 r2 : storage) (w : world T) : touches_both r1 r2 w w :=
  touches_both_of_left r2 (touches_refl r1 w)

/-- Work on two different arrays can be done in either order. -/
theorem touches_comm {r1 r2 : storage} {w w1 w2 : world T} (h1 : touches r2 w w1)
    (h2 : touches r1 w1 w2) : ∃ w3, touches r1 w w3 ∧ touches r2 w3 w2 := by
  by_cases hr : r1 = r2
  · subst hr
    exact ⟨w2, touches_trans h1 h2, touches_refl _ _⟩
  · obtain ⟨l2, cs1, e1⟩ := h1
    obtain ⟨l1, cs2, e2⟩ := h2
    refine ⟨w.set_slots r1 l1, touches_set_slots r1 w l1, l2, cs2, ?_⟩
    rw [e2, e1, set_slots_copy_schedule, set_slots_comm _ (Ne.symm hr) l2 l1]

theorem touches_both_trans {r1 r2 : storage} {w w1 w2 : world T}
    (h1 : touches_both r1 r2 w w1) (h2 : touches_both r1 r2 w1 w2) :
    touches_both r1 r2 w w2 := by
  obtain ⟨x, hx1, hx2⟩ := touches_both_iff.mp h1
  obtain ⟨y, hy1, hy2⟩ := touches_both_iff.mp h2
  obtain ⟨z, hz1, hz2⟩ := touches_comm hx2 hy1
  exact touches_both_iff.mpr ⟨z, touches_trans hx1 hz1, touches_trans hz2 hy2⟩

theorem confined_both_of_left {r1 : storage} (r2 : storage) {m : M T α}
    (h : confined r1 m) : confined_both r1 r2 m :=
  fun w => wp_mono (h w) (fun _ _ h1 => touches_both_of_left r2 h1)
    (fun _ h1 => touches_both_of_left r2 h1)

theorem confined_both_of_right (r1 : storage) {r2 : storage} {m : M T α}
    (h : confined r2 m) : confined_both r1 r2 m :=
  fun w => wp_mono (h w) (fun _ _ h1 => touches_both_of_right r1 h1)
    (fun _ h1 => touches_both_of_right r1 h1)

theorem confined_both_pure (r1 r2 : storage) (a : α) : confined_both r1 r2 (pure a : M T α) :=
  fun w => touches_both_refl r1 r2 w

theorem confined_both_bind {r1 r2 : storage} {m : M T α} {f : α → M T β}
    (hm : confined_both r1 r2 m) (hf : ∀ a, confined_both r1 r2 (f a)) :
    confined_both r1 r2 (m >>= f) := by
  intro w
  rw [wp_bind]
  exact wp_mono (hm w)
    (fun a w1 h1 => wp_mono (hf a w1) (fun _ w2 h2 => touches_both_trans h1 h2)
      (fun w2 h2 => touches_both_trans h1 h2))
    (fun w1 h1 => h1)

theorem confined_both_for_range {r1 r2 : storage} {body : Nat → M T Unit}
    (h : ∀ k, confined_both r1 r2 (body k)) :
    ∀ n start, confined_both r1 r2 (for_range body start n) := by
  intro n
  induction n with
  | zero => intro start; exact confined_both_pure r1 r2 ()
  | succ n ih =>
    intro start
    unfold for_range
    exact confined_both_bind (h start) (fun _ => ih (start + 1))

theorem confined_both_std_swap (r1 r2 : storage) (a b : Nat) :
    confined_both r1 r2 (std_swap (iterator.mk r1 a) (iterator.mk r2 b) : M T Unit) :=
  confined_both_bind (confined_both_of_left r2 (confined_deref r1 _)) (fun _ =>
    confined_both_bind (confined_both_of_left r2 (confined_deref r1 _)) (fun y =>
      confined_both_bind (confined_both_of_left r2 (confined_assign_at (iterator.mk r1 a) y))
        (fun _ => confined_both_of_right r1 (confined_assign_at (iterator.mk r2 b) _))))

/-- The member `swap_static_storages` changes at most the inline slots of the two
containers. -/
theorem confined_both_swap_static_storages (a b : Nat) :
    confined_both (storage.static_storage a) (storage.static_storage b)
      (swap_static_storages a b : M T Unit) := by
  unfold swap_static_storages
  refine confined_both_bind (confined_both_of_left _ (confined_size _ a)) (fun n => ?_)
  refine confined_both_bind (confined_both_of_left _ (confined_size _ b)) (fun m => ?_)
  refine confined_both_bind (confined_both_for_range
    (fun i => confined_both_std_swap _ _ i i) _ _) (fun _ => ?_)
  refine confined_both_bind (confined_both_of_left _ (confined_size _ a)) (fun n2 => ?_)
  refine confined_both_bind (confined_both_of_left _ (confined_size _ b)) (fun m2 => ?_)
  by_cases hlt : n2 < m2
  · have hge : ¬ n2 ≥ m2 := by omega
    simp only [hlt, hge, if_true, if_false]
    exact confined_both_bind
      (confined_both_of_left _ (confined_uninitialized_copy _ _
        ((iterator.mk (storage.static_storage a) 0).add (min n m))))
      (fun _ => confined_both_of_right _ (confined_for_range
        (fun i => confined_destroy_at ((iterator.mk (storage.static_storage b) 0).add i)) _ _))
  · have hge : n2 ≥ m2 := by omega
    simp only [hlt, hge, if_true, if_false]
    exact confined_both_bind
      (confined_both_of_right _ (confined_uninitialized_copy _ _
        ((iterator.mk (storage.static_storage b) 0).add (min n m))))
      (fun _ => confined_both_of_left _ (confined_for_range
        (fun i => confined_destroy_at ((iterator.mk (storage.static_storage a) 0).add i)) _ _))

/-- What work on the inline slots of two containers leaves: the heap, and of the
two objects all members but the inline slots. -/
theorem touches_both_static {a b : Nat} {w w1 : world T} {ca cb : socow_vector T}
    (ha : w.objs[a]? = some (some ca)) (hb : w.objs[b]? = some (some cb))
    (h : touches_both (storage.static_storage a) (storage.static_storage b) w w1) :
    w1.heap = w.heap ∧ ∃ la lb,
      w1.objs[a]? = some (some { ca with static_storage := la }) ∧
      w1.objs[b]? = some (some { cb with static_storage := lb }) ∧
      w1.objs = (w.objs.set a (some { ca with static_storage := la })).set b
        (some { cb with static_storage := lb }) := by
  obtain ⟨w2, h1, h2⟩ := touches_both_iff.mp h
  have hia := lt_length_of_getElem? ha
  have hib := lt_length_of_getElem? hb
  obtain ⟨hh2, ho2⟩ := touches_static h1
  have ho2b : ∃ la, w2.objs = w.objs.set a (some { ca with static_storage := la }) := by
    rcases ho2 with ⟨c, l, hc, e⟩ | e
    · rw [ha] at hc
      simp only [Option.some.injEq] at hc
      subst hc
      exact ⟨l, e⟩
    · exact ⟨ca.static_storage, by rw [e, list_set_self _ _ _ ha]⟩
  obtain ⟨la, hoa⟩ := ho2b
  obtain ⟨hh1, ho1⟩ := touches_static h2
  by_cases hab : a = b
  · subst hab
    rw [hb] at ha
    simp only [Option.some.injEq] at ha
    subst ha
    have hb2 : w2.objs[a]? = some (some { cb with static_storage := la }) := by
      rw [hoa]; simp [hia]
    have ho1b : ∃ lb, w1.objs = w2.objs.set a (some { cb with static_storage := lb }) := by
      rcases ho1 with ⟨c, l, hc, e⟩ | e
      · rw [hb2] at hc
        simp only [Option.some.injEq] at hc
        subst hc
        exact ⟨l, e⟩
      · exact ⟨la, by rw [e, list_set_self _ _ _ hb2]⟩
    obtain ⟨lb, hob⟩ := ho1b
    refine ⟨hh1.trans hh2, lb, lb, ?_, ?_, ?_⟩
    · rw [hob, hoa]; simp [hia]
    · rw [hob, hoa]; simp [hia]
    · rw [hob, hoa]; simp [List.set_set]
  · have hb2 : w2.objs[b]? = some (some cb) := by
      rw [hoa, List.getElem?_set_ne hab]; exact hb
    have ho1b : ∃ lb, w1.objs = w2.objs.set b (some { cb with static_storage := lb }) := by
      rcases ho1 with ⟨c, l, hc, e⟩ | e
      · rw [hb2] at hc
        simp only [Option.some.injEq] at hc
        subst hc
        exact ⟨l, e⟩
      · exact ⟨cb.static_storage, by rw [e, list_set_self _ _ _ hb2]⟩
    obtain ⟨lb, hob⟩ := ho1b
    refine ⟨hh1.trans hh2, la, lb, ?_, ?_, ?_⟩
    · rw [hob, hoa, List.getElem?_set_ne (Ne.symm hab)]; simp [hia]
    · rw [hob, hoa]; simp [hib]
    · rw [hob, hoa]

/-! ## Every outcome of `swap` -/

theorem world_heap_self (w : world T) : ({ w with heap := w.heap } : world T) = w := by
  cases w; rfl

/-- A handle to a live buffer is copied. -/
theorem copy_ctor_ok {w : world T} {p : Nat} {b : buffer T}
    (hb : w.heap[p]? = some (some b)) :
    my_shared_ptr.copy_ctor p w = result.ok p
      { w with heap := w.heap.set p (some { b with cnt_references := b.cnt_references + 1 }) } := by
  simp [my_shared_ptr.copy_ctor, modify_buf, hb]

/-- The copy of a handle dies again: the buffer is as before. -/
theorem dtor_after_copy {w : world T} {p : Nat} {b : buffer T}
    (hb : w.heap[p]? = some (some b)) (hk : 1 ≤ b.cnt_references) :
    my_shared_ptr.dtor p
      { w with heap := w.heap.set p (some { b with cnt_references := b.cnt_references + 1 }) }
      = result.ok () w := by
  have hp := lt_length_of_getElem? hb
  have hne : ¬ b.cnt_references + 1 = 1 := by omega
  have hb2 : { b with cnt_references := b.cnt_references + 1 - 1 } = b := by
    cases b; simp
  simp only [my_shared_ptr.dtor, my_shared_ptr.use_count, get_buf, bind_run, pure_run,
    List.getElem?_set_self, hp, List.getElem?_eq_getElem, List.length_set,
    List.getElem_set_self, ne_eq, hne, not_false_eq_true, if_true, ite_run, modify_buf,
    List.set_set, hb2, result.ok.injEq, true_and]
  rw [list_set_self _ _ _ hb, world_heap_self]

/-- A container takes a copy of a handle that it holds already, and the handle it
is copied from dies: only the member `dynamic_storage` is written. -/
theorem acquire_release {w : world T} {i p : Nat} {c : socow_vector T} {b : buffer T}
    (hc : w.objs[i]? = some (some c)) (hb : w.heap[p]? = some (some b))
    (hk : 1 ≤ b.cnt_references) :
    ((do
        let q ← my_shared_ptr.copy_ctor p
        modify_obj i (fun c => { c with dynamic_storage := q })) >>= fun _ =>
      my_shared_ptr.dtor p) w
      = result.ok () { w with objs := w.objs.set i (some { c with dynamic_storage := p }) } := by
  have e1 := copy_ctor_ok hb
  have e2 := dtor_after_copy
    (w := { w with objs := w.objs.set i (some { c with dynamic_storage := p }) }) hb hk
  simp only [bind_run, e1, modify_obj, hc]
  exact e2

/-- Every outcome of `swap_data_small_to_big`: it returns with the heap as it was,
the small container holding the handle of the big one, and the inline slots of
both changed; or it throws with the heap as it was and only the inline slots of
the big container changed. -/
theorem wp_swap_data_small_to_big {w : world T} {s g : Nat} {cs cg : socow_vector T}
    {b : buffer T} (hs : w.objs[s]? = some (some cs)) (hg : w.objs[g]? = some (some cg))
    (hts : cs.type = vector_type.SMALL) (htg : cg.type = vector_type.BIG)
    (hb : w.heap[cg.dynamic_storage]? = some (some b)) (hk : 1 ≤ b.cnt_references) :
    wp (swap_data_small_to_big s g)
      (fun _ w1 => w1.heap = w.heap ∧ ∃ ls lg,
        w1.objs = (w.objs.set g (some { cg with static_storage := lg })).set s
          (some { cs with static_storage := ls, dynamic_storage := cg.dynamic_storage }))
      (fun w1 => w1.heap = w.heap ∧ ∃ lg,
        w1.objs = w.objs.set g (some { cg with static_storage := lg })) w := by
  have hsg : s ≠ g := by
    intro e
    subst e
    rw [hs] at hg
    simp only [Option.some.injEq] at hg
    subst hg
    rw [hts] at htg
    cases htg
  have his := lt_length_of_getElem? hs
  have hig := lt_length_of_getElem? hg
  unfold swap_data_small_to_big
  rw [wp_bind, wp_get_obj]
  intro c0 hc0
  rw [hs] at hc0
  simp only [Option.some.injEq] at hc0
  subst hc0
  rw [wp_bind, wp_get_obj]
  intro c1 hc1
  rw [hg] at hc1
  simp only [Option.some.injEq] at hc1
  subst hc1
  rw [wp_ite]
  refine ⟨fun _ => ?_, fun h => absurd ⟨hts, htg⟩ h⟩
  rw [wp_bind, wp_of_ok (copy_ctor_ok hb), wp_scope_exit, wp_bind, wp_get_obj]
  intro c2 hc2
  simp only at hc2
  rw [hg] at hc2
  simp only [Option.some.injEq] at hc2
  subst hc2
  rw [wp_bind, wp_of_ok (dtor_after_copy hb hk), wp_bind, wp_try_catch, wp_bind,
    wp_of_ok (size_of_obj hs)]
  refine wp_mono (confined_uninitialized_copy (iterator.mk (storage.static_storage s) 0)
    cs.size_ (iterator.mk (storage.static_storage g) 0) w) (fun _ w3 h3 => ?_)
    (fun w3 h3 => ?_)
  · -- the copy went through
    obtain ⟨hh3, ho3⟩ := touches_static h3
    have ho3b : ∃ lg, w3.objs = w.objs.set g (some { cg with static_storage := lg }) := by
      rcases ho3 with ⟨c, l, hc, e⟩ | e
      · rw [hg] at hc
        simp only [Option.some.injEq] at hc
        subst hc
        exact ⟨l, e⟩
      · exact ⟨cg.static_storage, by rw [e, list_set_self _ _ _ hg]⟩
    obtain ⟨lg, hog⟩ := ho3b
    have hs3 : w3.objs[s]? = some (some cs) := by
      rw [hog, List.getElem?_set_ne (Ne.symm hsg)]; exact hs
    rw [wp_bind]
    refine wp_mono (wp_destroy_storage s w3) (fun _ w4 h4 => ?_) (fun _ h => h.elim)
    have hshape : w4.heap = w3.heap ∧
        ∃ ls, w4.objs = w3.objs.set s (some { cs with static_storage := ls }) := by
      rcases h4 with ⟨r, n, ho, ht⟩ | ⟨_, e⟩
      · obtain ⟨c0, hc0, _, hcase⟩ := obj_of_owns ho
        rw [hs3] at hc0
        simp only [Option.some.injEq] at hc0
        subst hc0
        rcases hcase with ⟨_, hr⟩ | ⟨hty, _⟩
        · subst hr
          obtain ⟨hh4, ho4⟩ := touches_static ht
          rcases ho4 with ⟨c, l, hc, e⟩ | e
          · rw [hs3] at hc
            simp only [Option.some.injEq] at hc
            subst hc
            exact ⟨hh4, l, e⟩
          · exact ⟨hh4, cs.static_storage, by rw [e, list_set_self _ _ _ hs3]⟩
        · rw [hts] at hty; cases hty
      · subst e
        exact ⟨rfl, cs.static_storage, by rw [list_set_self _ _ _ hs3]⟩
    obtain ⟨hh4, ls, ho4⟩ := hshape
    have hs4 : w4.objs[s]? = some (some { cs with static_storage := ls }) := by
      rw [ho4]
      have : s < w3.objs.length := lt_length_of_getElem? hs3
      simp [this]
    have hb4 : w4.heap[cg.dynamic_storage]? = some (some b) := by rw [hh4, hh3]; exact hb
    refine wp_of_bind_ok (acquire_release hs4 hb4 hk) ⟨hh4.trans hh3, ls, lg, ?_⟩
    simp only [ho4, hog, List.set_set]
  · -- the copy threw
    obtain ⟨hh3, ho3⟩ := touches_static h3
    have ho3b : ∃ lg, w3.objs = w.objs.set g (some { cg with static_storage := lg }) := by
      rcases ho3 with ⟨c, l, hc, e⟩ | e
      · rw [hg] at hc
        simp only [Option.some.injEq] at hc
        subst hc
        exact ⟨l, e⟩
      · exact ⟨cg.static_storage, by rw [e, list_set_self _ _ _ hg]⟩
    obtain ⟨lg, hog⟩ := ho3b
    have hg3 : w3.objs[g]? = some (some { cg with static_storage := lg }) := by
      rw [hog]; simp [hig]
    have hb3 : w3.heap[cg.dynamic_storage]? = some (some b) := by rw [hh3]; exact hb
    refine wp_of_bind_ok (acquire_release hg3 hb3 hk) ⟨hh3, lg, ?_⟩
    simp only [hog, List.set_set]

theorem exchange_shape {γ : Type} {l l1 : List γ} {a b : Nat} (x y : γ)
    (hlen : l1.length = l.length)
    (h : ∀ j, j ≠ a → j ≠ b → l1[j]? = l[j]?) :
    (l1.set a x).set b y = (l.set a x).set b y := by
  apply List.ext_getElem?
  intro j
  by_cases hjb : j = b
  · subst hjb
    by_cases hlt : j < l.length
    · simp [hlt, hlen]
    · have h1 : ((l1.set a x).set j y).length ≤ j := by simp [hlen]; omega
      have h2 : ((l.set a x).set j y).length ≤ j := by simp; omega
      rw [List.getElem?_eq_none h1, List.getElem?_eq_none h2]
  · rw [List.getElem?_set_ne (Ne.symm hjb), List.getElem?_set_ne (Ne.symm hjb)]
    by_cases hja : j = a
    · subst hja
      by_cases hlt : j < l.length
      · simp [hlt, hlen]
      · have h1 : (l1.set j x).length ≤ j := by simp [hlen]; omega
        have h2 : (l.set j x).length ≤ j := by simp; omega
        rw [List.getElem?_eq_none h1, List.getElem?_eq_none h2]
    · rw [List.getElem?_set_ne (Ne.symm hja), List.getElem?_set_ne (Ne.symm hja)]
      exact h j hja hjb

/-- The exchange of the sizes and of the tags at the end of `swap`, for two
containers that may be one and the same. -/
theorem swap_fields_any {w : world T} {a b : Nat} {xa xb : socow_vector T}
    (ha : w.objs[a]? = some (some xa)) (hb : w.objs[b]? = some (some xb)) :
    (do
      let x ← get_obj a
      let y ← get_obj b
      modify_obj a (fun c => { c with size_ := y.size_ })
      modify_obj b (fun c => { c with size_ := x.size_ })
      let x ← get_obj a
      let y ← get_obj b
      modify_obj a (fun c => { c with type := y.type })
      modify_obj b (fun c => { c with type := x.type })) w
    = result.ok ()
      { w with
        objs := (w.objs.set a (some { xa with type := xb.type, size_ := xb.size_ })).set b
            (some { xb with type := xa.type, size_ := xa.size_ }) } := by
  by_cases hab : a = b
  · subst hab
    rw [hb] at ha
    simp only [Option.some.injEq] at ha
    subst ha
    have hia := lt_length_of_getElem? hb
    simp [get_obj, hb, modify_obj, hia, List.set_set]
  · exact swap_fields ha hb hab

/-- The member `my_shared_ptr::swap` on the handles of two containers that may be
one and the same. -/
theorem handle_swap_any {w : world T} {a b : Nat} {ca cb : socow_vector T}
    (ha : w.objs[a]? = some (some ca)) (hb : w.objs[b]? = some (some cb)) :
    my_shared_ptr.swap a b w = result.ok ()
      { w with
        objs := (w.objs.set a (some { ca with dynamic_storage := cb.dynamic_storage })).set b
            (some { cb with dynamic_storage := ca.dynamic_storage }) } := by
  have hia := lt_length_of_getElem? ha
  have hib := lt_length_of_getElem? hb
  by_cases hab : a = b
  · subst hab
    rw [hb] at ha
    simp only [Option.some.injEq] at ha
    subst ha
    simp [my_shared_ptr.swap, get_obj, hb, modify_obj, hia, List.set_set]
  · simp [my_shared_ptr.swap, get_obj, ha, hb, modify_obj, hia, hib,
      List.getElem?_set_ne hab]

/-- Every outcome of `swap`: the heap is as it was and no object but the two has
changed; when it returns each of the two shows the representation, the size and
the buffer of the other, and when it throws each shows its own as before. -/
theorem wp_swap {N : Nat} {w : world T} {a b : Nat} {ca cb : socow_vector T}
    (hwf : wf N w) (ha : w.objs[a]? = some (some ca)) (hb : w.objs[b]? = some (some cb)) :
    wp (swap a b)
      (fun _ w1 => w1.heap = w.heap ∧ ∃ ca2 cb2,
        w1.objs = (w.objs.set a (some ca2)).set b (some cb2) ∧ alike ca2 cb ∧ alike cb2 ca)
      (fun w1 => w1.heap = w.heap ∧ ∃ ca2 cb2,
        w1.objs = (w.objs.set a (some ca2)).set b (some cb2) ∧ alike ca2 ca ∧ alike cb2 cb)
      w := by
  have hia := lt_length_of_getElem? ha
  have hib := lt_length_of_getElem? hb
  -- the end of `swap`, from a world in which the storage has changed sides
  have hfin : ∀ (w1 : world T) (xa xb : socow_vector T), w1.heap = w.heap →
      w1.objs.length = w.objs.length →
      (∀ j, j ≠ a → j ≠ b → w1.objs[j]? = w.objs[j]?) →
      w1.objs[a]? = some (some xa) → w1.objs[b]? = some (some xb) →
      alike { xa with type := xb.type, size_ := xb.size_ } cb →
      alike { xb with type := xa.type, size_ := xa.size_ } ca →
      wp (do
          let x ← get_obj a
          let y ← get_obj b
          modify_obj a (fun c => { c with size_ := y.size_ })
          modify_obj b (fun c => { c with size_ := x.size_ })
          let x ← get_obj a
          let y ← get_obj b
          modify_obj a (fun c => { c with type := y.type })
          modify_obj b (fun c => { c with type := x.type }))
        (fun _ w2 => w2.heap = w.heap ∧ ∃ ca2 cb2,
          w2.objs = (w.objs.set a (some ca2)).set b (some cb2) ∧ alike ca2 cb ∧ alike cb2 ca)
        (fun w2 => w2.heap = w.heap ∧ ∃ ca2 cb2,
          w2.objs = (w.objs.set a (some ca2)).set b (some cb2) ∧ alike ca2 ca ∧ alike cb2 cb)
        w1 := by
    intro w1 xa xb hh hlen hrest ha1 hb1 al1 al2
    rw [wp_of_ok (swap_fields_any ha1 hb1)]
    exact ⟨hh, _, _, exchange_shape _ _ hlen hrest, al1, al2⟩
  unfold swap
  rw [wp_bind, wp_of_ok (is_small_of_obj ha), wp_bind, wp_of_ok (is_small_of_obj hb)]
  dsimp only
  cases hta : ca.type with
  | SMALL =>
    cases htb : cb.type with
    | SMALL =>
      rw [wp_ite]
      refine ⟨fun _ => ?_, fun h => absurd (by simp) h⟩
      rw [wp_bind]
      refine wp_mono (confined_both_swap_static_storages a b w) (fun _ w1 h1 => ?_)
        (fun w1 h1 => ?_)
      · obtain ⟨hh, la, lb, ha1, hb1, ho1⟩ := touches_both_static ha hb h1
        refine hfin w1 _ _ hh (by rw [ho1]; simp) (fun j hja hjb => ?_) ha1 hb1
          ⟨rfl, rfl, fun h => by rw [htb] at h; cases h⟩
          ⟨rfl, rfl, fun h => by rw [hta] at h; cases h⟩
        rw [ho1, List.getElem?_set_ne (Ne.symm hjb), List.getElem?_set_ne (Ne.symm hja)]
      · obtain ⟨hh, la, lb, ha1, hb1, ho1⟩ := touches_both_static ha hb h1
        exact ⟨hh, _, _, ho1, ⟨rfl, rfl, fun _ => rfl⟩, ⟨rfl, rfl, fun _ => rfl⟩⟩
    | BIG =>
      obtain ⟨bb, hbb⟩ := wf_buffer hwf hb htb
      have hk := (hwf.2.1 _ bb hbb).2.1
      have hab : a ≠ b := by
        intro e
        subst e
        rw [ha] at hb
        simp only [Option.some.injEq] at hb
        subst hb
        rw [hta] at htb
        cases htb
      rw [wp_ite]
      refine ⟨fun h => by simp at h, fun _ => ?_⟩
      rw [wp_ite]
      refine ⟨fun _ => ?_, fun h => absurd (by simp) h⟩
      rw [wp_bind]
      refine wp_mono (wp_swap_data_small_to_big ha hb hta htb hbb hk) (fun _ w1 h1 => ?_)
        (fun w1 h1 => ?_)
      · obtain ⟨hh, ls, lg, ho1⟩ := h1
        refine hfin w1 { ca with static_storage := ls, dynamic_storage := cb.dynamic_storage }
          { cb with static_storage := lg } hh (by rw [ho1]; simp) (fun j hja hjb => ?_)
          (by rw [ho1]; simp [hia]) (by rw [ho1, List.getElem?_set_ne hab]; simp [hib])
          ⟨rfl, rfl, fun _ => rfl⟩ ⟨rfl, rfl, fun h => by rw [hta] at h; cases h⟩
        rw [ho1, List.getElem?_set_ne (Ne.symm hja), List.getElem?_set_ne (Ne.symm hjb)]
      · obtain ⟨hh, lg, ho1⟩ := h1
        refine ⟨hh, ca, { cb with static_storage := lg }, ?_, alike_refl _,
          ⟨rfl, rfl, fun _ => rfl⟩⟩
        rw [ho1, list_set_self _ _ _ ha]
  | BIG =>
    cases htb : cb.type with
    | SMALL =>
      obtain ⟨ba, hba⟩ := wf_buffer hwf ha hta
      have hk := (hwf.2.1 _ ba hba).2.1
      have hab : a ≠ b := by
        intro e
        subst e
        rw [ha] at hb
        simp only [Option.some.injEq] at hb
        subst hb
        rw [hta] at htb
        cases htb
      rw [wp_ite]
      refine ⟨fun h => by simp at h, fun _ => ?_⟩
      rw [wp_ite]
      refine ⟨fun h => by simp at h, fun _ => ?_⟩
      rw [wp_ite]
      refine ⟨fun _ => ?_, fun h => absurd (by simp) h⟩
      rw [wp_bind]
      refine wp_mono (wp_swap_data_small_to_big hb ha htb hta hba hk) (fun _ w1 h1 => ?_)
        (fun w1 h1 => ?_)
      · obtain ⟨hh, ls, lg, ho1⟩ := h1
        refine hfin w1 { ca with static_storage := lg }
          { cb with static_storage := ls, dynamic_storage := ca.dynamic_storage } hh
          (by rw [ho1]; simp) (fun j hja hjb => ?_)
          (by rw [ho1, List.getElem?_set_ne (Ne.symm hab)]; simp [hia])
          (by rw [ho1]; simp [hib])
          ⟨rfl, rfl, fun h => by rw [htb] at h; cases h⟩ ⟨rfl, rfl, fun _ => rfl⟩
        rw [ho1, List.getElem?_set_ne (Ne.symm hjb), List.getElem?_set_ne (Ne.symm hja)]
      · obtain ⟨hh, lg, ho1⟩ := h1
        refine ⟨hh, { ca with static_storage := lg }, cb, ?_, ⟨rfl, rfl, fun _ => rfl⟩,
          alike_refl _⟩
        rw [ho1]
        have : (w.objs.set a (some { ca with static_storage := lg }))[b]? = some (some cb) := by
          rw [List.getElem?_set_ne hab]; exact hb
        rw [list_set_self _ _ _ this]
    | BIG =>
      rw [wp_ite]
      refine ⟨fun h => by simp at h, fun _ => ?_⟩
      rw [wp_ite]
      refine ⟨fun h => by simp at h, fun _ => ?_⟩
      rw [wp_ite]
      refine ⟨fun h => by simp at h, fun _ => ?_⟩
      rw [wp_bind, wp_of_ok (handle_swap_any ha hb)]
      have ha1 : ((w.objs.set a (some { ca with dynamic_storage := cb.dynamic_storage })).set b
          (some { cb with dynamic_storage := ca.dynamic_storage }))[a]?
          = some (some { ca with dynamic_storage := cb.dynamic_storage }) := by
        by_cases hab : a = b
        · subst hab
          rw [ha] at hb
          simp only [Option.some.injEq] at hb
          subst hb
          simp [hia]
        · rw [List.getElem?_set_ne (Ne.symm hab)]; simp [hia]
      refine hfin _ { ca with dynamic_storage := cb.dynamic_storage }
        { cb with dynamic_storage := ca.dynamic_storage } rfl (by simp) (fun j hja hjb => ?_)
        ha1 (by simp [hib]) ⟨rfl, rfl, fun _ => rfl⟩ ⟨rfl, rfl, fun _ => rfl⟩
      simp only
      rw [List.getElem?_set_ne (Ne.symm hjb), List.getElem?_set_ne (Ne.symm hja)]

/-- The global invariant after two containers have exchanged their contents, or
have kept them while their inline slots changed. -/
theorem wf_of_exchange {N : Nat} {w w1 : world T} {a b : Nat} {ca cb ca2 cb2 : socow_vector T}
    (hwf : wf N w) (ha : w.objs[a]? = some (some ca)) (hb : w.objs[b]? = some (some cb))
    (hheap : w1.heap = w.heap)
    (ho : w1.objs = (w.objs.set a (some ca2)).set b (some cb2))
    (hal : (alike ca2 cb ∧ alike cb2 ca) ∨ (alike ca2 ca ∧ alike cb2 cb)) :
    wf N w1 ∧ twins w w1 ∧ keeps w w1 ∧ quiet w w1 := by
  have hia := lt_length_of_getElem? ha
  have hib := lt_length_of_getElem? hb
  have hcases : ∀ (j : Nat) (cj : socow_vector T), w1.objs[j]? = some (some cj) →
      ∃ (j0 : Nat) (c0 : socow_vector T), w.objs[j0]? = some (some c0) ∧ alike cj c0 := by
    intro j cj hcj
    by_cases ejb : j = b
    · subst ejb
      rw [ho] at hcj
      simp only [List.getElem?_set_self, List.length_set, hib, List.getElem?_eq_getElem,
        List.getElem_set_self, Option.some.injEq] at hcj
      subst hcj
      rcases hal with ⟨_, h⟩ | ⟨_, h⟩
      · exact ⟨a, ca, ha, h⟩
      · exact ⟨j, cb, hb, h⟩
    · rw [ho, List.getElem?_set_ne (Ne.symm ejb)] at hcj
      by_cases eja : j = a
      · subst eja
        simp only [List.getElem?_set_self, hia, List.getElem?_eq_getElem,
          List.getElem_set_self, Option.some.injEq] at hcj
        subst hcj
        rcases hal with ⟨h, _⟩ | ⟨h, _⟩
        · exact ⟨b, cb, hb, h⟩
        · exact ⟨j, ca, ha, h⟩
      · rw [List.getElem?_set_ne (Ne.symm eja)] at hcj
        exact ⟨j, cj, hcj, alike_refl _⟩
  refine wf_of_rearranged hwf (fun p b0 => by rw [hheap]) (fun p => ?_)
    (fun j cj hcj hty => ?_) (fun j cj hcj hty => ?_)
  · by_cases hab : a = b
    · subst hab
      rw [ha] at hb
      simp only [Option.some.injEq] at hb
      subst hb
      rw [List.set_set] at ho
      have h1 := holders_set ha ho p
      have e : holds p (some cb2) = holds p (some ca) := by
        rcases hal with ⟨_, h⟩ | ⟨_, h⟩ <;> exact holds_of_alike p h
      rw [e] at h1
      omega
    · have h1 := @holders_set T w { w with objs := w.objs.set a (some ca2) } a (some ca)
        (some ca2) ha rfl p
      have hb1 : (w.objs.set a (some ca2))[b]? = some (some cb) := by
        rw [List.getElem?_set_ne hab]; exact hb
      have h2 := @holders_set T { w with objs := w.objs.set a (some ca2) } w1 b (some cb)
        (some cb2) hb1 ho p
      rcases hal with ⟨g1, g2⟩ | ⟨g1, g2⟩
      · rw [holds_of_alike p g1] at h1
        rw [holds_of_alike p g2] at h2
        omega
      · rw [holds_of_alike p g1] at h1
        rw [holds_of_alike p g2] at h2
        omega
  · obtain ⟨j0, c0, hc0, ht, hs, _⟩ := hcases j cj hcj
    rcases hwf.1 j0 c0 hc0 with ⟨_, hle⟩ | ⟨hbig, _⟩
    · omega
    · rw [← ht, hty] at hbig; cases hbig
  · obtain ⟨j0, c0, hc0, ht, hs, hd⟩ := hcases j cj hcj
    have hbig : c0.type = vector_type.BIG := by rw [← ht]; exact hty
    exact ⟨j0, c0, hc0, hbig, (hd hbig).symm, hs.symm⟩

/-- The global invariant after any outcome of `swap`. -/
theorem wf_of_swap {N : Nat} {w : world T} {a b : Nat} {ca cb : socow_vector T}
    (hwf : wf N w) (ha : w.objs[a]? = some (some ca)) (hb : w.objs[b]? = some (some cb)) :
    wp (swap a b)
      (fun _ w1 => (wf N w1 ∧ twins w w1 ∧ keeps w w1 ∧ quiet w w1) ∧ w1.heap = w.heap ∧
        ∃ ca2 cb2, w1.objs = (w.objs.set a (some ca2)).set b (some cb2) ∧
          alike ca2 cb ∧ alike cb2 ca)
      (fun w1 => (wf N w1 ∧ twins w w1 ∧ keeps w w1 ∧ quiet w w1) ∧ w1.heap = w.heap ∧
        ∃ ca2 cb2, w1.objs = (w.objs.set a (some ca2)).set b (some cb2) ∧
          alike ca2 ca ∧ alike cb2 cb)
      w := by
  refine wp_mono (wp_swap hwf ha hb) (fun _ w1 h => ?_) (fun w1 h => ?_)
  · obtain ⟨hh, ca2, cb2, ho, g1, g2⟩ := h
    exact ⟨wf_of_exchange hwf ha hb hh ho (Or.inl ⟨g1, g2⟩), hh, ca2, cb2, ho, g1, g2⟩
  · obtain ⟨hh, ca2, cb2, ho, g1, g2⟩ := h
    exact ⟨wf_of_exchange hwf ha hb hh ho (Or.inr ⟨g1, g2⟩), hh, ca2, cb2, ho, g1, g2⟩

/-! ## The global invariant under the copy constructor, the destructor, the
assignment and `shrink_to_fit` -/

/-- Buffers that were kept up to `w2` and are left alone from there on are left
alone from the start. -/
theorem quiet_of_keeps_quiet {N : Nat} {w w2 w3 : world T} (hwf : wf N w) (ht : twins w w3)
    (hk : keeps w w2) (hq : quiet w2 w3) : quiet w w3 :=
  quiet_of_twins hwf ht (fun p b hb hsh => by
    obtain ⟨b2, hb2, ha2, hle⟩ := hk p b hb
    obtain ⟨⟨b3, hb3, ha3⟩, _⟩ := hq p b2 hb2 (by omega)
    exact ⟨b3, hb3, ha3.trans ha2⟩)

/-- The global invariant after any outcome of the copy constructor. -/
theorem wf_of_copy_ctor {N : Nat} {w : world T} {o : Nat} {co : socow_vector T}
    (hwf : wf N w) (hco : w.objs[o]? = some (some co)) :
    wp (copy_ctor N o)
      (fun m w1 => (wf N w1 ∧ twins w w1 ∧ keeps w w1 ∧ quiet w w1) ∧ m = w.objs.length ∧
        ∃ cn, w1.objs = w.objs ++ [some cn])
      (fun w1 => wf N w1 ∧ twins w w1 ∧ keeps w w1 ∧ quiet w w1) w := by
  refine wp_mono (wp_copy_ctor hco (hwf.1 o co hco)) (fun m w1 h => ?_) (fun w1 h => ?_)
  · obtain ⟨hm, cn, ho, hs, ⟨hty, hle, hh⟩ | ⟨hty, hlt, htyo, hd, b, hb, hh⟩⟩ := h
    · refine ⟨wf_append hwf ho hh (fun c e => ?_), hm, cn, ho⟩
      simp only [Option.some.injEq] at e
      subst e
      exact ⟨hty, by omega⟩
    · exact ⟨wf_append_share hwf hco htyo hb hlt ho hh hty hd hs, hm, cn, ho⟩
  · exact wf_append hwf h.1 h.2 (fun c e => by cases e)

/-- The global invariant after the destructor and the end of the object. -/
theorem wf_of_cleanup {N : Nat} {w : world T} {m : Nat} {c : socow_vector T}
    (hwf : wf N w) (hc : w.objs[m]? = some (some c)) (E : world T → Prop) :
    wp (dtor m >>= fun _ => free_obj m)
      (fun _ w1 => wf N w1 ∧ twins w w1 ∧ quiet w w1) E w :=
  wp_mono (wp_cleanup hc (hwf.1 m c hc)) (fun _ _ h => wf_cleanup hwf hc h.1 h.2)
    (fun _ h => h.elim)

/-- The global invariant after the default constructor. -/
theorem wf_of_default_ctor {N : Nat} {w : world T} (hwf : wf N w) (E : world T → Prop) :
    wp (default_ctor N)
      (fun _ w1 => wf N w1 ∧ twins w w1 ∧ keeps w w1 ∧ quiet w w1) E w := by
  unfold default_ctor
  rw [wp_new_obj]
  refine wf_append hwf rfl rfl (fun c e => ?_)
  simp only [Option.some.injEq] at e
  subst e
  exact ⟨rfl, Nat.zero_le _⟩

/-- The global invariant after any outcome of `socow_vector(other).swap(target)`. -/
theorem wf_of_copy_and_swap {N : Nat} {w : world T} {o t : Nat} {co ct : socow_vector T}
    (hwf : wf N w) (hco : w.objs[o]? = some (some co)) (hct : w.objs[t]? = some (some ct)) :
    wp (copy_and_swap N o t) (fun _ w1 => wf N w1 ∧ twins w w1 ∧ quiet w w1)
      (fun w1 => wf N w1 ∧ twins w w1 ∧ quiet w w1) w := by
  have hit := lt_length_of_getElem? hct
  unfold copy_and_swap
  rw [wp_bind]
  refine wp_mono (wf_of_copy_ctor hwf hco) (fun m w1 h1 => ?_) (fun w1 h => ⟨h.1, h.2.1, h.2.2.2⟩)
  obtain ⟨⟨hwf1, htw1, hk1, _⟩, hm, cn, ho1⟩ := h1
  subst hm
  have hcn1 : w1.objs[w.objs.length]? = some (some cn) := by rw [ho1]; simp
  have hct1 : w1.objs[t]? = some (some ct) := by
    rw [ho1, List.getElem?_append_left hit]; exact hct
  have hlen1 : w.objs.length < w1.objs.length := by rw [ho1]; simp
  have hclean : ∀ w2 : world T, wf N w2 → twins w1 w2 → keeps w1 w2 →
      w2.objs.length = w1.objs.length → (∃ c2, w2.objs[w.objs.length]? = some (some c2)) →
      wp (dtor w.objs.length >>= fun _ => free_obj w.objs.length)
        (fun _ w3 => wf N w3 ∧ twins w w3 ∧ quiet w w3) (fun _ => True) w2 := by
    intro w2 hwf2 htw2 hk2 hlen2 ⟨c2, hc2⟩
    refine wp_mono (wf_of_cleanup hwf2 hc2 (fun _ => True)) (fun _ w3 h3 => ?_) (fun _ h => h)
    obtain ⟨hwf3, htw3, hq3⟩ := h3
    have htw := twins_trans htw1 (twins_trans htw2 htw3)
    exact ⟨hwf3, htw, quiet_of_keeps_quiet hwf htw (keeps_trans hk1 hk2) hq3⟩
  have hobj : ∀ (w2 : world T) (ca2 cb2 : socow_vector T),
      w2.objs = (w1.objs.set w.objs.length (some ca2)).set t (some cb2) →
      w2.objs.length = w1.objs.length ∧ ∃ c2, w2.objs[w.objs.length]? = some (some c2) := by
    intro w2 ca2 cb2 ho2
    refine ⟨by rw [ho2]; simp, ?_⟩
    rw [ho2, List.getElem?_set_ne (Nat.ne_of_lt hit)]
    exact ⟨ca2, by simp [hlen1]⟩
  rw [wp_scope_exit]
  refine wp_mono (wf_of_swap hwf1 hcn1 hct1) (fun _ w2 h2 => ?_) (fun w2 h2 => ?_)
  · obtain ⟨⟨hwf2, htw2, hk2, _⟩, _, ca2, cb2, ho2, _⟩ := h2
    obtain ⟨hlen2, hc2⟩ := hobj w2 ca2 cb2 ho2
    exact hclean w2 hwf2 htw2 hk2 hlen2 hc2
  · obtain ⟨⟨hwf2, htw2, hk2, _⟩, _, ca2, cb2, ho2, _⟩ := h2
    obtain ⟨hlen2, hc2⟩ := hobj w2 ca2 cb2 ho2
    exact hclean w2 hwf2 htw2 hk2 hlen2 hc2

/-- The global invariant after any outcome of the copy assignment. -/
theorem wf_of_operator_assign {N : Nat} {w : world T} {t o : Nat} {co ct : socow_vector T}
    (hwf : wf N w) (hct : w.objs[t]? = some (some ct)) (hco : w.objs[o]? = some (some co)) :
    wp (operator_assign N t o) (fun _ w1 => wf N w1 ∧ twins w w1 ∧ quiet w w1)
      (fun w1 => wf N w1 ∧ twins w w1 ∧ quiet w w1) w := by
  unfold operator_assign
  rw [wp_ite]
  exact ⟨fun _ => wf_of_copy_and_swap hwf hco hct,
    fun _ => ⟨hwf, twins_refl w, quiet_refl w⟩⟩

/-- The global invariant after any outcome of `shrink_to_fit()`. -/
theorem wf_of_shrink_to_fit (L : layout) {N : Nat} {w : world T} {i : Nat}
    {c : socow_vector T} (hwf : wf N w) (hc : w.objs[i]? = some (some c)) :
    wp (sized.socow_vector.shrink_to_fit L N i) (fun _ w1 => wf N w1 ∧ quiet w w1)
      (fun w1 => wf N w1 ∧ quiet w w1) w := by
  have hf := hwf.1 i c hc
  obtain ⟨cap, hcap, hle⟩ := (fits_iff_capacity hc).mp hf
  unfold sized.socow_vector.shrink_to_fit
  rw [wp_bind, wp_of_ok hcap, wp_bind, wp_of_ok (size_of_obj hc), wp_ite]
  refine ⟨fun _ => ?_, fun _ => ⟨hwf, quiet_refl w⟩⟩
  rw [wp_ite]
  refine ⟨fun _ => ?_, fun hbig => ?_⟩
  · exact wp_mono (wf_of_copy_and_swap hwf hc hc) (fun _ _ h => ⟨h.1, h.2.2⟩)
      (fun _ h => ⟨h.1, h.2.2⟩)
  · rcases hf with ⟨_, hsm⟩ | ⟨hty, b, hb, _⟩
    · exact absurd hsm hbig
    · refine wp_mono (wp_change_dynamic_storage L c.size_ c.size_ none hc hty hb)
        (fun _ w1 h1 => ?_) (fun _ h => wf_of_failed hwf h)
      obtain ⟨l, ho1, hh1⟩ := h1
      refine wf_of_evolves hwf (evolves_of_moved_big hc hty hb ho1 hh1
        (Or.inr (Or.inr (by omega))) ?_)
      simp

/-! ## The global invariant in every reachable world -/

theorem wp_begin_const {i : Nat} {Q : iterator → world T → Prop} {E : world T → Prop}
    {w : world T} (h : ∀ d, Q d w) : wp (begin_const i) Q E w :=
  wp_of_observation (transfers_data_const i) (nothrow_data_const i) h

/-- Every outcome of a public operation on live containers keeps the global
invariant and leaves the shared buffers and the sizes of their owners alone. -/
theorem wf_of_run (L : layout) {N : Nat} {w : world T} (op : operation T) (hwf : wf N w)
    (hops : ∀ j ∈ op.operands, ∃ c, w.objs[j]? = some (some c)) :
    wp (sized.run L N op) (fun _ w1 => wf N w1 ∧ quiet w w1)
      (fun w1 => wf N w1 ∧ quiet w w1) w := by
  have hev : ∀ i w1, evolves N i w w1 → wf N w1 ∧ quiet w w1 :=
    fun i w1 h => wf_of_evolves hwf h
  have hfl : ∀ w1, failed w w1 → wf N w1 ∧ quiet w w1 := fun w1 h => wf_of_failed hwf h
  have hor : ∀ i w1, evolves N i w w1 ∨ failed w w1 → wf N w1 ∧ quiet w w1 :=
    fun i w1 h => h.elim (hev i w1) (hfl w1)
  cases op with
  | copy_construct other =>
    obtain ⟨co, hco⟩ := hops other (by simp [operation.operands])
    unfold sized.run
    rw [wp_bind]
    exact wp_mono (wf_of_copy_ctor hwf hco) (fun _ _ h => ⟨h.1.1, h.1.2.2.2⟩)
      (fun _ h => ⟨h.1, h.2.2.2⟩)
  | copy_assign this other =>
    obtain ⟨ct, hct⟩ := hops this (by simp [operation.operands])
    obtain ⟨co, hco⟩ := hops other (by simp [operation.operands])
    exact wp_mono (wf_of_operator_assign hwf hct hco) (fun _ _ h => ⟨h.1, h.2.2⟩)
      (fun _ h => ⟨h.1, h.2.2⟩)
  | swap this other =>
    obtain ⟨ct, hct⟩ := hops this (by simp [operation.operands])
    obtain ⟨co, hco⟩ := hops other (by simp [operation.operands])
    exact wp_mono (wf_of_swap hwf hct hco) (fun _ _ h => ⟨h.1.1, h.1.2.2.2⟩)
      (fun _ h => ⟨h.1.1, h.1.2.2.2⟩)
  | push_back this value =>
    obtain ⟨c, hc⟩ := hops this (by simp [operation.operands])
    exact wp_mono (wp_push_back L value hc (hwf.1 this c hc)) (fun _ w1 h => hev this w1 h.1)
      (hor this)
  | insert this pos value =>
    obtain ⟨c, hc⟩ := hops this (by simp [operation.operands])
    unfold sized.run
    rw [wp_bind]
    refine wp_begin_const (fun d => ?_)
    rw [wp_bind]
    exact wp_mono (wp_insert L (d.add pos) value hc (hwf.1 this c hc))
      (fun _ w1 h => hev this w1 h) (hor this)
  | erase this first last =>
    obtain ⟨c, hc⟩ := hops this (by simp [operation.operands])
    unfold sized.run
    rw [wp_bind]
    refine wp_begin_const (fun d => ?_)
    rw [wp_bind]
    exact wp_mono (wp_erase L (d.add first) (d.add last) hc (hwf.1 this c hc))
      (fun _ w1 h => hev this w1 h) hfl
  | erase_pos this pos =>
    obtain ⟨c, hc⟩ := hops this (by simp [operation.operands])
    unfold sized.run
    rw [wp_bind]
    refine wp_begin_const (fun d => ?_)
    rw [wp_bind]
    exact wp_mono (wp_erase_pos L (d.add pos) hc (hwf.1 this c hc))
      (fun _ w1 h => hev this w1 h) hfl
  | pop_back this =>
    obtain ⟨c, hc⟩ := hops this (by simp [operation.operands])
    exact wp_mono (wp_pop_back L (fun w1 => failed w w1) hc (hwf.1 this c hc))
      (fun _ w1 h => hev this w1 h) hfl
  | clear this =>
    obtain ⟨c, hc⟩ := hops this (by simp [operation.operands])
    exact wp_mono (wp_clear L (fun w1 => failed w w1) hc (hwf.1 this c hc))
      (fun _ w1 h => hev this w1 h) hfl
  | reserve this new_capacity =>
    obtain ⟨c, hc⟩ := hops this (by simp [operation.operands])
    exact wp_mono (wp_reserve L new_capacity hc (hwf.1 this c hc))
      (fun _ w1 h => hev this w1 h) hfl
  | shrink_to_fit this =>
    obtain ⟨c, hc⟩ := hops this (by simp [operation.operands])
    exact wf_of_shrink_to_fit L hwf hc
  | data this =>
    obtain ⟨c, hc⟩ := hops this (by simp [operation.operands])
    unfold sized.run
    rw [wp_bind]
    exact wp_mono (wp_data L (fun w1 => failed w w1) hc (hwf.1 this c hc))
      (fun _ w1 h => hev this w1 h.2.2.1) hfl
  | «begin» this =>
    obtain ⟨c, hc⟩ := hops this (by simp [operation.operands])
    unfold sized.run
    rw [wp_bind]
    exact wp_mono (wp_begin L (fun w1 => failed w w1) hc (hwf.1 this c hc))
      (fun _ w1 h => hev this w1 h) hfl
  | «end» this =>
    obtain ⟨c, hc⟩ := hops this (by simp [operation.operands])
    unfold sized.run
    rw [wp_bind]
    exact wp_mono (wp_end L (fun w1 => failed w w1) hc (hwf.1 this c hc))
      (fun _ w1 h => hev this w1 h) hfl
  | operator_index this pos =>
    obtain ⟨c, hc⟩ := hops this (by simp [operation.operands])
    unfold sized.run
    rw [wp_bind]
    exact wp_mono (wp_operator_index L (fun w1 => failed w w1) pos hc (hwf.1 this c hc))
      (fun _ w1 h => hev this w1 h) hfl
  | front this =>
    obtain ⟨c, hc⟩ := hops this (by simp [operation.operands])
    unfold sized.run
    rw [wp_bind]
    exact wp_mono (wp_front L (fun w1 => failed w w1) hc (hwf.1 this c hc))
      (fun _ w1 h => hev this w1 h) hfl
  | back this =>
    obtain ⟨c, hc⟩ := hops this (by simp [operation.operands])
    unfold sized.run
    rw [wp_bind]
    exact wp_mono (wp_back L hc (hwf.1 this c hc)) (fun _ w1 h => hev this w1 h) hfl

/-- Every outcome of an action within its precondition keeps the global invariant
and leaves the shared buffers and the sizes of their owners alone. -/
theorem wf_of_action (L : layout) {N : Nat} {w w1 : world T} (a : action T) (hwf : wf N w)
    (hreq : a.requires w) (h : leaves (a.run L N) w w1) : wf N w1 ∧ quiet w w1 := by
  refine wp_leaves (P := fun w1 => wf N w1 ∧ quiet w w1) ?_ w1 h
  cases a with
  | construct =>
    unfold action.run
    rw [wp_bind]
    exact wp_mono (wf_of_default_ctor hwf (fun w1 => wf N w1 ∧ quiet w w1))
      (fun _ _ h => ⟨h.1, h.2.2.2⟩) (fun _ h => h)
  | destroy this =>
    obtain ⟨c, hc⟩ := hreq.1 this (by simp [action.operands])
    exact wp_mono (wf_of_cleanup hwf hc (fun w1 => wf N w1 ∧ quiet w w1))
      (fun _ _ h => ⟨h.1, h.2.2⟩) (fun _ h => h)
  | call op => exact wf_of_run L op hwf hreq.1

/-- The world without objects and buffers satisfies the global invariant. -/
theorem wf_init (N : Nat) (cs al : List Bool) : wf N (world.mk ([] : List (Option (buffer T))) [] cs al) := by
  refine ⟨fun i c h => ?_, fun p b h => ?_, fun i j ci cj h => ?_, fun i c b h => ?_⟩ <;>
    simp at h

/-- The global invariant holds in every reachable world. -/
theorem wf_of_reachable {L : layout} {N : Nat} {w : world T} (h : reachable L N w) : wf N w := by
  induction h with
  | init cs al => exact wf_init N cs al
  | step w w1 a _ hreq hl ih => exact (wf_of_action L a ih hreq hl).1

/-! ## From observations back to the records -/

theorem obj_of_size {w w1 : world T} {i s : Nat} (h : size i w = result.ok s w1) :
    ∃ c, w.objs[i]? = some (some c) ∧ c.size_ = s := by
  cases h0 : w.objs[i]? with
  | none => simp [size, get_obj, h0] at h
  | some o =>
    cases o with
    | none => simp [size, get_obj, h0] at h
    | some c => exact ⟨c, rfl, (result_ok_inj h (size_of_obj h0)).1.symm⟩

theorem obj_of_is_small {w w1 : world T} {i : Nat} {t : Bool}
    (h : is_small i w = result.ok t w1) :
    ∃ c, w.objs[i]? = some (some c) ∧ t = decide (c.type = vector_type.SMALL) := by
  cases h0 : w.objs[i]? with
  | none => simp [is_small, get_obj, h0] at h
  | some o =>
    cases o with
    | none => simp [is_small, get_obj, h0] at h
    | some c => exact ⟨c, rfl, (result_ok_inj h (is_small_of_obj h0)).1⟩

theorem big_of_not_small {w w1 : world T} {i : Nat} (h : is_small i w = result.ok false w1) :
    ∃ c, w.objs[i]? = some (some c) ∧ c.type = vector_type.BIG := by
  obtain ⟨c, hc, ht⟩ := obj_of_is_small h
  refine ⟨c, hc, ?_⟩
  cases hty : c.type
  · rw [hty] at ht
    simp at ht
  · rfl

theorem big_of_data_arr {w w1 : world T} {i p : Nat}
    (h : data_const i w = result.ok (iterator.mk (storage.arr p) 0) w1) :
    ∃ c, w.objs[i]? = some (some c) ∧ c.type = vector_type.BIG ∧ c.dynamic_storage = p := by
  cases h0 : w.objs[i]? with
  | none => simp [data_const, is_small, get_obj, h0] at h
  | some o =>
    cases o with
    | none => simp [data_const, is_small, get_obj, h0] at h
    | some c =>
      cases hty : c.type
      · have h1 := (result_ok_inj h (data_const_of_obj_small h0 hty)).1
        simp at h1
      · have h1 := (result_ok_inj h (data_const_of_obj_big h0 hty)).1
        simp only [iterator.mk.injEq, storage.arr.injEq, and_true] at h1
        exact ⟨c, rfl, hty, h1.symm⟩

theorem buf_of_use_count {w w1 : world T} {p k : Nat}
    (h : my_shared_ptr.use_count p w = result.ok k w1) :
    ∃ b, w.heap[p]? = some (some b) ∧ b.cnt_references = k := by
  cases h0 : w.heap[p]? with
  | none => simp [my_shared_ptr.use_count, get_buf, h0] at h
  | some o =>
    cases o with
    | none => simp [my_shared_ptr.use_count, get_buf, h0] at h
    | some b => exact ⟨b, rfl, (result_ok_inj h (use_count_of_buf h0)).1.symm⟩

/-! ## What the global invariant says about the observations -/

/-- Two containers with the same `data()` read the same slots. -/
theorem read_elements_same {w : world T} {i j : Nat} (h : data_const i w = data_const j w) :
    ∀ k, read_elements i k w = read_elements j k w := by
  intro k
  induction k with
  | zero => rfl
  | succ k ih =>
    simp only [read_elements, bind_run]
    rw [← ih]
    rcases hr : read_elements i k w with ⟨xs, w1⟩ | w1 | _ | _ <;> simp only
    have e := ok_world (transfers_read_elements i k) hr
    subst e
    simp only [operator_index_const, bind_run, h]

/-- Under the global invariant two containers on one buffer have the same size and
read the same element sequence. -/
theorem wf_same_buffer {N : Nat} {w : world T} (hwf : wf N w) {i j : Nat}
    {ci cj : socow_vector T} (hci : w.objs[i]? = some (some ci))
    (hcj : w.objs[j]? = some (some cj)) (hti : ci.type = vector_type.BIG)
    (htj : cj.type = vector_type.BIG) (hd : ci.dynamic_storage = cj.dynamic_storage) :
    (∃ s, size i w = result.ok s w ∧ size j w = result.ok s w) ∧
      elements i w = elements j w := by
  have hsz := hwf.2.2.1 i j ci cj hci hcj hti htj hd
  refine ⟨⟨ci.size_, size_of_obj hci, by rw [hsz]; exact size_of_obj hcj⟩, ?_⟩
  have hdata : data_const i w = data_const j w := by
    rw [data_const_of_obj_big hci hti, data_const_of_obj_big hcj htj, hd]
  simp only [elements, bind_run, size_of_obj hci, size_of_obj hcj, hsz]
  exact read_elements_same hdata _

/-- Under the global invariant a buffer is live exactly when a big container holds
it. -/
theorem wf_live_iff_held {N : Nat} {w : world T} (hwf : wf N w) (p : Nat) :
    (∃ b, w.heap[p]? = some (some b)) ↔ 1 ≤ holders w p := by
  constructor
  · rintro ⟨b, hb⟩
    obtain ⟨h1, h2, _⟩ := hwf.2.1 p b hb
    omega
  · intro h
    obtain ⟨o, hmem, ho⟩ := List.countP_pos_iff.mp (show 0 < w.objs.countP (holds p) from h)
    obtain ⟨j, hj⟩ := List.mem_iff_getElem?.mp hmem
    cases o with
    | none => simp [holds] at ho
    | some c =>
      simp only [holds, decide_eq_true_eq] at ho
      obtain ⟨b, hb⟩ := wf_buffer hwf hj ho.1
      exact ⟨b, by rw [← ho.2]; exact hb⟩

theorem wf_capacity {N : Nat} {w : world T} (hwf : wf N w) {i : Nat}
    (h : is_small i w = result.ok false w) : ∃ c, capacity N i w = result.ok c w ∧ N < c := by
  obtain ⟨c, hc, hty⟩ := big_of_not_small h
  obtain ⟨b, hb⟩ := wf_buffer hwf hc hty
  exact ⟨b.capacity, capacity_of_obj_big N hc hty hb, (hwf.2.1 _ b hb).2.2⟩

/-- Under the global invariant every live container satisfies the capacity
invariant. -/
theorem capacity_invariant_of_wf {N : Nat} {w : world T} (hwf : wf N w) {j : Nat}
    {c : socow_vector T} (hc : w.objs[j]? = some (some c)) : capacity_invariant N w j := by
  rcases hwf.1 j c hc with ⟨hty, hle⟩ | ⟨hty, b, hb, hle⟩
  · exact ⟨c.size_, N, true, size_of_obj hc, capacity_of_obj_small N hc hty,
      by rw [is_small_of_obj hc]; simp [hty], hle, fun _ => rfl⟩
  · exact ⟨c.size_, b.capacity, false, size_of_obj hc, capacity_of_obj_big N hc hty hb,
      by rw [is_small_of_obj hc]; simp [hty], hle, fun h => by cases h⟩

/-! ## The sized allocation where the byte count does not wrap -/

theorem sized_ctor_eq {L : layout} {cap : Nat} (h : L.representable cap) :
    (sized.my_shared_ptr.ctor L cap : M T Nat) = my_shared_ptr.ctor cap := by
  obtain ⟨hpos, hlt⟩ := h
  funext w
  unfold sized.my_shared_ptr.ctor my_shared_ptr.ctor
  have hb : (L.sizeof_buffer + cap * L.sizeof_value_type) % 2 ^ 64
      = L.sizeof_buffer + cap * L.sizeof_value_type := Nat.mod_eq_of_lt hlt
  have hs : (L.sizeof_buffer + cap * L.sizeof_value_type - L.sizeof_buffer)
      / L.sizeof_value_type = cap := by
    rw [Nat.add_sub_cancel_left, Nat.mul_div_cancel _ hpos]
  have hn : ¬ L.sizeof_buffer + cap * L.sizeof_value_type < L.sizeof_buffer := by omega
  simp only [hb, hs, hn, if_false]

theorem sized_change_static_storage_to_dynamic_eq {L : layout} {cap : Nat}
    (h : L.representable cap) (i : Nat) (v : Option T) :
    sized.socow_vector.change_static_storage_to_dynamic L i cap v
      = change_static_storage_to_dynamic i cap v := by
  unfold sized.socow_vector.change_static_storage_to_dynamic change_static_storage_to_dynamic
  rw [sized_ctor_eq h]

theorem sized_change_dynamic_storage_eq {L : layout} {cap : Nat}
    (h : L.representable cap) (i ns : Nat) (v : Option T) :
    sized.socow_vector.change_dynamic_storage L i cap ns v
      = change_dynamic_storage i cap ns v := by
  unfold sized.socow_vector.change_dynamic_storage change_dynamic_storage
  rw [sized_ctor_eq h]

theorem sized_reserve_value_eq {L : layout} {cap : Nat} (h : L.representable cap)
    (N i : Nat) (v : Option T) :
    sized.socow_vector.reserve_value L N i cap v = reserve_value N i cap v := by
  unfold sized.socow_vector.reserve_value reserve_value
  simp only [sized_change_static_storage_to_dynamic_eq h, sized_change_dynamic_storage_eq h]

/-- With a byte count that does not wrap `reserve` is the `reserve` of the
idealised allocation. -/
theorem sized_reserve_eq {L : layout} {cap : Nat} (h : L.representable cap) (N i : Nat) :
    (sized.socow_vector.reserve L N i cap : M T Unit) = reserve N i cap := by
  unfold sized.socow_vector.reserve reserve
  rw [sized_reserve_value_eq h]

/-! ## A reachable world with a shared buffer, after a caught exception -/

theorem requires_of_live {w : world T} {op : operation T} {i : Nat} {c : socow_vector T}
    (ho : op.operands = [i]) (hc : w.objs[i]? = some (some c)) (hr : op.in_range w) :
    (action.call op).requires w :=
  ⟨fun j hj => by
    simp only [action.operands, ho, List.mem_singleton] at hj
    subst hj
    exact ⟨c, hc⟩, hr⟩

theorem reachable_world_seven : reachable layout_int 1 world_seven := by
  have h1 : reachable layout_int 1 world_fresh :=
    reachable.step _ _ action.construct (reachable.init [false, true] [])
      ⟨fun j hj => by simp [action.operands] at hj, trivial⟩ (Or.inl ⟨(), by decide⟩)
  exact reachable.step _ _ (action.call (operation.push_back 0 7)) h1
    (requires_of_live rfl (show world_fresh.objs[0]? = some (some _) from rfl) trivial)
    (Or.inl ⟨(), by decide⟩)

/-- The world after the failed `push_back(8)` is reachable: the exception is
caught. -/
theorem reachable_world_seven_failed : reachable layout_int 1 world_seven_failed :=
  reachable.step _ _ (action.call (operation.push_back 0 8)) reachable_world_seven
    (requires_of_live rfl (show world_seven.objs[0]? = some (some _) from rfl) trivial)
    (Or.inr (by decide))

theorem reachable_world_seven_eight : reachable layout_int 1 world_seven_eight :=
  reachable.step _ _ (action.call (operation.push_back 0 8)) reachable_world_seven_failed
    (requires_of_live rfl (show world_seven_failed.objs[0]? = some (some _) from rfl) trivial)
    (Or.inl ⟨(), by decide⟩)

theorem reachable_world_seven_eight_shared :
    reachable layout_int 1 world_seven_eight_shared :=
  reachable.step _ _ (action.call (operation.copy_construct 0)) reachable_world_seven_eight
    (requires_of_live rfl (show world_seven_eight.objs[0]? = some (some _) from rfl) trivial)
    (Or.inl ⟨(), by decide⟩)

/-- The world in which a failed `push_back` has left a slot without an object is
reachable. -/
theorem reachable_world_unbuilt : reachable layout_int 1 world_unbuilt := by
  have h1 : reachable layout_int 1 world_fresh_throwing :=
    reachable.step _ _ action.construct (reachable.init [true] [])
      ⟨fun j hj => by simp [action.operands] at hj, trivial⟩ (Or.inl ⟨(), by decide⟩)
  exact reachable.step _ _ (action.call (operation.push_back 0 7)) h1
    (requires_of_live rfl (show world_fresh_throwing.objs[0]? = some (some _) from rfl) trivial)
    (Or.inr (by decide))

/-! ## `reserve` with the sized allocation -/

theorem world_big3_valid : valid 4 world_big3 0 :=
  valid_big (b := buffer.mk 1 8 [some 1, some 2, some 3, none, none, none, none, none])
    rfl rfl rfl rfl rfl (by decide)
    (show List.take 3 [some 1, some 2, some 3, none, none, none, none, none]
      = List.map some [1, 2, 3] from rfl) (by decide)

/-- A container that says it is not the only owner of its storage is big, on a live
buffer whose count is not 1. -/
theorem shared_of_is_master_false {w w1 : world T} {i : Nat}
    (hm : is_master i w = result.ok false w1) :
    ∃ c b, w.objs[i]? = some (some c) ∧ c.type = vector_type.BIG ∧
      w.heap[c.dynamic_storage]? = some (some b) ∧ b.cnt_references ≠ 1 := by
  cases h0 : w.objs[i]? with
  | none => simp [is_master, is_small, get_obj, h0] at hm
  | some o =>
    cases o with
    | none => simp [is_master, is_small, get_obj, h0] at hm
    | some c =>
      cases hty : c.type with
      | SMALL =>
        obtain ⟨h2, _⟩ := result_ok_inj hm (is_master_small h0 hty)
        cases h2
      | BIG =>
        cases hb : w.heap[c.dynamic_storage]? with
        | none =>
          simp [is_master, is_small, get_obj, h0, hty, my_shared_ptr.use_count, get_buf, hb]
            at hm
        | some ob =>
          cases ob with
          | none =>
            simp [is_master, is_small, get_obj, h0, hty, my_shared_ptr.use_count, get_buf, hb]
              at hm
          | some b =>
            obtain ⟨h2, _⟩ := result_ok_inj hm (is_master_big h0 hty hb)
            exact ⟨c, b, rfl, hty, hb, by simpa using h2.symm⟩

/-- When `reserve(n)` returns on a container that shares its buffer and has fewer
than `n` elements, the container is big with capacity `n`. -/
theorem sized_reserve_of_shared (L : layout) {N : Nat} {w w1 : world T} {i n s : Nat}
    (hm : is_master i w = result.ok false w) (hs : size i w = result.ok s w) (hlt : s < n)
    (h : sized.socow_vector.reserve L N i n w = result.ok () w1) :
    is_small i w1 = result.ok false w1 ∧ capacity N i w1 = result.ok n w1 := by
  obtain ⟨c, b, hc, hty, hb, hk⟩ := shared_of_is_master_false hm
  obtain ⟨s0, _⟩ := result_ok_inj hs (size_of_obj hc)
  subst s0
  have hi := lt_length_of_getElem? hc
  refine wp_ok (Q := fun _ w2 => is_small i w2 = result.ok false w2 ∧
    capacity N i w2 = result.ok n w2) (E := fun _ => True) ?_ h
  unfold sized.socow_vector.reserve sized.socow_vector.reserve_value
  rw [wp_bind, wp_of_ok (capacity_of_obj_big N hc hty hb), wp_bind,
    wp_of_ok (is_master_big hc hty hb), wp_bind, wp_of_ok (size_of_obj hc), wp_ite]
  refine ⟨fun _ => ?_, fun hcond => absurd (Or.inr ⟨by simpa using hk, hlt⟩) hcond⟩
  rw [wp_bind, wp_of_ok (is_small_of_obj hc), wp_ite]
  refine ⟨fun h => by simp [hty] at h, fun _ => ?_⟩
  rw [wp_bind, wp_of_ok (size_of_obj hc)]
  refine wp_mono (wp_change_dynamic_storage L n c.size_ none hc hty hb)
    (fun _ w2 h2 => ?_) (fun _ _ => trivial)
  obtain ⟨l, ho, hh⟩ := h2
  have hc2 : w2.objs[i]? = some (some { c with
      size_ := c.size_ + (if (none : Option T).isSome then 1 else 0),
      dynamic_storage := w.heap.length }) := by
    rw [ho]; simp [hi]
  have hb2 : w2.heap[w.heap.length]? = some (some (buffer.mk 1 n l)) := by
    have hlen : (w.heap.set c.dynamic_storage b.release).length = w.heap.length := by simp
    rw [hh, ← hlen]
    simp
  refine ⟨by rw [is_small_of_obj hc2]; simp [hty], ?_⟩
  have hfin := capacity_of_obj_big (b := buffer.mk 1 n l) N hc2 hty hb2
  exact hfin

/-! ## The sized allocation and the idealised one do the same while the byte
counts do not wrap -/

theorem representable_mono {L : layout} {a b : Nat} (hab : a ≤ b) (h : L.representable b) :
    L.representable a := by
  obtain ⟨h1, h2⟩ := h
  refine ⟨h1, ?_⟩
  have := Nat.mul_le_mul_right L.sizeof_value_type hab
  omega

/-! ### Computations that agree -/

theorem agrees_of_preserved {I : world T → Prop} {m : M T α}
    (h : ∀ w a w1, I w → m w = result.ok a w1 → I w1) : agrees I m m :=
  fun w hw => ⟨rfl, fun a w1 e => h w a w1 hw e⟩

theorem agrees_of_transfers {I : world T → Prop} {m : M T α} (ht : transfers m) :
    agrees I m m :=
  agrees_of_preserved (fun w a w1 hw e => by rw [ok_world ht e]; exact hw)

theorem agrees_pure (I : world T → Prop) (a : α) : agrees I (pure a : M T α) (pure a) :=
  fun w hw => ⟨rfl, fun b w1 e => by
    simp only [pure_run, result.ok.injEq] at e
    rw [← e.2]; exact hw⟩

theorem agrees_ub (I : world T → Prop) :
    agrees I (undefined_behaviour : M T α) undefined_behaviour :=
  fun w _ => ⟨rfl, fun b w1 e => by cases e⟩

theorem agrees_bind {I : world T → Prop} {m1 m2 : M T α} {f1 f2 : α → M T β}
    (h1 : agrees I m1 m2) (h2 : ∀ a, agrees I (f1 a) (f2 a)) :
    agrees I (m1 >>= f1) (m2 >>= f2) := by
  intro w hw
  obtain ⟨e, hI⟩ := h1 w hw
  simp only [bind_run]
  rw [← e]
  rcases hm : m1 w with ⟨a, w1⟩ | w1 | _ | _ <;> simp only []
  · exact h2 a w1 (hI a w1 hm)
  · exact ⟨trivial, fun _ _ e => by cases e⟩
  · exact ⟨trivial, fun _ _ e => by cases e⟩
  · exact ⟨trivial, fun _ _ e => by cases e⟩

theorem agrees_ite {I : world T → Prop} (c : Prop) [Decidable c] {a1 a2 b1 b2 : M T α}
    (ha : agrees I a1 a2) (hb : agrees I b1 b2) :
    agrees I (if c then a1 else b1) (if c then a2 else b2) := by
  split
  · exact ha
  · exact hb

theorem agrees_noexcept {I : world T → Prop} {m1 m2 : M T α} (h : agrees I m1 m2) :
    agrees I (noexcept m1) (noexcept m2) := by
  intro w hw
  obtain ⟨e, hI⟩ := h w hw
  unfold noexcept
  rw [← e]
  rcases hm : m1 w with ⟨a, w1⟩ | w1 | _ | _ <;> simp only []
  · exact ⟨trivial, fun b w2 e2 => by
      simp only [result.ok.injEq] at e2
      rw [← e2.2]; exact hI a w1 hm⟩
  · exact ⟨trivial, fun _ _ e => by cases e⟩
  · exact ⟨trivial, fun _ _ e => by cases e⟩
  · exact ⟨trivial, fun _ _ e => by cases e⟩

theorem agrees_for_range {I : world T → Prop} {b1 b2 : Nat → M T Unit}
    (h : ∀ k, agrees I (b1 k) (b2 k)) :
    ∀ n s, agrees I (for_range b1 s n) (for_range b2 s n) := by
  intro n
  induction n with
  | zero => intro s; exact agrees_pure I ()
  | succ n ih => intro s; exact agrees_bind (h s) (fun _ => ih (s + 1))

/-- Two computations that return the same value without a change of the world. -/
theorem agrees_of_ok {I : world T → Prop} {m1 m2 : M T α}
    (h : ∀ w, I w → ∃ a, m1 w = result.ok a w ∧ m2 w = result.ok a w) : agrees I m1 m2 := by
  intro w hw
  obtain ⟨a, e1, e2⟩ := h w hw
  refine ⟨e1.trans e2.symm, fun b w1 e => ?_⟩
  rw [e1] at e
  simp only [result.ok.injEq] at e
  rw [← e.2]; exact hw

/-- Start of a comparison: the first steps do the same, and return where `I`
holds. -/
theorem bind_eq_of_agrees {I : world T → Prop} {m1 m2 : M T α} {f1 f2 : α → M T β}
    {w : world T} (e : m1 w = m2 w) (hI : ∀ a w1, m1 w = result.ok a w1 → I w1)
    (h : ∀ a, agrees I (f1 a) (f2 a)) : (m1 >>= f1) w = (m2 >>= f2) w := by
  simp only [bind_run]
  rw [← e]
  rcases hm : m1 w with ⟨a, w1⟩ | w1 | _ | _ <;> simp only []
  exact (h a w1 (hI a w1 hm)).1

theorem bind_eq_of_transfers {m : M T α} (ht : transfers m) {f1 f2 : α → M T β}
    {w : world T} (h : ∀ a, f1 a w = f2 a w) : (m >>= f1) w = (m >>= f2) w := by
  simp only [bind_run]
  rcases hm : m w with ⟨a, w1⟩ | w1 | _ | _ <;> simp only []
  rw [ok_world ht hm]
  exact h a

theorem bind_eq_left {m1 m2 : M T α} {w : world T} (e : m1 w = m2 w) (f : α → M T β) :
    (m1 >>= f) w = (m2 >>= f) w := by
  simp only [bind_run, e]

theorem noexcept_eq {m1 m2 : M T α} {w : world T} (e : m1 w = m2 w) :
    noexcept m1 w = noexcept m2 w := by
  unfold noexcept
  rw [e]

/-! ### While the container is the only owner of its storage -/

theorem sole_owner_of_touches {i : Nat} {r : storage} {w w1 : world T}
    (h : sole_owner i w) (ht : touches r w w1) : sole_owner i w1 := by
  obtain ⟨r0, n, ho⟩ := h
  exact ⟨r0, n, owns_of_touches ho ht⟩

theorem agrees_std_swap (i : Nat) (a b : iterator) :
    agrees (sole_owner i) (std_swap a b : M T Unit) (std_swap a b) :=
  agrees_of_preserved (fun w _ w1 hw e => by
    have h := wp_ok (confined_both_std_swap a.base b.base a.pos b.pos w) e
    obtain ⟨w2, h1, h2⟩ := touches_both_iff.mp h
    exact sole_owner_of_touches (sole_owner_of_touches hw h1) h2)

theorem agrees_destroy_at (i : Nat) (it : iterator) :
    agrees (sole_owner i) (destroy_at it : M T Unit) (destroy_at it) :=
  agrees_of_preserved (fun w _ w1 hw e => by
    have h : wp (destroy_at it : M T Unit) (fun _ w1 => touches it.base w w1)
        (fun w1 => touches it.base w w1) w := confined_destroy_at it w
    have h2 := wp_ok h e
    exact sole_owner_of_touches hw h2)

theorem agrees_modify_size (i : Nat) (f : Nat → Nat) :
    agrees (sole_owner i)
      (modify_obj i (fun x => { x with size_ := f x.size_ }) : M T Unit)
      (modify_obj i (fun x => { x with size_ := f x.size_ })) :=
  agrees_of_preserved (fun w _ w1 hw e => by
    obtain ⟨r, n, ho⟩ := hw
    obtain ⟨c, hc, _, _⟩ := obj_of_owns ho
    rw [modify_size_eq hc f] at e
    simp only [result.ok.injEq, true_and] at e
    rw [← e]
    exact ⟨r, _, owns_set_size ho _⟩)

theorem make_master_to_of_owns {w : world T} {i : Nat} {r : storage} {n : Nat}
    (h : owns w i r n) (cap ns : Nat) : make_master_to i cap ns w = result.ok false w := by
  simp [make_master_to, is_master_of_owns h]

theorem agrees_make_master_to (L : layout) (i cap ns : Nat) :
    agrees (sole_owner i) (sized.socow_vector.make_master_to L i cap ns : M T Bool)
      (make_master_to i cap ns) :=
  agrees_of_ok (fun _ ⟨_, _, ho⟩ =>
    ⟨false, sized_make_master_to_of_owns L ho cap ns, make_master_to_of_owns ho cap ns⟩)

theorem agrees_make_master (L : layout) (N i : Nat) :
    agrees (sole_owner i) (sized.socow_vector.make_master L N i : M T Bool)
      (make_master N i) :=
  agrees_of_ok (fun _ ⟨_, _, ho⟩ =>
    ⟨false, sized_make_master_of_owns L N ho, make_master_of_owns N ho⟩)

theorem agrees_data (L : layout) (N i : Nat) :
    agrees (sole_owner i) (sized.socow_vector.data L N i : M T iterator) (data N i) :=
  agrees_of_ok (fun _ ⟨_, _, ho⟩ => ⟨_, sized_data_of_owns L N ho, data_of_owns N ho⟩)

theorem agrees_operator_index (L : layout) (N i k : Nat) :
    agrees (sole_owner i) (sized.socow_vector.operator_index L N i k : M T iterator)
      (operator_index N i k) :=
  agrees_of_ok (fun _ ⟨_, _, ho⟩ =>
    ⟨_, sized_operator_index_of_owns L N ho k, operator_index_of_owns N ho k⟩)

theorem agrees_back (L : layout) (N i : Nat) :
    agrees (sole_owner i) (sized.socow_vector.back L N i : M T iterator) (back N i) :=
  agrees_of_ok (fun _ ⟨_, _, ho⟩ => ⟨_, sized_back_of_owns L N ho, back_of_owns N ho⟩)

theorem agrees_begin (L : layout) (N i : Nat) :
    agrees (sole_owner i) (sized.socow_vector.begin L N i : M T iterator) («begin» N i) :=
  agrees_of_ok (fun _ ⟨_, _, ho⟩ => ⟨_, sized_begin_of_owns L N ho, begin_of_owns N ho⟩)

theorem agrees_pop_back (L : layout) (N i : Nat) :
    agrees (sole_owner i) (sized.socow_vector.pop_back L N i : M T Unit) (pop_back N i) := by
  unfold sized.socow_vector.pop_back pop_back
  refine agrees_noexcept (agrees_bind (agrees_of_transfers (transfers_size i)) (fun n => ?_))
  refine agrees_ite _ (agrees_ub _) ?_
  refine agrees_bind (agrees_of_transfers (transfers_capacity N i)) (fun cap => ?_)
  refine agrees_bind (agrees_make_master_to L i cap (n - 1)) (fun cloned => ?_)
  refine agrees_ite _ ?_ (agrees_pure _ ())
  refine agrees_bind (agrees_modify_size i (fun k => k - 1)) (fun _ => ?_)
  refine agrees_bind (agrees_of_transfers (transfers_size i)) (fun k => ?_)
  exact agrees_bind (agrees_operator_index L N i k) (fun it => agrees_destroy_at i it)

/-! ### The member functions, from a world where the capacities are representable -/

theorem sized_make_master_to_eq {L : layout} {cap : Nat} (h : L.representable cap)
    (i ns : Nat) :
    (sized.socow_vector.make_master_to L i cap ns : M T Bool) = make_master_to i cap ns := by
  unfold sized.socow_vector.make_master_to make_master_to
  rw [sized_change_dynamic_storage_eq h]

theorem sized_reset_eq {L : layout} {cap : Nat} (h : L.representable cap) (i : Nat) :
    (sized.my_shared_ptr.reset L i cap : M T Unit) = my_shared_ptr.reset i cap := by
  unfold sized.my_shared_ptr.reset my_shared_ptr.reset
  rw [sized_ctor_eq h]

theorem sized_make_master_eq {L : layout} {N : Nat} {w : world T} {i cap : Nat}
    {c : socow_vector T} (hc : w.objs[i]? = some (some c))
    (hcap : capacity N i w = result.ok cap w) (h : L.representable cap) :
    sized.socow_vector.make_master L N i w = make_master N i w := by
  unfold sized.socow_vector.make_master make_master
  rw [bind_ok hcap, bind_ok hcap, bind_ok (size_of_obj hc), bind_ok (size_of_obj hc),
    sized_make_master_to_eq h]

theorem sole_owner_of_make_master {L : layout} {N : Nat} {w : world T} {i : Nat}
    {c : socow_vector T} (hc : w.objs[i]? = some (some c)) (hf : fits N w c) :
    ∀ (a : Bool) (w1 : world T),
      sized.socow_vector.make_master L N i w = result.ok a w1 → sole_owner i w1 := by
  intro a w1 e
  have h := wp_ok (wp_make_master L hc hf) e
  obtain ⟨_, ⟨r, ho⟩, _⟩ := h
  exact ⟨r, _, ho⟩

theorem sized_data_eq {L : layout} {N : Nat} {w : world T} {i cap : Nat}
    {c : socow_vector T} (hc : w.objs[i]? = some (some c))
    (hcap : capacity N i w = result.ok cap w) (h : L.representable cap) :
    sized.socow_vector.data L N i w = data N i w := by
  unfold sized.socow_vector.data data
  exact noexcept_eq (bind_eq_left (sized_make_master_eq hc hcap h) _)

theorem sized_begin_eq {L : layout} {N : Nat} {w : world T} {i cap : Nat}
    {c : socow_vector T} (hc : w.objs[i]? = some (some c))
    (hcap : capacity N i w = result.ok cap w) (h : L.representable cap) :
    sized.socow_vector.begin L N i w = «begin» N i w := by
  unfold sized.socow_vector.begin «begin»
  exact noexcept_eq (sized_data_eq hc hcap h)

theorem sized_end_eq {L : layout} {N : Nat} {w : world T} {i cap : Nat}
    {c : socow_vector T} (hc : w.objs[i]? = some (some c))
    (hcap : capacity N i w = result.ok cap w) (h : L.representable cap) :
    sized.socow_vector.end L N i w = «end» N i w := by
  unfold sized.socow_vector.end «end»
  exact noexcept_eq (bind_eq_left (sized_data_eq hc hcap h) _)

theorem sized_operator_index_eq {L : layout} {N : Nat} {w : world T} {i cap : Nat}
    {c : socow_vector T} (k : Nat) (hc : w.objs[i]? = some (some c))
    (hcap : capacity N i w = result.ok cap w) (h : L.representable cap) :
    sized.socow_vector.operator_index L N i k w = operator_index N i k w := by
  unfold sized.socow_vector.operator_index operator_index
  exact noexcept_eq (bind_eq_left (sized_data_eq hc hcap h) _)

theorem sized_front_eq {L : layout} {N : Nat} {w : world T} {i cap : Nat}
    {c : socow_vector T} (hc : w.objs[i]? = some (some c)) (hf : fits N w c)
    (hcap : capacity N i w = result.ok cap w) (h : L.representable cap) :
    sized.socow_vector.front L N i w = front N i w := by
  unfold sized.socow_vector.front front
  exact noexcept_eq (bind_eq_of_agrees (sized_make_master_eq hc hcap h)
    (sole_owner_of_make_master hc hf)
    (fun _ => agrees_bind (agrees_data L N i) (fun d => agrees_pure _ _)))

theorem sized_back_eq {L : layout} {N : Nat} {w : world T} {i cap : Nat}
    {c : socow_vector T} (hc : w.objs[i]? = some (some c)) (hf : fits N w c)
    (hcap : capacity N i w = result.ok cap w) (h : L.representable cap) :
    sized.socow_vector.back L N i w = back N i w := by
  unfold sized.socow_vector.back back
  exact bind_eq_of_agrees (sized_make_master_eq hc hcap h)
    (sole_owner_of_make_master hc hf)
    (fun _ => agrees_bind (agrees_data L N i) (fun d =>
      agrees_bind (agrees_of_transfers (transfers_size i)) (fun n => agrees_pure _ _)))

theorem sized_push_back_eq {L : layout} {N : Nat} {w : world T} {i cap : Nat}
    {c : socow_vector T} (v : T) (hc : w.objs[i]? = some (some c))
    (hcap : capacity N i w = result.ok cap w)
    (h : L.representable (max (cap * 2) (c.size_ + 1))) :
    sized.socow_vector.push_back L N i v w = push_back N i v w := by
  have hcap2 : L.representable cap := representable_mono (by omega) h
  unfold sized.socow_vector.push_back push_back
  rw [bind_ok (size_of_obj hc), bind_ok (size_of_obj hc), bind_ok hcap, bind_ok hcap]
  by_cases hfull : c.size_ + 1 > cap
  · rw [if_pos hfull, if_pos hfull]
    unfold sized.socow_vector.enlarge_capacity enlarge_capacity
    rw [bind_ok hcap, bind_ok hcap, sized_reserve_value_eq h]
  · rw [if_neg hfull, if_neg hfull]
    exact bind_eq_left (sized_data_eq hc hcap hcap2) _

theorem sized_pop_back_eq {L : layout} {N : Nat} {w : world T} {i cap : Nat}
    {c : socow_vector T} (hc : w.objs[i]? = some (some c)) (hf : fits N w c)
    (hcap : capacity N i w = result.ok cap w) (h : L.representable cap) :
    sized.socow_vector.pop_back L N i w = pop_back N i w := by
  unfold sized.socow_vector.pop_back pop_back
  refine noexcept_eq ?_
  rw [bind_ok (size_of_obj hc), bind_ok (size_of_obj hc)]
  by_cases h0 : c.size_ = 0
  · rw [if_pos h0, if_pos h0]
  · rw [if_neg h0, if_neg h0, bind_ok hcap, bind_ok hcap]
    refine bind_eq_of_agrees (I := sole_owner i)
      (congrFun (sized_make_master_to_eq h i (c.size_ - 1)) w) (fun a w1 e => ?_)
      (fun cloned => agrees_ite _ ?_ (agrees_pure _ ()))
    · have hw := wp_ok (wp_make_master_to L (c.size_ - 1) hc hf hcap (Nat.sub_le _ _)) e
      rcases hw with ⟨_, e1, r, ho⟩ | ⟨_, _, ⟨r, ho⟩, _⟩
      · rw [e1]; exact ⟨r, _, ho⟩
      · exact ⟨r, _, ho⟩
    · refine agrees_bind (agrees_modify_size i (fun k => k - 1)) (fun _ => ?_)
      refine agrees_bind (agrees_of_transfers (transfers_size i)) (fun k => ?_)
      exact agrees_bind (agrees_operator_index L N i k) (fun it => agrees_destroy_at i it)

theorem sized_insert_eq {L : layout} {N : Nat} {w : world T} {i cap : Nat}
    {c : socow_vector T} (pos : iterator) (v : T) (hc : w.objs[i]? = some (some c))
    (hf : fits N w c) (hcap : capacity N i w = result.ok cap w)
    (h : L.representable (max (cap * 2) (c.size_ + 1))) :
    sized.socow_vector.insert L N i pos v w = socow_vector.insert N i pos v w := by
  unfold sized.socow_vector.insert socow_vector.insert
  refine bind_eq_of_transfers (transfers_get_index i pos) (fun id => ?_)
  refine bind_eq_of_agrees (I := sole_owner i) (sized_push_back_eq v hc hcap h)
    (fun a w1 e => ?_) (fun _ => ?_)
  · obtain ⟨_, r, n, ho⟩ := wp_ok (wp_push_back L v hc hf) e
    exact ⟨r, n, ho⟩
  · refine agrees_bind (agrees_of_transfers (transfers_size i)) (fun n => ?_)
    refine agrees_bind (agrees_for_range (fun k => ?_) _ _) (fun _ => ?_)
    · exact agrees_bind (agrees_back L N i) (fun b =>
        agrees_bind (agrees_operator_index L N i k) (fun e => agrees_std_swap i b e))
    · exact agrees_bind (agrees_begin L N i) (fun b => agrees_pure _ _)

theorem sized_erase_eq {L : layout} {N : Nat} {w : world T} {i cap : Nat}
    {c : socow_vector T} (first last : iterator) (hc : w.objs[i]? = some (some c))
    (hf : fits N w c) (hcap : capacity N i w = result.ok cap w) (h : L.representable cap) :
    sized.socow_vector.erase L N i first last w = erase N i first last w := by
  unfold sized.socow_vector.erase erase
  refine bind_eq_of_transfers (transfers_get_index i first) (fun first_id => ?_)
  refine bind_eq_of_transfers (transfers_get_index i last) (fun last_id => ?_)
  by_cases hlt : last_id < first_id
  · rw [if_pos hlt, if_pos hlt]
  · rw [if_neg hlt, if_neg hlt]
    refine bind_eq_of_agrees (I := sole_owner i) (sized_make_master_eq hc hcap h)
      (sole_owner_of_make_master hc hf) (fun _ => ?_)
    refine agrees_bind (agrees_of_transfers (transfers_size i)) (fun n => ?_)
    refine agrees_bind (agrees_for_range (fun k => ?_) _ _) (fun _ => ?_)
    · exact agrees_bind (agrees_operator_index L N i k) (fun a =>
        agrees_bind (agrees_operator_index L N i _) (fun b => agrees_std_swap i a b))
    · refine agrees_bind (agrees_for_range (fun _ => agrees_pop_back L N i) _ _) (fun _ => ?_)
      exact agrees_bind (agrees_begin L N i) (fun b => agrees_pure _ _)

theorem sized_clear_eq {L : layout} {N : Nat} {w : world T} {i cap : Nat}
    (hcap : capacity N i w = result.ok cap w) (h : L.representable cap) :
    sized.socow_vector.clear L N i w = clear N i w := by
  unfold sized.socow_vector.clear clear
  refine noexcept_eq ?_
  simp only [bind_run]
  rcases e1 : destroy_storage i w with ⟨u, w1⟩ | w1 | _ | _ <;> simp only []
  have hw := wp_ok (wp_destroy_storage i w) e1
  rcases e2 : is_master i w1 with ⟨m, w2⟩ | w2 | _ | _ <;> simp only []
  have hw2 := ok_world (transfers_is_master i) e2
  subst hw2
  cases m with
  | true => rfl
  | false =>
    rcases hw with ⟨r, n, ho, ht⟩ | ⟨_, e⟩
    · have := is_master_of_owns (owns_of_touches ho ht)
      rw [e2] at this
      cases this
    · subst e
      simp only [Bool.not_false, if_true, bind_run, hcap, sized_reset_eq h]

theorem sized_shrink_to_fit_eq {L : layout} {N : Nat} {w : world T} {i cap : Nat}
    {c : socow_vector T} (hc : w.objs[i]? = some (some c))
    (hcap : capacity N i w = result.ok cap w) (h : L.representable c.size_) :
    sized.socow_vector.shrink_to_fit L N i w = shrink_to_fit N i w := by
  unfold sized.socow_vector.shrink_to_fit shrink_to_fit
  rw [bind_ok hcap, bind_ok hcap, bind_ok (size_of_obj hc), bind_ok (size_of_obj hc),
    sized_change_dynamic_storage_eq h]

theorem fits_of_valid {N : Nat} {w : world T} {j : Nat} (hv : valid N w j) :
    ∃ c, w.objs[j]? = some (some c) ∧ fits N w c := by
  obtain ⟨c, hc⟩ := obj_of_valid hv
  obtain ⟨s, cap, _, hs, hcap, _, hle, _⟩ := capacity_of_valid hv
  obtain ⟨e, _⟩ := result_ok_inj hs (size_of_obj hc)
  exact ⟨c, hc, (fits_iff_capacity hc).mpr ⟨cap, hcap, by omega⟩⟩

/-- A public operation on live containers whose sizes fit does with the sized
allocation what it does with the idealised one, when the byte counts for one more
than twice the capacity of its operands, and for the argument of `reserve`, do
not wrap around. -/
theorem sized_run_eq (L : layout) {N : Nat} (op : operation T) (w : world T)
    (hlive : ∀ j ∈ op.operands, ∃ c, w.objs[j]? = some (some c) ∧ fits N w c)
    (hroom : ∀ j ∈ op.operands, ∀ cap, capacity N j w = result.ok cap w →
      L.representable (2 * cap + 1))
    (hres : ∀ i n, op = operation.reserve i n → L.representable n) :
    sized.run L N op w = op.run N w := by
  have hfacts : ∀ j ∈ op.operands, ∃ c cap, w.objs[j]? = some (some c) ∧ fits N w c ∧
      capacity N j w = result.ok cap w ∧ c.size_ ≤ cap ∧ L.representable (2 * cap + 1) := by
    intro j hj
    obtain ⟨c, hc, hf⟩ := hlive j hj
    obtain ⟨cap, hcap, hle⟩ := (fits_iff_capacity hc).mp hf
    exact ⟨c, cap, hc, hf, hcap, hle, hroom j hj cap hcap⟩
  cases op with
  | copy_construct other => rfl
  | copy_assign this other => rfl
  | swap this other => rfl
  | push_back this value =>
    obtain ⟨c, cap, hc, hf, hcap, hle, hrep⟩ := hfacts this (by simp [operation.operands])
    exact sized_push_back_eq value hc hcap (representable_mono (by omega) hrep)
  | insert this pos value =>
    obtain ⟨c, cap, hc, hf, hcap, hle, hrep⟩ := hfacts this (by simp [operation.operands])
    unfold sized.run operation.run
    refine bind_eq_of_transfers (transfers_data_const this) (fun d => ?_)
    exact bind_eq_left (sized_insert_eq (d.add pos) value hc hf hcap
      (representable_mono (by omega) hrep)) _
  | erase this first last =>
    obtain ⟨c, cap, hc, hf, hcap, hle, hrep⟩ := hfacts this (by simp [operation.operands])
    unfold sized.run operation.run
    refine bind_eq_of_transfers (transfers_data_const this) (fun d => ?_)
    exact bind_eq_left (sized_erase_eq (d.add first) (d.add last) hc hf hcap
      (representable_mono (by omega) hrep)) _
  | erase_pos this pos =>
    obtain ⟨c, cap, hc, hf, hcap, hle, hrep⟩ := hfacts this (by simp [operation.operands])
    unfold sized.run operation.run
    refine bind_eq_of_transfers (transfers_data_const this) (fun d => ?_)
    exact bind_eq_left (sized_erase_eq (d.add pos) ((d.add pos).add 1) hc hf hcap
      (representable_mono (by omega) hrep)) _
  | pop_back this =>
    obtain ⟨c, cap, hc, hf, hcap, hle, hrep⟩ := hfacts this (by simp [operation.operands])
    exact sized_pop_back_eq hc hf hcap (representable_mono (by omega) hrep)
  | clear this =>
    obtain ⟨c, cap, hc, hf, hcap, hle, hrep⟩ := hfacts this (by simp [operation.operands])
    exact sized_clear_eq hcap (representable_mono (by omega) hrep)
  | reserve this new_capacity =>
    exact congrFun (sized_reserve_eq (hres this new_capacity rfl) N this) w
  | shrink_to_fit this =>
    obtain ⟨c, cap, hc, hf, hcap, hle, hrep⟩ := hfacts this (by simp [operation.operands])
    exact sized_shrink_to_fit_eq hc hcap (representable_mono (by omega) hrep)
  | data this =>
    obtain ⟨c, cap, hc, hf, hcap, hle, hrep⟩ := hfacts this (by simp [operation.operands])
    exact bind_eq_left (sized_data_eq hc hcap (representable_mono (by omega) hrep)) _
  | «begin» this =>
    obtain ⟨c, cap, hc, hf, hcap, hle, hrep⟩ := hfacts this (by simp [operation.operands])
    exact bind_eq_left (sized_begin_eq hc hcap (representable_mono (by omega) hrep)) _
  | «end» this =>
    obtain ⟨c, cap, hc, hf, hcap, hle, hrep⟩ := hfacts this (by simp [operation.operands])
    exact bind_eq_left (sized_end_eq hc hcap (representable_mono (by omega) hrep)) _
  | operator_index this pos =>
    obtain ⟨c, cap, hc, hf, hcap, hle, hrep⟩ := hfacts this (by simp [operation.operands])
    exact bind_eq_left (sized_operator_index_eq pos hc hcap
      (representable_mono (by omega) hrep)) _
  | front this =>
    obtain ⟨c, cap, hc, hf, hcap, hle, hrep⟩ := hfacts this (by simp [operation.operands])
    exact bind_eq_left (sized_front_eq hc hf hcap (representable_mono (by omega) hrep)) _
  | back this =>
    obtain ⟨c, cap, hc, hf, hcap, hle, hrep⟩ := hfacts this (by simp [operation.operands])
    exact bind_eq_left (sized_back_eq hc hf hcap (representable_mono (by omega) hrep)) _

/-- A public operation on well-formed containers within its precondition, when
nothing throws and the byte counts do not wrap around, returns with the sized
allocation too and leaves its operands well formed. -/
theorem sized_operation_preserves_valid (L : layout) {N : Nat} (op : operation T)
    (w : world T) (hv : ∀ j ∈ op.operands, valid N w j) (hnf : no_failure w)
    (hpre : op.pre w)
    (hroom : ∀ j ∈ op.operands, ∀ cap, capacity N j w = result.ok cap w →
      L.representable (2 * cap + 1))
    (hres : ∀ i n, op = operation.reserve i n → L.representable n) :
    ∃ w1, sized.run L N op w = result.ok () w1 ∧ no_failure w1 ∧
      ∀ j ∈ op.results w, valid N w1 j := by
  obtain ⟨w1, e, nf, h⟩ := operation_preserves_valid op w hv hnf hpre
  exact ⟨w1, (sized_run_eq L op w (fun j hj => fits_of_valid (hv j hj)) hroom hres).trans e,
    nf, h⟩

/-! ## The claims -/

/-- C1. Copy-on-write isolation for `push_back`: let `a` be a well-formed container
with more than `SMALL_SIZE` elements `xs` (so it is big), in a run where nothing
throws.  Then the copy `b` of `a` is constructed, `b.push_back(v)` returns, and
afterwards `a` still has its size and its elements `xs`, `b` has the elements
`xs ++ [v]`, and `a` and `b` point to different buffers.  The statement does not
depend on whether the shared buffer had spare capacity. -/
theorem push_back_copy_on_write {N : Nat} (w : world T) (a : Nat) (v : T) (xs : List T)
    (s : Nat) (hv : valid N w a) (hnf : no_failure w)
    (hxs : elements a w = result.ok xs w) (hs : size a w = result.ok s w) (hbig : N < s) :
    ∃ b w1 w2, copy_ctor N a w = result.ok b w1 ∧ push_back N b v w1 = result.ok () w2 ∧
      is_small a w = result.ok false w ∧
      size a w2 = result.ok s w2 ∧ elements a w2 = result.ok xs w2 ∧
      elements b w2 = result.ok (xs ++ [v]) w2 ∧
      ∃ p q, data_const a w2 = result.ok (iterator.mk (storage.arr p) 0) w2 ∧
        data_const b w2 = result.ok (iterator.mk (storage.arr q) 0) w2 ∧ p ≠ q := by
  obtain ⟨hcopy, halloc⟩ := hnf
  rcases valid_cases hv with ⟨c, ys, hobj, hlen, hty, hle, hel, hxl⟩ |
    ⟨c, b, ys, hobj, hlen, hty, hbuf, hbl, hle, hel, hxl, hk⟩
  · obtain ⟨_, o2, _, _⟩ := observe_small N hobj hty hel (by omega)
    have := (result_ok_inj hs o2).1
    omega
  · obtain ⟨o1, o2, _, o4, _, _⟩ := observe_big N hobj hty hbuf hel (by omega)
    have hsx := (result_ok_inj hs o2).1
    have hxx := (result_ok_inj hxs o1).1
    subst hxx
    have hi : a < w.objs.length := lt_length_of_getElem? hobj
    have hp : c.dynamic_storage < w.heap.length := lt_length_of_getElem? hbuf
    obtain ⟨w1, e1, hw1⟩ := exists_world (copy_ctor_share N hobj hbuf (by omega))
    have hobjb : w1.objs[w.objs.length]? = some (some (socow_vector.mk vector_type.BIG
        c.size_ c.dynamic_storage (List.replicate N none))) := by
      simp [hw1]
    have hbufb : w1.heap[(socow_vector.mk vector_type.BIG c.size_ c.dynamic_storage
        (List.replicate N (none : Option T))).dynamic_storage]? = some (some { b with
        cnt_references := b.cnt_references + 1 }) := by
      simp [hw1, hp]
    obtain ⟨w2, e2, hw2⟩ := exists_world (push_back_big_clone N v hobjb rfl hbufb
      (Or.inl (by simp; omega)) hle hbl hel (by simp [hw1, hcopy]) (by simp [hw1, halloc]))
    have hrel : ({ b with cnt_references := b.cnt_references + 1 } : buffer T).release
        = some b := by
      simp [buffer.release, show b.cnt_references ≠ 0 by omega]
    rw [hrel] at hw2
    simp only at hw2
    have hl1 : w1.heap.length = w.heap.length := by simp [hw1]
    have hobja2 : w2.objs[a]? = some (some c) := by
      simp [hw2, hw1, List.getElem?_set_ne (show w.objs.length ≠ a by omega),
        List.getElem?_append_left hi, hobj]
    have hbufa2 : w2.heap[c.dynamic_storage]? = some (some b) := by
      simp [hw2, hl1, hw1, hp, List.getElem?_append_left]
    have hobjb2 : w2.objs[w.objs.length]? = some (some (socow_vector.mk vector_type.BIG
        (c.size_ + 1) w.heap.length (List.replicate N none))) := by
      simp [hw2, hw1]
    have hcap1 : c.size_ + 1 ≤
        (if b.capacity < c.size_ + 1 then max (b.capacity * 2) (c.size_ + 1)
          else b.capacity) := by
      split <;> omega
    have hbufb2 : w2.heap[(socow_vector.mk vector_type.BIG (c.size_ + 1) w.heap.length
        (List.replicate N (none : Option T))).dynamic_storage]? = some (some (buffer.mk 1
        (if b.capacity < c.size_ + 1 then max (b.capacity * 2) (c.size_ + 1) else b.capacity)
        (set_range (List.replicate
          (if b.capacity < c.size_ + 1 then max (b.capacity * 2) (c.size_ + 1)
            else b.capacity) none) 0 (xs ++ [v])))) := by
      simp [hw2, hl1, hw1]
    have helb2 : (set_range (List.replicate
          (if b.capacity < c.size_ + 1 then max (b.capacity * 2) (c.size_ + 1)
            else b.capacity) (none : Option T)) 0 (xs ++ [v])).take (c.size_ + 1)
        = (xs ++ [v]).map some := by
      have := set_range_take_zero (xs ++ [v]) _ (by simpa [hxl] using hcap1)
      simpa [hxl] using this
    obtain ⟨p1, p2, _, _, p5, _⟩ := observe_big N hobja2 hty hbufa2 hel (by omega)
    obtain ⟨q1, _, _, _, q5, _⟩ := observe_big N hobjb2 rfl hbufb2 helb2 (by simp; exact hcap1)
    exact ⟨w.objs.length, w1, w2, e1, e2, o4, by rw [hsx]; exact p2, p1, q1,
      c.dynamic_storage, w.heap.length, p5, q5, by omega⟩

/-- C2. Postcondition and growth policy of `push_back`: on a well-formed container
with elements `xs`, size `s` and capacity `c`, in a run where nothing throws,
`push_back(v)` returns, the elements are then `xs ++ [v]` and the size is `s + 1`;
if `s + 1 ≤ c` the capacity and the representation are unchanged, and if
`s + 1 > c` the container is big with capacity `max (2 * c) (s + 1)`.  With
`SMALL_SIZE = 4`: four pushes on an empty container leave it small with capacity
4, the fifth makes it big with capacity 8 and elements `1, 2, 3, 4, 5`. -/
theorem push_back_postcondition :
    (∀ (N : Nat) (w : world T) (i : Nat) (v : T) (xs : List T) (s c : Nat) (t : Bool),
      valid N w i → no_failure w → elements i w = result.ok xs w →
      size i w = result.ok s w → capacity N i w = result.ok c w →
      is_small i w = result.ok t w →
      ∃ w1, push_back N i v w = result.ok () w1 ∧
        elements i w1 = result.ok (xs ++ [v]) w1 ∧ size i w1 = result.ok (s + 1) w1 ∧
        (s + 1 ≤ c → capacity N i w1 = result.ok c w1 ∧ is_small i w1 = result.ok t w1) ∧
        (c < s + 1 → is_small i w1 = result.ok false w1 ∧
          capacity N i w1 = result.ok (max (2 * c) (s + 1)) w1)) ∧
    (∃ w4 w5 : world Nat,
      (do let a ← default_ctor 4
          push_back 4 a 1
          push_back 4 a 2
          push_back 4 a 3
          push_back 4 a 4) (world.mk [] [] [] []) = result.ok () w4 ∧
      is_small 0 w4 = result.ok true w4 ∧ capacity 4 0 w4 = result.ok 4 w4 ∧
      push_back 4 0 5 w4 = result.ok () w5 ∧
      is_small 0 w5 = result.ok false w5 ∧ capacity 4 0 w5 = result.ok 8 w5 ∧
      elements 0 w5 = result.ok [1, 2, 3, 4, 5] w5) := by
  constructor
  · intro N w i v xs s c t hv hnf hxs hs hc ht
    obtain ⟨xs0, s0, c0, t0, w1, o1, o2, o3, o4, e, _, _, _, p1, p2, p3, p4⟩ :=
      push_back_spec v hv hnf
    obtain ⟨rfl, _⟩ := result_ok_inj hxs o1
    obtain ⟨rfl, _⟩ := result_ok_inj hs o2
    obtain ⟨rfl, _⟩ := result_ok_inj hc o3
    obtain ⟨rfl, _⟩ := result_ok_inj ht o4
    exact ⟨w1, e, p1, p2, p3, p4⟩
  · refine ⟨world.mk [] [some (socow_vector.mk vector_type.SMALL 4 0
        [some 1, some 2, some 3, some 4])] [] [],
      world.mk [some (buffer.mk 1 8 [some 1, some 2, some 3, some 4, some 5, none, none, none])]
        [some (socow_vector.mk vector_type.BIG 5 0 [none, none, none, none])] [] [], ?_⟩
    decide

/-- C5. Copy construction: from a well-formed source with elements `xs` and size
`s`, in a run where nothing throws, the copy constructor returns a new container
`b` with size `s` and elements `xs`, and the source still has size `s` and elements
`xs`; if `s > SMALL_SIZE` the copy is big and points to the same buffer as the
source, with the same capacity, and the reference count of that buffer is one
higher than before. -/
theorem copy_ctor_equal_and_shared {N : Nat} (w : world T) (a : Nat) (xs : List T) (s : Nat)
    (hv : valid N w a) (hnf : no_failure w)
    (hxs : elements a w = result.ok xs w) (hs : size a w = result.ok s w) :
    ∃ b w1, copy_ctor N a w = result.ok b w1 ∧ b ≠ a ∧
      size b w1 = result.ok s w1 ∧ elements b w1 = result.ok xs w1 ∧
      size a w1 = result.ok s w1 ∧ elements a w1 = result.ok xs w1 ∧
      (N < s → is_small b w1 = result.ok false w1 ∧
        ∃ p cap k, data_const a w = result.ok (iterator.mk (storage.arr p) 0) w ∧
          data_const a w1 = result.ok (iterator.mk (storage.arr p) 0) w1 ∧
          data_const b w1 = result.ok (iterator.mk (storage.arr p) 0) w1 ∧
          capacity N a w = result.ok cap w ∧ capacity N b w1 = result.ok cap w1 ∧
          my_shared_ptr.use_count p w = result.ok k w ∧
          my_shared_ptr.use_count p w1 = result.ok (k + 1) w1) := by
  obtain ⟨xs0, s0, w1, o1, o2, e, hi, _, _, _, p1, p2, p3, p4, _, p6⟩ := copy_ctor_spec hv hnf
  obtain ⟨rfl, _⟩ := result_ok_inj hxs o1
  obtain ⟨rfl, _⟩ := result_ok_inj hs o2
  exact ⟨w.objs.length, w1, e, by omega, p1, p2, p3, p4, p6⟩

/-! ### Witnesses -/

theorem world_big5_valid : valid 4 world_big5 0 :=
  valid_big (b := buffer.mk 1 8
    [some 1, some 2, some 3, some 4, some 5, none, none, none]) rfl rfl rfl rfl rfl
    (by decide) (show List.take 5 [some 1, some 2, some 3, some 4, some 5, none, none, none]
      = List.map some [1, 2, 3, 4, 5] from rfl) (by decide)

theorem world_small4_valid : valid 4 world_small4 0 :=
  valid_small rfl rfl rfl (by decide) 
    (show List.take 4 [some 1, some 2, some 3, some 4] = List.map some [1, 2, 3, 4] from rfl)

theorem push_back_copy_on_write_witness :
    ∃ b w1 w2, copy_ctor 4 0 world_big5 = result.ok b w1 ∧
      push_back 4 b 6 w1 = result.ok () w2 ∧
      is_small 0 world_big5 = result.ok false world_big5 ∧
      size 0 w2 = result.ok 5 w2 ∧ elements 0 w2 = result.ok [1, 2, 3, 4, 5] w2 ∧
      elements b w2 = result.ok ([1, 2, 3, 4, 5] ++ [6]) w2 ∧
      ∃ p q, data_const 0 w2 = result.ok (iterator.mk (storage.arr p) 0) w2 ∧
        data_const b w2 = result.ok (iterator.mk (storage.arr q) 0) w2 ∧ p ≠ q :=
  push_back_copy_on_write world_big5 0 6 [1, 2, 3, 4, 5] 5 world_big5_valid
    ⟨rfl, rfl⟩ (by decide) (by decide) (by decide)

theorem push_back_postcondition_witness :
    ∃ w1, push_back 4 0 5 world_small4 = result.ok () w1 ∧
      elements 0 w1 = result.ok ([1, 2, 3, 4] ++ [5]) w1 ∧ size 0 w1 = result.ok (4 + 1) w1 ∧
      (4 + 1 ≤ 4 → capacity 4 0 w1 = result.ok 4 w1 ∧ is_small 0 w1 = result.ok true w1) ∧
      (4 < 4 + 1 → is_small 0 w1 = result.ok false w1 ∧
        capacity 4 0 w1 = result.ok (max (2 * 4) (4 + 1)) w1) :=
  push_back_postcondition.1 4 world_small4 0 5 [1, 2, 3, 4] 4 4 true world_small4_valid
    ⟨rfl, rfl⟩ (by decide) (by decide) (by decide) (by decide)

theorem copy_ctor_equal_and_shared_witness :
    ∃ b w1, copy_ctor 4 0 world_big5 = result.ok b w1 ∧ b ≠ 0 ∧
      size b w1 = result.ok 5 w1 ∧ elements b w1 = result.ok [1, 2, 3, 4, 5] w1 ∧
      size 0 w1 = result.ok 5 w1 ∧ elements 0 w1 = result.ok [1, 2, 3, 4, 5] w1 ∧
      (4 < 5 → is_small b w1 = result.ok false w1 ∧
        ∃ p cap k,
          data_const 0 world_big5 = result.ok (iterator.mk (storage.arr p) 0) world_big5 ∧
          data_const 0 w1 = result.ok (iterator.mk (storage.arr p) 0) w1 ∧
          data_const b w1 = result.ok (iterator.mk (storage.arr p) 0) w1 ∧
          capacity 4 0 world_big5 = result.ok cap world_big5 ∧
          capacity 4 b w1 = result.ok cap w1 ∧
          my_shared_ptr.use_count p world_big5 = result.ok k world_big5 ∧
          my_shared_ptr.use_count p w1 = result.ok (k + 1) w1) :=
  copy_ctor_equal_and_shared world_big5 0 [1, 2, 3, 4, 5] 5 world_big5_valid
    ⟨rfl, rfl⟩ (by decide) (by decide)

/-- C3. `erase(first, last)` removes exactly the range and keeps the order: on a
well-formed container with elements `xs` and size `s`, in a run where nothing
throws, for positions `fi ≤ la ≤ s` counted from `begin()`, the call returns, the
elements are then `xs.take fi ++ xs.drop la`, the size is `s - (la - fi)`, the
iterator returned is `begin() + fi` of the container as it is afterwards, and the
container is exclusive.  With `1, 2, 3, 4, 5`, erasing the element at index 1
leaves `1, 3, 4, 5`, size 4. -/
theorem erase_removes_range :
    (∀ (N : Nat) (w : world T) (i fi la : Nat) (xs : List T) (s : Nat) (d : iterator),
      valid N w i → no_failure w → elements i w = result.ok xs w →
      size i w = result.ok s w → data_const i w = result.ok d w → fi ≤ la → la ≤ s →
      ∃ d1 w1, erase N i (d.add fi) (d.add la) w = result.ok (d1.add fi) w1 ∧
        data_const i w1 = result.ok d1 w1 ∧
        elements i w1 = result.ok (xs.take fi ++ xs.drop la) w1 ∧
        size i w1 = result.ok (s - (la - fi)) w1 ∧
        is_master i w1 = result.ok true w1) ∧
    (∃ it w1, erase_pos 4 0 (iterator.mk (storage.arr 0) 1) world_big5 = result.ok it w1 ∧
      elements 0 w1 = result.ok [1, 3, 4, 5] w1 ∧ size 0 w1 = result.ok 4 w1) := by
  constructor
  · intro N w i fi la xs s d hv hnf hxs hs hd h1 h2
    obtain ⟨xs0, s0, d0, o1, o2, o3, h⟩ := erase_spec fi la hv hnf
    obtain ⟨rfl, _⟩ := result_ok_inj hxs o1
    obtain ⟨rfl, _⟩ := result_ok_inj hs o2
    obtain ⟨rfl, _⟩ := result_ok_inj hd o3
    obtain ⟨d1, w1, e, q1, _, _, q2, q3, q4, _⟩ := h h1 h2
    exact ⟨d1, w1, e, q1, q2, q3, q4⟩
  · refine ⟨iterator.mk (storage.arr 0) 1,
      world.mk [some (buffer.mk 1 8 [some 1, some 3, some 4, some 5, none, none, none, none])]
        [some (socow_vector.mk vector_type.BIG 4 0 [none, none, none, none])] [] [], ?_⟩
    decide

/-- C4. `insert(pos, v)` puts `v` at `pos` and keeps the order of the other
elements: on a well-formed container with elements `xs` and size `s`, in a run
where nothing throws, for a position `id ≤ s` counted from `begin()`, the call
returns, the elements are then `xs.take id ++ [v] ++ xs.drop id`, the size is
`s + 1` and the iterator returned is `begin() + id` of the container as it is
afterwards; this is the state `push_back(v)` produces, `xs ++ [v]`, with the last
element moved to position `id`.  With `1, 2, 4`, inserting `3` before index 2
gives `1, 2, 3, 4`. -/
theorem insert_places_value :
    (∀ (N : Nat) (w : world T) (i id : Nat) (v : T) (xs : List T) (s : Nat) (d : iterator),
      valid N w i → no_failure w → elements i w = result.ok xs w →
      size i w = result.ok s w → data_const i w = result.ok d w → id ≤ s →
      ∃ d1 w1, socow_vector.insert N i (d.add id) v w = result.ok (d1.add id) w1 ∧
        data_const i w1 = result.ok d1 w1 ∧
        elements i w1 = result.ok (xs.take id ++ [v] ++ xs.drop id) w1 ∧
        size i w1 = result.ok (s + 1) w1 ∧
        ∃ wp, push_back N i v w = result.ok () wp ∧
          elements i wp = result.ok (xs ++ [v]) wp ∧
          xs.take id ++ [v] ++ xs.drop id
            = (xs ++ [v]).take id ++ [v] ++ ((xs ++ [v]).drop id).dropLast) ∧
    (∃ it w1, socow_vector.insert 4 0 (iterator.mk (storage.static_storage 0) 2) 3
        world_small3 = result.ok it w1 ∧
      elements 0 w1 = result.ok [1, 2, 3, 4] w1) := by
  constructor
  · intro N w i id v xs s d hv hnf hxs hs hd h1
    obtain ⟨xs0, s0, d0, o1, o2, o3, h⟩ := insert_spec id v hv hnf
    obtain ⟨rfl, _⟩ := result_ok_inj hxs o1
    obtain ⟨rfl, _⟩ := result_ok_inj hs o2
    obtain ⟨rfl, _⟩ := result_ok_inj hd o3
    obtain ⟨d1, w1, e, q1, hv1, _, q2, q3, _, wp, q5, q6, _⟩ := h h1
    have hxl : xs.length = s := by
      obtain ⟨r, l, ys, n, _, _, hel, hn, r1, r2, _⟩ :=
        owned_of_valid hv1 (by assumption)
      obtain ⟨rfl, _⟩ := result_ok_inj q2 r1
      obtain ⟨rfl, _⟩ := result_ok_inj q3 r2
      have := (constructed_of_take hel hn).2
      simp at this
      omega
    refine ⟨d1, w1, e, q1, q2, q3, wp, q5, q6, ?_⟩
    rw [List.take_append_of_le_length (by omega), List.drop_append_of_le_length (by omega),
      List.dropLast_append_of_ne_nil _ (by simp)]
    simp
  · refine ⟨iterator.mk (storage.static_storage 0) 2,
      world.mk [] [some (socow_vector.mk vector_type.SMALL 4 0
        [some 1, some 2, some 3, some 4])] [] [], ?_⟩
    decide

/-! ### Witnesses -/

theorem world_small3_valid : valid 4 world_small3 0 :=
  valid_small rfl rfl rfl (by decide)
    (show List.take 3 [some 1, some 2, some 4, none] = List.map some [1, 2, 4] from rfl)

theorem erase_removes_range_witness :
    ∃ d1 w1, erase 4 0 ((iterator.mk (storage.arr 0) 0).add 1)
        ((iterator.mk (storage.arr 0) 0).add 3) world_big5 = result.ok (d1.add 1) w1 ∧
      data_const 0 w1 = result.ok d1 w1 ∧
      elements 0 w1 = result.ok ([1, 2, 3, 4, 5].take 1 ++ [1, 2, 3, 4, 5].drop 3) w1 ∧
      size 0 w1 = result.ok (5 - (3 - 1)) w1 ∧
      is_master 0 w1 = result.ok true w1 :=
  erase_removes_range.1 4 world_big5 0 1 3 [1, 2, 3, 4, 5] 5 (iterator.mk (storage.arr 0) 0)
    world_big5_valid ⟨rfl, rfl⟩ (by decide) (by decide) (by decide) (by decide) (by decide)

theorem insert_places_value_witness :
    ∃ d1 w1, socow_vector.insert 4 0 ((iterator.mk (storage.static_storage 0) 0).add 2) 3
        world_small3 = result.ok (d1.add 2) w1 ∧
      data_const 0 w1 = result.ok d1 w1 ∧
      elements 0 w1 = result.ok ([1, 2, 4].take 2 ++ [3] ++ [1, 2, 4].drop 2) w1 ∧
      size 0 w1 = result.ok (3 + 1) w1 ∧
      ∃ wp, push_back 4 0 3 world_small3 = result.ok () wp ∧
        elements 0 wp = result.ok ([1, 2, 4] ++ [3]) wp ∧
        [1, 2, 4].take 2 ++ [3] ++ [1, 2, 4].drop 2
          = ([1, 2, 4] ++ [3]).take 2 ++ [3] ++ (([1, 2, 4] ++ [3]).drop 2).dropLast :=
  insert_places_value.1 4 world_small3 0 2 3 [1, 2, 4] 3
    (iterator.mk (storage.static_storage 0) 0)
    world_small3_valid ⟨rfl, rfl⟩ (by decide) (by decide) (by decide) (by decide)

theorem use_count_of_heap_eq {w w1 : world T} (h : w1.heap = w.heap) {p k : Nat}
    (hk : my_shared_ptr.use_count p w = result.ok k w) :
    my_shared_ptr.use_count p w1 = result.ok k w1 := by
  rcases hb : w.heap[p]? with _ | _ | b
  · simp [my_shared_ptr.use_count, get_buf, hb] at hk
  · simp [my_shared_ptr.use_count, get_buf, hb] at hk
  · simp [my_shared_ptr.use_count, get_buf, hb] at hk
    simp [my_shared_ptr.use_count, get_buf, h, hb, hk]

/-- C10. `swap` exchanges two distinct well-formed containers completely, whatever
their representations (small/small of any sizes, small/big, big/small, big/big):
in a run where nothing throws the call returns, and afterwards the size, elements,
capacity and representation of `a` are those `b` had and vice versa; a container
that was big hands its buffer pointer to the other one; the free store is left as
it was, so every buffer has the reference count it had before. -/
theorem swap_exchanges {N : Nat} (w : world T) (a b : Nat) (xa xb : List T)
    (sa sb ca cb : Nat) (ta tb : Bool)
    (hva : valid N w a) (hvb : valid N w b) (hab : a ≠ b) (hnf : no_failure w)
    (h1 : elements a w = result.ok xa w) (h2 : size a w = result.ok sa w)
    (h3 : capacity N a w = result.ok ca w) (h4 : is_small a w = result.ok ta w)
    (h5 : elements b w = result.ok xb w) (h6 : size b w = result.ok sb w)
    (h7 : capacity N b w = result.ok cb w) (h8 : is_small b w = result.ok tb w) :
    ∃ w1, swap a b w = result.ok () w1 ∧
      elements a w1 = result.ok xb w1 ∧ size a w1 = result.ok sb w1 ∧
      capacity N a w1 = result.ok cb w1 ∧ is_small a w1 = result.ok tb w1 ∧
      elements b w1 = result.ok xa w1 ∧ size b w1 = result.ok sa w1 ∧
      capacity N b w1 = result.ok ca w1 ∧ is_small b w1 = result.ok ta w1 ∧
      (tb = false → ∀ d, data_const b w = result.ok d w → data_const a w1 = result.ok d w1) ∧
      (ta = false → ∀ d, data_const a w = result.ok d w → data_const b w1 = result.ok d w1) ∧
      w1.heap = w.heap ∧
      (∀ p k, my_shared_ptr.use_count p w = result.ok k w →
        my_shared_ptr.use_count p w1 = result.ok k w1) := by
  obtain ⟨xa0, sa0, ca0, ta0, xb0, sb0, cb0, tb0, w1, o1, o2, o3, o4, o5, o6, o7, o8, e, _, _, _,
    hh, q1, q2, q3, q4, q5, q6, q7, q8, q9, q10, _⟩ := swap_spec hva hvb hab hnf
  obtain ⟨rfl, _⟩ := result_ok_inj h1 o1
  obtain ⟨rfl, _⟩ := result_ok_inj h2 o2
  obtain ⟨rfl, _⟩ := result_ok_inj h3 o3
  obtain ⟨rfl, _⟩ := result_ok_inj h4 o4
  obtain ⟨rfl, _⟩ := result_ok_inj h5 o5
  obtain ⟨rfl, _⟩ := result_ok_inj h6 o6
  obtain ⟨rfl, _⟩ := result_ok_inj h7 o7
  obtain ⟨rfl, _⟩ := result_ok_inj h8 o8
  exact ⟨w1, e, q1, q2, q3, q4, q5, q6, q7, q8, q9, q10, hh,
    fun p k hk => use_count_of_heap_eq hh hk⟩

/-! ### Witnesses -/

theorem world_big5_small1_valid :
    valid 4 world_big5_small1 0 ∧ valid 4 world_big5_small1 1 :=
  ⟨valid_big (b := buffer.mk 1 8
      [some 1, some 2, some 3, some 4, some 5, none, none, none]) rfl rfl rfl rfl rfl
      (by decide)
      (show List.take 5 [some 1, some 2, some 3, some 4, some 5, none, none, none]
        = List.map some [1, 2, 3, 4, 5] from rfl) (by decide),
    valid_small rfl rfl rfl (by decide)
      (show List.take 1 [some 9, none, none, none] = List.map some [9] from rfl)⟩

theorem swap_exchanges_witness :
    ∃ w1, swap 0 1 world_big5_small1 = result.ok () w1 ∧
      elements 0 w1 = result.ok [9] w1 ∧ size 0 w1 = result.ok 1 w1 ∧
      capacity 4 0 w1 = result.ok 4 w1 ∧ is_small 0 w1 = result.ok true w1 ∧
      elements 1 w1 = result.ok [1, 2, 3, 4, 5] w1 ∧ size 1 w1 = result.ok 5 w1 ∧
      capacity 4 1 w1 = result.ok 8 w1 ∧ is_small 1 w1 = result.ok false w1 ∧
      (true = false → ∀ d, data_const 1 world_big5_small1 = result.ok d world_big5_small1 →
        data_const 0 w1 = result.ok d w1) ∧
      (false = false → ∀ d, data_const 0 world_big5_small1 = result.ok d world_big5_small1 →
        data_const 1 w1 = result.ok d w1) ∧
      w1.heap = world_big5_small1.heap ∧
      (∀ p k, my_shared_ptr.use_count p world_big5_small1 = result.ok k world_big5_small1 →
        my_shared_ptr.use_count p w1 = result.ok k w1) :=
  swap_exchanges world_big5_small1 0 1 [1, 2, 3, 4, 5] [9] 5 1 8 4 false true
    world_big5_small1_valid.1 world_big5_small1_valid.2 (by decide) ⟨rfl, rfl⟩
    (by decide) (by decide) (by decide) (by decide) (by decide) (by decide) (by decide)
    (by decide)

/-- C8. The strong exception guarantee of `push_back` fails when there is room:
on the Small container `[1]` (`N = 4`) whose next element copy throws,
`push_back(7)` leaves by the exception with `size` 2 instead of 1, and the slot
counted as second element was never constructed.  When the container is full
(`size + 1 > capacity`, Small or Big) a failed `push_back` does leave every
container with the size, capacity, representation, elements and data pointer it
had, and every reference count as it was. -/
theorem push_back_failure_with_room_changes_size :
    (size 0 world_small1_copy_throws = result.ok 1 world_small1_copy_throws ∧
     capacity 4 0 world_small1_copy_throws = result.ok 4 world_small1_copy_throws ∧
     elements 0 world_small1_copy_throws = result.ok [1] world_small1_copy_throws ∧
     ∃ w1, push_back 4 0 7 world_small1_copy_throws = result.throw w1 ∧
       size 0 w1 = result.ok 2 w1 ∧ elements 0 w1 = result.ub ∧
       w1.slots (storage.static_storage 0) = some [some 1, none, none, none]) ∧
    (∀ (T : Type) (N i : Nat) (v : T) (w w1 : world T) (n c : Nat),
      size i w = result.ok n w → capacity N i w = result.ok c w → c < n + 1 →
      push_back N i v w = result.throw w1 →
      (∀ j, observes_same N j w w1) ∧ counts_same w w1) :=
  ⟨⟨by decide, by decide, by decide,
    ⟨world.mk [] [some (socow_vector.mk vector_type.SMALL 2 0 [some 1, none, none, none])]
        [] [],
      by decide, by decide, by decide, by decide⟩⟩,
   fun _ N i v w w1 n c hn hc hfull h =>
    have hp := push_back_growth_throw N i v w w1 n c hn hc hfull h
    ⟨fun j => observes_same_of_preserved hp N j, counts_same_of_preserved hp⟩⟩

/-- C9. Strong exception guarantee of `reserve`: if `reserve(n)` leaves by an
exception (a failed allocation or a failed element copy), every container object
is exactly as before the call, so the container and every other container (those
sharing its buffer among them) show the same size, capacity, representation,
element sequence and data pointer, and every buffer has the reference count it
had. -/
theorem reserve_strong_guarantee (N i n : Nat) (w w1 : world T)
    (h : reserve N i n w = result.throw w1) :
    w1.objs = w.objs ∧ (∀ j, observes_same N j w w1) ∧ counts_same w w1 :=
  have hp := reserve_value_throw N i n none w w1 h
  ⟨hp.1, fun j => observes_same_of_preserved hp N j, counts_same_of_preserved hp⟩

/-! ### Witnesses -/

theorem push_back_failure_with_room_changes_size_witness :
    ∃ w1, push_back 4 0 7 world_small4_copy_throws = result.throw w1 ∧
      ((∀ j, observes_same 4 j world_small4_copy_throws w1) ∧
        counts_same world_small4_copy_throws w1) ∧
      elements 0 w1 = result.ok [1, 2, 3, 4] w1 :=
  ⟨world.mk [none]
      [some (socow_vector.mk vector_type.SMALL 4 0 [some 1, some 2, some 3, some 4])] [] [],
    by decide,
    push_back_failure_with_room_changes_size.2 Nat 4 0 7 world_small4_copy_throws _ 4 4
      (by decide) (by decide) (by decide) (by decide),
    by decide⟩

theorem reserve_strong_guarantee_witness :
    ∃ w1, reserve 4 0 16 world_shared5_copy_throws = result.throw w1 ∧
      (w1.objs = world_shared5_copy_throws.objs ∧
        (∀ j, observes_same 4 j world_shared5_copy_throws w1) ∧
        counts_same world_shared5_copy_throws w1) ∧
      elements 1 w1 = result.ok [1, 2, 3, 4, 5] w1 ∧
      my_shared_ptr.use_count 0 w1 = result.ok 2 w1 :=
  ⟨world.mk
      [some (buffer.mk 2 8 [some 1, some 2, some 3, some 4, some 5, none, none, none]), none]
      [some (socow_vector.mk vector_type.BIG 5 0 [none, none, none, none]),
       some (socow_vector.mk vector_type.BIG 5 0 [none, none, none, none])] [] [],
    by decide,
    reserve_strong_guarantee 4 0 16 world_shared5_copy_throws _ (by decide),
    by decide, by decide⟩

/-- C6, counterexamples.  (1) The big container `0` of `world_big3` holds three
elements (`N = 4`); its copy is small, with its own elements in its static
storage, and the source's buffer keeps reference count 1.  (2) In `world_shared5`
the big containers `0` and `1` already share one buffer of count 2; after the
assignment `1 = 0` the count is still 2, not 3. -/
theorem copy_of_big_source_not_always_shared :
    (is_small 0 world_big3 = result.ok false world_big3 ∧
     my_shared_ptr.use_count 0 world_big3 = result.ok 1 world_big3 ∧
     ∃ w1, copy_ctor 4 0 world_big3 = result.ok 1 w1 ∧
       is_small 1 w1 = result.ok true w1 ∧
       data_const 1 w1 = result.ok (iterator.mk (storage.static_storage 1) 0) w1 ∧
       elements 1 w1 = result.ok [1, 2, 3] w1 ∧
       my_shared_ptr.use_count 0 w1 = result.ok 1 w1) ∧
    (data_const 0 world_shared5 = result.ok (iterator.mk (storage.arr 0) 0) world_shared5 ∧
     data_const 1 world_shared5 = result.ok (iterator.mk (storage.arr 0) 0) world_shared5 ∧
     my_shared_ptr.use_count 0 world_shared5 = result.ok 2 world_shared5 ∧
     ∃ w1, operator_assign 4 1 0 world_shared5 = result.ok () w1 ∧
       data_const 1 w1 = result.ok (iterator.mk (storage.arr 0) 0) w1 ∧
       my_shared_ptr.use_count 0 w1 = result.ok 2 w1) :=
  ⟨⟨by decide, by decide,
    world.mk [some (buffer.mk 1 8 [some 1, some 2, some 3, none, none, none, none, none])]
      [some (socow_vector.mk vector_type.BIG 3 0 [none, none, none, none]),
       some (socow_vector.mk vector_type.SMALL 3 0 [some 1, some 2, some 3, none])] [] [],
    by decide, by decide, by decide, by decide, by decide⟩,
   ⟨by decide, by decide, by decide,
    world.mk [some (buffer.mk 2 8 [some 1, some 2, some 3, some 4, some 5, none, none, none])]
      [some (socow_vector.mk vector_type.BIG 5 0 [none, none, none, none]),
       some (socow_vector.mk vector_type.BIG 5 0 [none, none, none, none]), none] [] [],
    by decide, by decide, by decide⟩⟩

/-- C6, amended.  Copying shares the buffer exactly when the source's size
exceeds `N`.  For a well-formed source `o` with elements `xs` and size `s`, and a
well-formed assignment target `t ≠ o`, in a run where nothing throws:
the copy constructor and `t = o` both return and give a container with elements
`xs` and size `s`, and the source is left as it was.
If `s ≤ N` (small source, or big source with few elements) the copy is small, an
element-wise copy; construction leaves the heap untouched.
If `N < s` the source is big, the copy is big and has the source's data pointer;
construction adds one to the buffer's reference count, allocates nothing, and
succeeds without copying an element under every failure schedule; after
assignment the count is one more than before, unless the target already held
that buffer, in which case it is what it was. -/
theorem copy_shares_when_size_exceeds_small_size {N : Nat} (w : world T) (o t : Nat)
    (hvo : valid N w o) (hvt : valid N w t) (hne : t ≠ o) (hnf : no_failure w)
    (hshare : ∀ p k, data_const t w = result.ok (iterator.mk (storage.arr p) 0) w →
      data_const o w = result.ok (iterator.mk (storage.arr p) 0) w →
      my_shared_ptr.use_count p w = result.ok k w → 2 ≤ k) :
    ∃ xs s, elements o w = result.ok xs w ∧ size o w = result.ok s w ∧
      (∃ w1, copy_ctor N o w = result.ok w.objs.length w1 ∧
        elements w.objs.length w1 = result.ok xs w1 ∧
        size w.objs.length w1 = result.ok s w1 ∧
        elements o w1 = result.ok xs w1 ∧ size o w1 = result.ok s w1 ∧
        (s ≤ N → is_small w.objs.length w1 = result.ok true w1 ∧ w1.heap = w.heap) ∧
        (N < s → is_small o w = result.ok false w ∧
          is_small w.objs.length w1 = result.ok false w1 ∧
          w1.heap.length = w.heap.length ∧
          (∃ p k, data_const o w = result.ok (iterator.mk (storage.arr p) 0) w ∧
            data_const w.objs.length w1 = result.ok (iterator.mk (storage.arr p) 0) w1 ∧
            my_shared_ptr.use_count p w = result.ok k w ∧
            my_shared_ptr.use_count p w1 = result.ok (k + 1) w1) ∧
          ∀ cs al, ∃ w2, copy_ctor N o { w with copy_throws := cs, alloc_throws := al }
              = result.ok w.objs.length w2 ∧
            w2.copy_throws = cs ∧ w2.alloc_throws = al ∧ w2.heap = w1.heap ∧
            w2.objs = w1.objs)) ∧
      (∃ w3, operator_assign N t o w = result.ok () w3 ∧
        elements t w3 = result.ok xs w3 ∧ size t w3 = result.ok s w3 ∧
        observes_same N o w w3 ∧
        (s ≤ N → is_small t w3 = result.ok true w3) ∧
        (N < s → is_small t w3 = result.ok false w3 ∧
          ∃ p k, data_const o w = result.ok (iterator.mk (storage.arr p) 0) w ∧
            data_const t w3 = result.ok (iterator.mk (storage.arr p) 0) w3 ∧
            my_shared_ptr.use_count p w = result.ok k w ∧
            (data_const t w = result.ok (iterator.mk (storage.arr p) 0) w →
              my_shared_ptr.use_count p w3 = result.ok k w3) ∧
            (data_const t w ≠ result.ok (iterator.mk (storage.arr p) 0) w →
              my_shared_ptr.use_count p w3 = result.ok (k + 1) w3))) := by
  obtain ⟨xs, co, ct, w3, o1, hco, hct, e3, _, _, et3, st3, hu3, hs3, hb3⟩ :=
    copy_and_swap_spec hvo hvt hnf (fun _ ct co b hct hco htt hto hd _ hb =>
      hshare co.dynamic_storage b.cnt_references
        (by rw [data_const_of_obj_big hct htt, hd]) (data_const_of_obj_big hco hto)
        (use_count_of_buf hb))
  obtain ⟨xs1, s, w1, p1, p2, e1, _, _, _, _, sm1, em1, so1, eo1, hs1, hb1⟩ :=
    copy_ctor_spec hvo hnf
  obtain ⟨hxs, _⟩ := result_ok_inj p1 o1
  obtain ⟨hsz, _⟩ := result_ok_inj p2 (size_of_obj hco)
  rw [hxs] at em1 eo1
  rw [hsz] at sm1 so1 hs1 hb1
  refine ⟨xs, co.size_, o1, size_of_obj hco, ⟨w1, e1, em1, sm1, eo1, so1, hs1, ?_⟩,
    ⟨w3, by simpa [operator_assign, hne] using e3, et3, st3,
      (valid_of_unchanged hvo (hu3 hne)).2, hs3, ?_⟩⟩
  · intro hlt
    obtain ⟨i1, p, cap, k, d0, _, d1, _, _, u0, u1⟩ := hb1 hlt
    obtain ⟨hcobig, _⟩ := hb3 hlt
    obtain ⟨_, _, c0, hc0, hh⟩ := copy_ctor_frame hvo hnf e1
    rw [hco] at hc0
    simp only [Option.some.injEq] at hc0
    subst hc0
    rcases hh with ⟨hle, _⟩ | ⟨_, _, b, hb, hheap⟩
    · omega
    refine ⟨by rw [is_small_of_obj hco, hcobig]; simp, i1, by rw [hheap]; simp,
      ⟨p, k, d0, d1, u0, u1⟩, fun cs al => ?_⟩
    have hshare2 := copy_ctor_share (w := { w with copy_throws := cs, alloc_throws := al }) N
      hco hb hlt
    have hshare1 := copy_ctor_share (w := w) N hco hb hlt
    obtain ⟨_, hw1⟩ := result_ok_inj e1 hshare1
    exact ⟨_, hshare2, rfl, rfl, by rw [hw1], by rw [hw1]⟩
  · intro hlt
    obtain ⟨hcobig, i3, d3, b, hb, u3⟩ := hb3 hlt
    refine ⟨i3, co.dynamic_storage, b.cnt_references, data_const_of_obj_big hco hcobig, d3,
      use_count_of_buf hb, ?_, ?_⟩
    · intro hd
      have hctbig : ct.type = vector_type.BIG := by
        cases hcase : ct.type
        · obtain ⟨h2, _⟩ := result_ok_inj hd (data_const_of_obj_small hct hcase)
          simp at h2
        · rfl
      obtain ⟨h2, _⟩ := result_ok_inj hd (data_const_of_obj_big hct hctbig)
      simp only [iterator.mk.injEq, storage.arr.injEq, and_true] at h2
      rw [if_pos ⟨hctbig, h2.symm⟩] at u3
      exact u3
    · intro hd
      rw [if_neg (fun h => hd (by rw [data_const_of_obj_big hct h.1, h.2]))] at u3
      exact u3

/-! ### Witnesses -/

theorem copy_shares_when_size_exceeds_small_size_witness :
    ∃ xs s, elements 0 world_big5_small1 = result.ok xs world_big5_small1 ∧
      size 0 world_big5_small1 = result.ok s world_big5_small1 ∧
      (∃ w1, copy_ctor 4 0 world_big5_small1 = result.ok world_big5_small1.objs.length w1 ∧
        elements world_big5_small1.objs.length w1 = result.ok xs w1 ∧
        size world_big5_small1.objs.length w1 = result.ok s w1 ∧
        elements 0 w1 = result.ok xs w1 ∧ size 0 w1 = result.ok s w1 ∧
        (s ≤ 4 → is_small world_big5_small1.objs.length w1 = result.ok true w1 ∧
          w1.heap = world_big5_small1.heap) ∧
        (4 < s → is_small 0 world_big5_small1 = result.ok false world_big5_small1 ∧
          is_small world_big5_small1.objs.length w1 = result.ok false w1 ∧
          w1.heap.length = world_big5_small1.heap.length ∧
          (∃ p k, data_const 0 world_big5_small1
              = result.ok (iterator.mk (storage.arr p) 0) world_big5_small1 ∧
            data_const world_big5_small1.objs.length w1
              = result.ok (iterator.mk (storage.arr p) 0) w1 ∧
            my_shared_ptr.use_count p world_big5_small1 = result.ok k world_big5_small1 ∧
            my_shared_ptr.use_count p w1 = result.ok (k + 1) w1) ∧
          ∀ cs al, ∃ w2,
            copy_ctor 4 0 { world_big5_small1 with copy_throws := cs, alloc_throws := al }
              = result.ok world_big5_small1.objs.length w2 ∧
            w2.copy_throws = cs ∧ w2.alloc_throws = al ∧ w2.heap = w1.heap ∧
            w2.objs = w1.objs)) ∧
      (∃ w3, operator_assign 4 1 0 world_big5_small1 = result.ok () w3 ∧
        elements 1 w3 = result.ok xs w3 ∧ size 1 w3 = result.ok s w3 ∧
        observes_same 4 0 world_big5_small1 w3 ∧
        (s ≤ 4 → is_small 1 w3 = result.ok true w3) ∧
        (4 < s → is_small 1 w3 = result.ok false w3 ∧
          ∃ p k, data_const 0 world_big5_small1
              = result.ok (iterator.mk (storage.arr p) 0) world_big5_small1 ∧
            data_const 1 w3 = result.ok (iterator.mk (storage.arr p) 0) w3 ∧
            my_shared_ptr.use_count p world_big5_small1 = result.ok k world_big5_small1 ∧
            (data_const 1 world_big5_small1
                = result.ok (iterator.mk (storage.arr p) 0) world_big5_small1 →
              my_shared_ptr.use_count p w3 = result.ok k w3) ∧
            (data_const 1 world_big5_small1
                ≠ result.ok (iterator.mk (storage.arr p) 0) world_big5_small1 →
              my_shared_ptr.use_count p w3 = result.ok (k + 1) w3))) :=
  copy_shares_when_size_exceeds_small_size world_big5_small1 0 1 world_big5_small1_valid.1
    world_big5_small1_valid.2 (by decide) ⟨rfl, rfl⟩
    (fun p k h _ _ => by
      have h1 : data_const 1 world_big5_small1
          = result.ok (iterator.mk (storage.static_storage 1) 0) world_big5_small1 := by
        decide
      rw [h1] at h
      simp at h)

/-- C7. Capacity invariant.  A default-constructed container is empty, small and
has capacity `N`.  In every world a program can reach from no containers at all by
constructing containers, destroying them and calling the public operations (copy
construction, copy assignment, `swap`, `push_back`, `insert`, both `erase`
overloads, `pop_back`, `clear`, `reserve`, `shrink_to_fit` and the mutable
accessors `data`, `begin`, `end`, `operator[]`, `front`, `back`) on live
containers within their preconditions, whatever element copies and allocations
fail and whether the calls return or leave by an exception, every live container
has `size ≤ capacity` and capacity `N` whenever it is small; and every such
action, however it ends, leaves every live container so.  Moreover each public
operation called on well-formed containers within its precondition, in a run
where nothing throws and the byte counts of the allocations do not wrap around
(those for one more than twice the capacity of an operand, and for the argument
of `reserve`), returns and leaves every container involved (the operands and,
for the copy constructor, the new object) well formed with `size ≤ capacity` and
capacity `N` whenever it is small.  The allocation is sized as in the source,
with the byte count in `size_type`. -/
theorem capacity_invariant_preserved (L : layout) (N : Nat) (w : world T)
    (h : reachable L N w) :
    (∀ w0 : world T, ∃ w1, default_ctor N w0 = result.ok w0.objs.length w1 ∧
      size w0.objs.length w1 = result.ok 0 w1 ∧
      empty w0.objs.length w1 = result.ok true w1 ∧
      is_small w0.objs.length w1 = result.ok true w1 ∧
      capacity N w0.objs.length w1 = result.ok N w1 ∧
      valid N w1 w0.objs.length ∧ capacity_invariant N w1 w0.objs.length) ∧
    (∀ (j : Nat) (c : socow_vector T), w.objs[j]? = some (some c) →
      capacity_invariant N w j) ∧
    (∀ (a : action T) (w1 : world T), a.requires w → leaves (a.run L N) w w1 →
      ∀ (j : Nat) (c : socow_vector T), w1.objs[j]? = some (some c) →
        capacity_invariant N w1 j) ∧
    (∀ (op : operation T) (w0 : world T), (∀ j ∈ op.operands, valid N w0 j) →
      no_failure w0 → op.pre w0 →
      (∀ j ∈ op.operands, ∀ cap, capacity N j w0 = result.ok cap w0 →
        L.representable (2 * cap + 1)) →
      (∀ i n, op = operation.reserve i n → L.representable n) →
      (∀ j ∈ op.operands, capacity_invariant N w0 j) ∧
      ∃ w1, sized.run L N op w0 = result.ok () w1 ∧ no_failure w1 ∧
        ∀ j ∈ op.results w0, valid N w1 j ∧ capacity_invariant N w1 j) := by
  have hwf := wf_of_reachable h
  refine ⟨fun w0 => ?_, fun j c hc => capacity_invariant_of_wf hwf hc,
    fun a w1 hreq hl j c hc => capacity_invariant_of_wf (wf_of_action L a hwf hreq hl).1 hc,
    fun op w0 hv hnf hpre hroom hres => ?_⟩
  · obtain ⟨w1, e, v, s, em, sm, cp, _⟩ := default_ctor_spec N w0
    exact ⟨w1, e, s, em, sm, cp, v, capacity_of_valid v⟩
  · obtain ⟨w1, e, nf, hr⟩ := sized_operation_preserves_valid L op w0 hv hnf hpre hroom hres
    exact ⟨fun j hj => capacity_of_valid (hv j hj), w1, e, nf,
      fun j hj => ⟨hr j hj, capacity_of_valid (hr j hj)⟩⟩

/-! ### Witness -/

theorem capacity_invariant_preserved_witness :
    reachable layout_int 1 world_seven ∧
    (action.call (operation.push_back 0 8) : action Nat).requires world_seven ∧
    leaves ((action.call (operation.push_back 0 8) : action Nat).run layout_int 1)
      world_seven world_seven_failed ∧
    capacity_invariant 1 world_seven 0 ∧ capacity_invariant 1 world_seven_failed 0 ∧
    (reachable layout_int 1 world_unbuilt ∧ elements 0 world_unbuilt = result.ub ∧
      capacity_invariant 1 world_unbuilt 0) ∧
    ∃ w1, sized.run layout_int 1 (operation.push_back 0 8) world_seven_failed
        = result.ok () w1 ∧ no_failure w1 ∧
      ∀ j ∈ (operation.push_back 0 8 : operation Nat).results world_seven_failed,
        valid 1 w1 j ∧ capacity_invariant 1 w1 j :=
  have hreq : (action.call (operation.push_back 0 8) : action Nat).requires world_seven :=
    requires_of_live rfl (show world_seven.objs[0]? = some (some _) from rfl) trivial
  have hl : leaves ((action.call (operation.push_back 0 8) : action Nat).run layout_int 1)
      world_seven world_seven_failed := Or.inr (by decide)
  have hthm := capacity_invariant_preserved layout_int 1 world_seven reachable_world_seven
  have hv : valid 1 world_seven_failed 0 :=
    valid_small (c := socow_vector.mk vector_type.SMALL 1 0 [some 7]) rfl rfl rfl
      (by decide) (show List.take 1 [some 7] = List.map some [7] from rfl)
  ⟨reachable_world_seven, hreq, hl, hthm.2.1 0 _ rfl, hthm.2.2.1 _ _ hreq hl 0 _ rfl,
    ⟨reachable_world_unbuilt, by decide,
      (capacity_invariant_preserved layout_int 1 world_unbuilt reachable_world_unbuilt).2.1
        0 _ rfl⟩,
    (hthm.2.2.2 (operation.push_back 0 8) world_seven_failed
      (fun j hj => by
        simp only [operation.operands, List.mem_singleton] at hj
        subst hj
        exact hv)
      ⟨rfl, rfl⟩ trivial
      (fun j hj cap hcap => by
        simp only [operation.operands, List.mem_singleton] at hj
        subst hj
        obtain ⟨e, _⟩ := result_ok_inj hcap
          (show capacity 1 0 world_seven_failed = result.ok 1 world_seven_failed by decide)
        subst e
        decide)
      (fun i n e => by cases e)).2⟩

/-- C11. Self-assignment and self-swap are no-ops: for every well-formed
container `a` (small or big, exclusive or shared), under every failure schedule,
`a = a` and `a.swap(a)` return and leave the world exactly as it was, so the
size, capacity, representation and elements of `a` and every reference count are
unchanged. -/
theorem self_assignment_and_self_swap_are_noops {N : Nat} (w : world T) (a : Nat)
    (hv : valid N w a) :
    operator_assign N a a w = result.ok () w ∧ swap a a w = result.ok () w :=
  ⟨by simp [operator_assign], swap_self hv⟩

/-- C12. `shrink_to_fit` on a well-formed container when nothing throws: the call
returns, elements and size are unchanged, and a call on a container whose
capacity equals its size changes nothing.  A big container (its capacity exceeds
`N`) with `size ≤ N` becomes small with capacity `N`; with `size > N` it is big
with capacity equal to its size. -/
theorem shrink_to_fit_postcondition {N : Nat} (w : world T) (i : Nat) (hv : valid N w i)
    (hnf : no_failure w) :
    ∃ xs s c w1, elements i w = result.ok xs w ∧ size i w = result.ok s w ∧
      capacity N i w = result.ok c w ∧
      shrink_to_fit N i w = result.ok () w1 ∧
      elements i w1 = result.ok xs w1 ∧ size i w1 = result.ok s w1 ∧
      (c = s → w1 = w) ∧
      (is_small i w = result.ok false w → N < c →
        (s ≤ N → is_small i w1 = result.ok true w1 ∧ capacity N i w1 = result.ok N w1) ∧
        (N < s → is_small i w1 = result.ok false w1 ∧ capacity N i w1 = result.ok s w1)) := by
  obtain ⟨xs, s, c, w1, o1, o2, o3, e, v1, _, e1, s1, hsame, hsm, hbg⟩ :=
    shrink_to_fit_spec hv hnf
  obtain ⟨s0, c0, _, hs0, hc0, _, hle0, _⟩ := capacity_of_valid hv
  obtain ⟨rfl, _⟩ := result_ok_inj hs0 o2
  obtain ⟨rfl, _⟩ := result_ok_inj hc0 o3
  refine ⟨xs, s0, c0, w1, o1, o2, o3, e, e1, s1, hsame, fun hbig hN => ⟨fun hle => ?_,
    fun hlt => ?_⟩⟩
  · have h := hsm (by omega) hle
    exact ⟨h, capacity_of_small h⟩
  · by_cases hcs : s0 < c0
    · exact hbg hcs hlt
    · have hw := hsame (by omega)
      subst hw
      have : c0 = s0 := by omega
      subst this
      exact ⟨hbig, o3⟩

/-- C14. `pop_back()` on a well-formed non-empty container with elements `xs`
when nothing throws: the call returns, the elements are `xs` without its last
one, the size is one less, capacity and representation are what they were, and
the container is the only owner of its storage afterwards.  Every other
well-formed container (a buffer it has in common with `i` being counted for both)
keeps its size, capacity, representation, elements and data pointer. -/
theorem pop_back_postcondition {N : Nat} (w : world T) (i : Nat) (xs : List T) (s : Nat)
    (hv : valid N w i) (hnf : no_failure w) (hxs : elements i w = result.ok xs w)
    (hs : size i w = result.ok s w) (hpos : 0 < s) :
    ∃ w1, pop_back N i w = result.ok () w1 ∧
      elements i w1 = result.ok xs.dropLast w1 ∧ size i w1 = result.ok (s - 1) w1 ∧
      (∀ c, capacity N i w = result.ok c w → capacity N i w1 = result.ok c w1) ∧
      (∀ t, is_small i w = result.ok t w → is_small i w1 = result.ok t w1) ∧
      is_master i w1 = result.ok true w1 ∧
      (∀ j, j ≠ i → valid N w j → shared_counted w i j → observes_same N j w w1) := by
  obtain ⟨xs0, s0, o1, o2, hspec⟩ := pop_back_spec hv hnf
  obtain ⟨rfl, _⟩ := result_ok_inj hxs o1
  obtain ⟨rfl, _⟩ := result_ok_inj hs o2
  obtain ⟨w1, e, _, _, e1, s1, m1, t1, c1⟩ := hspec hpos
  have hlen := length_of_elements hv hxs hs
  refine ⟨w1, e, ?_, s1, c1, t1, m1, fun j hji hvj hsh => ?_⟩
  · rw [List.dropLast_eq_take, hlen]
    exact e1
  · exact (valid_of_unchanged hvj (unchanged_of_own_step (pop_back_own_step hv hnf hs hpos e)
      hji hvj (shared_counted_records hsh))).2



/-! ### Witnesses -/

theorem world_shared5_valid : valid 4 world_shared5 0 ∧ valid 4 world_shared5 1 :=
  ⟨valid_big (b := buffer.mk 2 8
      [some 1, some 2, some 3, some 4, some 5, none, none, none]) rfl rfl rfl rfl rfl
      (by decide)
      (show List.take 5 [some 1, some 2, some 3, some 4, some 5, none, none, none]
        = List.map some [1, 2, 3, 4, 5] from rfl) (by decide),
    valid_big (b := buffer.mk 2 8
      [some 1, some 2, some 3, some 4, some 5, none, none, none]) rfl rfl rfl rfl rfl
      (by decide)
      (show List.take 5 [some 1, some 2, some 3, some 4, some 5, none, none, none]
        = List.map some [1, 2, 3, 4, 5] from rfl) (by decide)⟩

theorem world_shared5_counted : shared_counted world_shared5 0 1 := by
  intro p k h _ hk
  have h1 : data_const 0 world_shared5
      = result.ok (iterator.mk (storage.arr 0) 0) world_shared5 := by decide
  rw [h1] at h
  simp only [result.ok.injEq, iterator.mk.injEq, storage.arr.injEq, and_true] at h
  subst h
  have h2 : my_shared_ptr.use_count 0 world_shared5 = result.ok 2 world_shared5 := by decide
  rw [h2] at hk
  simp only [result.ok.injEq, and_true] at hk
  omega

theorem self_assignment_and_self_swap_are_noops_witness :
    operator_assign 4 0 0 world_shared5 = result.ok () world_shared5 ∧
      swap 0 0 world_shared5 = result.ok () world_shared5 :=
  self_assignment_and_self_swap_are_noops world_shared5 0 world_shared5_valid.1

theorem shrink_to_fit_postcondition_witness :
    ∃ w1, shrink_to_fit 4 0 world_big3 = result.ok () w1 ∧
      elements 0 w1 = result.ok [1, 2, 3] w1 ∧ size 0 w1 = result.ok 3 w1 ∧
      is_small 0 w1 = result.ok true w1 ∧ capacity 4 0 w1 = result.ok 4 w1 := by
  obtain ⟨xs, s, c, w1, o1, o2, o3, e, e1, s1, _, h⟩ :=
    shrink_to_fit_postcondition world_big3 0 world_big3_valid ⟨rfl, rfl⟩
  have h1 : elements 0 world_big3 = result.ok [1, 2, 3] world_big3 := by decide
  have h2 : size 0 world_big3 = result.ok 3 world_big3 := by decide
  have h3 : capacity 4 0 world_big3 = result.ok 8 world_big3 := by decide
  obtain ⟨rfl, _⟩ := result_ok_inj o1 h1
  obtain ⟨rfl, _⟩ := result_ok_inj o2 h2
  obtain ⟨rfl, _⟩ := result_ok_inj o3 h3
  obtain ⟨g1, g2⟩ := (h (by decide) (by decide)).1 (by decide)
  exact ⟨w1, e, e1, s1, g1, g2⟩

theorem pop_back_postcondition_witness :
    ∃ w1, pop_back 4 0 world_shared5 = result.ok () w1 ∧
      elements 0 w1 = result.ok [1, 2, 3, 4] w1 ∧ size 0 w1 = result.ok 4 w1 ∧
      capacity 4 0 w1 = result.ok 8 w1 ∧ is_small 0 w1 = result.ok false w1 ∧
      is_master 0 w1 = result.ok true w1 ∧ observes_same 4 1 world_shared5 w1 := by
  obtain ⟨w1, e, e1, s1, hc, ht, m1, hf⟩ :=
    pop_back_postcondition world_shared5 0 [1, 2, 3, 4, 5] 5 world_shared5_valid.1 ⟨rfl, rfl⟩
      (by decide) (by decide) (by decide)
  exact ⟨w1, e, e1, s1, hc 8 (by decide), ht false (by decide), m1,
    hf 1 (by decide) world_shared5_valid.2 world_shared5_counted⟩

/-- C13. `reserve(n)` does not keep its postcondition for every `n`: the byte
count `sizeof(buffer) + n * sizeof(value_type)` is computed in `size_type` and
wraps around.  With a 16-byte header and 4-byte elements, `reserve(2^62)` asks
for `2^64 + 16` bytes, which is 16 after the wrap: on the small container
`1, 2, 3, 4` (`N = 4`) the copy of the elements then runs past the end of the
block, which is undefined behaviour, and on an empty container the call returns
with capacity `2^62` on a block without room for a single element, so that the
next `push_back` writes past its end.  For every `n` whose byte count does not
wrap, `reserve(n)` on a well-formed container when nothing throws returns, size
and elements are unchanged and the capacity is at least `n`; if `n ≤ capacity`
and the container is exclusive the world is unchanged; if `n > capacity`, or the
container is not exclusive and `n > size`, it ends up big and exclusive on a
buffer at a fresh address, of capacity `n` and reference count 1; every other
well-formed container (a buffer it has in common with `i` being counted for
both) keeps its size, capacity, representation, elements and data pointer. -/
theorem reserve_postcondition_fails_when_byte_count_wraps :
    (layout_int.sizeof_buffer + 2 ^ 62 * layout_int.sizeof_value_type = 2 ^ 64 + 16 ∧
     elements 0 world_small4 = result.ok [1, 2, 3, 4] world_small4 ∧
     capacity 4 0 world_small4 = result.ok 4 world_small4 ∧
     sized.socow_vector.reserve layout_int 4 0 (2 ^ 62) world_small4 = result.ub ∧
     ∃ w1, sized.socow_vector.reserve layout_int 4 0 (2 ^ 62) world_empty4
         = result.ok () w1 ∧
       capacity 4 0 w1 = result.ok (2 ^ 62) w1 ∧
       data_const 0 w1 = result.ok (iterator.mk (storage.arr 0) 0) w1 ∧
       w1.slots (storage.arr 0) = some [] ∧
       sized.socow_vector.push_back layout_int 4 0 7 w1 = result.ub) ∧
    (∀ (T : Type) (L : layout) (N : Nat) (w : world T) (i n : Nat), valid N w i →
      no_failure w → L.representable n →
      ∃ xs s c w1, elements i w = result.ok xs w ∧ size i w = result.ok s w ∧
        capacity N i w = result.ok c w ∧
        sized.socow_vector.reserve L N i n w = result.ok () w1 ∧
        elements i w1 = result.ok xs w1 ∧ size i w1 = result.ok s w1 ∧
        (∃ c1, capacity N i w1 = result.ok c1 w1 ∧ n ≤ c1) ∧
        (n ≤ c → is_master i w = result.ok true w → w1 = w) ∧
        (c < n ∨ (is_master i w = result.ok false w ∧ s < n) →
          is_small i w1 = result.ok false w1 ∧ is_master i w1 = result.ok true w1 ∧
          capacity N i w1 = result.ok n w1 ∧ w.heap[w.heap.length]? = none ∧
          data_const i w1 = result.ok (iterator.mk (storage.arr w.heap.length) 0) w1 ∧
          my_shared_ptr.use_count w.heap.length w1 = result.ok 1 w1) ∧
        (∀ j, j ≠ i → valid N w j → shared_counted w i j → observes_same N j w w1)) := by
  refine ⟨⟨by decide, by decide, by decide, by decide,
    world.mk [some (buffer.mk 1 (2 ^ 62) [])]
      [some (socow_vector.mk vector_type.BIG 0 0 [none, none, none, none])] [] [],
    by decide, by decide, by decide, by decide, by decide⟩, ?_⟩
  intro T L N w i n hv hnf hrep
  have heq : sized.socow_vector.reserve L N i n w = reserve N i n w :=
    congrFun (sized_reserve_eq hrep N i) w
  obtain ⟨xs, s, c, w1, o1, o2, o3, e, _, _, e1, s1, hcap, hsame⟩ := reserve_spec n hv hnf
  refine ⟨xs, s, c, w1, o1, o2, o3, heq.trans e, e1, s1, hcap, hsame, fun hcond => ?_,
    fun j hji hvj hsh => ?_⟩
  · obtain ⟨g1, g2, g3, g4, g5⟩ := reserve_grows hv hnf o2 o3 hcond e
    exact ⟨g1, g2, g3, by simp, g4, g5⟩
  · exact (valid_of_unchanged hvj (unchanged_of_own_step (reserve_own_step n hv hnf e) hji hvj
      (shared_counted_records hsh))).2

/-! ### Witness -/

theorem reserve_postcondition_fails_when_byte_count_wraps_witness :
    layout_int.representable 6 ∧
    ∃ w1, sized.socow_vector.reserve layout_int 4 0 6 world_shared5 = result.ok () w1 ∧
      elements 0 w1 = result.ok [1, 2, 3, 4, 5] w1 ∧
      capacity 4 0 w1 = result.ok 6 w1 ∧ is_master 0 w1 = result.ok true w1 ∧
      data_const 0 w1 = result.ok (iterator.mk (storage.arr 1) 0) w1 ∧
      observes_same 4 1 world_shared5 w1 := by
  refine ⟨by decide, ?_⟩
  obtain ⟨xs, s, c, w1, o1, o2, o3, e, e1, _, _, _, hg, hf⟩ :=
    reserve_postcondition_fails_when_byte_count_wraps.2 Nat layout_int 4 world_shared5 0 6
      world_shared5_valid.1 ⟨rfl, rfl⟩ (by decide)
  have h1 : elements 0 world_shared5 = result.ok [1, 2, 3, 4, 5] world_shared5 := by decide
  have h2 : size 0 world_shared5 = result.ok 5 world_shared5 := by decide
  obtain ⟨rfl, _⟩ := result_ok_inj o1 h1
  obtain ⟨rfl, _⟩ := result_ok_inj o2 h2
  obtain ⟨_, g2, g3, _, g5, _⟩ := hg (Or.inr ⟨by decide, by decide⟩)
  exact ⟨w1, e, e1, g3, g2, g5,
    hf 1 (by decide) world_shared5_valid.2 world_shared5_counted⟩

/-- C15. `clear()` on a well-formed container when nothing throws: the call
returns, the size is 0 and capacity and representation are what they were.  An
exclusive container keeps its storage (same data pointer).  A container that was
sharing buffer `p`, counted `k` times, is afterwards the only owner of an empty
buffer at a fresh address with the same capacity and reference count 1, and `p`
is counted `k - 1` times.  Every other well-formed container (a buffer it has in
common with `i` being counted for both) keeps its size, capacity, representation,
elements and data pointer. -/
theorem clear_postcondition {N : Nat} (w : world T) (i : Nat) (hv : valid N w i)
    (hnf : no_failure w) :
    ∃ w1, clear N i w = result.ok () w1 ∧
      size i w1 = result.ok 0 w1 ∧ elements i w1 = result.ok [] w1 ∧
      (∀ c, capacity N i w = result.ok c w → capacity N i w1 = result.ok c w1) ∧
      (∀ t, is_small i w = result.ok t w → is_small i w1 = result.ok t w1) ∧
      is_master i w1 = result.ok true w1 ∧
      (is_master i w = result.ok true w →
        ∀ d, data_const i w = result.ok d w → data_const i w1 = result.ok d w1) ∧
      (is_master i w = result.ok false w →
        ∃ p k, data_const i w = result.ok (iterator.mk (storage.arr p) 0) w ∧
          my_shared_ptr.use_count p w = result.ok k w ∧ 2 ≤ k ∧
          w.heap[w.heap.length]? = none ∧
          data_const i w1 = result.ok (iterator.mk (storage.arr w.heap.length) 0) w1 ∧
          my_shared_ptr.use_count w.heap.length w1 = result.ok 1 w1 ∧
          my_shared_ptr.use_count p w1 = result.ok (k - 1) w1) ∧
      (∀ j, j ≠ i → valid N w j → shared_counted w i j → observes_same N j w w1) := by
  obtain ⟨w1, e, _, _, e1, s1, m1, t1, c1⟩ := clear_spec hv hnf
  have hstep := clear_own_step hv hnf e
  refine ⟨w1, e, s1, e1, c1, t1, m1, fun hm d hd => ?_, fun hm => ?_,
    fun j hji hvj hsh => ?_⟩
  · exact data_const_of_stay (clear_stay_step hv hnf hm e) hd
  · obtain ⟨c, b, hc, hty, hbuf, hk⟩ := shared_of_not_master hv hm
    obtain ⟨g1, _, g3, g4, g5⟩ := moved_of_own_step hstep hc hty hbuf (by omega) m1
    exact ⟨c.dynamic_storage, b.cnt_references, data_const_of_obj_big hc hty,
      use_count_of_buf hbuf, hk, g1, g3, g4, g5⟩
  · exact (valid_of_unchanged hvj (unchanged_of_own_step hstep hji hvj
      (shared_counted_records hsh))).2

/-- C16. Mutable accessors unshare eagerly, immutable ones never do.  Let `i` be a
well-formed container that shares buffer `p` (counted `k ≥ 2` times) and has
elements `xs`, size `s`, and let nothing throw.  The immutable `data`, `begin`,
`end`, `operator[]`, `front`, `back` return positions in `p` and leave the world
as it is.  Each mutable form returns the corresponding position in a buffer at a
fresh address and leaves one and the same world, in which `i` is the only owner
of that buffer (count 1), with the capacity, size and elements it had, and `p`
is counted `k - 1` times.  At every index the mutable and the immutable position
hold the same element. -/
theorem mutable_accessors_unshare {N : Nat} (w : world T) (i : Nat) (hv : valid N w i)
    (hnf : no_failure w) (hm : is_master i w = result.ok false w) :
    ∃ xs s p k w1, elements i w = result.ok xs w ∧ size i w = result.ok s w ∧
      my_shared_ptr.use_count p w = result.ok k w ∧ 2 ≤ k ∧
      (data_const i w = result.ok (iterator.mk (storage.arr p) 0) w ∧
        begin_const i w = result.ok (iterator.mk (storage.arr p) 0) w ∧
        end_const i w = result.ok (iterator.mk (storage.arr p) s) w ∧
        (∀ pos, operator_index_const i pos w = result.ok (iterator.mk (storage.arr p) pos) w) ∧
        front_const i w = result.ok (iterator.mk (storage.arr p) 0) w ∧
        back_const i w = result.ok (iterator.mk (storage.arr p) (s - 1)) w) ∧
      w.heap[w.heap.length]? = none ∧
      (data N i w = result.ok (iterator.mk (storage.arr w.heap.length) 0) w1 ∧
        «begin» N i w = result.ok (iterator.mk (storage.arr w.heap.length) 0) w1 ∧
        «end» N i w = result.ok (iterator.mk (storage.arr w.heap.length) s) w1 ∧
        (∀ pos, operator_index N i pos w
          = result.ok (iterator.mk (storage.arr w.heap.length) pos) w1) ∧
        front N i w = result.ok (iterator.mk (storage.arr w.heap.length) 0) w1 ∧
        back N i w = result.ok (iterator.mk (storage.arr w.heap.length) (s - 1)) w1) ∧
      is_master i w1 = result.ok true w1 ∧ is_small i w1 = result.ok false w1 ∧
      data_const i w1 = result.ok (iterator.mk (storage.arr w.heap.length) 0) w1 ∧
      my_shared_ptr.use_count w.heap.length w1 = result.ok 1 w1 ∧
      my_shared_ptr.use_count p w1 = result.ok (k - 1) w1 ∧
      elements i w1 = result.ok xs w1 ∧ size i w1 = result.ok s w1 ∧
      (∀ c, capacity N i w = result.ok c w → capacity N i w1 = result.ok c w1) ∧
      (∀ pos v, xs[pos]? = some v →
        deref (iterator.mk (storage.arr p) pos) w = result.ok v w ∧
        deref (iterator.mk (storage.arr w.heap.length) pos) w1 = result.ok v w1) := by
  obtain ⟨xs, s, cloned, d, w1, o1, o2, e, hv1, _, m1, e1, s1, hd1, _, c1, a1, a2, a3, a4,
    a5, a6⟩ := accessors_spec hv hnf
  obtain ⟨c, b, hc, hty, hbuf, hk⟩ := shared_of_not_master hv hm
  obtain ⟨g1, g2, g3, g4, g5⟩ := moved_of_own_step (make_master_own_step hv hnf e) hc hty hbuf
    (by omega) m1
  obtain ⟨rfl, _⟩ := result_ok_inj hd1 g3
  have hd0 := data_const_of_obj_big hc hty
  refine ⟨xs, s, c.dynamic_storage, b.cnt_references, w1, o1, o2, use_count_of_buf hbuf, hk,
    ⟨hd0, hd0, ?_, fun pos => ?_, ?_, ?_⟩, g1, ⟨a1, a2, ?_, fun pos => ?_, ?_, ?_⟩, m1, g2, g3,
    g4, g5, e1, s1, c1, fun pos v hp => ⟨?_, ?_⟩⟩
  · simp [end_const, hd0, o2, iterator.add]
  · simp [operator_index_const, hd0, iterator.add]
  · simp [front_const, hd0, iterator.add]
  · simp [back_const, hd0, o2, iterator.add]
  · simpa [iterator.add] using a3
  · simpa [iterator.add] using a4 pos
  · simpa [iterator.add] using a5
  · simpa [iterator.add] using a6
  · simpa [iterator.add] using deref_of_elements hv o1 hd0 hp
  · simpa [iterator.add] using deref_of_elements hv1 e1 g3 hp

/-! ### Witnesses -/

theorem clear_postcondition_witness :
    ∃ w1, clear 4 0 world_shared5 = result.ok () w1 ∧
      size 0 w1 = result.ok 0 w1 ∧ capacity 4 0 w1 = result.ok 8 w1 ∧
      is_small 0 w1 = result.ok false w1 ∧
      data_const 0 w1 = result.ok (iterator.mk (storage.arr 1) 0) w1 ∧
      my_shared_ptr.use_count 1 w1 = result.ok 1 w1 ∧
      my_shared_ptr.use_count 0 w1 = result.ok 1 w1 ∧
      observes_same 4 1 world_shared5 w1 := by
  obtain ⟨w1, e, s1, _, hc, ht, _, _, hsh, hf⟩ :=
    clear_postcondition world_shared5 0 world_shared5_valid.1 ⟨rfl, rfl⟩
  obtain ⟨p, k, hd, hk, _, _, g1, g2, g3⟩ := hsh (by decide)
  have h1 : data_const 0 world_shared5
      = result.ok (iterator.mk (storage.arr 0) 0) world_shared5 := by decide
  rw [h1] at hd
  simp only [result.ok.injEq, iterator.mk.injEq, storage.arr.injEq, and_true] at hd
  subst hd
  have h2 : my_shared_ptr.use_count 0 world_shared5 = result.ok 2 world_shared5 := by decide
  obtain ⟨rfl, _⟩ := result_ok_inj hk h2
  exact ⟨w1, e, s1, hc 8 (by decide), ht false (by decide), g1, g2, g3,
    hf 1 (by decide) world_shared5_valid.2 world_shared5_counted⟩

theorem mutable_accessors_unshare_witness :
    ∃ w1, front 4 0 world_shared5 = result.ok (iterator.mk (storage.arr 1) 0) w1 ∧
      front_const 0 world_shared5 = result.ok (iterator.mk (storage.arr 0) 0) world_shared5 ∧
      deref (iterator.mk (storage.arr 1) 0) w1 = result.ok 1 w1 ∧
      deref (iterator.mk (storage.arr 0) 0) world_shared5 = result.ok 1 world_shared5 ∧
      is_master 0 w1 = result.ok true w1 ∧
      my_shared_ptr.use_count 0 w1 = result.ok 1 w1 := by
  obtain ⟨xs, s, p, k, w1, o1, _, hk, _, ⟨hd, _, _, _, f0, _⟩, _, ⟨_, _, _, _, f1, _⟩, m1, _, _,
    _, g5, _, _, _, hel⟩ :=
    mutable_accessors_unshare world_shared5 0 world_shared5_valid.1 ⟨rfl, rfl⟩ (by decide)
  have h1 : data_const 0 world_shared5
      = result.ok (iterator.mk (storage.arr 0) 0) world_shared5 := by decide
  rw [h1] at hd
  simp only [result.ok.injEq, iterator.mk.injEq, storage.arr.injEq, and_true] at hd
  subst hd
  have h2 : my_shared_ptr.use_count 0 world_shared5 = result.ok 2 world_shared5 := by decide
  obtain ⟨rfl, _⟩ := result_ok_inj hk h2
  have h3 : elements 0 world_shared5 = result.ok [1, 2, 3, 4, 5] world_shared5 := by decide
  obtain ⟨rfl, _⟩ := result_ok_inj o1 h3
  obtain ⟨q1, q2⟩ := hel 0 1 rfl
  exact ⟨w1, f1, f0, q2, q1, m1, g5⟩

/-! ## C17 - C20: the invariants of the reachable worlds

The worlds are those a program can reach from no containers at all by constructing
containers, destroying them and calling the public operations on live containers
within their preconditions, with any schedule of failing element copies and
failing allocations; a call may return or leave by an exception, which the
program catches.  The allocation is sized as in the source. -/

/-- C17. Sharing invariant.  In every reachable world two containers whose
`data()` is the same heap buffer have the same size, and reading their element
sequences gives the same result.  Moreover no action run in such a world, whether
it returns or leaves by an exception, changes the slots of a buffer whose
reference count is greater than 1, frees it, or changes the size of a container
that holds it before and after the action. -/
theorem sharing_invariant (L : layout) (N : Nat) (w : world T) (h : reachable L N w) :
    (∀ i j p, data_const i w = result.ok (iterator.mk (storage.arr p) 0) w →
      data_const j w = result.ok (iterator.mk (storage.arr p) 0) w →
      (∃ s, size i w = result.ok s w ∧ size j w = result.ok s w) ∧
        elements i w = elements j w) ∧
    (∀ (a : action T) (w1 : world T), a.requires w → leaves (a.run L N) w w1 →
      quiet w w1) := by
  have hwf := wf_of_reachable h
  refine ⟨fun i j p hi hj => ?_, fun a w1 hreq hl => (wf_of_action L a hwf hreq hl).2⟩
  obtain ⟨ci, hci, hti, hdi⟩ := big_of_data_arr hi
  obtain ⟨cj, hcj, htj, hdj⟩ := big_of_data_arr hj
  exact wf_same_buffer hwf hci hcj hti htj (hdi.trans hdj.symm)

theorem sharing_invariant_witness :
    reachable layout_int 1 world_seven_eight_shared ∧
      (∃ s, size 0 world_seven_eight_shared = result.ok s world_seven_eight_shared ∧
        size 1 world_seven_eight_shared = result.ok s world_seven_eight_shared) ∧
      elements 0 world_seven_eight_shared
        = result.ok [7, 8] world_seven_eight_shared ∧
      elements 1 world_seven_eight_shared
        = result.ok [7, 8] world_seven_eight_shared :=
  have hs := (sharing_invariant layout_int 1 world_seven_eight_shared
    reachable_world_seven_eight_shared).1 0 1 1 (by decide) (by decide)
  have h0 : elements 0 world_seven_eight_shared
      = result.ok [7, 8] world_seven_eight_shared := by decide
  ⟨reachable_world_seven_eight_shared, hs.1, h0, hs.2 ▸ h0⟩

/-- C18. Reference-count accounting.  In every reachable world the count stored in
a live buffer is the number of big containers that hold the buffer and is at least
1; the buffer of every big container is live; and a buffer is live exactly when
some big container holds it, which is again so after every further action,
whether it returns or leaves by an exception: a buffer is gone exactly when its
last holder has let go of it. -/
theorem reference_count_accounting (L : layout) (N : Nat) (w : world T)
    (h : reachable L N w) :
    (∀ (p : Nat) (b : buffer T), w.heap[p]? = some (some b) →
      b.cnt_references = holders w p ∧ 1 ≤ b.cnt_references) ∧
    (∀ (i : Nat) (c : socow_vector T), w.objs[i]? = some (some c) →
      c.type = vector_type.BIG → ∃ b, w.heap[c.dynamic_storage]? = some (some b)) ∧
    (∀ p, (∃ b, w.heap[p]? = some (some b)) ↔ 1 ≤ holders w p) ∧
    (∀ (a : action T) (w1 : world T), a.requires w → leaves (a.run L N) w w1 →
      (∀ (p : Nat) (b : buffer T), w1.heap[p]? = some (some b) →
        b.cnt_references = holders w1 p ∧ 1 ≤ b.cnt_references) ∧
      ∀ p, (∃ b, w1.heap[p]? = some (some b)) ↔ 1 ≤ holders w1 p) := by
  have hwf := wf_of_reachable h
  refine ⟨fun p b hb => ?_, fun i c hc hty => wf_buffer hwf hc hty,
    fun p => wf_live_iff_held hwf p, fun a w1 hreq hl => ?_⟩
  · obtain ⟨h1, h2, _⟩ := hwf.2.1 p b hb
    exact ⟨h1, h2⟩
  · have hwf1 := (wf_of_action L a hwf hreq hl).1
    refine ⟨fun p b hb => ?_, fun p => wf_live_iff_held hwf1 p⟩
    obtain ⟨h1, h2, _⟩ := hwf1.2.1 p b hb
    exact ⟨h1, h2⟩

theorem reference_count_accounting_witness :
    reachable layout_int 1 world_seven_eight_shared ∧
      (buffer.mk 2 2 [some 7, some 8]).cnt_references = holders world_seven_eight_shared 1 ∧
      1 ≤ (buffer.mk 2 2 [some 7, some 8]).cnt_references :=
  ⟨reachable_world_seven_eight_shared,
    (reference_count_accounting layout_int 1 world_seven_eight_shared
      reachable_world_seven_eight_shared).1 1 (buffer.mk 2 2 [some 7, some 8]) (by decide)⟩

/-- C19. A buffer is shared only by containers too large for the inline storage.
In every reachable world a container whose `data()` is a heap buffer with
reference count greater than 1 has a size greater than `N`.  The copy constructor
applied there to a container of size at most `N`, small or big, leaves the heap as
it is, whether it returns or throws, and the container it returns is small; and
applied to a well-formed container of size at most `N` in a world where nothing
fails it does return. -/
theorem shared_buffers_hold_large_containers (L : layout) (N : Nat) (w : world T)
    (h : reachable L N w) :
    (∀ i p k, data_const i w = result.ok (iterator.mk (storage.arr p) 0) w →
      my_shared_ptr.use_count p w = result.ok k w → 1 < k →
      ∃ s, size i w = result.ok s w ∧ N < s) ∧
    (∀ o s, size o w = result.ok s w → s ≤ N →
      (∀ m w1, copy_ctor N o w = result.ok m w1 →
        m = w.objs.length ∧ is_small m w1 = result.ok true w1 ∧ w1.heap = w.heap) ∧
      (∀ w1, copy_ctor N o w = result.throw w1 → w1.heap = w.heap)) ∧
    (∀ o s, valid N w o → no_failure w → size o w = result.ok s w → s ≤ N →
      ∃ w1, copy_ctor N o w = result.ok w.objs.length w1 ∧
        is_small w.objs.length w1 = result.ok true w1 ∧ w1.heap = w.heap) := by
  have hwf := wf_of_reachable h
  refine ⟨fun i p k hi hk hlt => ?_, fun o s hs hle => ?_, fun o s hv hnf hs hle => ?_⟩
  · obtain ⟨c, hc, hty, hd⟩ := big_of_data_arr hi
    obtain ⟨b, hb, hcnt⟩ := buf_of_use_count hk
    exact ⟨c.size_, size_of_obj hc,
      hwf.2.2.2 i c b hc hty (by rw [hd]; exact hb) (by omega)⟩
  · obtain ⟨c, hc, hsz⟩ := obj_of_size hs
    have hwp := wp_copy_ctor hc (hwf.1 o c hc)
    refine ⟨fun m w1 e => ?_, fun w1 e => (wp_throw hwp e).2⟩
    obtain ⟨hm, cn, ho, _, ⟨hty, _, hh⟩ | ⟨_, hlt, _⟩⟩ := wp_ok hwp e
    · have hcn : w1.objs[m]? = some (some cn) := by rw [ho, hm]; simp
      exact ⟨hm, by rw [is_small_of_obj hcn]; simp [hty], hh⟩
    · omega
  · obtain ⟨_, s1, w1, _, hs1, e, _, _, _, _, _, _, _, _, hsmall, _⟩ := copy_ctor_spec hv hnf
    obtain ⟨rfl, _⟩ := result_ok_inj hs hs1
    exact ⟨w1, e, hsmall hle⟩

theorem shared_buffers_hold_large_containers_witness :
    reachable layout_int 1 world_seven_eight_shared ∧
      ∃ s, size 0 world_seven_eight_shared = result.ok s world_seven_eight_shared ∧ 1 < s :=
  ⟨reachable_world_seven_eight_shared,
    (shared_buffers_hold_large_containers layout_int 1 world_seven_eight_shared
      reachable_world_seven_eight_shared).1 0 1 2 (by decide) (by decide) (by decide)⟩

/-- C20. Heap buffers are larger than the inline storage.  In every reachable
world every big container has a capacity greater than `N`, and so it is after
every further action, whether it returns or leaves by an exception.  In
particular when `reserve(n)` returns on a container that shares its buffer, with
`n` greater than its size, the container has capacity exactly `n`, whatever the
capacity was before, and `n` is greater than `N`; and `reserve(n)` does return on
a well-formed container when nothing fails and the byte count for `n` does not
wrap around. -/
theorem big_capacity_exceeds_small_size (L : layout) (N : Nat) (w : world T)
    (h : reachable L N w) :
    (∀ i, is_small i w = result.ok false w → ∃ c, capacity N i w = result.ok c w ∧ N < c) ∧
    (∀ (a : action T) (w1 : world T), a.requires w → leaves (a.run L N) w w1 →
      ∀ i, is_small i w1 = result.ok false w1 →
        ∃ c, capacity N i w1 = result.ok c w1 ∧ N < c) ∧
    (∀ i n s w1, is_master i w = result.ok false w → size i w = result.ok s w → s < n →
      sized.socow_vector.reserve L N i n w = result.ok () w1 →
      is_small i w1 = result.ok false w1 ∧ capacity N i w1 = result.ok n w1 ∧ N < n) ∧
    (∀ i n, valid N w i → no_failure w → L.representable n →
      ∃ w1, sized.socow_vector.reserve L N i n w = result.ok () w1) := by
  have hwf := wf_of_reachable h
  refine ⟨fun i hi => wf_capacity hwf hi,
    fun a w1 hreq hl i hi => wf_capacity (wf_of_action L a hwf hreq hl).1 hi,
    fun i n s w1 hm hs hlt hrun => ?_, fun i n hv hnf hrep => ?_⟩
  · obtain ⟨g1, g2⟩ := sized_reserve_of_shared L hm hs hlt hrun
    obtain ⟨c, b, hc, hty, hb, hk⟩ := shared_of_is_master_false hm
    obtain ⟨s0, _⟩ := result_ok_inj hs (size_of_obj hc)
    have h1 := (hwf.2.1 _ b hb).2.1
    have := hwf.2.2.2 i c b hc hty hb (by omega)
    exact ⟨g1, g2, by omega⟩
  · obtain ⟨_, _, _, w1, _, _, _, e, _⟩ := reserve_spec n hv hnf
    exact ⟨w1, (congrFun (sized_reserve_eq hrep N i) w).trans e⟩

theorem big_capacity_exceeds_small_size_witness :
    reachable layout_int 1 world_seven_eight_shared ∧
      ∃ c, capacity 1 0 world_seven_eight_shared = result.ok c world_seven_eight_shared ∧
        1 < c :=
  ⟨reachable_world_seven_eight_shared,
    (big_capacity_exceeds_small_size layout_int 1 world_seven_eight_shared
      reachable_world_seven_eight_shared).1 0 (by decide)⟩

end Socow
